import Mathlib

/-!
# AliceVision panorama compositing: Laplacian pyramid over tile-cached images

A shallow embedding of `src/aliceVision/panorama/laplacianPyramid.cpp` and of the
`CachedImage` class of `src/software/pipeline/main_panoramaCompositing.cpp`.

Conventions of the embedding:

* `float` values are exact rationals (`ℚ`); the constant `1e-6` is `1 / 1000000`.
* `int` and `size_t` quantities are `Nat`, or `Int` where the source can go negative
  (bounding boxes, requested tile sizes).
* An in-memory `image::Image<T>` is its two dimensions and a total pixel function
  `data i j` (row `i`, column `j`), as `operator()(i, j)` of the source.
* A tile is its buffer `data k` (element index `k`) together with the outcome of
  `acquire()` on it; a `CachedImage` is the grid of its tiles.
* Functions that return `bool` and mutate an object return the pair of the flag and the
  new object.
-/

namespace AliceVision

/-! ## Pixel types -/

/-- The type `image::RGBfColor`: three float channels. -/
@[ext] structure RGBfColor where
  r : ℚ
  g : ℚ
  b : ℚ
deriving DecidableEq

/-- The type `image::RGBAfColor`: three float channels and alpha. -/
@[ext] structure RGBAfColor where
  r : ℚ
  g : ℚ
  b : ℚ
  a : ℚ
deriving DecidableEq

instance : Inhabited RGBfColor := ⟨⟨0, 0, 0⟩⟩

instance : Inhabited RGBAfColor := ⟨⟨0, 0, 0, 0⟩⟩

/-- Colours are added, subtracted and negated channel by channel. -/
instance : AddCommGroup RGBfColor where
  add x y := ⟨x.r + y.r, x.g + y.g, x.b + y.b⟩
  zero := ⟨0, 0, 0⟩
  neg x := ⟨-x.r, -x.g, -x.b⟩
  sub x y := ⟨x.r - y.r, x.g - y.g, x.b - y.b⟩
  nsmul n x := ⟨n • x.r, n • x.g, n • x.b⟩
  zsmul n x := ⟨n • x.r, n • x.g, n • x.b⟩
  add_assoc x y z := by
    ext <;> exact add_assoc _ _ _
  zero_add x := by
    ext <;> exact zero_add _
  add_zero x := by
    ext <;> exact add_zero _
  add_comm x y := by
    ext <;> exact add_comm _ _
  neg_add_cancel x := by
    ext <;> exact neg_add_cancel _
  sub_eq_add_neg x y := by
    ext <;> exact sub_eq_add_neg _ _
  nsmul_zero x := by
    ext <;> exact zero_nsmul _
  nsmul_succ n x := by
    ext <;> exact succ_nsmul _ _
  zsmul_zero' x := by
    ext <;> exact zero_zsmul _
  zsmul_succ' n x := by
    ext <;> exact SubNegMonoid.zsmul_succ' _ _
  zsmul_neg' n x := by
    ext <;> exact SubNegMonoid.zsmul_neg' _ _

/-- A colour is scaled channel by channel. -/
instance : SMul ℚ RGBfColor := ⟨fun s x => ⟨s * x.r, s * x.g, s * x.b⟩⟩

/-- The threshold `1e-6` of the source. -/
def eps : ℚ := 1 / 1000000

/-! ## In-memory images -/

/-- The type `image::Image<T>`: `data i j` is `operator()(i, j)`, row `i` and column `j`. -/
structure Image (α : Type) where
  width : Nat
  height : Nat
  data : Nat → Nat → α

/-- The constructor `Image<T>(width, height)`. Its pixels are not initialised by the
source; the model fills them with the default value of the pixel type. -/
def Image.alloc {α : Type} [Inhabited α] (width height : Nat) : Image α :=
  ⟨width, height, fun _ _ => default⟩

/-! ## Kernels -/

/-- Row or column index clamped to the edge of a range of `n` entries. -/
def clampIndex (n : Nat) (c : Int) : Nat :=
  if c < 0 then 0 else if (n : Int) ≤ c then n - 1 else c.toNat

/-- Column index wrapped modulo `n`. -/
def wrapIndex (n : Nat) (c : Int) : Nat :=
  (c % (n : Int)).toNat

/-- One pass of the kernel `[1, 4, 6, 4, 1] / 16` centred at `c` over the samples `f`. -/
def kernelTap {α : Type} [Add α] [SMul ℚ α] (f : Int → α) (c : Int) : α :=
  (1 / 16 : ℚ) • f (c - 2) + (4 / 16 : ℚ) • f (c - 1) + (6 / 16 : ℚ) • f c
    + (4 / 16 : ℚ) • f (c + 1) + (1 / 16 : ℚ) • f (c + 2)

/-- Modelled from the spec: `convolveGaussian5x5(output, input, wrap)` of `gaussian.hpp`,
which is not part of the sources at hand. Separable kernel `[1, 4, 6, 4, 1] / 16`, applied
once horizontally and once vertically; out-of-range columns wrap modulo the width when
`wrap` is set and clamp to the edge otherwise; rows always clamp. -/
def convolveGaussian5x5 {α : Type} [Add α] [SMul ℚ α] (output input : Image α)
    (wrap : Bool) : Image α :=
  { output with
    data := fun i j =>
      kernelTap
        (fun r =>
          kernelTap
            (fun c =>
              input.data (clampIndex input.height r)
                (if wrap then wrapIndex input.width c else clampIndex input.width c))
            (j : Int))
        (i : Int) }

/-- Modelled from the spec: `downscale(output, input)`, not part of the sources at hand.
Point sampling, `output(i, j) = input(2 i, 2 j)`. -/
def downscale {α : Type} (output input : Image α) : Image α :=
  { output with data := fun i j => input.data (2 * i) (2 * j) }

/-- Modelled from the spec: `upscale(output, input)`, not part of the sources at hand.
Each input pixel `(y, x)` fills the block of output pixels `(2 y, 2 x) .. (2 y + 1, 2 x + 1)`:
the first with the input pixel, the other three with zero. Output pixels outside every
block keep their value. -/
def upscale {α : Type} [Zero α] (output input : Image α) : Image α :=
  { output with
    data := fun i j =>
      if i / 2 < input.height ∧ j / 2 < input.width then
        if i % 2 = 0 ∧ j % 2 = 0 then input.data (i / 2) (j / 2) else 0
      else output.data i j }

/-- Modelled from the spec: `substract(output, a, b)`, componentwise `a - b`. -/
def substract {α : Type} [Sub α] (output a b : Image α) : Image α :=
  { output with data := fun i j => a.data i j - b.data i j }

/-- Modelled from the spec: `addition(output, a, b)`, componentwise `a + b`. -/
def addition {α : Type} [Add α] (output a b : Image α) : Image α :=
  { output with data := fun i j => a.data i j + b.data i j }

/-! ## Bounding boxes -/

/-- Modelled from the spec: `BoundingBox` of `boundingBox.hpp`, not part of the sources at
hand: `(left, top, width, height)` in integer pixel coordinates. -/
structure BoundingBox where
  left : Int
  top : Int
  width : Int
  height : Int
deriving DecidableEq

/-- Modelled from the spec: clamp the left edge to column `0`, keeping the right edge. -/
def BoundingBox.clampLeft (b : BoundingBox) : BoundingBox :=
  if b.left < 0 then { b with left := 0, width := b.width + b.left } else b

/-- Modelled from the spec: clamp the top edge to row `0`, keeping the bottom edge. -/
def BoundingBox.clampTop (b : BoundingBox) : BoundingBox :=
  if b.top < 0 then { b with top := 0, height := b.height + b.top } else b

/-- Modelled from the spec: clamp the last column of the box to `maxRight`. -/
def BoundingBox.clampRight (b : BoundingBox) (maxRight : Int) : BoundingBox :=
  if maxRight < b.left + b.width - 1 then { b with width := maxRight - b.left + 1 } else b

/-- Modelled from the spec: clamp the last row of the box to `maxBottom`. -/
def BoundingBox.clampBottom (b : BoundingBox) (maxBottom : Int) : BoundingBox :=
  if maxBottom < b.top + b.height - 1 then { b with height := maxBottom - b.top + 1 } else b

/-- Modelled from the spec: dilate by `units` pixels on every side. -/
def BoundingBox.dilate (b : BoundingBox) (units : Int) : BoundingBox :=
  ⟨b.left - units, b.top - units, b.width + units * 2, b.height + units * 2⟩

/-- Modelled from the spec: multiply left, top, width and height by two. -/
def BoundingBox.doubleSize (b : BoundingBox) : BoundingBox :=
  ⟨b.left * 2, b.top * 2, b.width * 2, b.height * 2⟩

/-! ## Tiles and the tile manager -/

/-- Modelled from the spec: `image::CachedTile` of `image/cache.hpp`, not part of the
sources at hand. A tile has the fixed dimensions of its manager, remembers the dimensions
it was required with, and owns a buffer; `acquirable` is the outcome of `acquire()`. -/
structure CachedTile (α : Type) where
  tileWidth : Nat
  tileHeight : Nat
  requiredWidth : Int
  requiredHeight : Int
  acquirable : Bool
  data : Nat → α

/-- Modelled from the spec: `image::TileCacheManager`, not part of the sources at hand.
`outcome n` is what the `n`-th call of `requireNewCachedTile` yields: `none` for a null
pointer, `some b` for a tile on which `acquire()` answers `b`; `count` is the number of
calls made so far. -/
structure TileCacheManager where
  tileWidth : Nat
  tileHeight : Nat
  outcome : Nat → Option Bool
  count : Nat

/-- Modelled from the spec: `requireNewCachedTile<T>(width, height)`. The buffer of a new
tile is not initialised; `fresh` is whatever it holds. -/
def TileCacheManager.requireNewCachedTile {α : Type} (mgr : TileCacheManager)
    (fresh : Nat → α) (width height : Int) : Option (CachedTile α) × TileCacheManager :=
  match mgr.outcome mgr.count with
  | none => (none, { mgr with count := mgr.count + 1 })
  | some acq =>
    (some ⟨mgr.tileWidth, mgr.tileHeight, width, height, acq, fresh⟩,
      { mgr with count := mgr.count + 1 })

/-! ## Tile-cached images -/

/-- The class `CachedImage<T>` of `main_panoramaCompositing.cpp`. -/
structure CachedImage (α : Type) where
  width : Nat
  height : Nat
  memoryWidth : Nat
  memoryHeight : Nat
  tileSize : Nat
  tilesArray : List (List (CachedTile α))

/-- The value `int(ceil(double(a) / double(b)))`. -/
def ceilDiv (a b : Nat) : Nat := (a + b - 1) / b

/-- The inner loop of `createImage` from column `j` on, with `n` columns left: the tiles
of row `i` are required one by one and appended to `row`; a null tile stops the loop. -/
def CachedImage.createRow {α : Type} (fresh : Nat → α) (width : Nat) (i countWidth : Nat)
    (tile_height : Int) :
    Nat → Nat → TileCacheManager → List (CachedTile α) →
      Option (List (CachedTile α)) × TileCacheManager
  | 0, _, mgr, row => (some row, mgr)
  | n + 1, j, mgr, row =>
    let tile_width : Int :=
      if j = countWidth - 1 then (width : Int) - (i : Int) * (mgr.tileWidth : Int)
      else (mgr.tileWidth : Int)
    match mgr.requireNewCachedTile fresh tile_width tile_height with
    | (none, mgr1) => (none, mgr1)
    | (some tile, mgr1) =>
      CachedImage.createRow fresh width i countWidth tile_height n (j + 1) mgr1 (row ++ [tile])

/-- The outer loop of `createImage` from row `i` on, with `n` rows left. -/
def CachedImage.createRows {α : Type} (fresh : Nat → α) (width height : Nat)
    (countHeight countWidth : Nat) :
    Nat → Nat → TileCacheManager → List (List (CachedTile α)) →
      Bool × List (List (CachedTile α)) × TileCacheManager
  | 0, _, mgr, rows => (true, rows, mgr)
  | n + 1, i, mgr, rows =>
    let tile_height : Int :=
      if i = countHeight - 1 then (height : Int) - (i : Int) * (mgr.tileHeight : Int)
      else (mgr.tileHeight : Int)
    match CachedImage.createRow fresh width i countWidth tile_height countWidth 0 mgr [] with
    | (none, mgr1) => (false, rows, mgr1)
    | (some row, mgr1) =>
      CachedImage.createRows fresh width height countHeight countWidth n (i + 1) mgr1
        (rows ++ [row])

/-- The method `CachedImage::createImage(manager, width, height)`. -/
def CachedImage.createImage {α : Type} (mgr : TileCacheManager) (fresh : Nat → α)
    (width height : Nat) : Bool × CachedImage α × TileCacheManager :=
  let tileSize := mgr.tileWidth
  let countHeight := ceilDiv height mgr.tileHeight
  let countWidth := ceilDiv width mgr.tileWidth
  let r := CachedImage.createRows fresh width height countHeight countWidth countHeight 0 mgr []
  (r.1, ⟨width, height, countWidth * tileSize, countHeight * tileSize, tileSize, r.2.1⟩, r.2.2)

/-- Apply `f i j` to the tile of row `i` and column `j`, for every tile of the grid. -/
def CachedImage.mapTiles {α : Type} (img : CachedImage α)
    (f : Nat → Nat → CachedTile α → CachedTile α) : CachedImage α :=
  { img with tilesArray := img.tilesArray.mapIdx (fun i row => row.mapIdx (fun j t => f i j t)) }

/-- The tile of row `i` and column `j`, if the grid has one. -/
def CachedImage.tile? {α : Type} (img : CachedImage α) (i j : Nat) : Option (CachedTile α) :=
  match img.tilesArray[i]? with
  | some row => row[j]?
  | none => none

/-- The body of the loops of `fill` on one tile: a tile that cannot be acquired is
skipped, any other has its `getTileWidth() * getTileHeight()` elements overwritten. -/
def CachedTile.fill {α : Type} (t : CachedTile α) (val : α) : CachedTile α :=
  if t.acquirable then
    { t with data := fun k => if k < t.tileWidth * t.tileHeight then val else t.data k }
  else t

/-- The method `CachedImage::fill(val)`: every tile is visited, and the result is `true`
whatever happened. -/
def CachedImage.fill {α : Type} (img : CachedImage α) (val : α) : Bool × CachedImage α :=
  (true, img.mapTiles (fun _ _ t => t.fill val))

/-! ## Pixel access, extraction and assignment -/

/-- Modelled from the spec: the layout of a `CachedImage` as a row-major grid of tiles.
Pixel `(y, x)` lives in the tile of row `y / tileSize` and column `x / tileSize`;
`pixelOk` says that this tile exists and can be acquired. -/
def CachedImage.pixelOk {α : Type} (img : CachedImage α) (y x : Nat) : Bool :=
  match img.tile? (y / img.tileSize) (x / img.tileSize) with
  | some t => t.acquirable
  | none => false

/-- Modelled from the spec: the value of pixel `(y, x)`, element
`(y % tileSize) * tileSize + x % tileSize` of its tile; `d` when there is no such tile. -/
def CachedImage.getPixel {α : Type} (img : CachedImage α) (y x : Nat) (d : α) : α :=
  match img.tile? (y / img.tileSize) (x / img.tileSize) with
  | some t => t.data ((y % img.tileSize) * img.tileSize + x % img.tileSize)
  | none => d

/-- Modelled from the spec: when an extract or assign over the region `bb` succeeds. The
rows of the region are clamped to the image, and this must leave at least one row
(`OutOfBounds` otherwise); columns wrap modulo the width; every tile touched must be
acquired (tile-store errors propagate). -/
def CachedImage.regionOk {α : Type} (img : CachedImage α) (bb : BoundingBox) : Prop :=
  (∃ i : Nat, i < bb.height.toNat ∧ 0 ≤ bb.top + (i : Int) ∧ bb.top + (i : Int) < (img.height : Int)) ∧
  ∀ i : Nat, i < bb.height.toNat → ∀ j : Nat, j < bb.width.toNat →
    0 ≤ bb.top + (i : Int) → bb.top + (i : Int) < (img.height : Int) →
      img.pixelOk (bb.top + (i : Int)).toNat (wrapIndex img.width (bb.left + (j : Int))) = true

instance CachedImage.regionOkDecidable {α : Type} (img : CachedImage α) (bb : BoundingBox) :
    Decidable (img.regionOk bb) := by
  unfold CachedImage.regionOk
  infer_instance

/-- Modelled from the spec: `loopyCachedImageExtract(dest, src, bb)`, not part of the
sources at hand. Copies the pixels of the region `bb` of `src` into `dest`: pixel `(i, j)`
of `dest` receives the pixel of row `bb.top + i` and of column `bb.left + j` wrapped
modulo the width. Rows outside the image are left out. Fails when the shapes of `dest`
and `bb` disagree and when the region is not `regionOk`. -/
def loopyCachedImageExtract {α : Type} (dest : Image α) (src : CachedImage α)
    (bb : BoundingBox) : Bool × Image α :=
  if (dest.width : Int) = bb.width ∧ (dest.height : Int) = bb.height ∧ src.regionOk bb then
    (true,
      { dest with
        data := fun i j =>
          if 0 ≤ bb.top + (i : Int) ∧ bb.top + (i : Int) < (src.height : Int) then
            src.getPixel (bb.top + (i : Int)).toNat (wrapIndex src.width (bb.left + (j : Int)))
              (dest.data i j)
          else dest.data i j })
  else (false, dest)

/-- The last column `j` of a region of `width` columns starting at `left` that the wrap
sends to column `x` of an image of width `W`, if there is one. -/
def lastSource (W : Nat) (left width : Int) (x : Nat) : Option Nat :=
  (List.range width.toNat).reverse.find? (fun j => decide (wrapIndex W (left + (j : Int)) = x))

/-- The effect of an assign on the tile of row `ti` and column `tj`: element `k` is pixel
`(ti * tileSize + k / tileSize, tj * tileSize + k % tileSize)`; it is overwritten when it
is a pixel of the image whose row lies in the region and whose column is hit by the wrap. -/
def CachedImage.assignTile {α : Type} (output : CachedImage α) (input : Image α)
    (outputBb inputBb : BoundingBox) (ti tj : Nat) (t : CachedTile α) : CachedTile α :=
  { t with
    data := fun k =>
      let y := ti * output.tileSize + k / output.tileSize
      let x := tj * output.tileSize + k % output.tileSize
      if k < output.tileSize * output.tileSize ∧ x < output.width ∧ y < output.height ∧
          outputBb.top ≤ (y : Int) ∧ (y : Int) < outputBb.top + outputBb.height then
        match lastSource output.width outputBb.left outputBb.width x with
        | some j =>
          input.data (inputBb.top + ((y : Int) - outputBb.top)).toNat (inputBb.left + (j : Int)).toNat
        | none => t.data k
      else t.data k }

/-- Modelled from the spec: `loopyCachedImageAssign(output, input, outputBb, inputBb)`,
not part of the sources at hand; the inverse of extract. Pixel `(i, j)` of the region
`inputBb` of `input` is written to row `outputBb.top + i` and to column
`outputBb.left + j` wrapped modulo the width, rows outside the image being left out;
columns are written from left to right, so that the last write to a pixel stays. Fails
when the shapes of the two regions disagree and when the region is not `regionOk`. -/
def loopyCachedImageAssign {α : Type} (output : CachedImage α) (input : Image α)
    (outputBb inputBb : BoundingBox) : Bool × CachedImage α :=
  if inputBb.width = outputBb.width ∧ inputBb.height = outputBb.height ∧
      output.regionOk outputBb then
    (true, output.mapTiles (fun ti tj t => output.assignTile input outputBb inputBb ti tj t))
  else (false, output)

/-- Whether every tile of the grid satisfies `P i j`. -/
def CachedImage.allTiles {α : Type} (img : CachedImage α)
    (P : Nat → Nat → CachedTile α → Bool) : Bool :=
  (img.tilesArray.mapIdx (fun i row => (row.mapIdx (fun j t => P i j t)).all id)).all id

/-- Modelled from the spec: `CachedImage::perPixelOperation(other, f)` of the pyramid's
`CachedImage`, not part of the sources at hand: `f(self_pixel, other_pixel)` replaces every
element of every tile, tile by tile. Fails when the dimensions differ; a tile that cannot
be acquired (or has no counterpart) is skipped and makes the result `false`. -/
def CachedImage.perPixelOperation {α β : Type} (img : CachedImage α) (other : CachedImage β)
    (f : α → β → α) : Bool × CachedImage α :=
  if img.width = other.width ∧ img.height = other.height then
    (img.allTiles (fun i j t =>
        match other.tile? i j with
        | some o => t.acquirable && o.acquirable
        | none => false),
      img.mapTiles (fun i j t =>
        match other.tile? i j with
        | some o =>
          if t.acquirable = true ∧ o.acquirable = true then
            { t with
              data := fun k =>
                if k < t.tileWidth * t.tileHeight then f (t.data k) (o.data k) else t.data k }
          else t
        | none => t))
  else (false, img)

/-- Clamp of the negative channels of one pixel to zero. -/
def clampNegative (c : RGBfColor) : RGBfColor :=
  ⟨max 0 c.r, max 0 c.g, max 0 c.b⟩

/-- Modelled from the spec: `removeNegativeValues(img)`, not part of the sources at hand:
every negative colour channel is clamped to zero, in every element of every tile. A tile
that cannot be acquired is skipped and makes the result `false`. -/
def removeNegativeValues (img : CachedImage RGBfColor) : Bool × CachedImage RGBfColor :=
  (img.allTiles (fun _ _ t => t.acquirable),
    img.mapTiles (fun _ _ t =>
      if t.acquirable = true then
        { t with
          data := fun k =>
            if k < t.tileWidth * t.tileHeight then clampNegative (t.data k) else t.data k }
      else t))

/-! ## The Laplacian pyramid -/

/-- The class `LaplacianPyramid`: `levels` is `_levels`, `weights` is `_weights`. -/
structure LaplacianPyramid where
  baseWidth : Nat
  baseHeight : Nat
  maxLevels : Nat
  levels : List (CachedImage RGBfColor)
  weights : List (CachedImage ℚ)

/-- The loop of `LaplacianPyramid::initialize` with `n` levels left to prepare, `width`
and `height` being the size of the next one. `freshColor` and `freshWeight` are the
contents of buffers that have not been written yet. -/
def LaplacianPyramid.initializeLoop (freshColor : Nat → RGBfColor) (freshWeight : Nat → ℚ) :
    Nat → Nat → Nat → LaplacianPyramid → TileCacheManager →
      Bool × LaplacianPyramid × TileCacheManager
  | 0, _, _, p, mgr => (true, p, mgr)
  | n + 1, width, height, p, mgr =>
    let c := CachedImage.createImage mgr freshColor width height
    if c.1 = false then (false, p, c.2.2)
    else
      let w := CachedImage.createImage c.2.2 freshWeight width height
      if w.1 = false then (false, p, w.2.2)
      else
        let cf := c.2.1.fill (⟨0, 0, 0⟩ : RGBfColor)
        if cf.1 = false then (false, p, w.2.2)
        else
          let wf := w.2.1.fill (0 : ℚ)
          if wf.1 = false then (false, p, w.2.2)
          else
            LaplacianPyramid.initializeLoop freshColor freshWeight n (width / 2) (height / 2)
              { p with levels := p.levels ++ [cf.2], weights := p.weights ++ [wf.2] } w.2.2

/-- The method `LaplacianPyramid::initialize(cacheManager)`. -/
def LaplacianPyramid.initialize (p : LaplacianPyramid) (mgr : TileCacheManager)
    (freshColor : Nat → RGBfColor) (freshWeight : Nat → ℚ) :
    Bool × LaplacianPyramid × TileCacheManager :=
  LaplacianPyramid.initializeLoop freshColor freshWeight p.maxLevels p.baseWidth p.baseHeight
    p mgr

/-- The accumulation loop of `merge` on the extracted colours. -/
def mergeColor (extractedColor oimg : Image RGBfColor) (oweight : Image ℚ) : Image RGBfColor :=
  { extractedColor with
    data := fun i j =>
      if i < oimg.height ∧ j < oimg.width then
        ⟨(extractedColor.data i j).r + (oimg.data i j).r * oweight.data i j,
          (extractedColor.data i j).g + (oimg.data i j).g * oweight.data i j,
          (extractedColor.data i j).b + (oimg.data i j).b * oweight.data i j⟩
      else extractedColor.data i j }

/-- The accumulation loop of `merge` on the extracted weights. -/
def mergeWeight (extractedWeight : Image ℚ) (oimg : Image RGBfColor) (oweight : Image ℚ) :
    Image ℚ :=
  { extractedWeight with
    data := fun i j =>
      if i < oimg.height ∧ j < oimg.width then extractedWeight.data i j + oweight.data i j
      else extractedWeight.data i j }

/-- The method `LaplacianPyramid::merge(oimg, oweight, level, offset_x, offset_y)`. A
`level` outside the stacks is undefined behaviour in the source; the model reports
failure and changes nothing. -/
def LaplacianPyramid.merge (p : LaplacianPyramid) (oimg : Image RGBfColor) (oweight : Image ℚ)
    (level offset_x offset_y : Nat) : Bool × LaplacianPyramid :=
  match p.levels[level]?, p.weights[level]? with
  | some img, some weight =>
    let extractBb : BoundingBox := ⟨offset_x, offset_y, oimg.width, oimg.height⟩
    let ec := loopyCachedImageExtract (Image.alloc oimg.width oimg.height) img extractBb
    if ec.1 = false then (false, p)
    else
      let ew := loopyCachedImageExtract (Image.alloc oimg.width oimg.height) weight extractBb
      if ew.1 = false then (false, p)
      else
        let extractedColor := mergeColor ec.2 oimg oweight
        let extractedWeight := mergeWeight ew.2 oimg oweight
        let inputBb : BoundingBox := ⟨0, 0, extractedColor.width, extractedColor.height⟩
        let ac := loopyCachedImageAssign img extractedColor extractBb inputBb
        if ac.1 = false then (false, p)
        else
          let p1 := { p with levels := p.levels.set level ac.2 }
          let aw := loopyCachedImageAssign weight extractedWeight extractBb inputBb
          if aw.1 = false then (false, p1)
          else (true, { p1 with weights := p1.weights.set level aw.2 })
  | _, _ => (false, p)

/-- The local variables of `apply` that live across the iterations of its loop. -/
structure ApplyState where
  current_color : Image RGBfColor
  current_weights : Image ℚ
  current_mask : Image ℚ
  width : Nat
  height : Nat
  offset_x : Nat
  offset_y : Nat

/-- Conversion of the mask to an alpha layer, the first loop of `apply`. -/
def maskToFloat (mask : Image Nat) (width height : Nat) : Image ℚ :=
  { (Image.alloc width height : Image ℚ) with
    data := fun i j =>
      if i < height ∧ j < width then (if mask.data i j ≠ 0 then 1 else 0)
      else (Image.alloc width height : Image ℚ).data i j }

/-- The loop "Apply mask to content before convolution" of `apply`, on the colours. -/
def applyMaskColor (buf_masked current_color : Image RGBfColor) (current_mask : Image ℚ) :
    Image RGBfColor :=
  { buf_masked with
    data := fun i j =>
      if i < current_color.height ∧ j < current_color.width then
        if |current_mask.data i j| > eps then current_color.data i j else ⟨0, 0, 0⟩
      else buf_masked.data i j }

/-- The loop "Apply mask to content before convolution" of `apply`, on the weights. -/
def applyMaskWeights (current_weights : Image ℚ) (current_color : Image RGBfColor)
    (current_mask : Image ℚ) : Image ℚ :=
  { current_weights with
    data := fun i j =>
      if i < current_color.height ∧ j < current_color.width then
        if |current_mask.data i j| > eps then current_weights.data i j else 0
      else current_weights.data i j }

/-- The loop "Normalize given mask" of `apply`, on the blurred colours `buf`. -/
def normalizeColor (buf : Image RGBfColor) (buf_float : Image ℚ)
    (current_color : Image RGBfColor) : Image RGBfColor :=
  { buf with
    data := fun i j =>
      if i < current_color.height ∧ j < current_color.width then
        if |buf_float.data i j| > eps then
          ⟨(buf.data i j).r / buf_float.data i j, (buf.data i j).g / buf_float.data i j,
            (buf.data i j).b / buf_float.data i j⟩
        else ⟨0, 0, 0⟩
      else buf.data i j }

/-- The loop "Normalize given mask" of `apply`, on the blurred mask `buf_float`. -/
def normalizeMask (buf_float : Image ℚ) (current_color : Image RGBfColor) : Image ℚ :=
  { buf_float with
    data := fun i j =>
      if i < current_color.height ∧ j < current_color.width then
        if |buf_float.data i j| > eps then 1 else 0
      else buf_float.data i j }

/-- The loop that multiplies every pixel of `buf2` by `4.0f`. -/
def timesFour (buf2 : Image RGBfColor) : Image RGBfColor :=
  { buf2 with
    data := fun i j =>
      if i < buf2.height ∧ j < buf2.width then (4 : ℚ) • buf2.data i j else buf2.data i j }

/-- What one iteration of the loop of `apply` computes from its local variables: the
patch handed to `merge` (`current_color` after `substract`, `current_weights` after the
mask loop) and the local variables of the next iteration. -/
structure ApplyStep where
  laplacian : Image RGBfColor
  weights : Image ℚ
  next : ApplyState

/-- The body of the loop of `apply`, up to the call of `merge`. -/
def applyIteration (s : ApplyState) : ApplyStep :=
  let buf_masked : Image RGBfColor := Image.alloc s.width s.height
  let buf : Image RGBfColor := Image.alloc s.width s.height
  let buf2 : Image RGBfColor := Image.alloc s.width s.height
  let buf_float : Image ℚ := Image.alloc s.width s.height
  let next_color : Image RGBfColor := Image.alloc (s.width / 2) (s.height / 2)
  let next_weights : Image ℚ := Image.alloc (s.width / 2) (s.height / 2)
  let next_mask : Image ℚ := Image.alloc (s.width / 2) (s.height / 2)
  let buf_masked := applyMaskColor buf_masked s.current_color s.current_mask
  let current_weights := applyMaskWeights s.current_weights s.current_color s.current_mask
  let buf := convolveGaussian5x5 buf buf_masked true
  let buf_float := convolveGaussian5x5 buf_float s.current_mask true
  let buf := normalizeColor buf buf_float s.current_color
  let buf_float := normalizeMask buf_float s.current_color
  let next_color := downscale next_color buf
  let next_mask := downscale next_mask buf_float
  let buf := upscale buf next_color
  let buf2 := convolveGaussian5x5 buf2 buf true
  let buf2 := timesFour buf2
  let current_color := substract s.current_color s.current_color buf2
  let buf_float := convolveGaussian5x5 buf_float current_weights true
  let next_weights := downscale next_weights buf_float
  ⟨current_color, current_weights,
    ⟨next_color, next_weights, next_mask, s.width / 2, s.height / 2, s.offset_x / 2,
      s.offset_y / 2⟩⟩

/-- The loop of `apply` from level `l` on, with `n` iterations left. The result of
`merge` is not looked at, as in the source. -/
def LaplacianPyramid.applyLoop : Nat → Nat → LaplacianPyramid → ApplyState →
    LaplacianPyramid × ApplyState
  | 0, _, p, s => (p, s)
  | n + 1, l, p, s =>
    let step := applyIteration s
    let m := p.merge step.laplacian step.weights l s.offset_x s.offset_y
    LaplacianPyramid.applyLoop n (l + 1) m.2 step.next

/-- The method `LaplacianPyramid::apply(source, mask, weights, offset_x, offset_y)`; the
mask is an image of `unsigned char`. The result is always `true`. -/
def LaplacianPyramid.apply (p : LaplacianPyramid) (source : Image RGBfColor) (mask : Image Nat)
    (weights : Image ℚ) (offset_x offset_y : Nat) : Bool × LaplacianPyramid :=
  let width := source.width
  let height := source.height
  let mask_float := maskToFloat mask width height
  let r := LaplacianPyramid.applyLoop (p.levels.length - 1) 0 p
    ⟨source, weights, mask_float, width, height, offset_x, offset_y⟩
  let m := r.1.merge r.2.current_color r.2.current_weights (p.levels.length - 1)
    r.2.offset_x r.2.offset_y
  (true, m.2)

/-- The function handed to `perPixelOperation` by `rebuild` (and by `augment`): the
accumulated colour divided by the accumulated weight. -/
def normalizePixel (c : RGBfColor) (w : ℚ) : RGBfColor :=
  if w < eps then ⟨0, 0, 0⟩ else ⟨c.r / w, c.g / w, c.b / w⟩

/-- The first loop of `rebuild`: every level is divided by its weights. The result of
`perPixelOperation` is not looked at, as in the source; a level without weights is
undefined behaviour in the source and is left as it is. -/
def LaplacianPyramid.normalizeLevels (p : LaplacianPyramid) : List (CachedImage RGBfColor) :=
  p.levels.mapIdx (fun l img =>
    match p.weights[l]? with
    | some w => (img.perPixelOperation w normalizePixel).2
    | none => img)

/-- The constant `processingSize` of `rebuild`. -/
@[irreducible] def processingSize : Nat := 512

/-- The constant `borderSize` of `rebuild`. -/
@[irreducible] def borderSize : Nat := 5

/-- The box `extractedBb` of `rebuild` for the window of the half level that starts at
column `x` and row `y`. -/
@[irreducible] def windowCore (half : CachedImage RGBfColor) (x y : Nat) : BoundingBox :=
  ((((⟨x, y, processingSize, processingSize⟩ : BoundingBox).clampLeft).clampTop).clampRight
    ((half.width : Int) - 1)).clampBottom ((half.height : Int) - 1)

/-- The box `dilatedBb` of `rebuild`: the window with its border; the right edge is not
clamped. -/
@[irreducible] def windowDilated (half : CachedImage RGBfColor) (x y : Nat) : BoundingBox :=
  ((((windowCore half x y).dilate borderSize).clampLeft).clampTop).clampBottom
    ((half.height : Int) - 1)

/-- The buffer `buf2` of `rebuild` after its multiplication by four: the pixels extracted
from the dilated window of the half level, upscaled and blurred without wrap. -/
def windowBuffer (half : CachedImage RGBfColor) (x y : Nat) : Image RGBfColor :=
  let dilatedBb := windowDilated half x y
  let doubleDilatedBb := dilatedBb.doubleSize
  let extracted :=
    loopyCachedImageExtract (Image.alloc dilatedBb.width.toNat dilatedBb.height.toNat) half
      dilatedBb
  let buf : Image RGBfColor :=
    Image.alloc doubleDilatedBb.width.toNat doubleDilatedBb.height.toNat
  let buf2 : Image RGBfColor :=
    Image.alloc doubleDilatedBb.width.toNat doubleDilatedBb.height.toNat
  let buf := upscale buf extracted.2
  let buf2 := convolveGaussian5x5 buf2 buf false
  timesFour buf2

/-- The body of the window loops of `rebuild` for the window of the half level that
starts at column `x` and row `y`: the new content of the current level, or `none` where
the source returns `false` (what a failed `rebuild` leaves in the level is not modelled). -/
@[irreducible] def rebuildWindow (half current : CachedImage RGBfColor) (x y : Nat) :
    Option (CachedImage RGBfColor) :=
  let extractedBb := windowCore half x y
  let dilatedBb := windowDilated half x y
  let doubleDilatedBb := dilatedBb.doubleSize
  let doubleBb := extractedBb.doubleSize
  let extracted :=
    loopyCachedImageExtract (Image.alloc dilatedBb.width.toNat dilatedBb.height.toNat) half
      dilatedBb
  if extracted.1 = false then none
  else
    let extractedNext :=
      loopyCachedImageExtract
        (Image.alloc doubleDilatedBb.width.toNat doubleDilatedBb.height.toNat) current
        doubleDilatedBb
    if extractedNext.1 = false then none
    else
      let buf2 := windowBuffer half x y
      let extractedNext := addition extractedNext.2 extractedNext.2 buf2
      let inputBb : BoundingBox :=
        ⟨doubleBb.left - doubleDilatedBb.left, doubleBb.top - doubleDilatedBb.top,
          doubleBb.width, doubleBb.height⟩
      let assigned := loopyCachedImageAssign current extractedNext doubleBb inputBb
      if assigned.1 = false then none else some assigned.2

/-- The loop over `x` of `rebuild` for the windows of one row `y`, the `k`-th window
starting at column `k * processingSize`. -/
def rebuildWindowRow (half : CachedImage RGBfColor) (y : Nat) :
    List Nat → CachedImage RGBfColor → Option (CachedImage RGBfColor)
  | [], current => some current
  | k :: ks, current =>
    match rebuildWindow half current (k * processingSize) y with
    | none => none
    | some current1 => rebuildWindowRow half y ks current1

/-- The loop over `y` of `rebuild`, the `k`-th row of windows starting at row
`k * processingSize`; a row has one window for every `x = 0, 512, ..` below the width of
the half level. -/
def rebuildWindowRows (half : CachedImage RGBfColor) :
    List Nat → CachedImage RGBfColor → Option (CachedImage RGBfColor)
  | [], current => some current
  | k :: ks, current =>
    match rebuildWindowRow half (k * processingSize)
        (List.range (ceilDiv half.width processingSize)) current with
    | none => none
    | some current1 => rebuildWindowRows half ks current1

/-- The body of the level loop of `rebuild` for `currentLevel = l` and
`halfLevel = l + 1`: all windows, then `removeNegativeValues`. A level outside the stack
is undefined behaviour in the source; the model reports failure. -/
def rebuildLevel (levels : List (CachedImage RGBfColor)) (l : Nat) :
    Option (List (CachedImage RGBfColor)) :=
  match levels[l + 1]?, levels[l]? with
  | some half, some current =>
    match rebuildWindowRows half (List.range (ceilDiv half.height processingSize)) current with
    | none => none
    | some current1 => some (levels.set l (removeNegativeValues current1).2)
  | _, _ => none

/-- The level loop of `rebuild`, `for (l = size - 2; l >= 0; l--)`, with `n` levels
left: the next level to rebuild is `n - 1`. -/
def rebuildLevels : Nat → List (CachedImage RGBfColor) → Option (List (CachedImage RGBfColor))
  | 0, levels => some levels
  | n + 1, levels =>
    match rebuildLevel levels n with
    | none => none
    | some levels1 => rebuildLevels n levels1

/-- The innermost loop of the copy of `rebuild` on one tile: the colour of the finest
level is copied, and alpha is set by a test of the weight whose two branches both
write `1.0f`. -/
def copyTile (tileSize : Nat) (o : CachedTile RGBAfColor) (c : CachedTile RGBfColor)
    (w : CachedTile ℚ) : CachedTile RGBAfColor :=
  { o with
    data := fun k =>
      if k < tileSize * tileSize then
        ⟨(c.data k).r, (c.data k).g, (c.data k).b, if w.data k < eps then 1 else 1⟩
      else o.data k }

/-- The loop over `j` of the copy of `rebuild`, from column `j` on: the first tile that
cannot be acquired stops the copy with `false`. A column outside `rowInput` or
`rowWeight` is undefined behaviour in the source; the model reports failure. -/
def copyRow (tileSize : Nat) (rowInput : List (CachedTile RGBfColor))
    (rowWeight : List (CachedTile ℚ)) :
    Nat → List (CachedTile RGBAfColor) → Bool × List (CachedTile RGBAfColor)
  | _, [] => (true, [])
  | j, o :: rest =>
    if o.acquirable = false then (false, o :: rest)
    else
      match rowInput[j]?, rowWeight[j]? with
      | some c, some w =>
        if c.acquirable = false then (false, o :: rest)
        else if w.acquirable = false then (false, o :: rest)
        else
          let r := copyRow tileSize rowInput rowWeight (j + 1) rest
          (r.1, copyTile tileSize o c w :: r.2)
      | _, _ => (false, o :: rest)

/-- The loop over `i` of the copy of `rebuild`, from row `i` on. A row outside the tiles
of the finest level is undefined behaviour in the source; the model reports failure. -/
def copyRows (tileSize : Nat) (input : List (List (CachedTile RGBfColor)))
    (weight : List (List (CachedTile ℚ))) :
    Nat → List (List (CachedTile RGBAfColor)) → Bool × List (List (CachedTile RGBAfColor))
  | _, [] => (true, [])
  | i, rowOutput :: rest =>
    match input[i]?, weight[i]? with
    | some rowInput, some rowWeight =>
      let r := copyRow tileSize rowInput rowWeight 0 rowOutput
      if r.1 = false then (false, r.2 :: rest)
      else
        let rs := copyRows tileSize input weight (i + 1) rest
        (rs.1, r.2 :: rs.2)
    | _, _ => (false, rowOutput :: rest)

/-- The first part of `rebuild`, up to the copy into the output: the levels are
normalised, the coarsest is clamped, and the levels are rebuilt from coarse to fine. The
flag is `false` where the source returns `false`; an empty pyramid is undefined
behaviour in the source, and the model reports failure. -/
def LaplacianPyramid.collapse (p : LaplacianPyramid) : Bool × List (CachedImage RGBfColor) :=
  let levels1 := p.normalizeLevels
  match levels1[levels1.length - 1]? with
  | none => (false, levels1)
  | some last =>
    let levels2 := levels1.set (levels1.length - 1) (removeNegativeValues last).2
    match rebuildLevels (levels2.length - 1) levels2 with
    | none => (false, levels2)
    | some levels3 => (true, levels3)

/-- The method `LaplacianPyramid::rebuild(output)`: the flag, the pyramid and the output
image it leaves. -/
def LaplacianPyramid.rebuild (p : LaplacianPyramid) (output : CachedImage RGBAfColor) :
    Bool × LaplacianPyramid × CachedImage RGBAfColor :=
  let c := p.collapse
  if c.1 = false then (false, { p with levels := c.2 }, output)
  else
    match c.2[0]?, p.weights[0]? with
    | some level0, some weight0 =>
      let r := copyRows output.tileSize level0.tilesArray weight0.tilesArray 0
        output.tilesArray
      (r.1, { p with levels := c.2 }, { output with tilesArray := r.2 })
    | _, _ => (false, { p with levels := c.2 }, output)

/-! ## Reading a stack of levels -/

/-- Element `k` of the tile of row `i` and column `j` of level `l` of a stack of images. -/
def tileData {α : Type} (imgs : List (CachedImage α)) (l i j k : Nat) : Option α :=
  match imgs[l]? with
  | some img => (img.tile? i j).map (fun t => t.data k)
  | none => none

/-- The constructor `LaplacianPyramid(base_width, base_height, max_levels)`: the two
stacks are empty. -/
def LaplacianPyramid.new (base_width base_height max_levels : Nat) : LaplacianPyramid :=
  ⟨base_width, base_height, max_levels, [], []⟩

/-- A tile manager with square tiles of side `ts` that never fails. -/
def plainManager (ts : Nat) : TileCacheManager :=
  ⟨ts, ts, fun _ => some true, 0⟩

/-- A pyramid of one level of one pixel whose accumulated weight is exactly `1e-6`. -/
def boundaryPyramid : LaplacianPyramid :=
  ⟨1, 1, 1, [⟨1, 1, 1, 1, 1, [[⟨1, 1, 1, 1, true, fun _ => ⟨1, 1, 1⟩⟩]]⟩],
    [⟨1, 1, 1, 1, 1, [[⟨1, 1, 1, 1, true, fun _ => eps⟩]]⟩]⟩

/-- The pyramid of one level of one pixel, as `initialize` leaves it. -/
def tinyPyramid : LaplacianPyramid :=
  ( LaplacianPyramid.initialize (LaplacianPyramid.new 1 1 1) (plainManager 1) (fun _ => ⟨7, 7, 7⟩) (fun _ => 7)).2.1

/-- An output image of one pixel, as `createImage` leaves it. -/
def tinyOutput : CachedImage RGBAfColor :=
  (CachedImage.createImage (plainManager 1) (fun _ => (⟨7, 7, 7, 7⟩ : RGBAfColor)) 1 1).2.1

/-! ## Shapes of tile grids -/

/-- A tile without its buffer. -/
def CachedTile.shape {α : Type} (t : CachedTile α) : CachedTile Unit :=
  ⟨t.tileWidth, t.tileHeight, t.requiredWidth, t.requiredHeight, t.acquirable, fun _ => ()⟩

/-- An image without the buffers of its tiles: its dimensions and its grid of tiles. -/
def CachedImage.shape {α : Type} (img : CachedImage α) : CachedImage Unit :=
  ⟨img.width, img.height, img.memoryWidth, img.memoryHeight, img.tileSize,
    img.tilesArray.map (fun row => row.map CachedTile.shape)⟩

/-- The grid that `createImage` builds from a manager with tiles of `tw` by `th` elements
that never fails: one tile for every block of the image, each of them acquirable. -/
def CachedImage.fullGrid {α : Type} (img : CachedImage α) (tw th : Nat) : Prop :=
  img.tileSize = tw ∧ img.tilesArray.length = ceilDiv img.height th ∧
  ∀ row ∈ img.tilesArray, row.length = ceilDiv img.width tw ∧
    ∀ t ∈ row, t.tileWidth = tw ∧ t.tileHeight = th ∧ t.acquirable = true

instance CachedImage.fullGridDecidable {α : Type} (img : CachedImage α) (tw th : Nat) :
    Decidable (img.fullGrid tw th) := by
  unfold CachedImage.fullGrid
  infer_instance

/-- A manager on which every allocation and every acquisition succeeds. -/
def TileCacheManager.neverFails (mgr : TileCacheManager) : Prop :=
  ∀ n, mgr.outcome n = some true

/-! ## Merges as additive updates -/

/-- The colour that `merge` adds for a patch pixel: the colour times the weight. -/
def weighted (c : RGBfColor) (w : ℚ) : RGBfColor :=
  ⟨c.r * w, c.g * w, c.b * w⟩

/-- The value of `v` at the pixel of the region `bb` that is written last to pixel
`(y, x)` of an image of width `W`, and zero when no column of the region lands on `x`. -/
def sourceValue {α : Type} [Zero α] (W : Nat) (bb : BoundingBox) (v : Nat → Nat → α)
    (y x : Nat) : α :=
  match lastSource W bb.left bb.width x with
  | some j => v ((y : Int) - bb.top).toNat j
  | none => 0

/-- What an extract, pixelwise addition of `v` and assign over the region `bb` adds to
element `k` of the tile of row `ti` and column `tj` of an image of `W` by `H` pixels with
tiles of side `ts`: the value of `v` at the patch pixel written last to that element, and
zero for an element that is not written. -/
def regionDelta {α : Type} [Zero α] (ts W H : Nat) (bb : BoundingBox) (v : Nat → Nat → α)
    (ti tj k : Nat) : α :=
  if k < ts * ts ∧ tj * ts + k % ts < W ∧ ti * ts + k / ts < H ∧
      bb.top ≤ ((ti * ts + k / ts : Nat) : Int) ∧
      ((ti * ts + k / ts : Nat) : Int) < bb.top + bb.height then
    sourceValue W bb v (ti * ts + k / ts) (tj * ts + k % ts)
  else 0

/-- A tile with `δ k` added to each element `k` of its buffer. -/
def CachedTile.addDelta {α : Type} [Add α] (t : CachedTile α) (δ : Nat → α) : CachedTile α :=
  { t with data := fun k => t.data k + δ k }

/-- The arguments of one call of `merge`. -/
structure MergeCall where
  oimg : Image RGBfColor
  oweight : Image ℚ
  level : Nat
  offset_x : Nat
  offset_y : Nat

/-- A sequence of calls of `merge`, one after the other; the flag tells whether all of
them returned `true`. -/
def LaplacianPyramid.mergeAll (p : LaplacianPyramid) : List MergeCall → Bool × LaplacianPyramid
  | [] => (true, p)
  | m :: ms =>
    ((p.merge m.oimg m.oweight m.level m.offset_x m.offset_y).1 &&
        ((p.merge m.oimg m.oweight m.level m.offset_x m.offset_y).2.mergeAll ms).1,
      ((p.merge m.oimg m.oweight m.level m.offset_x m.offset_y).2.mergeAll ms).2)

/-- The sum of the values `v i j` over the pixels `(i, j)` of the patch of the call `m`
that land on pixel `(y, x)` of level `l`, an image of width `W`: pixel `(i, j)` lands on
row `offset_y + i` and on column `offset_x + j` wrapped modulo `W`. -/
def MergeCall.contribution (m : MergeCall) (W : Nat) (v : Nat → Nat → ℚ) (l y x : Nat) : ℚ :=
  if m.level = l then
    Finset.sum (Finset.range m.oimg.height) (fun i =>
      Finset.sum (Finset.range m.oimg.width) (fun j =>
        if m.offset_y + i = y ∧ wrapIndex W ((m.offset_x : Int) + (j : Int)) = x then v i j
        else 0))
  else 0

/-- A level of one pixel that holds nothing yet, with its weight, as a pyramid. -/
def onePixelPyramid : LaplacianPyramid :=
  ⟨1, 1, 1, [⟨1, 1, 1, 1, 1, [[⟨1, 1, 1, 1, true, fun _ => ⟨0, 0, 0⟩⟩]]⟩],
    [⟨1, 1, 1, 1, 1, [[⟨1, 1, 1, 1, true, fun _ => 0⟩]]⟩]⟩

/-- The region of a level that a call of `merge` with these offsets and this patch size
works on. -/
def mergeBb (offset_x offset_y : Nat) (oimg : Image RGBfColor) : BoundingBox :=
  ⟨offset_x, offset_y, oimg.width, oimg.height⟩

/-- A colour level after a successful `merge`, as an additive update of its tiles. -/
def mergedColor (img : CachedImage RGBfColor) (bb : BoundingBox) (oimg : Image RGBfColor)
    (oweight : Image ℚ) : CachedImage RGBfColor :=
  img.mapTiles (fun ti tj t =>
    t.addDelta (regionDelta img.tileSize img.width img.height bb
      (fun i j => weighted (oimg.data i j) (oweight.data i j)) ti tj))

/-- A weight level after a successful `merge`, as an additive update of its tiles. -/
def mergedWeight (w : CachedImage ℚ) (bb : BoundingBox) (oweight : Image ℚ) : CachedImage ℚ :=
  w.mapTiles (fun ti tj t =>
    t.addDelta (regionDelta w.tileSize w.width w.height bb (fun i j => oweight.data i j) ti tj))

/-- Whether a call of `merge` on level `l` over the region `bb` returns `true`: the level
exists in both stacks and the region can be extracted from, and assigned to, its colour
and its weight image. -/
def LaplacianPyramid.mergeSucceeds (p : LaplacianPyramid) (l : Nat) (bb : BoundingBox) : Prop :=
  match p.levels[l]?, p.weights[l]? with
  | some img, some w => img.regionOk bb ∧ w.regionOk bb
  | _, _ => False

instance LaplacianPyramid.mergeSucceedsDecidable (p : LaplacianPyramid) (l : Nat)
    (bb : BoundingBox) : Decidable (p.mergeSucceeds l bb) := by
  unfold LaplacianPyramid.mergeSucceeds
  split <;> infer_instance

/-- The pyramid after a successful `merge` on level `l` over the region `bb`. -/
def LaplacianPyramid.merged (p : LaplacianPyramid) (oimg : Image RGBfColor) (oweight : Image ℚ)
    (l : Nat) (bb : BoundingBox) : LaplacianPyramid :=
  { p with
    levels := p.levels.mapIdx (fun n img => if n = l then mergedColor img bb oimg oweight else img),
    weights := p.weights.mapIdx (fun n w => if n = l then mergedWeight w bb oweight else w) }

/-- The calls of `merge` made by `n` iterations of the loop of `apply` from level `l` on. -/
def applyCalls : Nat → Nat → ApplyState → List MergeCall
  | 0, _, _ => []
  | n + 1, l, s =>
    ⟨(applyIteration s).laplacian, (applyIteration s).weights, l, s.offset_x, s.offset_y⟩ ::
      applyCalls n (l + 1) (applyIteration s).next

/-- The local variables of `apply` after `n` iterations of its loop. -/
def applyIterate : Nat → ApplyState → ApplyState
  | 0, s => s
  | n + 1, s => applyIterate n (applyIteration s).next

/-- The local variables of `apply` when it enters its loop. -/
def applyStart (source : Image RGBfColor) (mask : Image Nat) (weights : Image ℚ)
    (offset_x offset_y : Nat) : ApplyState :=
  ⟨source, weights, maskToFloat mask source.width source.height, source.width, source.height,
    offset_x, offset_y⟩

/-- All the calls of `merge` made by `apply` on a pyramid of `L` levels. -/
def applyAllCalls (L : Nat) (s : ApplyState) : List MergeCall :=
  applyCalls (L - 1) 0 s ++
    [⟨(applyIterate (L - 1) s).current_color, (applyIterate (L - 1) s).current_weights, L - 1,
      (applyIterate (L - 1) s).offset_x, (applyIterate (L - 1) s).offset_y⟩]

/-- A call of `merge` on level `0` with a patch of one pixel, of colour `(1, 2, 3)` and
weight `1 / 2`, at the offset `(3, 0)`. -/
def onePixelCall : MergeCall :=
  ⟨⟨1, 1, fun _ _ => ⟨1, 2, 3⟩⟩, ⟨1, 1, fun _ _ => 1 / 2⟩, 0, 3, 0⟩

/-- A panorama of 4 by 2 pixels with two levels on tiles of side 2, as `initialize`
leaves it. -/
def wrapPyramid : LaplacianPyramid :=
  ( LaplacianPyramid.initialize (LaplacianPyramid.new 4 2 2) (plainManager 2) (fun _ => ⟨7, 7, 7⟩) (fun _ => 7)).2.1

/-- A view of 2 by 2 pixels. -/
def smallView : Image RGBfColor :=
  ⟨2, 2, fun i j => ⟨1 + (i : ℚ), 2 + (j : ℚ), 3⟩⟩

/-- The mask of `smallView`: every pixel is covered. -/
def smallMask : Image Nat :=
  ⟨2, 2, fun _ _ => 255⟩

/-- The weights of `smallView`. -/
def smallWeights : Image ℚ :=
  ⟨2, 2, fun _ j => 1 / (1 + (j : ℚ))⟩

/-- Two stacks of images whose levels have the same shapes. -/
def sameShapes {α β : Type} (xs : List (CachedImage α)) (ys : List (CachedImage β)) : Prop :=
  ∀ n : Nat, (xs[n]?).map CachedImage.shape = (ys[n]?).map CachedImage.shape

/-- The first extract of a window of `rebuild`: the dilated window of the half level. -/
def windowExtracted (half : CachedImage RGBfColor) (x y : Nat) : Bool × Image RGBfColor :=
  loopyCachedImageExtract
    (Image.alloc (windowDilated half x y).width.toNat (windowDilated half x y).height.toNat)
    half (windowDilated half x y)

/-- The second extract of a window of `rebuild`: the doubled dilated window of the current
level. -/
def windowNext (half current : CachedImage RGBfColor) (x y : Nat) : Bool × Image RGBfColor :=
  loopyCachedImageExtract
    (Image.alloc (windowDilated half x y).doubleSize.width.toNat
      (windowDilated half x y).doubleSize.height.toNat)
    current (windowDilated half x y).doubleSize

/-- The box `inputBb` of a window of `rebuild`: where the doubled window lies in the
buffer of the doubled dilated window. -/
def windowInputBb (half : CachedImage RGBfColor) (x y : Nat) : BoundingBox :=
  ⟨(windowCore half x y).doubleSize.left - (windowDilated half x y).doubleSize.left,
    (windowCore half x y).doubleSize.top - (windowDilated half x y).doubleSize.top,
    (windowCore half x y).doubleSize.width, (windowCore half x y).doubleSize.height⟩

/-- The assign of a window of `rebuild`. -/
def windowAssigned (half current : CachedImage RGBfColor) (x y : Nat) :
    Bool × CachedImage RGBfColor :=
  loopyCachedImageAssign current
    (addition (windowNext half current x y).2 (windowNext half current x y).2
      (windowBuffer half x y))
    (windowCore half x y).doubleSize (windowInputBb half x y)

/-- A pyramid of one level of one pixel whose accumulated colour has negative channels. -/
def negativePyramid : LaplacianPyramid :=
  ⟨1, 1, 1, [⟨1, 1, 1, 1, 1, [[⟨1, 1, 1, 1, true, fun _ => ⟨-1, 2, -3⟩⟩]]⟩],
    [⟨1, 1, 1, 1, 1, [[⟨1, 1, 1, 1, true, fun _ => 1⟩]]⟩]⟩

/-- The finest level of `negativePyramid`. -/
def negativeLevel : CachedImage RGBfColor :=
  ⟨1, 1, 1, 1, 1, [[⟨1, 1, 1, 1, true, fun _ => ⟨-1, 2, -3⟩⟩]]⟩

/-- What a window of `rebuild` adds to pixel `(i, j)` of its doubled window: the pixel of
the blurred buffer that lies there. -/
def windowDelta (half : CachedImage RGBfColor) (x y : Nat) (i j : Nat) : RGBfColor :=
  (windowBuffer half x y).data ((windowInputBb half x y).top + (i : Int)).toNat
    ((windowInputBb half x y).left + (j : Int)).toNat

/-- The current level after a successful window of `rebuild`, as an additive update of its
tiles. -/
def windowed (half current : CachedImage RGBfColor) (x y : Nat) : CachedImage RGBfColor :=
  current.mapTiles (fun ti tj t =>
    t.addDelta (regionDelta current.tileSize current.width current.height
      (windowCore half x y).doubleSize (windowDelta half x y) ti tj))

/-- The current level after the windows `ks` of the row of windows that starts at row `y`
of the half level, when all of them succeed. -/
def windowedRow (half : CachedImage RGBfColor) (y : Nat) (ks : List Nat)
    (current : CachedImage RGBfColor) : CachedImage RGBfColor :=
  ks.foldl (fun c k => windowed half c (k * processingSize) y) current

/-- The current level after the rows of windows `ks`, when all windows succeed. -/
def windowedRows (half : CachedImage RGBfColor) (ks : List Nat)
    (current : CachedImage RGBfColor) : CachedImage RGBfColor :=
  ks.foldl
    (fun c k =>
      windowedRow half (k * processingSize) (List.range (ceilDiv half.width processingSize)) c)
    current

/-- The current level after all the windows of the half level, when all of them succeed. -/
def windowedAll (half current : CachedImage RGBfColor) : CachedImage RGBfColor :=
  windowedRows half (List.range (ceilDiv half.height processingSize)) current

/-- The stack of levels that the level loop of `rebuild` leaves when every window
succeeds, from the normalised stack: the coarsest level is clamped, every other level
receives the windows of the rebuilt level below it in the list and is clamped. -/
def rebuiltStack : List (CachedImage RGBfColor) → List (CachedImage RGBfColor)
  | [] => []
  | c :: rest =>
    match rebuiltStack rest with
    | [] => [(removeNegativeValues c).2]
    | half :: r => (removeNegativeValues (windowedAll half c)).2 :: half :: r

/-- A stack of levels as `initialize` builds it on a manager with square tiles of side `ts`
that never fails: every level has its full grid of tiles, and a level is at least twice as
wide and as high as the next one. -/
def stackOk {α : Type} (ts : Nat) : List (CachedImage α) → Prop
  | [] => True
  | c :: rest =>
    c.fullGrid ts ts ∧
    (∀ half, rest.head? = some half → 2 * half.width ≤ c.width ∧ 2 * half.height ≤ c.height) ∧
    stackOk ts rest

/-- A level all of whose pixels are zero. -/
def CachedImage.isZero (c : CachedImage RGBfColor) : Prop :=
  ∀ y x, y < c.height → x < c.width → c.getPixel y x default = 0

/-- The level with its negative values clamped. -/
def clamped (c : CachedImage RGBfColor) : CachedImage RGBfColor :=
  (removeNegativeValues c).2

/-- The layout of the pyramid that `initialize` builds for a panorama of `W` by `H` pixels
on a manager with square tiles of side `ts` that never fails: as many weight images as
levels, level `l` of `W / 2 ^ l` by `H / 2 ^ l` pixels, each with its full grid of tiles.
The methods `merge` and `apply` keep it. -/
def LaplacianPyramid.wellFormed (p : LaplacianPyramid) (ts W H : Nat) : Prop :=
  p.weights.length = p.levels.length ∧
  (∀ (l : Nat) (c : CachedImage RGBfColor), p.levels[l]? = some c →
    c.fullGrid ts ts ∧ c.width = W / 2 ^ l ∧ c.height = H / 2 ^ l) ∧
  (∀ (l : Nat) (w : CachedImage ℚ), p.weights[l]? = some w →
    w.fullGrid ts ts ∧ w.width = W / 2 ^ l ∧ w.height = H / 2 ^ l)

/-- The panorama of 4 by 2 pixels with two levels after `smallView` has been applied at
the offset `(0, 0)`: the view covers columns 0 and 1 only. -/
def coveredPyramid : LaplacianPyramid :=
  (wrapPyramid.apply smallView smallMask smallWeights 0 0).2

/-- An output image of 4 by 2 pixels on tiles of side 2, as `createImage` leaves it. -/
def wideOutput : CachedImage RGBAfColor :=
  (CachedImage.createImage (plainManager 2) (fun _ => (⟨7, 7, 7, 7⟩ : RGBAfColor)) 4 2).2.1

/-- An output image of 5 by 3 pixels on tiles of side 2, as `createImage` leaves it. -/
def oddOutput : CachedImage RGBAfColor :=
  (CachedImage.createImage (plainManager 2) (fun _ => (⟨7, 7, 7, 7⟩ : RGBAfColor)) 5 3).2.1

/-- The buffer `buf` of an iteration of `apply` after the loop "Normalize given mask":
the blurred colours divided by the blurred mask. -/
def applyBlurred (s : ApplyState) : Image RGBfColor :=
  normalizeColor
    (convolveGaussian5x5 (Image.alloc s.width s.height)
      (applyMaskColor (Image.alloc s.width s.height) s.current_color s.current_mask) true)
    (convolveGaussian5x5 (Image.alloc s.width s.height) s.current_mask true)
    s.current_color

/-- The buffer `buf` of an iteration of `apply` after `upscale`: the next level spread
over the even rows and columns. -/
def applyUpscaled (s : ApplyState) : Image RGBfColor :=
  upscale (applyBlurred s)
    (downscale (Image.alloc (s.width / 2) (s.height / 2)) (applyBlurred s))

/-- The buffer `buf2` of an iteration of `apply` after its multiplication by four: the
next level, upscaled and blurred. -/
def applyExpanded (s : ApplyState) : Image RGBfColor :=
  timesFour (convolveGaussian5x5 (Image.alloc s.width s.height) (applyUpscaled s) true)

/-- The buffer `buf` of a window of `rebuild` after `upscale`: the pixels of the dilated
window of the half level spread over the even rows and columns. -/
def windowUpscaled (half : CachedImage RGBfColor) (x y : Nat) : Image RGBfColor :=
  upscale
    (Image.alloc (windowDilated half x y).doubleSize.width.toNat
      (windowDilated half x y).doubleSize.height.toNat)
    (windowExtracted half x y).2

/-- The local variables of `apply` for a view that covers a whole level of `w` by `h`
pixels at the offset `(0, 0)`, with mask and weight one everywhere and colours that are
not negative. -/
def ApplyState.full (s : ApplyState) (w h : Nat) : Prop :=
  s.width = w ∧ s.height = h ∧ s.current_color.width = w ∧ s.current_color.height = h ∧
  s.current_mask.width = w ∧ s.current_mask.height = h ∧
  s.current_weights.width = w ∧ s.current_weights.height = h ∧
  s.offset_x = 0 ∧ s.offset_y = 0 ∧
  ∀ i j, i < h → j < w →
    s.current_mask.data i j = 1 ∧ s.current_weights.data i j = 1 ∧
    0 ≤ (s.current_color.data i j).r ∧ 0 ≤ (s.current_color.data i j).g ∧
    0 ≤ (s.current_color.data i j).b

/-- The call of `merge` that `apply` makes for level `l` of a pyramid of `L` levels: the
Laplacian of the level for every level but the last, the colours themselves for the last. -/
def applyCall (L : Nat) (s : ApplyState) (l : Nat) : MergeCall :=
  if l + 1 < L then
    ⟨(applyIteration (applyIterate l s)).laplacian, (applyIteration (applyIterate l s)).weights,
      l, (applyIterate l s).offset_x, (applyIterate l s).offset_y⟩
  else
    ⟨(applyIterate l s).current_color, (applyIterate l s).current_weights, l,
      (applyIterate l s).offset_x, (applyIterate l s).offset_y⟩

/-- A view of 16 by 16 pixels of the constant colour `(0.5, 0.25, 0.125)`. -/
def constantView : Image RGBfColor :=
  ⟨16, 16, fun _ _ => ⟨1 / 2, 1 / 4, 1 / 8⟩⟩

/-- The mask of `constantView`: every pixel is covered. -/
def constantMask : Image Nat :=
  ⟨16, 16, fun _ _ => 1⟩

/-- The weights of `constantView`: one everywhere. -/
def constantWeights : Image ℚ :=
  ⟨16, 16, fun _ _ => 1⟩

/-- An output image of 16 by 16 pixels on tiles of side 4, as `createImage` leaves it. -/
def squareOutput : CachedImage RGBAfColor :=
  (CachedImage.createImage (plainManager 4) (fun _ => (⟨7, 7, 7, 7⟩ : RGBAfColor)) 16 16).2.1

/-- A tile manager with tiles of 2 by 3 elements that never fails. -/
def tallManager : TileCacheManager :=
  ⟨2, 3, fun _ => some true, 0⟩

/-- An image of one pixel whose only tile cannot be acquired and holds `7`. -/
def lockedImage : CachedImage Nat :=
  ⟨1, 1, 1, 1, 1, [[⟨1, 1, 1, 1, false, fun _ => 7⟩]]⟩

/-- A pyramid of one level of one pixel whose tiles cannot be acquired. -/
def lockedPyramid : LaplacianPyramid :=
  ⟨1, 1, 1, [⟨1, 1, 1, 1, 1, [[⟨1, 1, 1, 1, false, fun _ => ⟨0, 0, 0⟩⟩]]⟩],
    [⟨1, 1, 1, 1, 1, [[⟨1, 1, 1, 1, false, fun _ => 0⟩]]⟩]⟩

/-- A view of one pixel of colour `(1, 2, 3)`. -/
def pixelView : Image RGBfColor :=
  ⟨1, 1, fun _ _ => ⟨1, 2, 3⟩⟩

/-- The mask of `pixelView`: the pixel is covered. -/
def pixelMask : Image Nat :=
  ⟨1, 1, fun _ _ => 1⟩

/-- The weights of `pixelView`. -/
def pixelWeights : Image ℚ :=
  ⟨1, 1, fun _ _ => 1⟩

/-- The buffer `buf_masked` of an iteration of `apply` after the loop "Apply mask to
content before convolution": the colours that are fed to the blur. -/
def applyMasked (s : ApplyState) : Image RGBfColor :=
  applyMaskColor (Image.alloc s.width s.height) s.current_color s.current_mask

/-- The buffer `buf` of an iteration of `apply` after its first convolution: the blurred
colours. -/
def applyBlurredColor (s : ApplyState) : Image RGBfColor :=
  convolveGaussian5x5 (Image.alloc s.width s.height) (applyMasked s) true

/-- The buffer `buf_float` of an iteration of `apply` after its second convolution: the
blurred mask. -/
def applyBlurredMask (s : ApplyState) : Image ℚ :=
  convolveGaussian5x5 (Image.alloc s.width s.height) s.current_mask true

/-- The buffer `buf_float` of an iteration of `apply` after the loop "Normalize given
mask". -/
def applyNormalizedMask (s : ApplyState) : Image ℚ :=
  normalizeMask (applyBlurredMask s) s.current_color

/-- The local variables of `apply` at the start of an iteration: the colours and the mask
have the size of the level, and the mask is `0` or `1` at every pixel of the level. -/
def ApplyState.binary (s : ApplyState) : Prop :=
  s.current_color.width = s.width ∧ s.current_color.height = s.height ∧
  s.current_mask.width = s.width ∧ s.current_mask.height = s.height ∧
  ∀ i j, i < s.height → j < s.width →
    s.current_mask.data i j = 0 ∨ s.current_mask.data i j = 1

/-- A mask of 2 by 2 pixels that covers the first column only. -/
def halfMask : Image Nat :=
  ⟨2, 2, fun _ j => if j = 0 then 255 else 0⟩

/-- Whether the pixel of column `x` and row `y` lies in the box `b`. -/
def BoundingBox.contains (b : BoundingBox) (x y : Int) : Prop :=
  b.left ≤ x ∧ x < b.left + b.width ∧ b.top ≤ y ∧ y < b.top + b.height

instance BoundingBox.containsDecidable (b : BoundingBox) (x y : Int) :
    Decidable (b.contains x y) := by
  unfold BoundingBox.contains
  infer_instance

/-- A level of 600 by 3 pixels on tiles of side 256, as `createImage` leaves it: wider
than one processing window of `rebuild`. -/
def wideLevel : CachedImage RGBfColor :=
  (CachedImage.createImage (plainManager 256) (fun _ => (⟨0, 0, 0⟩ : RGBfColor)) 600 3).2.1

/-! ## The compositer of `main_panoramaCompositing.cpp` -/

/-- The conversion of an integer to `int`, a signed integer of 32 bits. -/
def toInt32 (n : Int) : Int :=
  (n + 2147483648) % 4294967296 - 2147483648

/-- The class `Compositer` of `main_panoramaCompositing.cpp`. -/
structure Compositer where
  tileManager : TileCacheManager
  panorama : CachedImage RGBAfColor
  panoramaWidth : Nat
  panoramaHeight : Nat

/-- The constructor `Compositer(manager, outputWidth, outputHeight)`: the panorama has no
tiles yet. -/
def Compositer.new (manager : TileCacheManager) (outputWidth outputHeight : Nat) : Compositer :=
  ⟨manager, ⟨0, 0, 0, 0, 0, []⟩, outputWidth, outputHeight⟩

/-- The method `Compositer::initialize()`: `createImage`, then `fill` with
`RGBAfColor(0, 0, 0, 0)`; `fresh` is what the buffer of a new tile holds. -/
def Compositer.initialize (c : Compositer) (fresh : Nat → RGBAfColor) : Bool × Compositer :=
  let r := CachedImage.createImage c.tileManager fresh c.panoramaWidth c.panoramaHeight
  if r.1 = false then (false, { c with panorama := r.2.1, tileManager := r.2.2 })
  else
    let f := r.2.1.fill ⟨0, 0, 0, 0⟩
    if f.1 = false then (false, { c with panorama := f.2, tileManager := r.2.2 })
    else (true, { c with panorama := f.2, tileManager := r.2.2 })

/-- The body of the loops over `y` and `x` of `append` for the element of row `y` and
column `x` of a tile whose `top` and `left` are given: `old` is what the element holds.
The sum `_panoramaWidth + rx` is computed as a `size_t` and converted to `int`. -/
def Compositer.appendPixel (c : Compositer) (color : Image RGBfColor) (inputMask : Image Nat)
    (top left : Int) (y x : Nat) (old : RGBAfColor) : RGBAfColor :=
  let ry : Int := top + (y : Int)
  if ry < 0 ∨ ry ≥ (color.height : Int) then old
  else
    let rx : Int := left + (x : Int)
    let rx1 : Int :=
      if rx < 0 ∨ rx ≥ (color.width : Int) then toInt32 ((c.panoramaWidth : Int) + rx) else rx
    if (rx < 0 ∨ rx ≥ (color.width : Int)) ∧ (rx1 < 0 ∨ rx1 ≥ (color.width : Int)) then old
    else if inputMask.data ry.toNat rx1.toNat = 0 then old
    else
      ⟨(color.data ry.toNat rx1.toNat).r, (color.data ry.toNat rx1.toNat).g,
        (color.data ry.toNat rx1.toNat).b, 1⟩

/-- The body of the loops over `i` and `j` of `append` for the tile of row `i` and column
`j`. The differences with the offsets are computed as `size_t` and converted to `int`; the
sum `left + _panoramaWidth` is a `size_t`, and so compared without sign. The grid holds no
null pointer; a tile that cannot be acquired is skipped. Element `k` of the buffer is that
of row `k / tileWidth` and column `k % tileWidth`. -/
def Compositer.appendTile (c : Compositer) (color : Image RGBfColor) (inputMask : Image Nat)
    (offset_x offset_y : Nat) (i j : Nat) (t : CachedTile RGBAfColor) : CachedTile RGBAfColor :=
  let top : Int := toInt32 ((i : Int) * (c.tileManager.tileHeight : Int) - (offset_y : Int))
  let bottom : Int :=
    toInt32 (((i : Int) + 1) * (c.tileManager.tileHeight : Int) - (offset_y : Int))
  if top ≥ (color.height : Int) then t
  else if bottom < 0 then t
  else
    let left : Int := toInt32 ((j : Int) * (c.tileManager.tileWidth : Int) - (offset_x : Int))
    let right : Int :=
      toInt32 (((j : Int) + 1) * (c.tileManager.tileWidth : Int) - (offset_x : Int))
    if left ≥ (color.width : Int) then t
    else if right < 0 ∧
        (left + (c.panoramaWidth : Int)) % 18446744073709551616 ≥ (color.width : Int) then t
    else if t.acquirable = false then t
    else
      { t with
        data := fun k =>
          if k < c.tileManager.tileWidth * c.tileManager.tileHeight then
            c.appendPixel color inputMask top left (k / c.tileManager.tileWidth)
              (k % c.tileManager.tileWidth) (t.data k)
          else t.data k }

/-- The method `Compositer::append(color, inputMask, inputWeights, offset_x, offset_y)`;
the weights are not used, and the result is always `true`. -/
def Compositer.append (c : Compositer) (color : Image RGBfColor) (inputMask : Image Nat)
    (_inputWeights : Image ℚ) (offset_x offset_y : Nat) : Bool × Compositer :=
  (true,
    { c with
      panorama := c.panorama.mapTiles (fun i j t =>
        c.appendTile color inputMask offset_x offset_y i j t) })

/-- The arguments of one call of `append`. -/
structure AppendCall where
  color : Image RGBfColor
  inputMask : Image Nat
  inputWeights : Image ℚ
  offset_x : Nat
  offset_y : Nat

/-- A sequence of calls of `append`, one after the other. -/
def Compositer.appendAll (c : Compositer) : List AppendCall → Compositer
  | [] => c
  | v :: vs =>
    (c.append v.color v.inputMask v.inputWeights v.offset_x v.offset_y).2.appendAll vs

/-- The view of the call `v` covers pixel `(y, x)` of a panorama of width `W`: a pixel
`(r, k)` of the view with a mask that is not zero lands there, on row `offset_y + r` and
on column `offset_x + k` wrapped modulo `W`. -/
def AppendCall.covers (v : AppendCall) (W y x : Nat) : Prop :=
  ∃ r, r < v.color.height ∧ ∃ k, k < v.color.width ∧
    v.offset_y + r = y ∧ (v.offset_x + k) % W = x ∧ v.inputMask.data r k ≠ 0

instance AppendCall.coversDecidable (v : AppendCall) (W y x : Nat) :
    Decidable (v.covers W y x) := by
  unfold AppendCall.covers
  infer_instance

/-- A compositer for a panorama of 4 by 1 pixels on tiles of side 2, as `initialize`
leaves it. -/
def smallCompositer : Compositer :=
  ( Compositer.initialize (Compositer.new (plainManager 2) 4 1) (fun _ => ⟨7, 7, 7, 7⟩)).2

/-- A compositer for a panorama of 3 by 1 pixels on tiles of side 2, as `initialize`
leaves it: the last column of its tiles is padding. -/
def paddedCompositer : Compositer :=
  ( Compositer.initialize (Compositer.new (plainManager 2) 3 1) (fun _ => ⟨7, 7, 7, 7⟩)).2

/-- A view of three columns and one row: the colour of column `k` is `(k + 1, 0, 0)`. -/
def stripView : Image RGBfColor :=
  ⟨3, 1, fun _ k => ⟨(k : ℚ) + 1, 0, 0⟩⟩

/-- The mask of `stripView`: every pixel is covered. -/
def stripMask : Image Nat :=
  ⟨3, 1, fun _ _ => 255⟩

/-- The weights of `stripView`. -/
def stripWeights : Image ℚ :=
  ⟨3, 1, fun _ _ => 1⟩

/-- What `append` leaves in an element that holds `old` when pixel `(ry, rx)` of the view
lands on it: the colour of the view with alpha `1` where the mask is not zero. -/
def appendValue (color : Image RGBfColor) (inputMask : Image Nat) (ry rx : Nat)
    (old : RGBAfColor) : RGBAfColor :=
  if inputMask.data ry rx = 0 then old
  else ⟨(color.data ry rx).r, (color.data ry rx).g, (color.data ry rx).b, 1⟩

/-! ## `augment` -/

/-- The function handed to `perPixelOperation` by `augment` to build the mask. -/
def maskPixel (_c : Nat) (w : ℚ) : Nat :=
  if w < eps then 0 else 255

/-- The method `LaplacianPyramid::augment(cacheManager, newMaxLevels)`. An image stores
handles of its tiles, so the copy `lastColor` shares its tiles with the last level and
`perPixelOperation` on the copy lands in the level; the results of the two calls of
`perPixelOperation` are not looked at, as in the source. The last component is the mask
handed to `writeImage`, whose file is not modelled. Empty stacks are undefined behaviour in
the source (`_levels[_levels.size() - 1]`); the model stops there and reports failure. -/
def LaplacianPyramid.augment (p : LaplacianPyramid) (mgr : TileCacheManager)
    (freshMask : Nat → Nat) (newMaxLevels : Nat) :
    Bool × LaplacianPyramid × TileCacheManager × Option (CachedImage Nat) :=
  if newMaxLevels ≤ p.levels.length then (false, p, mgr, none)
  else
    let p1 := { p with maxLevels := newMaxLevels }
    match p.levels[p.levels.length - 1]?, p.weights[p.weights.length - 1]? with
    | some lastColor, some largerWeight =>
      let lastColor1 := (lastColor.perPixelOperation largerWeight normalizePixel).2
      let p2 := { p1 with levels := p1.levels.set (p.levels.length - 1) lastColor1 }
      let largerMask :=
        CachedImage.createImage mgr freshMask largerWeight.width largerWeight.height
      if largerMask.1 = false then (false, p2, largerMask.2.2, none)
      else
        (true, p2, largerMask.2.2,
          some (largerMask.2.1.perPixelOperation largerWeight maskPixel).2)
    | _, _ => (false, p1, mgr, none)

/-! ## The driver -/

/-- The list `viewsToDraw` of `aliceVision_main` when the compositing loop starts: the
views of the scene whose pose and intrinsic are defined, in the order of the scene, and
then two copies of that list inserted at its end. `defined` stands for
`sfmData.isPoseAndIntrinsicDefined`. -/
def viewsToDraw {ν : Type} (views : List ν) (defined : ν → Bool) : List ν :=
  let viewsToDraw := views.filter defined
  let copy := viewsToDraw
  let viewsToDraw := viewsToDraw ++ copy
  viewsToDraw ++ copy

/-- The views for which the compositing loop of `aliceVision_main` calls `append`, in the
order of the calls: the loop runs over `viewsToDraw` and skips a view whose pose or
intrinsic is not defined. -/
def appendedViews {ν : Type} (views : List ν) (defined : ν → Bool) : List ν :=
  (viewsToDraw views defined).filter defined

/-- The compositing of `aliceVision_main`, from the creation of the compositer to the end
of the loop: `none` where the driver exits with a failure. `load` stands for the reading of
the image, the mask, the weights and the offsets of a view from the warping folder. -/
def compositeViews {ν : Type} (manager : TileCacheManager) (fresh : Nat → RGBAfColor)
    (panoramaWidth panoramaHeight : Nat) (views : List ν) (defined : ν → Bool)
    (load : ν → AppendCall) : Option Compositer :=
  let c := Compositer.initialize (Compositer.new manager panoramaWidth panoramaHeight) fresh
  if c.1 = false then none
  else some (c.2.appendAll ((appendedViews views defined).map load))

/-! ## The collapse of a level, as the spec words it -/

/-- A rational whose denominator is a power of two. Every finite `float` is one; the
number `1e-6` is not, and no `float` lies between it and the `double` nearest to it, so
that on floats the test `w < 1e-6` of the source is the test `w < eps`. -/
def isBinaryFraction (q : ℚ) : Prop :=
  ∃ k : Nat, q.den = 2 ^ k

/-- A pyramid of one level of one pixel of accumulated colour `(1, 2, 3)` and of
accumulated weight `1 / 2`. -/
def halfWeightPyramid : LaplacianPyramid :=
  ⟨1, 1, 1, [⟨1, 1, 1, 1, 1, [[⟨1, 1, 1, 1, true, fun _ => ⟨1, 2, 3⟩⟩]]⟩],
    [⟨1, 1, 1, 1, 1, [[⟨1, 1, 1, 1, true, fun _ => 1 / 2⟩]]⟩]⟩

/-! ## The reach of the collapse -/

/-- What the windows of `rebuild` add to pixel `(y, x)` of the level above the level
`half`: the pixel of the blurred buffer of the one window whose doubled core holds it, and
nothing beyond the doubled size of `half`. -/
def windowsDelta (half : CachedImage RGBfColor) (y x : Nat) : RGBfColor :=
  if x < 2 * half.width ∧ y < 2 * half.height then
    windowDelta half (x / 1024 * 512) (y / 1024 * 512) (y - 2 * (y / 1024 * 512))
      (x - 2 * (x / 1024 * 512))
  else 0

/-- The pixels `(r, c)` of a level of `W1` by `H1` pixels that the blur of a window of
`rebuild` can read for pixel `(y, x)` of the level above: those with `2 r` within two rows
of `y` and `2 c` within two columns of `x`, and column `0` for the last two columns of the
level above, through the wrap. -/
def withinReach (W1 H1 y x r c : Nat) : Prop :=
  r < H1 ∧ c < W1 ∧ y ≤ 2 * r + 2 ∧ 2 * r ≤ y + 2 ∧
    ((x ≤ 2 * c + 2 ∧ 2 * c ≤ x + 2) ∨ (c = 0 ∧ 2 * W1 ≤ x + 2))

instance withinReachDecidable (W1 H1 y x r c : Nat) : Decidable (withinReach W1 H1 y x r c) := by
  unfold withinReach
  infer_instance

/-- No weight within reach of pixel `(y, x)` of the first level of a stack of weights: its
accumulated weight is below `1e-6`, and so is, level by level, that of every pixel of the
coarser levels that the collapse reads for it. -/
def unweighted : List (CachedImage ℚ) → Nat → Nat → Bool
  | [], _, _ => true
  | [w], y, x => decide (w.getPixel y x 0 < eps)
  | w :: w1 :: ws, y, x =>
    decide (w.getPixel y x 0 < eps) &&
      (List.range w1.height).all (fun r =>
        (List.range w1.width).all (fun c =>
          !decide (withinReach w1.width w1.height y x r c) || unweighted (w1 :: ws) r c))

/-- A panorama of 8 by 2 pixels with two levels on tiles of side 2 after `smallView` has
been applied at the offset `(0, 0)`: the view covers columns 0 and 1 only. -/
def farPyramid : LaplacianPyramid :=
  (( LaplacianPyramid.initialize (LaplacianPyramid.new 8 2 2) (plainManager 2) (fun _ => ⟨7, 7, 7⟩)
    (fun _ => 7)).2.1.apply smallView smallMask smallWeights 0 0).2

/-- An output image of 8 by 2 pixels on tiles of side 2, as `createImage` leaves it. -/
def farOutput : CachedImage RGBAfColor :=
  (CachedImage.createImage (plainManager 2) (fun _ => (⟨7, 7, 7, 7⟩ : RGBAfColor)) 8 2).2.1

/-! # Lemmas and theorems -/

/-! ## Pixel arithmetic -/

@[simp] theorem RGBfColor.add_r (x y : RGBfColor) : (x + y).r = x.r + y.r := rfl

@[simp] theorem RGBfColor.add_g (x y : RGBfColor) : (x + y).g = x.g + y.g := rfl

@[simp] theorem RGBfColor.add_b (x y : RGBfColor) : (x + y).b = x.b + y.b := rfl

@[simp] theorem RGBfColor.sub_r (x y : RGBfColor) : (x - y).r = x.r - y.r := rfl

@[simp] theorem RGBfColor.sub_g (x y : RGBfColor) : (x - y).g = x.g - y.g := rfl

@[simp] theorem RGBfColor.sub_b (x y : RGBfColor) : (x - y).b = x.b - y.b := rfl

@[simp] theorem RGBfColor.smul_r (s : ℚ) (x : RGBfColor) : (s • x).r = s * x.r := rfl

@[simp] theorem RGBfColor.smul_g (s : ℚ) (x : RGBfColor) : (s • x).g = s * x.g := rfl

@[simp] theorem RGBfColor.smul_b (s : ℚ) (x : RGBfColor) : (s • x).b = s * x.b := rfl

@[simp] theorem RGBfColor.zero_r : (0 : RGBfColor).r = 0 := rfl

@[simp] theorem RGBfColor.zero_g : (0 : RGBfColor).g = 0 := rfl

@[simp] theorem RGBfColor.zero_b : (0 : RGBfColor).b = 0 := rfl

theorem RGBfColor.default_eq_zero : (default : RGBfColor) = 0 := rfl

theorem RGBfColor.mk_zero : (⟨0, 0, 0⟩ : RGBfColor) = 0 := rfl

theorem eps_pos : 0 < eps := by
  unfold eps
  norm_num

/-! ## The grid of tiles -/

section Grid

variable {α β : Type}

theorem CachedImage.tile?_mapTiles (img : CachedImage α)
    (f : Nat → Nat → CachedTile α → CachedTile α) (i j : Nat) :
    (img.mapTiles f).tile? i j = (img.tile? i j).map (f i j) := by
  unfold CachedImage.tile? CachedImage.mapTiles
  simp only [List.getElem?_mapIdx]
  cases img.tilesArray[i]? <;> simp [List.getElem?_mapIdx]

theorem CachedImage.mapTiles_congr (img : CachedImage α)
    (f g : Nat → Nat → CachedTile α → CachedTile α)
    (h : ∀ i j t, img.tile? i j = some t → f i j t = g i j t) :
    img.mapTiles f = img.mapTiles g := by
  unfold CachedImage.mapTiles
  congr 1
  apply List.ext_getElem?
  intro i
  simp only [List.getElem?_mapIdx]
  cases hrow : img.tilesArray[i]? with
  | none => rfl
  | some row =>
    simp only [Option.map_some', Option.some.injEq]
    apply List.ext_getElem?
    intro j
    simp only [List.getElem?_mapIdx]
    cases ht : row[j]? with
    | none => rfl
    | some t =>
      simp only [Option.map_some', Option.some.injEq]
      exact h i j t (by simp [CachedImage.tile?, hrow, ht])

theorem CachedImage.mapTiles_id (img : CachedImage α) :
    img.mapTiles (fun _ _ t => t) = img := by
  unfold CachedImage.mapTiles
  have h : List.mapIdx (fun _ (row : List (CachedTile α)) => List.mapIdx (fun _ t => t) row)
      img.tilesArray = img.tilesArray := by
    apply List.ext_getElem?
    intro i
    simp only [List.getElem?_mapIdx]
    cases img.tilesArray[i]? with
    | none => rfl
    | some row =>
      simp only [Option.map_some', Option.some.injEq]
      apply List.ext_getElem?
      intro j
      simp only [List.getElem?_mapIdx]
      cases row[j]? <;> rfl
  rw [h]

theorem CachedImage.mapTiles_mapTiles (img : CachedImage α)
    (f g : Nat → Nat → CachedTile α → CachedTile α) :
    (img.mapTiles f).mapTiles g = img.mapTiles (fun i j t => g i j (f i j t)) := by
  unfold CachedImage.mapTiles
  simp only
  congr 1
  apply List.ext_getElem?
  intro i
  simp only [List.getElem?_mapIdx]
  cases img.tilesArray[i]? with
  | none => rfl
  | some row =>
    simp only [Option.map_some', Option.some.injEq]
    apply List.ext_getElem?
    intro j
    simp only [List.getElem?_mapIdx]
    cases row[j]? <;> rfl

theorem CachedImage.mapTiles_eq_self (img : CachedImage α)
    (f : Nat → Nat → CachedTile α → CachedTile α)
    (h : ∀ i j t, img.tile? i j = some t → f i j t = t) : img.mapTiles f = img := by
  rw [CachedImage.mapTiles_congr img f (fun _ _ t => t) h, CachedImage.mapTiles_id]

@[simp] theorem CachedImage.mapTiles_width (img : CachedImage α)
    (f : Nat → Nat → CachedTile α → CachedTile α) : (img.mapTiles f).width = img.width := rfl

@[simp] theorem CachedImage.mapTiles_height (img : CachedImage α)
    (f : Nat → Nat → CachedTile α → CachedTile α) : (img.mapTiles f).height = img.height := rfl

@[simp] theorem CachedImage.mapTiles_tileSize (img : CachedImage α)
    (f : Nat → Nat → CachedTile α → CachedTile α) :
    (img.mapTiles f).tileSize = img.tileSize := rfl

theorem CachedImage.allTiles_iff (img : CachedImage α) (P : Nat → Nat → CachedTile α → Bool) :
    img.allTiles P = true ↔ ∀ i j t, img.tile? i j = some t → P i j t = true := by
  unfold CachedImage.allTiles CachedImage.tile?
  simp only [List.all_eq_true, id]
  constructor
  · intro h i j t ht
    cases hrow : img.tilesArray[i]? with
    | none => simp [hrow] at ht
    | some row =>
      simp only [hrow] at ht
      have h1 := h ((row.mapIdx (fun j t => P i j t)).all id) (by
        rw [List.mem_iff_getElem?]
        exact ⟨i, by simp [List.getElem?_mapIdx, hrow]⟩)
      simp only [List.all_eq_true, id] at h1
      exact h1 (P i j t) (by
        rw [List.mem_iff_getElem?]
        exact ⟨j, by simp [List.getElem?_mapIdx, ht]⟩)
  · intro h b hb
    rw [List.mem_iff_getElem?] at hb
    obtain ⟨i, hi⟩ := hb
    simp only [List.getElem?_mapIdx] at hi
    cases hrow : img.tilesArray[i]? with
    | none => simp [hrow] at hi
    | some row =>
      simp only [hrow, Option.map_some', Option.some.injEq] at hi
      subst hi
      simp only [List.all_eq_true, id]
      intro b hb
      rw [List.mem_iff_getElem?] at hb
      obtain ⟨j, hj⟩ := hb
      simp only [List.getElem?_mapIdx] at hj
      cases ht : row[j]? with
      | none => simp [ht] at hj
      | some t =>
        simp only [ht, Option.map_some', Option.some.injEq] at hj
        subst hj
        exact h i j t (by simp [hrow, ht])

end Grid

/-! ## The normalisation step of `rebuild` -/

theorem tileData_eq {α : Type} (imgs : List (CachedImage α)) (l i j k : Nat)
    (img : CachedImage α) (t : CachedTile α) (himg : imgs[l]? = some img)
    (ht : img.tile? i j = some t) : tileData imgs l i j k = some (t.data k) := by
  simp [tileData, himg, ht]

theorem perPixelOperation_tile {α β : Type} (img : CachedImage α) (other : CachedImage β)
    (f : α → β → α) (i j : Nat) (t : CachedTile α) (o : CachedTile β)
    (hdim : img.width = other.width ∧ img.height = other.height)
    (ht : img.tile? i j = some t) (ho : other.tile? i j = some o)
    (hta : t.acquirable = true) (hoa : o.acquirable = true) :
    (img.perPixelOperation other f).2.tile? i j =
      some { t with
        data := fun k =>
          if k < t.tileWidth * t.tileHeight then f (t.data k) (o.data k) else t.data k } := by
  unfold CachedImage.perPixelOperation
  rw [if_pos hdim]
  simp only [CachedImage.tile?_mapTiles, ht, ho, Option.map_some', hta, hoa, and_self, if_true]

/-- The test of the source, `w < 1e-6`: in the first step of `rebuild`, every element of
every acquired tile of every level becomes `(0, 0, 0)` where the accumulated weight is
below `1e-6` and the colour divided by the weight, channel by channel, where it is not. -/
theorem normalizeLevels_tile (p : LaplacianPyramid) (l i j k : Nat)
    (img : CachedImage RGBfColor) (w : CachedImage ℚ) (t : CachedTile RGBfColor)
    (o : CachedTile ℚ) (himg : p.levels[l]? = some img) (hw : p.weights[l]? = some w)
    (hdim : img.width = w.width ∧ img.height = w.height)
    (ht : img.tile? i j = some t) (ho : w.tile? i j = some o)
    (hta : t.acquirable = true) (hoa : o.acquirable = true)
    (hk : k < t.tileWidth * t.tileHeight) :
    (o.data k < eps → tileData p.normalizeLevels l i j k = some ⟨0, 0, 0⟩) ∧
    (eps ≤ o.data k →
      tileData p.normalizeLevels l i j k =
        some ⟨(t.data k).r / o.data k, (t.data k).g / o.data k, (t.data k).b / o.data k⟩ ∧
      o.data k ≠ 0) := by
  have hl : p.normalizeLevels[l]? = some (img.perPixelOperation w normalizePixel).2 := by
    unfold LaplacianPyramid.normalizeLevels
    simp [List.getElem?_mapIdx, himg, hw]
  have hdata : tileData p.normalizeLevels l i j k =
      some (normalizePixel (t.data k) (o.data k)) := by
    rw [tileData_eq _ l i j k _ _ hl
      (perPixelOperation_tile img w normalizePixel i j t o hdim ht ho hta hoa)]
    simp [hk]
  constructor
  · intro hlt
    rw [hdata, normalizePixel, if_pos hlt]
  · intro hge
    refine ⟨?_, ?_⟩
    · rw [hdata, normalizePixel, if_neg (not_lt.mpr hge)]
    · exact ne_of_gt (lt_of_lt_of_le eps_pos hge)

theorem eps_den : eps.den = 1000000 := by
  decide!

/-- The threshold `1e-6` is not a `float`: its denominator has the factor `5`. -/
theorem eps_not_binaryFraction : ¬ isBinaryFraction eps := by
  rintro ⟨k, hk⟩
  rw [eps_den] at hk
  have h5 : 5 ∣ 2 ^ k := hk ▸ (by norm_num : 5 ∣ 1000000)
  have h2 := Nat.Prime.dvd_of_dvd_pow Nat.prime_five h5
  omega

/-- C5: in the first step of `rebuild`, for every level and every element of an acquired
tile whose accumulated weight is a `float`, a fraction whose denominator is a power of
two: the colour becomes the colour divided by the weight, channel by channel, where the
weight is above `1e-6`, and `(0, 0, 0)` otherwise; the weight of a division is never
zero. -/
theorem normalizeLevels_divides_above_threshold (p : LaplacianPyramid) (l i j k : Nat)
    (img : CachedImage RGBfColor) (w : CachedImage ℚ) (t : CachedTile RGBfColor)
    (o : CachedTile ℚ) (himg : p.levels[l]? = some img) (hw : p.weights[l]? = some w)
    (hdim : img.width = w.width ∧ img.height = w.height)
    (ht : img.tile? i j = some t) (ho : w.tile? i j = some o)
    (hta : t.acquirable = true) (hoa : o.acquirable = true)
    (hk : k < t.tileWidth * t.tileHeight) (hfloat : isBinaryFraction (o.data k)) :
    (o.data k > eps →
      tileData p.normalizeLevels l i j k =
        some ⟨(t.data k).r / o.data k, (t.data k).g / o.data k, (t.data k).b / o.data k⟩ ∧
      o.data k ≠ 0) ∧
    (¬ o.data k > eps → tileData p.normalizeLevels l i j k = some ⟨0, 0, 0⟩) := by
  obtain ⟨h1, h2⟩ := normalizeLevels_tile p l i j k img w t o himg hw hdim ht ho hta hoa hk
  have hne : o.data k ≠ eps := by
    intro h
    rw [h] at hfloat
    exact eps_not_binaryFraction hfloat
  constructor
  · intro hgt
    exact h2 (le_of_lt hgt)
  · intro hle
    exact h1 (lt_of_le_of_ne (not_lt.mp hle) hne)

/-- C5 (witness): a pixel of colour `(1, 2, 3)` and weight `1 / 2`, and the pixel of a
pyramid that holds nothing, whose weight is `0`. -/
theorem normalizeLevels_divides_above_threshold_witness :
    tileData halfWeightPyramid.normalizeLevels 0 0 0 0 = some ⟨2, 4, 6⟩ ∧
    tileData onePixelPyramid.normalizeLevels 0 0 0 0 = some ⟨0, 0, 0⟩ :=
  ⟨((normalizeLevels_divides_above_threshold halfWeightPyramid 0 0 0 0
      ⟨1, 1, 1, 1, 1, [[⟨1, 1, 1, 1, true, fun _ => ⟨1, 2, 3⟩⟩]]⟩
      ⟨1, 1, 1, 1, 1, [[⟨1, 1, 1, 1, true, fun _ => 1 / 2⟩]]⟩
      ⟨1, 1, 1, 1, true, fun _ => ⟨1, 2, 3⟩⟩ ⟨1, 1, 1, 1, true, fun _ => 1 / 2⟩
      rfl rfl ⟨rfl, rfl⟩ rfl rfl rfl rfl (by decide) ⟨1, by decide!⟩).1 (by decide!)).1.trans
      (by decide!),
    (normalizeLevels_divides_above_threshold onePixelPyramid 0 0 0 0
      ⟨1, 1, 1, 1, 1, [[⟨1, 1, 1, 1, true, fun _ => ⟨0, 0, 0⟩⟩]]⟩
      ⟨1, 1, 1, 1, 1, [[⟨1, 1, 1, 1, true, fun _ => 0⟩]]⟩
      ⟨1, 1, 1, 1, true, fun _ => ⟨0, 0, 0⟩⟩ ⟨1, 1, 1, 1, true, fun _ => 0⟩
      rfl rfl ⟨rfl, rfl⟩ rfl rfl rfl rfl (by decide) ⟨0, by decide!⟩).2 (by decide!)⟩

/-! ## The copy loop of `rebuild` -/

/-- C10 (the code at the failing input): on the freshly initialised pyramid of one pixel the
accumulated weight is `0`, below `1e-6`, `rebuild` succeeds, and the alpha it writes
is `1`. -/
theorem rebuild_alpha_one_below_threshold :
    (tinyPyramid.rebuild tinyOutput).1 = true ∧
    tileData tinyPyramid.weights 0 0 0 0 = some 0 ∧ (0 : ℚ) < eps ∧
    (tileData [(tinyPyramid.rebuild tinyOutput).2.2] 0 0 0 0).map (fun c => c.a) = some 1 := by
  decide!

/-! ## `createImage` and `fill` on a manager that never fails -/

section Create

variable {α : Type}

theorem createRow_neverFails (fresh : Nat → α) (width i countWidth : Nat) (tile_height : Int) :
    ∀ (n j : Nat) (mgr : TileCacheManager) (row : List (CachedTile α)), mgr.neverFails →
      ∃ tiles : List (CachedTile α),
        CachedImage.createRow fresh width i countWidth tile_height n j mgr row =
          (some (row ++ tiles), { mgr with count := mgr.count + n }) ∧
        tiles.length = n ∧
        ∀ t ∈ tiles, t.tileWidth = mgr.tileWidth ∧ t.tileHeight = mgr.tileHeight ∧
          t.acquirable = true ∧ t.data = fresh := by
  intro n
  induction n with
  | zero =>
    intro j mgr row _
    exact ⟨[], by simp [CachedImage.createRow], rfl, by simp⟩
  | succ n ih =>
    intro j mgr row hmgr
    have hout : mgr.outcome mgr.count = some true := hmgr mgr.count
    have hmgr1 : ({ mgr with count := mgr.count + 1 } : TileCacheManager).neverFails := hmgr
    obtain ⟨tiles, h1, h2, h3⟩ := ih (j + 1) { mgr with count := mgr.count + 1 }
      (row ++ [⟨mgr.tileWidth, mgr.tileHeight,
        (if j = countWidth - 1 then (width : Int) - (i : Int) * (mgr.tileWidth : Int)
          else (mgr.tileWidth : Int)), tile_height, true, fresh⟩]) hmgr1
    refine ⟨⟨mgr.tileWidth, mgr.tileHeight,
        (if j = countWidth - 1 then (width : Int) - (i : Int) * (mgr.tileWidth : Int)
          else (mgr.tileWidth : Int)), tile_height, true, fresh⟩ :: tiles, ?_, ?_, ?_⟩
    · simp only [CachedImage.createRow, TileCacheManager.requireNewCachedTile, hout]
      rw [h1]
      simp [Nat.add_assoc, Nat.add_comm 1 n]
    · simp [h2]
    · intro t ht
      rcases List.mem_cons.mp ht with h | h
      · subst h
        exact ⟨rfl, rfl, rfl, rfl⟩
      · exact h3 t h

theorem createRows_neverFails (fresh : Nat → α) (width height countHeight countWidth : Nat) :
    ∀ (n i : Nat) (mgr : TileCacheManager) (rows : List (List (CachedTile α))),
      mgr.neverFails →
      ∃ newRows : List (List (CachedTile α)),
        CachedImage.createRows fresh width height countHeight countWidth n i mgr rows =
          (true, rows ++ newRows, { mgr with count := mgr.count + n * countWidth }) ∧
        newRows.length = n ∧
        ∀ row ∈ newRows, row.length = countWidth ∧
          ∀ t ∈ row, t.tileWidth = mgr.tileWidth ∧ t.tileHeight = mgr.tileHeight ∧
            t.acquirable = true ∧ t.data = fresh := by
  intro n
  induction n with
  | zero =>
    intro i mgr rows _
    exact ⟨[], by simp [CachedImage.createRows], rfl, by simp⟩
  | succ n ih =>
    intro i mgr rows hmgr
    obtain ⟨tiles, h1, h2, h3⟩ := createRow_neverFails fresh width i countWidth
      (if i = countHeight - 1 then (height : Int) - (i : Int) * (mgr.tileHeight : Int)
        else (mgr.tileHeight : Int)) countWidth 0 mgr [] hmgr
    have hmgr1 : ({ mgr with count := mgr.count + countWidth } : TileCacheManager).neverFails :=
      hmgr
    obtain ⟨newRows, g1, g2, g3⟩ := ih (i + 1) { mgr with count := mgr.count + countWidth }
      (rows ++ [tiles]) hmgr1
    refine ⟨tiles :: newRows, ?_, ?_, ?_⟩
    · simp only [CachedImage.createRows]
      rw [h1]
      simp only [List.nil_append]
      rw [g1]
      simp [Nat.add_assoc, Nat.add_mul, Nat.add_comm countWidth]
    · simp [g2]
    · intro row hrow
      rcases List.mem_cons.mp hrow with h | h
      · subst h
        exact ⟨h2, h3⟩
      · exact g3 row h

/-- What `createImage` yields on a manager that never fails. -/
theorem createImage_neverFails (mgr : TileCacheManager) (fresh : Nat → α) (width height : Nat)
    (hmgr : mgr.neverFails) :
    (CachedImage.createImage mgr fresh width height).1 = true ∧
    (CachedImage.createImage mgr fresh width height).2.1.width = width ∧
    (CachedImage.createImage mgr fresh width height).2.1.height = height ∧
    (CachedImage.createImage mgr fresh width height).2.1.fullGrid mgr.tileWidth mgr.tileHeight ∧
    (CachedImage.createImage mgr fresh width height).2.2.neverFails ∧
    (CachedImage.createImage mgr fresh width height).2.2.tileWidth = mgr.tileWidth ∧
    (CachedImage.createImage mgr fresh width height).2.2.tileHeight = mgr.tileHeight := by
  obtain ⟨newRows, g1, g2, g3⟩ := createRows_neverFails fresh width height
    (ceilDiv height mgr.tileHeight) (ceilDiv width mgr.tileWidth)
    (ceilDiv height mgr.tileHeight) 0 mgr [] hmgr
  simp only [CachedImage.createImage, g1, List.nil_append, CachedImage.fullGrid]
  refine ⟨trivial, trivial, trivial, ⟨trivial, g2, ?_⟩, hmgr, trivial, trivial⟩
  intro row hrow
  exact ⟨(g3 row hrow).1, fun t ht => ⟨((g3 row hrow).2 t ht).1, ((g3 row hrow).2 t ht).2.1,
    ((g3 row hrow).2 t ht).2.2.1⟩⟩

end Create

section FullGrid

variable {α : Type}

theorem CachedImage.tile?_eq_some (img : CachedImage α) (i j : Nat) (t : CachedTile α) :
    img.tile? i j = some t ↔ ∃ row, img.tilesArray[i]? = some row ∧ row[j]? = some t := by
  unfold CachedImage.tile?
  cases img.tilesArray[i]? with
  | none => simp
  | some row => simp

theorem CachedImage.fullGrid_of_tile (img : CachedImage α) (tw th i j : Nat) (t : CachedTile α)
    (h : img.fullGrid tw th) (ht : img.tile? i j = some t) :
    t.tileWidth = tw ∧ t.tileHeight = th ∧ t.acquirable = true ∧
      i < ceilDiv img.height th ∧ j < ceilDiv img.width tw := by
  obtain ⟨row, hrow, hj⟩ := (img.tile?_eq_some i j t).mp ht
  obtain ⟨_, hlen, hrows⟩ := h
  have hmem : row ∈ img.tilesArray := List.getElem?_mem hrow
  have hi : i < img.tilesArray.length := (List.getElem?_eq_some.mp hrow).1
  have hjl : j < row.length := (List.getElem?_eq_some.mp hj).1
  have htm : t ∈ row := List.getElem?_mem hj
  obtain ⟨hrl, htiles⟩ := hrows row hmem
  obtain ⟨h1, h2, h3⟩ := htiles t htm
  exact ⟨h1, h2, h3, hlen ▸ hi, hrl ▸ hjl⟩

theorem CachedImage.fullGrid_tile_exists (img : CachedImage α) (tw th i j : Nat)
    (h : img.fullGrid tw th) (hi : i < ceilDiv img.height th) (hj : j < ceilDiv img.width tw) :
    ∃ t, img.tile? i j = some t := by
  obtain ⟨_, hlen, hrows⟩ := h
  have hi1 : i < img.tilesArray.length := hlen ▸ hi
  have hmem : img.tilesArray[i] ∈ img.tilesArray := List.getElem_mem _
  have hj1 : j < (img.tilesArray[i]).length := (hrows _ hmem).1 ▸ hj
  refine ⟨(img.tilesArray[i])[j], ?_⟩
  rw [CachedImage.tile?_eq_some]
  exact ⟨img.tilesArray[i], List.getElem?_eq_getElem hi1, List.getElem?_eq_getElem hj1⟩

theorem CachedImage.tile?_shape (img : CachedImage α) (i j : Nat) :
    img.shape.tile? i j = (img.tile? i j).map CachedTile.shape := by
  unfold CachedImage.tile? CachedImage.shape
  simp only [List.getElem?_map]
  cases img.tilesArray[i]? with
  | none => rfl
  | some row => simp

theorem CachedImage.fullGrid_shape (img : CachedImage α) (tw th : Nat) :
    img.shape.fullGrid tw th ↔ img.fullGrid tw th := by
  unfold CachedImage.fullGrid CachedImage.shape
  simp only [List.length_map, List.mem_map, forall_exists_index, and_imp,
    forall_apply_eq_imp_iff₂, CachedTile.shape]

theorem CachedImage.shape_mapTiles (img : CachedImage α)
    (f : Nat → Nat → CachedTile α → CachedTile α)
    (hf : ∀ i j t, (f i j t).shape = t.shape) : (img.mapTiles f).shape = img.shape := by
  unfold CachedImage.shape CachedImage.mapTiles
  simp only
  congr 1
  apply List.ext_getElem?
  intro i
  simp only [List.getElem?_map, List.getElem?_mapIdx]
  cases img.tilesArray[i]? with
  | none => rfl
  | some row =>
    simp only [Option.map_some', Option.some.injEq]
    apply List.ext_getElem?
    intro j
    simp only [List.getElem?_map, List.getElem?_mapIdx]
    cases row[j]? with
    | none => rfl
    | some t => simp [hf]

theorem CachedImage.fullGrid_congr {β : Type} (img : CachedImage α) (img1 : CachedImage β)
    (tw th : Nat) (h : img1.shape = img.shape) (hg : img.fullGrid tw th) :
    img1.fullGrid tw th := by
  rw [← CachedImage.fullGrid_shape, h, CachedImage.fullGrid_shape]
  exact hg

theorem CachedImage.shape_width {β : Type} (img : CachedImage α) (img1 : CachedImage β)
    (h : img1.shape = img.shape) : img1.width = img.width :=
  congrArg CachedImage.width h

theorem CachedImage.shape_height {β : Type} (img : CachedImage α) (img1 : CachedImage β)
    (h : img1.shape = img.shape) : img1.height = img.height :=
  congrArg CachedImage.height h

theorem CachedImage.shape_tileSize {β : Type} (img : CachedImage α) (img1 : CachedImage β)
    (h : img1.shape = img.shape) : img1.tileSize = img.tileSize :=
  congrArg CachedImage.tileSize h

theorem CachedTile.shape_fill_tile (t : CachedTile α) (v : α) : (t.fill v).shape = t.shape := by
  unfold CachedTile.fill
  split <;> rfl

theorem CachedImage.shape_fill (img : CachedImage α) (v : α) : (img.fill v).2.shape = img.shape :=
  CachedImage.shape_mapTiles img _ (fun _ _ t => CachedTile.shape_fill_tile t v)

theorem CachedImage.fill_tile (img : CachedImage α) (v : α) (tw th i j : Nat)
    (t : CachedTile α) (h : img.fullGrid tw th) (ht : (img.fill v).2.tile? i j = some t)
    (k : Nat) (hk : k < tw * th) : t.data k = v := by
  unfold CachedImage.fill at ht
  simp only [CachedImage.tile?_mapTiles] at ht
  cases h0 : img.tile? i j with
  | none => simp [h0] at ht
  | some t0 =>
    simp only [h0, Option.map_some', Option.some.injEq] at ht
    obtain ⟨h1, h2, h3, _, _⟩ := img.fullGrid_of_tile tw th i j t0 h h0
    subst ht
    simp [CachedTile.fill, h1, h2, h3, hk]

end FullGrid

/-! ## `initialize` -/

theorem initializeLoop_neverFails (fc : Nat → RGBfColor) (fw : Nat → ℚ) :
    ∀ (n width height : Nat) (p : LaplacianPyramid) (mgr : TileCacheManager), mgr.neverFails →
      ∃ (cs : List (CachedImage RGBfColor)) (ws : List (CachedImage ℚ))
        (mgr1 : TileCacheManager),
        LaplacianPyramid.initializeLoop fc fw n width height p mgr =
          (true, { p with levels := p.levels ++ cs, weights := p.weights ++ ws }, mgr1) ∧
        cs.length = n ∧ ws.length = n ∧ mgr1.neverFails ∧
        mgr1.tileWidth = mgr.tileWidth ∧ mgr1.tileHeight = mgr.tileHeight ∧
        (∀ l c, cs[l]? = some c →
          c.width = width / 2 ^ l ∧ c.height = height / 2 ^ l ∧
          c.fullGrid mgr.tileWidth mgr.tileHeight ∧
          ∀ i j t, c.tile? i j = some t →
            ∀ k, k < mgr.tileWidth * mgr.tileHeight → t.data k = ⟨0, 0, 0⟩) ∧
        (∀ l w, ws[l]? = some w →
          w.width = width / 2 ^ l ∧ w.height = height / 2 ^ l ∧
          w.fullGrid mgr.tileWidth mgr.tileHeight ∧
          ∀ i j t, w.tile? i j = some t →
            ∀ k, k < mgr.tileWidth * mgr.tileHeight → t.data k = 0) := by
  intro n
  induction n with
  | zero =>
    intro width height p mgr hmgr
    exact ⟨[], [], mgr, by simp [LaplacianPyramid.initializeLoop], rfl, rfl, hmgr, rfl, rfl,
      by simp, by simp⟩
  | succ n ih =>
    intro width height p mgr hmgr
    obtain ⟨c1, c2, c3, c4, c5, c6, c7⟩ := createImage_neverFails mgr fc width height hmgr
    obtain ⟨w1, w2, w3, w4, w5, w6, w7⟩ :=
      createImage_neverFails (CachedImage.createImage mgr fc width height).2.2 fw width height c5
    rw [c6, c7] at w4
    obtain ⟨cs, ws, mgr1, h1, h2, h3, h4, h5, h6, h7, h8⟩ :=
      ih (width / 2) (height / 2)
        { p with
          levels := p.levels ++ [((CachedImage.createImage mgr fc width height).2.1.fill
            (⟨0, 0, 0⟩ : RGBfColor)).2],
          weights := p.weights ++
            [((CachedImage.createImage (CachedImage.createImage mgr fc width height).2.2 fw
              width height).2.1.fill (0 : ℚ)).2] }
        (CachedImage.createImage (CachedImage.createImage mgr fc width height).2.2 fw
          width height).2.2 w5
    rw [w6, c6] at h5
    rw [w7, c7] at h6
    rw [w6, w7, c6, c7] at h7 h8
    refine ⟨((CachedImage.createImage mgr fc width height).2.1.fill
        (⟨0, 0, 0⟩ : RGBfColor)).2 :: cs,
      ((CachedImage.createImage (CachedImage.createImage mgr fc width height).2.2 fw
        width height).2.1.fill (0 : ℚ)).2 :: ws, mgr1, ?_, by simp [h2], by simp [h3], h4, h5,
      h6, ?_, ?_⟩
    · simp only [LaplacianPyramid.initializeLoop, c1, w1, CachedImage.fill]
      simp only [CachedImage.fill] at h1
      simp only [Bool.true_eq_false, if_false]
      rw [h1]
      simp [List.append_assoc]
    · intro l c hc
      cases l with
      | zero =>
        simp only [List.getElem?_cons_zero, Option.some.injEq] at hc
        subst hc
        refine ⟨by simpa using c2, by simpa using c3, ?_, ?_⟩
        · exact CachedImage.fullGrid_congr _ _ _ _ (CachedImage.shape_fill _ _) c4
        · intro i j t ht k hk
          exact CachedImage.fill_tile _ _ _ _ i j t c4 ht k hk
      | succ l =>
        simp only [List.getElem?_cons_succ] at hc
        obtain ⟨g1, g2, g3, g4⟩ := h7 l c hc
        refine ⟨?_, ?_, g3, g4⟩
        · rw [g1, Nat.div_div_eq_div_mul, pow_succ, Nat.mul_comm]
        · rw [g2, Nat.div_div_eq_div_mul, pow_succ, Nat.mul_comm]
    · intro l w hw
      cases l with
      | zero =>
        simp only [List.getElem?_cons_zero, Option.some.injEq] at hw
        subst hw
        refine ⟨by simpa using w2, by simpa using w3, ?_, ?_⟩
        · exact CachedImage.fullGrid_congr _ _ _ _ (CachedImage.shape_fill _ _) w4
        · intro i j t ht k hk
          exact CachedImage.fill_tile _ _ _ _ i j t w4 ht k hk
      | succ l =>
        simp only [List.getElem?_cons_succ] at hw
        obtain ⟨g1, g2, g3, g4⟩ := h8 l w hw
        refine ⟨?_, ?_, g3, g4⟩
        · rw [g1, Nat.div_div_eq_div_mul, pow_succ, Nat.mul_comm]
        · rw [g2, Nat.div_div_eq_div_mul, pow_succ, Nat.mul_comm]

/-- What `initialize` leaves on a manager that never fails, in the form used below. -/
theorem initialize_neverFails (W H L : Nat) (mgr : TileCacheManager) (fc : Nat → RGBfColor)
    (fw : Nat → ℚ) (hmgr : mgr.neverFails) :
    ∃ (cs : List (CachedImage RGBfColor)) (ws : List (CachedImage ℚ))
      (mgr1 : TileCacheManager),
      LaplacianPyramid.initialize (LaplacianPyramid.new W H L) mgr fc fw = (true, ⟨W, H, L, cs, ws⟩, mgr1) ∧
      cs.length = L ∧ ws.length = L ∧ mgr1.neverFails ∧
      mgr1.tileWidth = mgr.tileWidth ∧ mgr1.tileHeight = mgr.tileHeight ∧
      (∀ l c, cs[l]? = some c →
        c.width = W / 2 ^ l ∧ c.height = H / 2 ^ l ∧
        c.fullGrid mgr.tileWidth mgr.tileHeight ∧
        ∀ i j t, c.tile? i j = some t →
          ∀ k, k < mgr.tileWidth * mgr.tileHeight → t.data k = ⟨0, 0, 0⟩) ∧
      (∀ l w, ws[l]? = some w →
        w.width = W / 2 ^ l ∧ w.height = H / 2 ^ l ∧
        w.fullGrid mgr.tileWidth mgr.tileHeight ∧
        ∀ i j t, w.tile? i j = some t →
          ∀ k, k < mgr.tileWidth * mgr.tileHeight → t.data k = 0) := by
  obtain ⟨cs, ws, mgr1, h1, h⟩ :=
    initializeLoop_neverFails fc fw L W H (LaplacianPyramid.new W H L) mgr hmgr
  refine ⟨cs, ws, mgr1, ?_, h⟩
  simp only [ LaplacianPyramid.initialize, LaplacianPyramid.new] at h1 ⊢
  rw [h1]
  simp

/-- C4: when every tile allocation and acquisition succeeds, `initialize` returns `true`
and leaves exactly `L` colour levels and `L` weight levels; level `l` has dimensions
`W / 2 ^ l` by `H / 2 ^ l`, a tile for each of its blocks, and every element of every one
of its tiles is `(0, 0, 0)` for the colours and `0` for the weights. -/
theorem initialize_levels_zeroed (W H L : Nat) (mgr : TileCacheManager)
    (freshColor : Nat → RGBfColor) (freshWeight : Nat → ℚ) (hmgr : mgr.neverFails) :
    ( LaplacianPyramid.initialize (LaplacianPyramid.new W H L) mgr freshColor freshWeight).1 = true ∧
    ( LaplacianPyramid.initialize (LaplacianPyramid.new W H L) mgr freshColor freshWeight).2.1.levels.length = L ∧
    ( LaplacianPyramid.initialize (LaplacianPyramid.new W H L) mgr freshColor freshWeight).2.1.weights.length = L ∧
    ∀ l, l < L → ∃ (c : CachedImage RGBfColor) (w : CachedImage ℚ),
      ( LaplacianPyramid.initialize (LaplacianPyramid.new W H L) mgr freshColor freshWeight).2.1.levels[l]? =
        some c ∧
      ( LaplacianPyramid.initialize (LaplacianPyramid.new W H L) mgr freshColor freshWeight).2.1.weights[l]? =
        some w ∧
      c.width = W / 2 ^ l ∧ c.height = H / 2 ^ l ∧ w.width = W / 2 ^ l ∧ w.height = H / 2 ^ l ∧
      c.fullGrid mgr.tileWidth mgr.tileHeight ∧ w.fullGrid mgr.tileWidth mgr.tileHeight ∧
      (∀ i j t, c.tile? i j = some t →
        ∀ k, k < mgr.tileWidth * mgr.tileHeight → t.data k = ⟨0, 0, 0⟩) ∧
      (∀ i j t, w.tile? i j = some t →
        ∀ k, k < mgr.tileWidth * mgr.tileHeight → t.data k = 0) := by
  obtain ⟨cs, ws, mgr1, h1, h2, h3, _, _, _, h7, h8⟩ :=
    initialize_neverFails W H L mgr freshColor freshWeight hmgr
  rw [h1]
  refine ⟨rfl, h2, h3, ?_⟩
  intro l hl
  have hc : cs[l]? = some cs[l] := List.getElem?_eq_getElem (h2 ▸ hl)
  have hw : ws[l]? = some ws[l] := List.getElem?_eq_getElem (h3 ▸ hl)
  obtain ⟨a1, a2, a3, a4⟩ := h7 l _ hc
  obtain ⟨b1, b2, b3, b4⟩ := h8 l _ hw
  exact ⟨cs[l], ws[l], hc, hw, a1, a2, b1, b2, a3, b3, a4, b4⟩

/-- C4 (witness): a panorama of 5 by 3 pixels with 3 levels on tiles of 2 by 2. -/
theorem initialize_levels_zeroed_witness :
    ( LaplacianPyramid.initialize (LaplacianPyramid.new 5 3 3) (plainManager 2) (fun _ => ⟨7, 7, 7⟩)
      (fun _ => 7)).1 = true ∧
    ( LaplacianPyramid.initialize (LaplacianPyramid.new 5 3 3) (plainManager 2) (fun _ => ⟨7, 7, 7⟩)
      (fun _ => 7)).2.1.levels.length = 3 :=
  ⟨(initialize_levels_zeroed 5 3 3 (plainManager 2) (fun _ => ⟨7, 7, 7⟩) (fun _ => 7)
      (fun _ => rfl)).1,
    (initialize_levels_zeroed 5 3 3 (plainManager 2) (fun _ => ⟨7, 7, 7⟩) (fun _ => 7)
      (fun _ => rfl)).2.1⟩

/-! ## Pixels and tile elements -/

section Pixels

variable {α : Type}

theorem elem_row (ts ti k : Nat) (hk : k < ts * ts) : (ti * ts + k / ts) / ts = ti := by
  have hts : 0 < ts := by
    rcases Nat.eq_zero_or_pos ts with h | h
    · subst h
      simp at hk
    · exact h
  have h1 : k / ts < ts := Nat.div_lt_of_lt_mul hk
  rw [Nat.add_comm, Nat.add_mul_div_right _ _ hts, Nat.div_eq_of_lt h1, Nat.zero_add]

theorem elem_row_mod (ts ti k : Nat) (hk : k < ts * ts) : (ti * ts + k / ts) % ts = k / ts := by
  have h1 : k / ts < ts := Nat.div_lt_of_lt_mul hk
  rw [Nat.add_comm, Nat.add_mul_mod_self_right, Nat.mod_eq_of_lt h1]

theorem elem_col (ts tj k : Nat) (hk : k < ts * ts) : (tj * ts + k % ts) / ts = tj := by
  have hts : 0 < ts := by
    rcases Nat.eq_zero_or_pos ts with h | h
    · subst h
      simp at hk
    · exact h
  have h1 : k % ts < ts := Nat.mod_lt _ hts
  rw [Nat.add_comm, Nat.add_mul_div_right _ _ hts, Nat.div_eq_of_lt h1, Nat.zero_add]

theorem elem_col_mod (ts tj k : Nat) : (tj * ts + k % ts) % ts = k % ts := by
  rw [Nat.add_comm, Nat.add_mul_mod_self_right, Nat.mod_mod]

theorem elem_index (ts k : Nat) : k / ts * ts + k % ts = k := by
  rw [Nat.mul_comm]
  exact Nat.div_add_mod k ts

/-- Element `k` of the tile `(ti, tj)` is the pixel of row `ti * ts + k / ts` and column
`tj * ts + k % ts`. -/
theorem CachedImage.getPixel_elem (img : CachedImage α) (ti tj k : Nat) (t : CachedTile α)
    (d : α) (ht : img.tile? ti tj = some t) (hk : k < img.tileSize * img.tileSize) :
    img.getPixel (ti * img.tileSize + k / img.tileSize) (tj * img.tileSize + k % img.tileSize) d
      = t.data k := by
  unfold CachedImage.getPixel
  rw [elem_row _ _ _ hk, elem_col _ _ _ hk, ht, elem_row_mod _ _ _ hk, elem_col_mod, elem_index]

/-- Pixel `(y, x)` is element `(y % ts) * ts + x % ts` of the tile `(y / ts, x / ts)`. -/
theorem pixel_elem (ts y x : Nat) (hts : 0 < ts) :
    (y % ts) * ts + x % ts < ts * ts ∧
    (y / ts) * ts + ((y % ts) * ts + x % ts) / ts = y ∧
    (x / ts) * ts + ((y % ts) * ts + x % ts) % ts = x := by
  have hy : y % ts < ts := Nat.mod_lt _ hts
  have hx : x % ts < ts := Nat.mod_lt _ hts
  have h1 : ((y % ts) * ts + x % ts) / ts = y % ts := by
    rw [Nat.add_comm, Nat.add_mul_div_right _ _ hts, Nat.div_eq_of_lt hx, Nat.zero_add]
  have h2 : ((y % ts) * ts + x % ts) % ts = x % ts := by
    rw [Nat.add_comm, Nat.add_mul_mod_self_right, Nat.mod_eq_of_lt hx]
  refine ⟨?_, ?_, ?_⟩
  · calc (y % ts) * ts + x % ts < (y % ts) * ts + ts := by omega
      _ = (y % ts + 1) * ts := by ring
      _ ≤ ts * ts := Nat.mul_le_mul_right _ hy
  · rw [h1, Nat.mul_comm]
    exact Nat.div_add_mod y ts
  · rw [h2, Nat.mul_comm]
    exact Nat.div_add_mod x ts

theorem CachedImage.pixelOk_shape (img : CachedImage α) (y x : Nat) :
    img.shape.pixelOk y x = img.pixelOk y x := by
  unfold CachedImage.pixelOk
  rw [CachedImage.tile?_shape]
  have h : img.shape.tileSize = img.tileSize := rfl
  rw [h]
  cases img.tile? (y / img.tileSize) (x / img.tileSize) <;> rfl

theorem CachedImage.regionOk_shape (img : CachedImage α) (bb : BoundingBox) :
    img.shape.regionOk bb ↔ img.regionOk bb := by
  unfold CachedImage.regionOk
  simp only [CachedImage.pixelOk_shape]
  have h1 : img.shape.height = img.height := rfl
  have h2 : img.shape.width = img.width := rfl
  rw [h1, h2]

theorem CachedImage.regionOk_congr {β : Type} (img : CachedImage α) (img1 : CachedImage β)
    (bb : BoundingBox) (h : img1.shape = img.shape) : img1.regionOk bb ↔ img.regionOk bb := by
  rw [← CachedImage.regionOk_shape, h, CachedImage.regionOk_shape]

theorem CachedImage.getPixel_mapTiles (img : CachedImage α)
    (f : Nat → Nat → CachedTile α → CachedTile α) (y x : Nat) (d : α) :
    (img.mapTiles f).getPixel y x d =
      match img.tile? (y / img.tileSize) (x / img.tileSize) with
      | some t => (f (y / img.tileSize) (x / img.tileSize) t).data
          ((y % img.tileSize) * img.tileSize + x % img.tileSize)
      | none => d := by
  unfold CachedImage.getPixel
  rw [CachedImage.tile?_mapTiles]
  simp only [CachedImage.mapTiles_tileSize]
  cases img.tile? (y / img.tileSize) (x / img.tileSize) <;> rfl

end Pixels

/-! ## The wrap of columns -/

theorem wrapIndex_lt (W : Nat) (c : Int) (hW : 0 < W) : wrapIndex W c < W := by
  unfold wrapIndex
  have h1 : 0 ≤ c % (W : Int) := Int.emod_nonneg _ (by omega)
  have h2 : c % (W : Int) < (W : Int) := Int.emod_lt_of_pos _ (by omega)
  omega

theorem wrapIndex_add_width (W : Nat) (c : Int) : wrapIndex W (c + (W : Int)) = wrapIndex W c := by
  unfold wrapIndex
  rw [Int.add_emod_self]

theorem wrapIndex_of_lt (W : Nat) (c : Nat) (hc : c < W) : wrapIndex W (c : Int) = c := by
  unfold wrapIndex
  rw [Int.emod_eq_of_lt (by omega) (by omega)]
  simp

theorem wrapIndex_inj (W : Nat) (left : Int) (j1 j2 : Nat) (h1 : j1 < W) (h2 : j2 < W)
    (h : wrapIndex W (left + (j1 : Int)) = wrapIndex W (left + (j2 : Int))) : j1 = j2 := by
  unfold wrapIndex at h
  have hW : (0 : Int) < (W : Int) := by omega
  have a1 : 0 ≤ (left + (j1 : Int)) % (W : Int) := Int.emod_nonneg _ (by omega)
  have a2 : 0 ≤ (left + (j2 : Int)) % (W : Int) := Int.emod_nonneg _ (by omega)
  have h3 : (left + (j1 : Int)) % (W : Int) = (left + (j2 : Int)) % (W : Int) := by omega
  have h4 : ((left + (j1 : Int)) - (left + (j2 : Int))) % (W : Int) = 0 :=
    Int.emod_eq_emod_iff_emod_sub_eq_zero.mp h3
  have h5 : ((j1 : Int) - (j2 : Int)) % (W : Int) = 0 := by
    have : (left + (j1 : Int)) - (left + (j2 : Int)) = (j1 : Int) - (j2 : Int) := by ring
    rw [this] at h4
    exact h4
  obtain ⟨q, hq⟩ := Int.dvd_of_emod_eq_zero h5
  have hq0 : q = 0 := by
    by_contra hne
    rcases lt_or_gt_of_ne hne with hlt | hgt
    · have : q ≤ -1 := by omega
      have : (W : Int) * q ≤ (W : Int) * (-1) := Int.mul_le_mul_of_nonneg_left this (by omega)
      omega
    · have : 1 ≤ q := by omega
      have : (W : Int) * 1 ≤ (W : Int) * q := Int.mul_le_mul_of_nonneg_left this (by omega)
      omega
  subst hq0
  omega

theorem lastSource_some (W : Nat) (left width : Int) (x j : Nat)
    (h : lastSource W left width x = some j) :
    j < width.toNat ∧ wrapIndex W (left + (j : Int)) = x := by
  unfold lastSource at h
  have h1 := List.find?_some h
  have h2 := List.mem_of_find?_eq_some h
  simp only [List.mem_reverse, List.mem_range] at h2
  exact ⟨h2, of_decide_eq_true h1⟩

theorem lastSource_none (W : Nat) (left width : Int) (x : Nat)
    (h : lastSource W left width x = none) (j : Nat) (hj : j < width.toNat) :
    wrapIndex W (left + (j : Int)) ≠ x := by
  unfold lastSource at h
  rw [List.find?_eq_none] at h
  have := h j (by simp [hj])
  simpa using this

theorem lastSource_of_narrow (W : Nat) (left width : Int) (j : Nat) (hw : width.toNat ≤ W)
    (hj : j < width.toNat) : lastSource W left width (wrapIndex W (left + (j : Int))) = some j := by
  cases h : lastSource W left width (wrapIndex W (left + (j : Int))) with
  | none => exact absurd rfl (lastSource_none W left width _ h j hj)
  | some j1 =>
    obtain ⟨h1, h2⟩ := lastSource_some W left width _ j1 h
    rw [wrapIndex_inj W left j1 j (by omega) (by omega) h2]

theorem lastSource_add_width (W : Nat) (left width : Int) (x : Nat) :
    lastSource W (left + (W : Int)) width x = lastSource W left width x := by
  unfold lastSource
  congr 1
  funext j
  have : left + (W : Int) + (j : Int) = left + (j : Int) + (W : Int) := by ring
  rw [this, wrapIndex_add_width]

/-! ## Extract, add, assign -/

theorem CachedTile.shape_addDelta {α : Type} [Add α] (t : CachedTile α) (δ : Nat → α) :
    (t.addDelta δ).shape = t.shape := rfl

theorem CachedTile.data_ext {α : Type} (t : CachedTile α) (f g : Nat → α) (h : ∀ k, f k = g k) :
    ({ t with data := f } : CachedTile α) = { t with data := g } := by
  have : f = g := funext h
  rw [this]

/-- An assign of a buffer that holds the extracted pixels plus `g` adds `g` to the
elements it writes. -/
theorem assignTile_extract_add {α : Type} [AddCommGroup α] (img : CachedImage α)
    (input : Image α) (outBb inBb : BoundingBox) (g : Nat → Nat → α) (d0 : α) (ti tj : Nat)
    (t : CachedTile α) (ht : img.tile? ti tj = some t)
    (hin : ∀ y j : Nat, y < img.height → outBb.top ≤ (y : Int) →
      (y : Int) < outBb.top + outBb.height → j < outBb.width.toNat →
      input.data (inBb.top + ((y : Int) - outBb.top)).toNat (inBb.left + (j : Int)).toNat =
        img.getPixel y (wrapIndex img.width (outBb.left + (j : Int))) d0 +
          g ((y : Int) - outBb.top).toNat j) :
    img.assignTile input outBb inBb ti tj t =
      t.addDelta (regionDelta img.tileSize img.width img.height outBb g ti tj) := by
  unfold CachedImage.assignTile CachedTile.addDelta regionDelta
  apply CachedTile.data_ext
  intro k
  simp only
  by_cases hc : k < img.tileSize * img.tileSize ∧ tj * img.tileSize + k % img.tileSize < img.width ∧
      ti * img.tileSize + k / img.tileSize < img.height ∧
      outBb.top ≤ ((ti * img.tileSize + k / img.tileSize : Nat) : Int) ∧
      ((ti * img.tileSize + k / img.tileSize : Nat) : Int) < outBb.top + outBb.height
  · rw [if_pos hc, if_pos hc]
    unfold sourceValue
    cases hs : lastSource img.width outBb.left outBb.width (tj * img.tileSize + k % img.tileSize) with
    | none => simp
    | some j =>
      obtain ⟨hj, hx⟩ := lastSource_some _ _ _ _ _ hs
      simp only
      rw [hin _ j hc.2.2.1 hc.2.2.2.1 hc.2.2.2.2 hj, hx, img.getPixel_elem ti tj k t d0 ht hc.1]
  · rw [if_neg hc, if_neg hc]
    simp

theorem extract_fst {α : Type} (dest : Image α) (src : CachedImage α) (bb : BoundingBox)
    (hw : (dest.width : Int) = bb.width) (hh : (dest.height : Int) = bb.height) :
    (loopyCachedImageExtract dest src bb).1 = decide (src.regionOk bb) := by
  unfold loopyCachedImageExtract
  by_cases h : src.regionOk bb
  · rw [if_pos ⟨hw, hh, h⟩]
    simp [h]
  · rw [if_neg (fun hh => h hh.2.2)]
    simp [h]

theorem extract_data {α : Type} (dest : Image α) (src : CachedImage α) (bb : BoundingBox)
    (h : (loopyCachedImageExtract dest src bb).1 = true) (i j : Nat)
    (h1 : 0 ≤ bb.top + (i : Int)) (h2 : bb.top + (i : Int) < (src.height : Int)) :
    (loopyCachedImageExtract dest src bb).2.data i j =
      src.getPixel (bb.top + (i : Int)).toNat (wrapIndex src.width (bb.left + (j : Int)))
        (dest.data i j) := by
  unfold loopyCachedImageExtract at h ⊢
  split at h
  next hc =>
    rw [if_pos hc]
    simp only
    rw [if_pos ⟨h1, h2⟩]
  next hc => simp at h

theorem extract_dims {α : Type} (dest : Image α) (src : CachedImage α) (bb : BoundingBox) :
    (loopyCachedImageExtract dest src bb).2.width = dest.width ∧
    (loopyCachedImageExtract dest src bb).2.height = dest.height := by
  unfold loopyCachedImageExtract
  split <;> exact ⟨rfl, rfl⟩

theorem assign_eq {α : Type} (output : CachedImage α) (input : Image α)
    (outputBb inputBb : BoundingBox) (hw : inputBb.width = outputBb.width)
    (hh : inputBb.height = outputBb.height) (h : output.regionOk outputBb) :
    loopyCachedImageAssign output input outputBb inputBb =
      (true, output.mapTiles (fun ti tj t => output.assignTile input outputBb inputBb ti tj t)) := by
  unfold loopyCachedImageAssign
  rw [if_pos ⟨hw, hh, h⟩]

/-- A pixel that `regionOk` covers has a tile. -/
theorem CachedImage.getPixel_default {α : Type} (img : CachedImage α) (y x : Nat) (d1 d2 : α)
    (h : img.pixelOk y x = true) : img.getPixel y x d1 = img.getPixel y x d2 := by
  unfold CachedImage.pixelOk at h
  unfold CachedImage.getPixel
  cases ht : img.tile? (y / img.tileSize) (x / img.tileSize) with
  | none => simp [ht] at h
  | some t => rfl

/-! ## `merge` as an additive update -/

theorem merge_fail (p : LaplacianPyramid) (oimg : Image RGBfColor) (oweight : Image ℚ)
    (l ox oy : Nat) (img : CachedImage RGBfColor) (w : CachedImage ℚ)
    (hc : p.levels[l]? = some img) (hw : p.weights[l]? = some w)
    (h : ¬ (img.regionOk (mergeBb ox oy oimg) ∧ w.regionOk (mergeBb ox oy oimg))) :
    p.merge oimg oweight l ox oy = (false, p) := by
  unfold LaplacianPyramid.merge
  simp only [hc, hw]
  have e1 : (loopyCachedImageExtract (Image.alloc oimg.width oimg.height) img
      ⟨ox, oy, oimg.width, oimg.height⟩).1 = decide (img.regionOk (mergeBb ox oy oimg)) :=
    extract_fst _ _ _ rfl rfl
  have e2 : (loopyCachedImageExtract (Image.alloc oimg.width oimg.height) w
      ⟨ox, oy, oimg.width, oimg.height⟩).1 = decide (w.regionOk (mergeBb ox oy oimg)) :=
    extract_fst _ _ _ rfl rfl
  by_cases h1 : img.regionOk (mergeBb ox oy oimg)
  · have h2 : ¬ w.regionOk (mergeBb ox oy oimg) := fun h2 => h ⟨h1, h2⟩
    have e1t : (loopyCachedImageExtract (Image.alloc oimg.width oimg.height) img
        ⟨ox, oy, oimg.width, oimg.height⟩).1 = true := by simp [e1, h1]
    have e2f : (loopyCachedImageExtract (Image.alloc oimg.width oimg.height) w
        ⟨ox, oy, oimg.width, oimg.height⟩).1 = false := by simp [e2, h2]
    rw [if_neg (by simp [e1t]), if_pos e2f]
  · have e1f : (loopyCachedImageExtract (Image.alloc oimg.width oimg.height) img
        ⟨ox, oy, oimg.width, oimg.height⟩).1 = false := by simp [e1, h1]
    rw [if_pos e1f]

theorem merge_ok (p : LaplacianPyramid) (oimg : Image RGBfColor) (oweight : Image ℚ)
    (l ox oy : Nat) (img : CachedImage RGBfColor) (w : CachedImage ℚ)
    (hc : p.levels[l]? = some img) (hw : p.weights[l]? = some w)
    (h1 : img.regionOk (mergeBb ox oy oimg)) (h2 : w.regionOk (mergeBb ox oy oimg)) :
    p.merge oimg oweight l ox oy =
      (true, { p with
        levels := p.levels.set l (mergedColor img (mergeBb ox oy oimg) oimg oweight),
        weights := p.weights.set l (mergedWeight w (mergeBb ox oy oimg) oweight) }) := by
  unfold LaplacianPyramid.merge
  simp only [hc, hw]
  have e1 : (loopyCachedImageExtract (Image.alloc oimg.width oimg.height) img
      ⟨ox, oy, oimg.width, oimg.height⟩).1 = decide (img.regionOk (mergeBb ox oy oimg)) :=
    extract_fst _ _ _ rfl rfl
  have e2 : (loopyCachedImageExtract (Image.alloc oimg.width oimg.height) w
      ⟨ox, oy, oimg.width, oimg.height⟩).1 = decide (w.regionOk (mergeBb ox oy oimg)) :=
    extract_fst _ _ _ rfl rfl
  have e1t : (loopyCachedImageExtract (Image.alloc oimg.width oimg.height) img
      ⟨ox, oy, oimg.width, oimg.height⟩).1 = true := by simp [e1, h1]
  have e2t : (loopyCachedImageExtract (Image.alloc oimg.width oimg.height) w
      ⟨ox, oy, oimg.width, oimg.height⟩).1 = true := by simp [e2, h2]
  rw [if_neg (by simp [e1t]), if_neg (by simp [e2t])]
  have d1 := extract_dims (Image.alloc oimg.width oimg.height : Image RGBfColor) img
    ⟨ox, oy, oimg.width, oimg.height⟩
  have h1a : img.regionOk ⟨ox, oy, oimg.width, oimg.height⟩ := h1
  have h2a : w.regionOk ⟨ox, oy, oimg.width, oimg.height⟩ := h2
  have dw : (mergeColor (loopyCachedImageExtract (Image.alloc oimg.width oimg.height) img
      ⟨ox, oy, oimg.width, oimg.height⟩).2 oimg oweight).width = oimg.width := d1.1
  have dh : (mergeColor (loopyCachedImageExtract (Image.alloc oimg.width oimg.height) img
      ⟨ox, oy, oimg.width, oimg.height⟩).2 oimg oweight).height = oimg.height := d1.2
  rw [assign_eq img _ _ _ (congrArg (fun n : Nat => (n : Int)) dw)
    (congrArg (fun n : Nat => (n : Int)) dh) h1a]
  rw [assign_eq w _ _ _ (congrArg (fun n : Nat => (n : Int)) dw)
    (congrArg (fun n : Nat => (n : Int)) dh) h2a]
  simp only [Bool.true_eq_false, if_false]
  have c1 : (img.mapTiles fun ti tj t =>
      img.assignTile (mergeColor (loopyCachedImageExtract
        (Image.alloc oimg.width oimg.height) img ⟨ox, oy, oimg.width, oimg.height⟩).2
        oimg oweight) ⟨ox, oy, oimg.width, oimg.height⟩
        ⟨0, 0, (mergeColor (loopyCachedImageExtract
          (Image.alloc oimg.width oimg.height) img ⟨ox, oy, oimg.width, oimg.height⟩).2
          oimg oweight).width, (mergeColor (loopyCachedImageExtract
          (Image.alloc oimg.width oimg.height) img ⟨ox, oy, oimg.width, oimg.height⟩).2
          oimg oweight).height⟩ ti tj t) =
      mergedColor img (mergeBb ox oy oimg) oimg oweight := by
    unfold mergedColor
    apply CachedImage.mapTiles_congr
    intro ti tj t ht
    apply assignTile_extract_add img _ _ _ _ default ti tj t ht
    intro y j hy ht1 ht2 hj
    simp only [mergeBb] at ht1 ht2 hj ⊢
    have hi : ((y : Int) - (oy : Int)).toNat < oimg.height := by omega
    have hj1 : j < oimg.width := by simpa using hj
    have hrow : (oy : Int) + (((y : Int) - (oy : Int)).toNat : Int) = (y : Int) := by omega
    simp only [mergeColor, zero_add, Int.toNat_ofNat, hi, hj1, and_self, if_true]
    rw [extract_data _ _ _ e1t _ _ (by simp only; omega) (by simp only; omega)]
    simp only [hrow, Int.toNat_ofNat, Image.alloc]
    ext <;> simp [weighted]
  have c2 : (w.mapTiles fun ti tj t =>
      w.assignTile (mergeWeight (loopyCachedImageExtract
        (Image.alloc oimg.width oimg.height) w ⟨ox, oy, oimg.width, oimg.height⟩).2
        oimg oweight) ⟨ox, oy, oimg.width, oimg.height⟩
        ⟨0, 0, (mergeColor (loopyCachedImageExtract
          (Image.alloc oimg.width oimg.height) img ⟨ox, oy, oimg.width, oimg.height⟩).2
          oimg oweight).width, (mergeColor (loopyCachedImageExtract
          (Image.alloc oimg.width oimg.height) img ⟨ox, oy, oimg.width, oimg.height⟩).2
          oimg oweight).height⟩ ti tj t) =
      mergedWeight w (mergeBb ox oy oimg) oweight := by
    unfold mergedWeight
    apply CachedImage.mapTiles_congr
    intro ti tj t ht
    apply assignTile_extract_add w _ _ _ _ default ti tj t ht
    intro y j hy ht1 ht2 hj
    simp only [mergeBb] at ht1 ht2 hj ⊢
    have hi : ((y : Int) - (oy : Int)).toNat < oimg.height := by omega
    have hj1 : j < oimg.width := by simpa using hj
    have hrow : (oy : Int) + (((y : Int) - (oy : Int)).toNat : Int) = (y : Int) := by omega
    simp only [mergeWeight, zero_add, Int.toNat_ofNat, hi, hj1, and_self, if_true]
    rw [extract_data _ _ _ e2t _ _ (by simp only; omega) (by simp only; omega)]
    simp only [hrow, Int.toNat_ofNat, Image.alloc]
  rw [c1, c2]

/-! ## `merge` in normal form -/

theorem set_eq_mapIdx {α : Type} (xs : List α) (l : Nat) (a : α) (f : α → α)
    (h : xs[l]? = some a) :
    xs.set l (f a) = xs.mapIdx (fun n x => if n = l then f x else x) := by
  apply List.ext_getElem?
  intro n
  rw [List.getElem?_set, List.getElem?_mapIdx]
  by_cases hn : l = n
  · subst hn
    have hl : l < xs.length := (List.getElem?_eq_some.mp h).1
    simp [h, hl]
  · have hn1 : ¬ n = l := fun e => hn e.symm
    rw [if_neg hn]
    cases xs[n]? <;> simp [hn1]

theorem merge_normal (p : LaplacianPyramid) (oimg : Image RGBfColor) (oweight : Image ℚ)
    (l ox oy : Nat) :
    p.merge oimg oweight l ox oy =
      if p.mergeSucceeds l (mergeBb ox oy oimg) then
        (true, p.merged oimg oweight l (mergeBb ox oy oimg))
      else (false, p) := by
  cases hc : p.levels[l]? with
  | none =>
    have hS : ¬ p.mergeSucceeds l (mergeBb ox oy oimg) := by
      simp [LaplacianPyramid.mergeSucceeds, hc]
    rw [if_neg hS]
    simp [LaplacianPyramid.merge, hc]
  | some img =>
    cases hw : p.weights[l]? with
    | none =>
      have hS : ¬ p.mergeSucceeds l (mergeBb ox oy oimg) := by
        simp [LaplacianPyramid.mergeSucceeds, hc, hw]
      rw [if_neg hS]
      simp [LaplacianPyramid.merge, hc, hw]
    | some w =>
      by_cases h : img.regionOk (mergeBb ox oy oimg) ∧ w.regionOk (mergeBb ox oy oimg)
      · have hS : p.mergeSucceeds l (mergeBb ox oy oimg) := by
          simp only [LaplacianPyramid.mergeSucceeds, hc, hw]
          exact h
        rw [if_pos hS, merge_ok p oimg oweight l ox oy img w hc hw h.1 h.2]
        unfold LaplacianPyramid.merged
        rw [set_eq_mapIdx p.levels l img (fun c => mergedColor c (mergeBb ox oy oimg) oimg oweight) hc,
          set_eq_mapIdx p.weights l w (fun c => mergedWeight c (mergeBb ox oy oimg) oweight) hw]
      · have hS : ¬ p.mergeSucceeds l (mergeBb ox oy oimg) := by
          simp only [LaplacianPyramid.mergeSucceeds, hc, hw]
          exact h
        rw [if_neg hS, merge_fail p oimg oweight l ox oy img w hc hw h]

theorem mergedColor_shape (img : CachedImage RGBfColor) (bb : BoundingBox)
    (oimg : Image RGBfColor) (oweight : Image ℚ) :
    (mergedColor img bb oimg oweight).shape = img.shape :=
  CachedImage.shape_mapTiles img _ (fun _ _ _ => rfl)

theorem mergedWeight_shape (w : CachedImage ℚ) (bb : BoundingBox) (oweight : Image ℚ) :
    (mergedWeight w bb oweight).shape = w.shape :=
  CachedImage.shape_mapTiles w _ (fun _ _ _ => rfl)

theorem merged_levels_getElem? (p : LaplacianPyramid) (oimg : Image RGBfColor)
    (oweight : Image ℚ) (l : Nat) (bb : BoundingBox) (n : Nat) :
    (p.merged oimg oweight l bb).levels[n]? =
      (p.levels[n]?).map (fun img => if n = l then mergedColor img bb oimg oweight else img) := by
  simp [LaplacianPyramid.merged, List.getElem?_mapIdx]

theorem merged_weights_getElem? (p : LaplacianPyramid) (oimg : Image RGBfColor)
    (oweight : Image ℚ) (l : Nat) (bb : BoundingBox) (n : Nat) :
    (p.merged oimg oweight l bb).weights[n]? =
      (p.weights[n]?).map (fun w => if n = l then mergedWeight w bb oweight else w) := by
  simp [LaplacianPyramid.merged, List.getElem?_mapIdx]

/-- Whether a merge succeeds depends on the shapes of the levels only. -/
theorem mergeSucceeds_congr (p q : LaplacianPyramid) (l : Nat) (bb : BoundingBox)
    (hl : (q.levels[l]?).map CachedImage.shape = (p.levels[l]?).map CachedImage.shape)
    (hw : (q.weights[l]?).map CachedImage.shape = (p.weights[l]?).map CachedImage.shape) :
    q.mergeSucceeds l bb ↔ p.mergeSucceeds l bb := by
  unfold LaplacianPyramid.mergeSucceeds
  cases h1 : p.levels[l]? with
  | none =>
    rw [h1] at hl
    cases h2 : q.levels[l]? with
    | none => simp
    | some c => simp [h2] at hl
  | some c =>
    rw [h1] at hl
    cases h2 : q.levels[l]? with
    | none => simp [h2] at hl
    | some c1 =>
      simp only [h2, Option.map_some', Option.some.injEq] at hl
      cases h3 : p.weights[l]? with
      | none =>
        rw [h3] at hw
        cases h4 : q.weights[l]? with
        | none => simp
        | some c => simp [h4] at hw
      | some w =>
        rw [h3] at hw
        cases h4 : q.weights[l]? with
        | none => simp [h4] at hw
        | some w1 =>
          simp only [h4, Option.map_some', Option.some.injEq] at hw
          simp only
          rw [CachedImage.regionOk_congr c c1 bb hl, CachedImage.regionOk_congr w w1 bb hw]

theorem merged_levels_shape (p : LaplacianPyramid) (oimg : Image RGBfColor)
    (oweight : Image ℚ) (l : Nat) (bb : BoundingBox) (n : Nat) :
    ((p.merged oimg oweight l bb).levels[n]?).map CachedImage.shape =
      (p.levels[n]?).map CachedImage.shape := by
  rw [merged_levels_getElem?]
  cases p.levels[n]? with
  | none => rfl
  | some c =>
    simp only [Option.map_some', Option.some.injEq]
    split
    · exact mergedColor_shape _ _ _ _
    · rfl

theorem merged_weights_shape (p : LaplacianPyramid) (oimg : Image RGBfColor)
    (oweight : Image ℚ) (l : Nat) (bb : BoundingBox) (n : Nat) :
    ((p.merged oimg oweight l bb).weights[n]?).map CachedImage.shape =
      (p.weights[n]?).map CachedImage.shape := by
  rw [merged_weights_getElem?]
  cases p.weights[n]? with
  | none => rfl
  | some c =>
    simp only [Option.map_some', Option.some.injEq]
    split
    · exact mergedWeight_shape _ _ _
    · rfl

theorem mergeSucceeds_merged (p : LaplacianPyramid) (oimg : Image RGBfColor)
    (oweight : Image ℚ) (l : Nat) (bb : BoundingBox) (l1 : Nat) (bb1 : BoundingBox) :
    (p.merged oimg oweight l bb).mergeSucceeds l1 bb1 ↔ p.mergeSucceeds l1 bb1 :=
  mergeSucceeds_congr p _ l1 bb1 (merged_levels_shape p oimg oweight l bb l1)
    (merged_weights_shape p oimg oweight l bb l1)

theorem mergedColor_comm (img : CachedImage RGBfColor) (bb1 bb2 : BoundingBox)
    (o1 o2 : Image RGBfColor) (w1 w2 : Image ℚ) :
    mergedColor (mergedColor img bb1 o1 w1) bb2 o2 w2 =
      mergedColor (mergedColor img bb2 o2 w2) bb1 o1 w1 := by
  unfold mergedColor
  rw [CachedImage.mapTiles_mapTiles, CachedImage.mapTiles_mapTiles]
  apply CachedImage.mapTiles_congr
  intro i j t _
  simp only [CachedImage.mapTiles_tileSize, CachedImage.mapTiles_width,
    CachedImage.mapTiles_height, CachedTile.addDelta]
  apply CachedTile.data_ext
  intro k
  exact add_right_comm _ _ _

theorem mergedWeight_comm (img : CachedImage ℚ) (bb1 bb2 : BoundingBox) (w1 w2 : Image ℚ) :
    mergedWeight (mergedWeight img bb1 w1) bb2 w2 =
      mergedWeight (mergedWeight img bb2 w2) bb1 w1 := by
  unfold mergedWeight
  rw [CachedImage.mapTiles_mapTiles, CachedImage.mapTiles_mapTiles]
  apply CachedImage.mapTiles_congr
  intro i j t _
  simp only [CachedImage.mapTiles_tileSize, CachedImage.mapTiles_width,
    CachedImage.mapTiles_height, CachedTile.addDelta]
  apply CachedTile.data_ext
  intro k
  exact add_right_comm _ _ _

theorem LaplacianPyramid.ext_getElem? (p q : LaplacianPyramid) (h1 : p.baseWidth = q.baseWidth)
    (h2 : p.baseHeight = q.baseHeight) (h3 : p.maxLevels = q.maxLevels)
    (h4 : ∀ n : Nat, p.levels[n]? = q.levels[n]?)
    (h5 : ∀ n : Nat, p.weights[n]? = q.weights[n]?) :
    p = q := by
  cases p
  cases q
  simp only at h1 h2 h3 h4 h5
  subst h1 h2 h3
  rw [List.ext_getElem? h4, List.ext_getElem? h5]

theorem merged_comm (p : LaplacianPyramid) (o1 o2 : Image RGBfColor) (w1 w2 : Image ℚ)
    (l1 l2 : Nat) (bb1 bb2 : BoundingBox) :
    (p.merged o1 w1 l1 bb1).merged o2 w2 l2 bb2 = (p.merged o2 w2 l2 bb2).merged o1 w1 l1 bb1 := by
  refine LaplacianPyramid.ext_getElem? _ _ ?_ ?_ ?_ ?_ ?_
  · rfl
  · rfl
  · rfl
  · intro n
    simp only [merged_levels_getElem?]
    cases p.levels[n]? with
    | none => simp only [Option.map_none']
    | some c =>
      simp only [Option.map_some', Option.some.injEq]
      by_cases h1 : n = l1
      · by_cases h2 : n = l2
        · simp only [if_pos h1, if_pos h2]
          exact mergedColor_comm _ _ _ _ _ _ _
        · simp only [if_pos h1, if_neg h2]
      · by_cases h2 : n = l2
        · simp only [if_neg h1, if_pos h2]
        · simp only [if_neg h1, if_neg h2]
  · intro n
    simp only [merged_weights_getElem?]
    cases p.weights[n]? with
    | none => simp only [Option.map_none']
    | some c =>
      simp only [Option.map_some', Option.some.injEq]
      by_cases h1 : n = l1
      · by_cases h2 : n = l2
        · simp only [if_pos h1, if_pos h2]
          exact mergedWeight_comm _ _ _ _ _
        · simp only [if_pos h1, if_neg h2]
      · by_cases h2 : n = l2
        · simp only [if_neg h1, if_pos h2]
        · simp only [if_neg h1, if_neg h2]

theorem merge_of_succeeds (p : LaplacianPyramid) (oimg : Image RGBfColor) (oweight : Image ℚ)
    (l ox oy : Nat) (h : p.mergeSucceeds l (mergeBb ox oy oimg)) :
    p.merge oimg oweight l ox oy = (true, p.merged oimg oweight l (mergeBb ox oy oimg)) := by
  rw [merge_normal]
  exact if_pos h

theorem merge_of_not_succeeds (p : LaplacianPyramid) (oimg : Image RGBfColor)
    (oweight : Image ℚ) (l ox oy : Nat) (h : ¬ p.mergeSucceeds l (mergeBb ox oy oimg)) :
    p.merge oimg oweight l ox oy = (false, p) := by
  rw [merge_normal]
  exact if_neg h

/-- Two calls of `merge` commute. -/
theorem merge_comm (p : LaplacianPyramid) (a b : MergeCall) :
    ((p.merge a.oimg a.oweight a.level a.offset_x a.offset_y).2.merge b.oimg b.oweight b.level
        b.offset_x b.offset_y).2 =
      ((p.merge b.oimg b.oweight b.level b.offset_x b.offset_y).2.merge a.oimg a.oweight a.level
        a.offset_x a.offset_y).2 := by
  by_cases ha : p.mergeSucceeds a.level (mergeBb a.offset_x a.offset_y a.oimg)
  · by_cases hb : p.mergeSucceeds b.level (mergeBb b.offset_x b.offset_y b.oimg)
    · simp only [merge_of_succeeds p _ _ _ _ _ ha, merge_of_succeeds p _ _ _ _ _ hb,
        merge_of_succeeds _ _ _ _ _ _ ((mergeSucceeds_merged p _ _ _ _ _ _).mpr hb),
        merge_of_succeeds _ _ _ _ _ _ ((mergeSucceeds_merged p _ _ _ _ _ _).mpr ha)]
      exact merged_comm _ _ _ _ _ _ _ _ _
    · simp only [merge_of_succeeds p _ _ _ _ _ ha, merge_of_not_succeeds p _ _ _ _ _ hb,
        merge_of_not_succeeds _ _ _ _ _ _
          (fun h => hb ((mergeSucceeds_merged p a.oimg a.oweight a.level
            (mergeBb a.offset_x a.offset_y a.oimg) _ _).mp h))]
  · by_cases hb : p.mergeSucceeds b.level (mergeBb b.offset_x b.offset_y b.oimg)
    · simp only [merge_of_not_succeeds p _ _ _ _ _ ha, merge_of_succeeds p _ _ _ _ _ hb,
        merge_of_not_succeeds _ _ _ _ _ _
          (fun h => ha ((mergeSucceeds_merged p b.oimg b.oweight b.level
            (mergeBb b.offset_x b.offset_y b.oimg) _ _).mp h))]
    · simp only [merge_of_not_succeeds p _ _ _ _ _ ha, merge_of_not_succeeds p _ _ _ _ _ hb]

/-! ## `apply` as a sequence of merges -/

theorem mergeAll_cons (p : LaplacianPyramid) (m : MergeCall) (ms : List MergeCall) :
    (p.mergeAll (m :: ms)).2 =
      ((p.merge m.oimg m.oweight m.level m.offset_x m.offset_y).2.mergeAll ms).2 := by
  simp only [LaplacianPyramid.mergeAll]

theorem mergeAll_nil (p : LaplacianPyramid) : (p.mergeAll []).2 = p := by
  simp only [LaplacianPyramid.mergeAll]

theorem mergeAll_append (p : LaplacianPyramid) (xs ys : List MergeCall) :
    (p.mergeAll (xs ++ ys)).2 = ((p.mergeAll xs).2.mergeAll ys).2 := by
  induction xs generalizing p with
  | nil => simp only [List.nil_append, mergeAll_nil]
  | cons m ms ih => simp only [List.cons_append, mergeAll_cons, ih]

theorem applyLoop_eq (n l : Nat) (p : LaplacianPyramid) (s : ApplyState) :
    LaplacianPyramid.applyLoop n l p s = ((p.mergeAll (applyCalls n l s)).2, applyIterate n s) := by
  induction n generalizing l p s with
  | zero => simp only [LaplacianPyramid.applyLoop, applyCalls, applyIterate, mergeAll_nil]
  | succ n ih => simp only [LaplacianPyramid.applyLoop, applyCalls, applyIterate, mergeAll_cons, ih]

theorem apply_eq (p : LaplacianPyramid) (source : Image RGBfColor) (mask : Image Nat)
    (weights : Image ℚ) (ox oy : Nat) :
    p.apply source mask weights ox oy =
      (true, (p.mergeAll (applyAllCalls p.levels.length
        (applyStart source mask weights ox oy))).2) := by
  simp only [LaplacianPyramid.apply, applyLoop_eq, applyAllCalls, mergeAll_append, mergeAll_cons,
    mergeAll_nil, applyStart]

theorem merged_levels_length (p : LaplacianPyramid) (oimg : Image RGBfColor)
    (oweight : Image ℚ) (l : Nat) (bb : BoundingBox) :
    (p.merged oimg oweight l bb).levels.length = p.levels.length := by
  simp only [LaplacianPyramid.merged, List.length_mapIdx]

theorem merged_weights_length (p : LaplacianPyramid) (oimg : Image RGBfColor)
    (oweight : Image ℚ) (l : Nat) (bb : BoundingBox) :
    (p.merged oimg oweight l bb).weights.length = p.weights.length := by
  simp only [LaplacianPyramid.merged, List.length_mapIdx]

theorem merge_levels_length (p : LaplacianPyramid) (oimg : Image RGBfColor) (oweight : Image ℚ)
    (l ox oy : Nat) : (p.merge oimg oweight l ox oy).2.levels.length = p.levels.length := by
  by_cases h : p.mergeSucceeds l (mergeBb ox oy oimg)
  · simp only [merge_of_succeeds p _ _ _ _ _ h, merged_levels_length]
  · simp only [merge_of_not_succeeds p _ _ _ _ _ h]

theorem mergeAll_levels_length (p : LaplacianPyramid) (ms : List MergeCall) :
    (p.mergeAll ms).2.levels.length = p.levels.length := by
  induction ms generalizing p with
  | nil => simp only [mergeAll_nil]
  | cons m ms ih => simp only [mergeAll_cons, ih, merge_levels_length]

theorem merge_mergeAll_comm (p : LaplacianPyramid) (a : MergeCall) (ms : List MergeCall) :
    ((p.merge a.oimg a.oweight a.level a.offset_x a.offset_y).2.mergeAll ms).2 =
      ((p.mergeAll ms).2.merge a.oimg a.oweight a.level a.offset_x a.offset_y).2 := by
  induction ms generalizing p with
  | nil => simp only [mergeAll_nil]
  | cons m ms ih =>
    simp only [mergeAll_cons]
    rw [merge_comm p a m]
    exact ih _

theorem mergeAll_comm (p : LaplacianPyramid) (xs ys : List MergeCall) :
    ((p.mergeAll xs).2.mergeAll ys).2 = ((p.mergeAll ys).2.mergeAll xs).2 := by
  induction xs generalizing p with
  | nil => simp only [mergeAll_nil]
  | cons m ms ih =>
    simp only [mergeAll_cons]
    rw [ih, merge_mergeAll_comm]

/-- C2: `apply` of a view followed by `apply` of another leaves the same pyramid, that is
the same colour and weight accumulators at every level, as the two calls in the other
order; both calls return `true` in both orders. -/
theorem apply_comm (p : LaplacianPyramid) (source1 source2 : Image RGBfColor)
    (mask1 mask2 : Image Nat) (weights1 weights2 : Image ℚ) (ox1 oy1 ox2 oy2 : Nat) :
    ((p.apply source1 mask1 weights1 ox1 oy1).2.apply source2 mask2 weights2 ox2 oy2).2 =
      ((p.apply source2 mask2 weights2 ox2 oy2).2.apply source1 mask1 weights1 ox1 oy1).2 ∧
    ((p.apply source1 mask1 weights1 ox1 oy1).2.apply source2 mask2 weights2 ox2 oy2).1 = true ∧
    ((p.apply source2 mask2 weights2 ox2 oy2).2.apply source1 mask1 weights1 ox1 oy1).1 = true := by
  simp only [apply_eq, mergeAll_levels_length, and_self, and_true]
  exact mergeAll_comm p _ _

/-! ## A shift of the offset by the width of the panorama -/

theorem regionOk_add_width {α : Type} (img : CachedImage α) (left top width height : Int) :
    img.regionOk ⟨left + (img.width : Int), top, width, height⟩ ↔
      img.regionOk ⟨left, top, width, height⟩ := by
  unfold CachedImage.regionOk
  simp only
  have h : ∀ j : Nat, wrapIndex img.width (left + (img.width : Int) + (j : Int)) =
      wrapIndex img.width (left + (j : Int)) := by
    intro j
    have : left + (img.width : Int) + (j : Int) = left + (j : Int) + (img.width : Int) := by ring
    rw [this, wrapIndex_add_width]
  simp only [h]

theorem regionDelta_add_width {α : Type} [Zero α] (ts W H : Nat) (left top width height : Int)
    (v : Nat → Nat → α) (ti tj : Nat) :
    regionDelta ts W H ⟨left + (W : Int), top, width, height⟩ v ti tj =
      regionDelta ts W H ⟨left, top, width, height⟩ v ti tj := by
  funext k
  unfold regionDelta sourceValue
  simp only [lastSource_add_width]

theorem mergedColor_add_width (img : CachedImage RGBfColor) (ox oy : Nat)
    (oimg : Image RGBfColor) (oweight : Image ℚ) :
    mergedColor img (mergeBb (ox + img.width) oy oimg) oimg oweight =
      mergedColor img (mergeBb ox oy oimg) oimg oweight := by
  unfold mergedColor mergeBb
  simp only [Nat.cast_add, regionDelta_add_width]

theorem mergedWeight_add_width (w : CachedImage ℚ) (ox oy : Nat) (oimg : Image RGBfColor)
    (oweight : Image ℚ) :
    mergedWeight w (mergeBb (ox + w.width) oy oimg) oweight =
      mergedWeight w (mergeBb ox oy oimg) oweight := by
  unfold mergedWeight mergeBb
  simp only [Nat.cast_add, regionDelta_add_width]

theorem mergeSucceeds_add_width (p : LaplacianPyramid) (l ox oy W : Nat) (oimg : Image RGBfColor)
    (hl : ∀ img, p.levels[l]? = some img → img.width = W)
    (hw : ∀ w, p.weights[l]? = some w → w.width = W) :
    p.mergeSucceeds l (mergeBb (ox + W) oy oimg) ↔ p.mergeSucceeds l (mergeBb ox oy oimg) := by
  unfold LaplacianPyramid.mergeSucceeds
  cases h1 : p.levels[l]? with
  | none => simp only
  | some img =>
    cases h2 : p.weights[l]? with
    | none => simp only
    | some w =>
      simp only [mergeBb, Nat.cast_add]
      have e1 := regionOk_add_width img ox oy oimg.width oimg.height
      have e2 := regionOk_add_width w ox oy oimg.width oimg.height
      rw [hl img h1] at e1
      rw [hw w h2] at e2
      rw [e1, e2]

theorem merged_add_width (p : LaplacianPyramid) (l ox oy W : Nat) (oimg : Image RGBfColor)
    (oweight : Image ℚ) (hl : ∀ img, p.levels[l]? = some img → img.width = W)
    (hw : ∀ w, p.weights[l]? = some w → w.width = W) :
    p.merged oimg oweight l (mergeBb (ox + W) oy oimg) =
      p.merged oimg oweight l (mergeBb ox oy oimg) := by
  refine LaplacianPyramid.ext_getElem? _ _ ?_ ?_ ?_ ?_ ?_
  · exact Eq.refl _
  · exact Eq.refl _
  · exact Eq.refl _
  · intro n
    simp only [merged_levels_getElem?]
    cases h : p.levels[n]? with
    | none => simp only [Option.map_none']
    | some c =>
      simp only [Option.map_some', Option.some.injEq]
      by_cases hn : n = l
      · subst hn
        simp only [if_true]
        have := mergedColor_add_width c ox oy oimg oweight
        rw [hl c h] at this
        exact this
      · simp only [if_neg hn]
  · intro n
    simp only [merged_weights_getElem?]
    cases h : p.weights[n]? with
    | none => simp only [Option.map_none']
    | some c =>
      simp only [Option.map_some', Option.some.injEq]
      by_cases hn : n = l
      · subst hn
        simp only [if_true]
        have := mergedWeight_add_width c ox oy oimg oweight
        rw [hw c h] at this
        exact this
      · simp only [if_neg hn]

theorem merge_add_width (p : LaplacianPyramid) (l ox oy W : Nat) (oimg : Image RGBfColor)
    (oweight : Image ℚ) (hl : ∀ img, p.levels[l]? = some img → img.width = W)
    (hw : ∀ w, p.weights[l]? = some w → w.width = W) :
    p.merge oimg oweight l (ox + W) oy = p.merge oimg oweight l ox oy := by
  by_cases h : p.mergeSucceeds l (mergeBb ox oy oimg)
  · rw [merge_of_succeeds p _ _ _ _ _ h,
      merge_of_succeeds p _ _ _ _ _ ((mergeSucceeds_add_width p l ox oy W oimg hl hw).mpr h),
      merged_add_width p l ox oy W oimg oweight hl hw]
  · rw [merge_of_not_succeeds p _ _ _ _ _ h,
      merge_of_not_succeeds p _ _ _ _ _
        (fun h1 => h ((mergeSucceeds_add_width p l ox oy W oimg hl hw).mp h1))]

theorem merge_levels_width (p : LaplacianPyramid) (oimg : Image RGBfColor) (oweight : Image ℚ)
    (l ox oy : Nat) (n : Nat) (img : CachedImage RGBfColor)
    (h : (p.merge oimg oweight l ox oy).2.levels[n]? = some img) :
    ∃ img0, p.levels[n]? = some img0 ∧ img.shape = img0.shape := by
  by_cases hs : p.mergeSucceeds l (mergeBb ox oy oimg)
  · have e := merged_levels_shape p oimg oweight l (mergeBb ox oy oimg) n
    rw [merge_of_succeeds p _ _ _ _ _ hs] at h
    simp only at h
    rw [h] at e
    cases h0 : p.levels[n]? with
    | none => simp [h0] at e
    | some img0 =>
      simp only [h0, Option.map_some', Option.some.injEq] at e
      exact ⟨img0, rfl, e⟩
  · rw [merge_of_not_succeeds p _ _ _ _ _ hs] at h
    exact ⟨img, h, rfl⟩

theorem merge_weights_width (p : LaplacianPyramid) (oimg : Image RGBfColor) (oweight : Image ℚ)
    (l ox oy : Nat) (n : Nat) (w : CachedImage ℚ)
    (h : (p.merge oimg oweight l ox oy).2.weights[n]? = some w) :
    ∃ w0, p.weights[n]? = some w0 ∧ w.shape = w0.shape := by
  by_cases hs : p.mergeSucceeds l (mergeBb ox oy oimg)
  · have e := merged_weights_shape p oimg oweight l (mergeBb ox oy oimg) n
    rw [merge_of_succeeds p _ _ _ _ _ hs] at h
    simp only at h
    rw [h] at e
    cases h0 : p.weights[n]? with
    | none => simp [h0] at e
    | some w0 =>
      simp only [h0, Option.map_some', Option.some.injEq] at e
      exact ⟨w0, rfl, e⟩
  · rw [merge_of_not_succeeds p _ _ _ _ _ hs] at h
    exact ⟨w, h, rfl⟩

theorem half_of_dvd (W l a : Nat) (h : 2 ^ (l + 1) ∣ W) :
    (a + W / 2 ^ l) / 2 = a / 2 + W / 2 ^ (l + 1) := by
  obtain ⟨q, hq⟩ := h
  have h1 : W / 2 ^ l = q * 2 := by
    rw [hq, pow_succ, Nat.mul_assoc, Nat.mul_div_cancel_left _ (by positivity), Nat.mul_comm]
  have h2 : W / 2 ^ (l + 1) = q := by
    rw [hq, Nat.mul_div_cancel_left _ (by positivity)]
  rw [h1, h2, Nat.add_mul_div_right _ _ (by norm_num)]

theorem applyIteration_offset (s : ApplyState) (ox : Nat) :
    (applyIteration { s with offset_x := ox }).laplacian = (applyIteration s).laplacian ∧
    (applyIteration { s with offset_x := ox }).weights = (applyIteration s).weights ∧
    (applyIteration { s with offset_x := ox }).next =
      { (applyIteration s).next with offset_x := ox / 2 } := by
  simp only [applyIteration, and_self]

theorem applyLoop_add_width (W : Nat) :
    ∀ (n l : Nat) (p : LaplacianPyramid) (s : ApplyState),
      (∀ m img, p.levels[m]? = some img → img.width = W / 2 ^ m) →
      (∀ m w, p.weights[m]? = some w → w.width = W / 2 ^ m) →
      2 ^ (l + n) ∣ W →
      LaplacianPyramid.applyLoop n l p { s with offset_x := s.offset_x + W / 2 ^ l } =
        ((LaplacianPyramid.applyLoop n l p s).1,
          { (LaplacianPyramid.applyLoop n l p s).2 with
            offset_x := (LaplacianPyramid.applyLoop n l p s).2.offset_x + W / 2 ^ (l + n) }) := by
  intro n
  induction n with
  | zero =>
    intro l p s _ _ _
    simp only [LaplacianPyramid.applyLoop, Nat.add_zero]
  | succ n ih =>
    intro l p s hl hw hdiv
    have hdiv1 : 2 ^ (l + 1) ∣ W := Dvd.dvd.trans (pow_dvd_pow 2 (by omega)) hdiv
    obtain ⟨e1, e2, e3⟩ := applyIteration_offset s (s.offset_x + W / 2 ^ l)
    simp only [LaplacianPyramid.applyLoop, e1, e2, e3]
    rw [merge_add_width p l s.offset_x s.offset_y (W / 2 ^ l) _ _ (fun img h => hl l img h)
      (fun w h => hw l w h), half_of_dvd W l s.offset_x hdiv1]
    have hl1 : ∀ m img,
        (p.merge (applyIteration s).laplacian (applyIteration s).weights l s.offset_x
          s.offset_y).2.levels[m]? = some img → img.width = W / 2 ^ m := by
      intro m img h
      obtain ⟨img0, h0, hs⟩ := merge_levels_width p _ _ _ _ _ m img h
      rw [CachedImage.shape_width img0 img hs]
      exact hl m img0 h0
    have hw1 : ∀ m w,
        (p.merge (applyIteration s).laplacian (applyIteration s).weights l s.offset_x
          s.offset_y).2.weights[m]? = some w → w.width = W / 2 ^ m := by
      intro m w h
      obtain ⟨w0, h0, hs⟩ := merge_weights_width p _ _ _ _ _ m w h
      rw [CachedImage.shape_width w0 w hs]
      exact hw m w0 h0
    have := ih (l + 1) _ (applyIteration s).next hl1 hw1
      (by rw [show l + 1 + n = l + (n + 1) by omega]; exact hdiv)
    rw [show l + (n + 1) = l + 1 + n by omega]
    exact this

theorem mergeAll_levels_shape (ms : List MergeCall) :
    ∀ (p : LaplacianPyramid) (n : Nat) (img : CachedImage RGBfColor),
      (p.mergeAll ms).2.levels[n]? = some img →
      ∃ img0, p.levels[n]? = some img0 ∧ img.shape = img0.shape := by
  induction ms with
  | nil =>
    intro p n img h
    rw [mergeAll_nil] at h
    exact ⟨img, h, rfl⟩
  | cons m ms ih =>
    intro p n img h
    rw [mergeAll_cons] at h
    obtain ⟨img1, h1, e1⟩ := ih _ n img h
    obtain ⟨img0, h0, e0⟩ := merge_levels_width p _ _ _ _ _ n img1 h1
    exact ⟨img0, h0, e1.trans e0⟩

theorem mergeAll_weights_shape (ms : List MergeCall) :
    ∀ (p : LaplacianPyramid) (n : Nat) (w : CachedImage ℚ),
      (p.mergeAll ms).2.weights[n]? = some w →
      ∃ w0, p.weights[n]? = some w0 ∧ w.shape = w0.shape := by
  induction ms with
  | nil =>
    intro p n w h
    rw [mergeAll_nil] at h
    exact ⟨w, h, rfl⟩
  | cons m ms ih =>
    intro p n w h
    rw [mergeAll_cons] at h
    obtain ⟨w1, h1, e1⟩ := ih _ n w h
    obtain ⟨w0, h0, e0⟩ := merge_weights_width p _ _ _ _ _ n w1 h1
    exact ⟨w0, h0, e1.trans e0⟩

/-- C3: on a pyramid whose level `l` has width `W / 2 ^ l` and whose base width `W` is
divisible by `2 ^ (L - 1)`, `apply` of a view at offset `off_x + W` returns the same flag
and leaves the same pyramid, that is the same colour and weight accumulators at every
level, as `apply` of the view at offset `off_x`; at each level `l` the halved offsets are
congruent modulo the width of the level. -/
theorem apply_offset_wrap (p : LaplacianPyramid) (W : Nat) (source : Image RGBfColor)
    (mask : Image Nat) (weights : Image ℚ) (off_x off_y : Nat)
    (hl : ∀ l img, p.levels[l]? = some img → img.width = W / 2 ^ l)
    (hw : ∀ l w, p.weights[l]? = some w → w.width = W / 2 ^ l)
    (hdiv : 2 ^ (p.levels.length - 1) ∣ W) :
    p.apply source mask weights (off_x + W) off_y = p.apply source mask weights off_x off_y ∧
    ∀ l, l < p.levels.length →
      ((off_x + W) / 2 ^ l) % (W / 2 ^ l) = (off_x / 2 ^ l) % (W / 2 ^ l) := by
  constructor
  · have h0 := applyLoop_add_width W (p.levels.length - 1) 0 p
      ⟨source, weights, maskToFloat mask source.width source.height, source.width,
        source.height, off_x, off_y⟩ hl hw (by simpa using hdiv)
    simp only [pow_zero, Nat.div_one, Nat.zero_add] at h0
    simp only [LaplacianPyramid.apply]
    rw [h0]
    simp only
    have hl1 : ∀ img, (LaplacianPyramid.applyLoop (p.levels.length - 1) 0 p
        ⟨source, weights, maskToFloat mask source.width source.height, source.width,
          source.height, off_x, off_y⟩).1.levels[p.levels.length - 1]? = some img →
        img.width = W / 2 ^ (p.levels.length - 1) := by
      intro img h
      rw [applyLoop_eq] at h
      obtain ⟨img0, h0, hs⟩ := mergeAll_levels_shape _ p _ img h
      rw [CachedImage.shape_width img0 img hs]
      exact hl _ img0 h0
    have hw1 : ∀ w, (LaplacianPyramid.applyLoop (p.levels.length - 1) 0 p
        ⟨source, weights, maskToFloat mask source.width source.height, source.width,
          source.height, off_x, off_y⟩).1.weights[p.levels.length - 1]? = some w →
        w.width = W / 2 ^ (p.levels.length - 1) := by
      intro w h
      rw [applyLoop_eq] at h
      obtain ⟨w0, h0, hs⟩ := mergeAll_weights_shape _ p _ w h
      rw [CachedImage.shape_width w0 w hs]
      exact hw _ w0 h0
    rw [merge_add_width _ _ _ _ _ _ _ hl1 hw1]
  · intro l hlt
    have hd : 2 ^ l ∣ W := Dvd.dvd.trans (pow_dvd_pow 2 (by omega)) hdiv
    rw [Nat.add_div_of_dvd_left hd, Nat.add_mod_right]

/-! ## What a merge adds to a pixel -/

theorem regionDelta_pixel {α : Type} [Zero α] (ts W H : Nat) (bb : BoundingBox)
    (v : Nat → Nat → α) (y x : Nat) (hts : 0 < ts) (hy : y < H) (hx : x < W) :
    regionDelta ts W H bb v (y / ts) (x / ts) ((y % ts) * ts + x % ts) =
      if bb.top ≤ (y : Int) ∧ (y : Int) < bb.top + bb.height then sourceValue W bb v y x
      else 0 := by
  obtain ⟨h1, h2, h3⟩ := pixel_elem ts y x hts
  unfold regionDelta
  rw [h2, h3]
  by_cases hc : bb.top ≤ (y : Int) ∧ (y : Int) < bb.top + bb.height
  · exact (if_pos ⟨h1, hx, hy, hc.1, hc.2⟩).trans (if_pos hc).symm
  · exact (if_neg (fun h => hc ⟨h.2.2.2.1, h.2.2.2.2⟩)).trans (if_neg hc).symm

theorem sourceValue_of_some {α : Type} [Zero α] (W : Nat) (bb : BoundingBox)
    (v : Nat → Nat → α) (y x j : Nat) (h : lastSource W bb.left bb.width x = some j) :
    sourceValue W bb v y x = v ((y : Int) - bb.top).toNat j := by
  unfold sourceValue
  rw [h]

theorem sourceValue_of_none {α : Type} [Zero α] (W : Nat) (bb : BoundingBox)
    (v : Nat → Nat → α) (y x : Nat) (h : lastSource W bb.left bb.width x = none) :
    sourceValue W bb v y x = 0 := by
  unfold sourceValue
  rw [h]

theorem inner_sum_eq (W : Nat) (bb : BoundingBox) (w : Nat) (x y : Nat) (v : Nat → Nat → ℚ)
    (hbw : bb.width = (w : Int)) (hw : w ≤ W) :
    Finset.sum (Finset.range w) (fun j =>
        if wrapIndex W (bb.left + (j : Int)) = x then v ((y : Int) - bb.top).toNat j else 0) =
      sourceValue W bb v y x := by
  cases hs : lastSource W bb.left bb.width x with
  | none =>
    rw [sourceValue_of_none W bb v y x hs]
    apply Finset.sum_eq_zero
    intro j hj
    rw [if_neg (lastSource_none W _ _ x hs j (by rw [hbw]; simpa using hj))]
  | some j0 =>
    rw [sourceValue_of_some W bb v y x j0 hs]
    obtain ⟨hj0, hx0⟩ := lastSource_some W _ _ x j0 hs
    rw [hbw] at hj0
    rw [Finset.sum_eq_single j0]
    · rw [if_pos hx0]
    · intro j hj hne
      have hj1 : j < w := by simpa using hj
      by_cases hx1 : wrapIndex W (bb.left + (j : Int)) = x
      · exfalso
        have := lastSource_of_narrow W bb.left bb.width j (by rw [hbw]; simpa using hw)
          (by rw [hbw]; simpa using hj1)
        rw [hx1, hs] at this
        exact hne (Option.some.inj this).symm
      · rw [if_neg hx1]
    · intro hj
      exact absurd (by simpa using hj0) hj

theorem contribution_eq (m : MergeCall) (W : Nat) (v : Nat → Nat → ℚ) (y x : Nat)
    (hw : m.oimg.width ≤ W) :
    m.contribution W v m.level y x =
      if ((mergeBb m.offset_x m.offset_y m.oimg).top ≤ (y : Int) ∧
          (y : Int) < (mergeBb m.offset_x m.offset_y m.oimg).top +
            (mergeBb m.offset_x m.offset_y m.oimg).height) then
        sourceValue W (mergeBb m.offset_x m.offset_y m.oimg) v y x
      else 0 := by
  unfold MergeCall.contribution
  simp only [if_true]
  by_cases hc : ((mergeBb m.offset_x m.offset_y m.oimg).top ≤ (y : Int) ∧
      (y : Int) < (mergeBb m.offset_x m.offset_y m.oimg).top +
        (mergeBb m.offset_x m.offset_y m.oimg).height)
  · rw [if_pos hc]
    simp only [mergeBb] at hc
    have hi0 : y - m.offset_y < m.oimg.height := by omega
    have hy0 : m.offset_y + (y - m.offset_y) = y := by omega
    rw [Finset.sum_eq_single (y - m.offset_y)]
    · simp only [hy0, true_and]
      have h := inner_sum_eq W (mergeBb m.offset_x m.offset_y m.oimg) m.oimg.width x y v rfl hw
      have e : ((y : Int) - (mergeBb m.offset_x m.offset_y m.oimg).top).toNat = y - m.offset_y := by
        simp only [mergeBb]
        omega
      rw [e] at h
      exact h
    · intro i _ hne
      apply Finset.sum_eq_zero
      intro j _
      rw [if_neg]
      intro h
      exact hne (by omega)
    · intro h
      exact absurd (by simpa using hi0) h
  · rw [if_neg hc]
    simp only [mergeBb] at hc
    apply Finset.sum_eq_zero
    intro i hi
    apply Finset.sum_eq_zero
    intro j _
    rw [if_neg]
    intro h
    have : i < m.oimg.height := by simpa using hi
    exact hc (by omega)

/-- Where the grid has no tile, a region that can be worked on has no pixel. -/
theorem contribution_of_no_tile {α : Type} (img : CachedImage α) (m : MergeCall)
    (v : Nat → Nat → ℚ) (l y x : Nat)
    (hok : img.regionOk (mergeBb m.offset_x m.offset_y m.oimg)) (hy : y < img.height)
    (ht : img.tile? (y / img.tileSize) (x / img.tileSize) = none) :
    m.contribution img.width v l y x = 0 := by
  unfold MergeCall.contribution
  split
  · apply Finset.sum_eq_zero
    intro i hi
    apply Finset.sum_eq_zero
    intro j hj
    rw [if_neg]
    intro h
    have hi1 : i < m.oimg.height := by simpa using hi
    have h0 : (m.offset_y : Int) + (i : Int) = (y : Int) := by omega
    have h1 := hok.2 i (by simpa [mergeBb] using hi) j (by simpa [mergeBb] using hj)
      (by simp only [mergeBb]; omega) (by simp only [mergeBb]; omega)
    simp only [mergeBb] at h1
    rw [h.2] at h1
    have h2 : ((m.offset_y : Int) + (i : Int)).toNat = y := by omega
    rw [h2] at h1
    unfold CachedImage.pixelOk at h1
    rw [ht] at h1
    exact absurd h1 (by simp)
  · rfl

theorem mergedWeight_getPixel (w : CachedImage ℚ) (m : MergeCall) (hts : 0 < w.tileSize)
    (hok : w.regionOk (mergeBb m.offset_x m.offset_y m.oimg)) (hn : m.oimg.width ≤ w.width)
    (y x : Nat) (hy : y < w.height) (hx : x < w.width) (d : ℚ) :
    (mergedWeight w (mergeBb m.offset_x m.offset_y m.oimg) m.oweight).getPixel y x d =
      w.getPixel y x d + m.contribution w.width (fun i j => m.oweight.data i j) m.level y x := by
  unfold mergedWeight
  rw [CachedImage.getPixel_mapTiles]
  cases ht : w.tile? (y / w.tileSize) (x / w.tileSize) with
  | none =>
    simp only
    rw [contribution_of_no_tile w m _ _ y x hok hy ht]
    simp [CachedImage.getPixel, ht]
  | some t =>
    simp only [CachedTile.addDelta]
    rw [regionDelta_pixel _ _ _ _ _ y x hts hy hx, contribution_eq m w.width _ y x hn]
    simp [CachedImage.getPixel, ht]

theorem sourceValue_r (W : Nat) (bb : BoundingBox) (v : Nat → Nat → RGBfColor) (y x : Nat) :
    (sourceValue W bb v y x).r = sourceValue W bb (fun i j => (v i j).r) y x ∧
    (sourceValue W bb v y x).g = sourceValue W bb (fun i j => (v i j).g) y x ∧
    (sourceValue W bb v y x).b = sourceValue W bb (fun i j => (v i j).b) y x := by
  cases hs : lastSource W bb.left bb.width x with
  | none =>
    simp only [sourceValue_of_none _ _ _ _ _ hs]
    exact ⟨rfl, rfl, rfl⟩
  | some j =>
    simp only [sourceValue_of_some _ _ _ _ _ _ hs, and_self]

theorem mergedColor_getPixel (c : CachedImage RGBfColor) (m : MergeCall) (hts : 0 < c.tileSize)
    (hok : c.regionOk (mergeBb m.offset_x m.offset_y m.oimg)) (hn : m.oimg.width ≤ c.width)
    (y x : Nat) (hy : y < c.height) (hx : x < c.width) (d : RGBfColor) :
    ((mergedColor c (mergeBb m.offset_x m.offset_y m.oimg) m.oimg m.oweight).getPixel y x d).r =
      (c.getPixel y x d).r + m.contribution c.width
        (fun i j => (m.oimg.data i j).r * m.oweight.data i j) m.level y x ∧
    ((mergedColor c (mergeBb m.offset_x m.offset_y m.oimg) m.oimg m.oweight).getPixel y x d).g =
      (c.getPixel y x d).g + m.contribution c.width
        (fun i j => (m.oimg.data i j).g * m.oweight.data i j) m.level y x ∧
    ((mergedColor c (mergeBb m.offset_x m.offset_y m.oimg) m.oimg m.oweight).getPixel y x d).b =
      (c.getPixel y x d).b + m.contribution c.width
        (fun i j => (m.oimg.data i j).b * m.oweight.data i j) m.level y x := by
  unfold mergedColor
  rw [CachedImage.getPixel_mapTiles]
  cases ht : c.tile? (y / c.tileSize) (x / c.tileSize) with
  | none =>
    simp only
    rw [contribution_of_no_tile c m _ _ y x hok hy ht, contribution_of_no_tile c m _ _ y x hok hy ht,
      contribution_of_no_tile c m _ _ y x hok hy ht]
    simp [CachedImage.getPixel, ht]
  | some t =>
    simp only [CachedTile.addDelta]
    rw [regionDelta_pixel _ _ _ _ _ y x hts hy hx, contribution_eq m c.width _ y x hn,
      contribution_eq m c.width _ y x hn, contribution_eq m c.width _ y x hn]
    simp only [CachedImage.getPixel, ht, RGBfColor.add_r, RGBfColor.add_g, RGBfColor.add_b]
    obtain ⟨e1, e2, e3⟩ := sourceValue_r c.width (mergeBb m.offset_x m.offset_y m.oimg)
      (fun i j => weighted (m.oimg.data i j) (m.oweight.data i j)) y x
    split
    · rw [e1, e2, e3]
      exact ⟨rfl, rfl, rfl⟩
    · exact ⟨rfl, rfl, rfl⟩

theorem mergeAll_fst_cons (p : LaplacianPyramid) (m : MergeCall) (ms : List MergeCall)
    (h : (p.mergeAll (m :: ms)).1 = true) :
    p.mergeSucceeds m.level (mergeBb m.offset_x m.offset_y m.oimg) ∧
    ((p.merged m.oimg m.oweight m.level (mergeBb m.offset_x m.offset_y m.oimg)).mergeAll ms).1
      = true ∧
    (p.mergeAll (m :: ms)).2 =
      ((p.merged m.oimg m.oweight m.level (mergeBb m.offset_x m.offset_y m.oimg)).mergeAll ms).2
      := by
  by_cases hs : p.mergeSucceeds m.level (mergeBb m.offset_x m.offset_y m.oimg)
  · simp only [LaplacianPyramid.mergeAll, merge_of_succeeds p _ _ _ _ _ hs, Bool.true_and] at h ⊢
    exact ⟨hs, h, trivial⟩
  · simp only [LaplacianPyramid.mergeAll, merge_of_not_succeeds p _ _ _ _ _ hs,
      Bool.false_and] at h
    exact absurd h (by simp)

theorem merged_levels_at (p : LaplacianPyramid) (m : MergeCall) (l : Nat)
    (c : CachedImage RGBfColor) (hc : p.levels[l]? = some c) :
    (p.merged m.oimg m.oweight m.level (mergeBb m.offset_x m.offset_y m.oimg)).levels[l]? =
      some (if l = m.level then
        mergedColor c (mergeBb m.offset_x m.offset_y m.oimg) m.oimg m.oweight else c) := by
  rw [merged_levels_getElem?, hc]
  simp only [Option.map_some']

theorem merged_weights_at (p : LaplacianPyramid) (m : MergeCall) (l : Nat)
    (w : CachedImage ℚ) (hw : p.weights[l]? = some w) :
    (p.merged m.oimg m.oweight m.level (mergeBb m.offset_x m.offset_y m.oimg)).weights[l]? =
      some (if l = m.level then
        mergedWeight w (mergeBb m.offset_x m.offset_y m.oimg) m.oweight else w) := by
  rw [merged_weights_getElem?, hw]
  simp only [Option.map_some']

theorem contribution_of_ne (m : MergeCall) (W : Nat) (v : Nat → Nat → ℚ) (l y x : Nat)
    (h : ¬ l = m.level) : m.contribution W v l y x = 0 := by
  unfold MergeCall.contribution
  rw [if_neg (fun e => h e.symm)]

/-- C1: a sequence of successful merges of patches, each no wider than its level, as
every patch is that `apply` makes from a view no wider than the panorama, adds to every
pixel `(y, x)` of every level, for each patch merged there, the colour times the weight,
channel by channel, of the patch pixel `(i, j)` that lands on it (row `offset_y + i`,
column `offset_x + j` wrapped modulo the width), and adds the weight of that patch pixel
to the weight accumulator; a pixel on which no patch pixel lands is left as it is. One
merge gives the update of a pixel, and a pyramid that holds zeros gives the sums. -/
theorem merge_accumulates (calls : List MergeCall) :
    ∀ (p : LaplacianPyramid) (l : Nat) (c : CachedImage RGBfColor) (w : CachedImage ℚ)
      (y x : Nat) (d : RGBfColor) (dw : ℚ),
      p.levels[l]? = some c → p.weights[l]? = some w → 0 < c.tileSize → 0 < w.tileSize →
      w.width = c.width → w.height = c.height →
      (∀ m ∈ calls, m.level = l → m.oimg.width ≤ c.width) →
      (p.mergeAll calls).1 = true → y < c.height → x < c.width →
      ∃ (c1 : CachedImage RGBfColor) (w1 : CachedImage ℚ),
        (p.mergeAll calls).2.levels[l]? = some c1 ∧ (p.mergeAll calls).2.weights[l]? = some w1 ∧
        (c1.getPixel y x d).r = (c.getPixel y x d).r +
          (calls.map (fun m => m.contribution c.width
            (fun i j => (m.oimg.data i j).r * m.oweight.data i j) l y x)).sum ∧
        (c1.getPixel y x d).g = (c.getPixel y x d).g +
          (calls.map (fun m => m.contribution c.width
            (fun i j => (m.oimg.data i j).g * m.oweight.data i j) l y x)).sum ∧
        (c1.getPixel y x d).b = (c.getPixel y x d).b +
          (calls.map (fun m => m.contribution c.width
            (fun i j => (m.oimg.data i j).b * m.oweight.data i j) l y x)).sum ∧
        w1.getPixel y x dw = w.getPixel y x dw +
          (calls.map (fun m => m.contribution c.width
            (fun i j => m.oweight.data i j) l y x)).sum := by
  induction calls with
  | nil =>
    intro p l c w y x d dw hc hw _ _ _ _ _ _ _ _
    refine ⟨c, w, ?_, ?_, ?_, ?_, ?_, ?_⟩
    · rw [mergeAll_nil]
      exact hc
    · rw [mergeAll_nil]
      exact hw
    · simp
    · simp
    · simp
    · simp
  | cons m ms ih =>
    intro p l c w y x d dw hc hw htc htw hww hwh hn hok hy hx
    obtain ⟨hs, hok1, he⟩ := mergeAll_fst_cons p m ms hok
    rw [he]
    by_cases hl : l = m.level
    · have hs1 := hs
      unfold LaplacianPyramid.mergeSucceeds at hs1
      rw [← hl, hc, hw] at hs1
      simp only at hs1
      have hn0 : m.oimg.width ≤ c.width := hn m (List.mem_cons_self _ _) hl.symm
      have hc1 := merged_levels_at p m l c hc
      have hw1 := merged_weights_at p m l w hw
      rw [if_pos hl] at hc1 hw1
      obtain ⟨c2, w2, g1, g2, g3, g4, g5, g6⟩ := ih _ l _ _ y x d dw hc1 hw1 htc htw
        (by simpa [mergedWeight, mergedColor] using hww)
        (by simpa [mergedWeight, mergedColor] using hwh)
        (fun m1 hm1 => hn m1 (List.mem_cons_of_mem _ hm1)) hok1 hy hx
      obtain ⟨k1, k2, k3⟩ := mergedColor_getPixel c m htc hs1.1 hn0 y x hy hx d
      have k4 := mergedWeight_getPixel w m htw hs1.2 (hww ▸ hn0) y x (hwh ▸ hy) (hww ▸ hx) dw
      have ec : (mergedColor c (mergeBb m.offset_x m.offset_y m.oimg) m.oimg m.oweight).width =
        c.width := rfl
      rw [ec] at g3 g4 g5 g6
      rw [hww, ← hl] at k4
      rw [← hl] at k1 k2 k3
      refine ⟨c2, w2, g1, g2, ?_, ?_, ?_, ?_⟩
      · rw [g3, k1, List.map_cons, List.sum_cons, add_assoc]
      · rw [g4, k2, List.map_cons, List.sum_cons, add_assoc]
      · rw [g5, k3, List.map_cons, List.sum_cons, add_assoc]
      · rw [g6, k4, List.map_cons, List.sum_cons, add_assoc]
    · have hc1 := merged_levels_at p m l c hc
      have hw1 := merged_weights_at p m l w hw
      rw [if_neg hl] at hc1 hw1
      obtain ⟨c2, w2, g1, g2, g3, g4, g5, g6⟩ := ih _ l _ _ y x d dw hc1 hw1 htc htw hww hwh
        (fun m1 hm1 => hn m1 (List.mem_cons_of_mem _ hm1)) hok1 hy hx
      refine ⟨c2, w2, g1, g2, ?_, ?_, ?_, ?_⟩
      · rw [g3, List.map_cons, List.sum_cons, contribution_of_ne m _ _ l y x hl, zero_add]
      · rw [g4, List.map_cons, List.sum_cons, contribution_of_ne m _ _ l y x hl, zero_add]
      · rw [g5, List.map_cons, List.sum_cons, contribution_of_ne m _ _ l y x hl, zero_add]
      · rw [g6, List.map_cons, List.sum_cons, contribution_of_ne m _ _ l y x hl, zero_add]

/-- C1 (witness): one successful merge of a patch of one pixel into `onePixelPyramid`. -/
theorem merge_accumulates_witness :
    ∃ (c1 : CachedImage RGBfColor) (w1 : CachedImage ℚ),
      (onePixelPyramid.mergeAll [onePixelCall]).2.levels[0]? = some c1 ∧
      (onePixelPyramid.mergeAll [onePixelCall]).2.weights[0]? = some w1 ∧
      (c1.getPixel 0 0 default).r =
        ((⟨1, 1, 1, 1, 1, [[⟨1, 1, 1, 1, true, fun _ => ⟨0, 0, 0⟩⟩]]⟩ :
          CachedImage RGBfColor).getPixel 0 0 default).r +
          ([onePixelCall].map (fun m => m.contribution 1
            (fun i j => (m.oimg.data i j).r * m.oweight.data i j) 0 0 0)).sum ∧
      (c1.getPixel 0 0 default).g =
        ((⟨1, 1, 1, 1, 1, [[⟨1, 1, 1, 1, true, fun _ => ⟨0, 0, 0⟩⟩]]⟩ :
          CachedImage RGBfColor).getPixel 0 0 default).g +
          ([onePixelCall].map (fun m => m.contribution 1
            (fun i j => (m.oimg.data i j).g * m.oweight.data i j) 0 0 0)).sum ∧
      (c1.getPixel 0 0 default).b =
        ((⟨1, 1, 1, 1, 1, [[⟨1, 1, 1, 1, true, fun _ => ⟨0, 0, 0⟩⟩]]⟩ :
          CachedImage RGBfColor).getPixel 0 0 default).b +
          ([onePixelCall].map (fun m => m.contribution 1
            (fun i j => (m.oimg.data i j).b * m.oweight.data i j) 0 0 0)).sum ∧
      w1.getPixel 0 0 0 =
        ((⟨1, 1, 1, 1, 1, [[⟨1, 1, 1, 1, true, fun _ => 0⟩]]⟩ : CachedImage ℚ).getPixel 0 0 0) +
          ([onePixelCall].map (fun m => m.contribution 1
            (fun i j => m.oweight.data i j) 0 0 0)).sum :=
  merge_accumulates [onePixelCall] onePixelPyramid 0
    ⟨1, 1, 1, 1, 1, [[⟨1, 1, 1, 1, true, fun _ => ⟨0, 0, 0⟩⟩]]⟩
    ⟨1, 1, 1, 1, 1, [[⟨1, 1, 1, 1, true, fun _ => 0⟩]]⟩ 0 0 default 0 rfl rfl (by decide)
    (by decide) rfl rfl
    (by
      intro m hm _
      rw [List.mem_singleton] at hm
      subst hm
      decide)
    (by decide!) (by decide) (by decide)

/-- C3 (witness): a view of two columns at offset `3` of a panorama of width `4`, where
it straddles the meridian, and the same view at offset `3 + 4`. -/
theorem apply_offset_wrap_witness :
    wrapPyramid.apply smallView smallMask smallWeights (3 + 4) 0 =
      wrapPyramid.apply smallView smallMask smallWeights 3 0 ∧
    ∀ l, l < wrapPyramid.levels.length → ((3 + 4) / 2 ^ l) % (4 / 2 ^ l) = (3 / 2 ^ l) % (4 / 2 ^ l) := by
  obtain ⟨cs, ws, mgr1, h1, h2, _, _, _, _, h7, h8⟩ :=
    initialize_neverFails 4 2 2 (plainManager 2) (fun _ => ⟨7, 7, 7⟩) (fun _ => 7) (fun _ => rfl)
  have hp : wrapPyramid = ⟨4, 2, 2, cs, ws⟩ := by
    unfold wrapPyramid
    rw [h1]
  exact apply_offset_wrap wrapPyramid 4 smallView smallMask smallWeights 3 0
    (by
      rw [hp]
      intro l img h
      exact (h7 l img h).1)
    (by
      rw [hp]
      intro l w h
      exact (h8 l w h).1)
    (by
      rw [hp]
      simp only [h2]
      decide)

/-! ## The copy loop of `rebuild`, in general -/

theorem copyRow_length (ts : Nat) (rowIn : List (CachedTile RGBfColor))
    (rowW : List (CachedTile ℚ)) :
    ∀ (rowOut : List (CachedTile RGBAfColor)) (j : Nat),
      (copyRow ts rowIn rowW j rowOut).2.length = rowOut.length := by
  intro rowOut
  induction rowOut with
  | nil =>
    intro j
    simp [copyRow]
  | cons o rest ih =>
    intro j
    unfold copyRow
    split
    · rfl
    · split
      · split
        · rfl
        · split
          · rfl
          · simp [ih]
      · rfl

theorem copyRow_true (ts : Nat) (rowIn : List (CachedTile RGBfColor))
    (rowW : List (CachedTile ℚ)) :
    ∀ (rowOut : List (CachedTile RGBAfColor)) (j : Nat),
      (copyRow ts rowIn rowW j rowOut).1 = true →
      ∀ (m : Nat) (o : CachedTile RGBAfColor), rowOut[m]? = some o →
        ∃ (c : CachedTile RGBfColor) (w : CachedTile ℚ),
          rowIn[j + m]? = some c ∧ rowW[j + m]? = some w ∧ o.acquirable = true ∧
          c.acquirable = true ∧ w.acquirable = true ∧
          (copyRow ts rowIn rowW j rowOut).2[m]? = some (copyTile ts o c w) := by
  intro rowOut
  induction rowOut with
  | nil =>
    intro j _ m o ho
    simp at ho
  | cons o1 rest ih =>
    intro j h m o ho
    unfold copyRow at h ⊢
    by_cases ha : o1.acquirable = false
    · rw [if_pos ha] at h
      simp at h
    · rw [if_neg ha] at h ⊢
      cases hc : rowIn[j]? with
      | none =>
        simp only [hc] at h
        simp at h
      | some c =>
        cases hw : rowW[j]? with
        | none =>
          simp only [hc, hw] at h
          simp at h
        | some w =>
          simp only [hc, hw] at h ⊢
          by_cases hca : c.acquirable = false
          · rw [if_pos hca] at h
            simp at h
          · rw [if_neg hca] at h ⊢
            by_cases hwa : w.acquirable = false
            · rw [if_pos hwa] at h
              simp at h
            · rw [if_neg hwa] at h ⊢
              simp only at h ⊢
              cases m with
              | zero =>
                simp only [List.getElem?_cons_zero, Option.some.injEq] at ho
                subst ho
                exact ⟨c, w, by simpa using hc, by simpa using hw, by simpa using ha,
                  by simpa using hca, by simpa using hwa, by simp⟩
              | succ m =>
                simp only [List.getElem?_cons_succ] at ho
                obtain ⟨c1, w1, g1, g2, g3, g4, g5, g6⟩ := ih (j + 1) h m o ho
                refine ⟨c1, w1, ?_, ?_, g3, g4, g5, ?_⟩
                · rw [← g1]
                  congr 1
                  omega
                · rw [← g2]
                  congr 1
                  omega
                · simpa using g6

theorem copyRows_length (ts : Nat) (input : List (List (CachedTile RGBfColor)))
    (weight : List (List (CachedTile ℚ))) :
    ∀ (rows : List (List (CachedTile RGBAfColor))) (i m : Nat),
      ((copyRows ts input weight i rows).2[m]?).map List.length = (rows[m]?).map List.length := by
  intro rows
  induction rows with
  | nil =>
    intro i m
    simp [copyRows]
  | cons row rest ih =>
    intro i m
    unfold copyRows
    cases hc : input[i]? with
    | none => simp only
    | some rowIn =>
      cases hw : weight[i]? with
      | none => simp only
      | some rowW =>
        simp only
        by_cases hr : (copyRow ts rowIn rowW 0 row).1 = false
        · rw [if_pos hr]
          cases m with
          | zero => simp [copyRow_length]
          | succ m => simp
        · rw [if_neg hr]
          cases m with
          | zero => simp [copyRow_length]
          | succ m => simpa using ih (i + 1) m

theorem copyRows_true (ts : Nat) (input : List (List (CachedTile RGBfColor)))
    (weight : List (List (CachedTile ℚ))) :
    ∀ (rows : List (List (CachedTile RGBAfColor))) (i : Nat),
      (copyRows ts input weight i rows).1 = true →
      ∀ (m : Nat) (rowOut : List (CachedTile RGBAfColor)), rows[m]? = some rowOut →
        ∃ (rowIn : List (CachedTile RGBfColor)) (rowW : List (CachedTile ℚ)),
          input[i + m]? = some rowIn ∧ weight[i + m]? = some rowW ∧
          (copyRow ts rowIn rowW 0 rowOut).1 = true ∧
          (copyRows ts input weight i rows).2[m]? = some (copyRow ts rowIn rowW 0 rowOut).2 := by
  intro rows
  induction rows with
  | nil =>
    intro i _ m rowOut ho
    simp at ho
  | cons row rest ih =>
    intro i h m rowOut ho
    unfold copyRows at h ⊢
    cases hc : input[i]? with
    | none =>
      simp only [hc] at h
      simp at h
    | some rowIn =>
      cases hw : weight[i]? with
      | none =>
        simp only [hc, hw] at h
        simp at h
      | some rowW =>
        simp only [hc, hw] at h ⊢
        by_cases hr : (copyRow ts rowIn rowW 0 row).1 = false
        · rw [if_pos hr] at h
          simp at h
        · rw [if_neg hr] at h ⊢
          simp only at h ⊢
          cases m with
          | zero =>
            simp only [List.getElem?_cons_zero, Option.some.injEq] at ho
            subst ho
            exact ⟨rowIn, rowW, by simpa using hc, by simpa using hw, by simpa using hr, by simp⟩
          | succ m =>
            simp only [List.getElem?_cons_succ] at ho
            obtain ⟨r1, r2, g1, g2, g3, g4⟩ := ih (i + 1) h m rowOut ho
            refine ⟨r1, r2, ?_, ?_, g3, ?_⟩
            · rw [← g1]
              congr 1
              omega
            · rw [← g2]
              congr 1
              omega
            · simpa using g4

theorem getElem?_of_length_eq {α β : Type} (xs : List α) (ys : List β) (m : Nat) (x : α)
    (hx : xs[m]? = some x) (hlen : xs.length = ys.length) : ∃ y, ys[m]? = some y := by
  have h1 : m < xs.length := (List.getElem?_eq_some.mp hx).1
  have h2 : m < ys.length := hlen ▸ h1
  exact ⟨ys[m], List.getElem?_eq_getElem h2⟩

/-- What a successful `rebuild` has done: the first part succeeded, and every tile of the
output is the copy of the tile of the same row and column of the finest level. -/
theorem rebuild_true (p : LaplacianPyramid) (output : CachedImage RGBAfColor)
    (h : (p.rebuild output).1 = true) :
    p.collapse.1 = true ∧
    ∃ (level0 : CachedImage RGBfColor) (weight0 : CachedImage ℚ),
      p.collapse.2[0]? = some level0 ∧ p.weights[0]? = some weight0 ∧
      (p.rebuild output).2.1.levels = p.collapse.2 ∧
      (p.rebuild output).2.2.tileSize = output.tileSize ∧
      ∀ i j t, (p.rebuild output).2.2.tile? i j = some t →
        ∃ (o : CachedTile RGBAfColor) (c : CachedTile RGBfColor) (w : CachedTile ℚ),
          output.tile? i j = some o ∧ level0.tile? i j = some c ∧ weight0.tile? i j = some w ∧
          o.acquirable = true ∧ c.acquirable = true ∧ w.acquirable = true ∧
          t = copyTile output.tileSize o c w := by
  unfold LaplacianPyramid.rebuild at h ⊢
  simp only at h ⊢
  by_cases hc : p.collapse.1 = false
  · rw [if_pos hc] at h
    simp at h
  · rw [if_neg hc] at h ⊢
    refine ⟨by simpa using hc, ?_⟩
    cases h0 : p.collapse.2[0]? with
    | none =>
      simp only [h0] at h
      simp at h
    | some level0 =>
      cases hw0 : p.weights[0]? with
      | none =>
        simp only [h0, hw0] at h
        simp at h
      | some weight0 =>
        simp only [h0, hw0] at h ⊢
        refine ⟨level0, weight0, ?_, ?_, ?_, ?_, ?_⟩
        · trivial
        · trivial
        · trivial
        · trivial
        intro i j t ht
        rw [CachedImage.tile?_eq_some] at ht
        obtain ⟨row, hrow, hj⟩ := ht
        simp only at hrow
        have hlen := copyRows_length output.tileSize level0.tilesArray weight0.tilesArray
          output.tilesArray 0 i
        rw [hrow] at hlen
        cases hro : output.tilesArray[i]? with
        | none =>
          rw [hro] at hlen
          simp at hlen
        | some rowOut =>
          obtain ⟨rowIn, rowW, g1, g2, g3, g4⟩ :=
            copyRows_true output.tileSize level0.tilesArray weight0.tilesArray
              output.tilesArray 0 h i rowOut hro
          rw [hrow] at g4
          have hrow1 : row = (copyRow output.tileSize rowIn rowW 0 rowOut).2 :=
            Option.some.inj g4
          have hl2 := copyRow_length output.tileSize rowIn rowW rowOut 0
          rw [← hrow1] at hl2
          obtain ⟨o, ho⟩ := getElem?_of_length_eq row rowOut j t hj hl2
          obtain ⟨c, w, k1, k2, k3, k4, k5, k6⟩ :=
            copyRow_true output.tileSize rowIn rowW rowOut 0 g3 j o ho
          rw [← hrow1, hj] at k6
          simp only [Nat.zero_add] at g1 g2 k1 k2
          refine ⟨o, c, w, ?_, ?_, ?_, k3, k4, k5, Option.some.inj k6⟩
          · rw [CachedImage.tile?_eq_some]
            exact ⟨rowOut, hro, ho⟩
          · rw [CachedImage.tile?_eq_some]
            exact ⟨rowIn, g1, k1⟩
          · rw [CachedImage.tile?_eq_some]
            exact ⟨rowW, g2, k2⟩

/-! ## Shapes through `rebuild` -/

theorem perPixelOperation_shape {α β : Type} (img : CachedImage α) (other : CachedImage β)
    (f : α → β → α) : (img.perPixelOperation other f).2.shape = img.shape := by
  unfold CachedImage.perPixelOperation
  split
  · apply CachedImage.shape_mapTiles
    intro i j t
    split
    · split <;> rfl
    · rfl
  · rfl

theorem removeNegativeValues_shape (img : CachedImage RGBfColor) :
    (removeNegativeValues img).2.shape = img.shape := by
  unfold removeNegativeValues
  apply CachedImage.shape_mapTiles
  intro i j t
  split <;> rfl

theorem assign_shape {α : Type} (output : CachedImage α) (input : Image α)
    (outputBb inputBb : BoundingBox) :
    (loopyCachedImageAssign output input outputBb inputBb).2.shape = output.shape := by
  unfold loopyCachedImageAssign
  split
  · exact CachedImage.shape_mapTiles _ _ (fun _ _ _ => rfl)
  · rfl

theorem rebuildWindow_eq (half current : CachedImage RGBfColor) (x y : Nat) :
    rebuildWindow half current x y =
      if (windowExtracted half x y).1 = false then none
      else if (windowNext half current x y).1 = false then none
      else if (windowAssigned half current x y).1 = false then none
      else some (windowAssigned half current x y).2 := by
  unfold rebuildWindow
  rfl

theorem rebuildWindow_some (half current : CachedImage RGBfColor) (x y : Nat)
    (c1 : CachedImage RGBfColor) (h : rebuildWindow half current x y = some c1) :
    (windowExtracted half x y).1 = true ∧ (windowNext half current x y).1 = true ∧
    (windowAssigned half current x y).1 = true ∧ c1 = (windowAssigned half current x y).2 := by
  rw [rebuildWindow_eq] at h
  by_cases h1 : (windowExtracted half x y).1 = false
  · rw [if_pos h1] at h
    simp at h
  · rw [if_neg h1] at h
    by_cases h2 : (windowNext half current x y).1 = false
    · rw [if_pos h2] at h
      simp at h
    · rw [if_neg h2] at h
      by_cases h3 : (windowAssigned half current x y).1 = false
      · rw [if_pos h3] at h
        simp at h
      · rw [if_neg h3] at h
        exact ⟨by simpa using h1, by simpa using h2, by simpa using h3, (Option.some.inj h).symm⟩

theorem rebuildWindow_shape (half current : CachedImage RGBfColor) (x y : Nat)
    (c1 : CachedImage RGBfColor) (h : rebuildWindow half current x y = some c1) :
    c1.shape = current.shape := by
  rw [(rebuildWindow_some half current x y c1 h).2.2.2]
  exact assign_shape _ _ _ _

theorem rebuildWindowRow_shape (half : CachedImage RGBfColor) (y : Nat) :
    ∀ (ks : List Nat) (current c1 : CachedImage RGBfColor),
      rebuildWindowRow half y ks current = some c1 → c1.shape = current.shape := by
  intro ks
  induction ks with
  | nil =>
    intro current c1 h
    simp only [rebuildWindowRow, Option.some.injEq] at h
    rw [h]
  | cons k ks ih =>
    intro current c1 h
    unfold rebuildWindowRow at h
    cases hw : rebuildWindow half current (k * processingSize) y with
    | none => simp [hw] at h
    | some c2 =>
      simp only [hw] at h
      rw [ih c2 c1 h, rebuildWindow_shape half current _ y c2 hw]

theorem rebuildWindowRows_shape (half : CachedImage RGBfColor) :
    ∀ (ks : List Nat) (current c1 : CachedImage RGBfColor),
      rebuildWindowRows half ks current = some c1 → c1.shape = current.shape := by
  intro ks
  induction ks with
  | nil =>
    intro current c1 h
    simp only [rebuildWindowRows, Option.some.injEq] at h
    rw [h]
  | cons k ks ih =>
    intro current c1 h
    unfold rebuildWindowRows at h
    cases hw : rebuildWindowRow half (k * processingSize)
        (List.range (ceilDiv half.width processingSize)) current with
    | none => simp [hw] at h
    | some c2 =>
      simp only [hw] at h
      rw [ih c2 c1 h, rebuildWindowRow_shape half _ _ current c2 hw]

theorem sameShapes_refl {α : Type} (xs : List (CachedImage α)) : sameShapes xs xs :=
  fun _ => rfl

theorem sameShapes_trans {α β γ : Type} (xs : List (CachedImage α)) (ys : List (CachedImage β))
    (zs : List (CachedImage γ)) (h1 : sameShapes xs ys) (h2 : sameShapes ys zs) :
    sameShapes xs zs :=
  fun n => (h1 n).trans (h2 n)

theorem sameShapes_set {α : Type} (xs : List (CachedImage α)) (l : Nat) (c c1 : CachedImage α)
    (hc : xs[l]? = some c) (hs : c1.shape = c.shape) : sameShapes (xs.set l c1) xs := by
  intro n
  rw [List.getElem?_set]
  by_cases hn : l = n
  · subst hn
    have hl : l < xs.length := (List.getElem?_eq_some.mp hc).1
    simp [hl, hc, hs]
  · simp [hn]

theorem sameShapes_get {α β : Type} (xs : List (CachedImage α)) (ys : List (CachedImage β))
    (h : sameShapes xs ys) (n : Nat) (x : CachedImage α) (hx : xs[n]? = some x) :
    ∃ y, ys[n]? = some y ∧ x.shape = y.shape := by
  have := h n
  rw [hx] at this
  cases hy : ys[n]? with
  | none => simp [hy] at this
  | some y =>
    simp only [hy, Option.map_some', Option.some.injEq] at this
    exact ⟨y, rfl, this⟩

theorem sameShapes_symm {α β : Type} (xs : List (CachedImage α)) (ys : List (CachedImage β))
    (h : sameShapes xs ys) : sameShapes ys xs :=
  fun n => (h n).symm

theorem normalizeLevels_sameShapes (p : LaplacianPyramid) :
    sameShapes p.normalizeLevels p.levels := by
  intro n
  unfold LaplacianPyramid.normalizeLevels
  rw [List.getElem?_mapIdx]
  cases p.levels[n]? with
  | none => simp only [Option.map_none']
  | some c =>
    simp only [Option.map_some', Option.some.injEq]
    split
    · exact perPixelOperation_shape _ _ _
    · rfl

theorem rebuildLevel_sameShapes (levels levels1 : List (CachedImage RGBfColor)) (l : Nat)
    (h : rebuildLevel levels l = some levels1) : sameShapes levels1 levels := by
  unfold rebuildLevel at h
  cases h1 : levels[l + 1]? with
  | none => simp [h1] at h
  | some half =>
    cases h2 : levels[l]? with
    | none => simp [h1, h2] at h
    | some current =>
      simp only [h1, h2] at h
      cases h3 : rebuildWindowRows half (List.range (ceilDiv half.height processingSize))
          current with
      | none => simp [h3] at h
      | some c1 =>
        simp only [h3, Option.some.injEq] at h
        rw [← h]
        exact sameShapes_set levels l current _ h2
          ((removeNegativeValues_shape c1).trans (rebuildWindowRows_shape half _ current c1 h3))

theorem rebuildLevels_sameShapes :
    ∀ (n : Nat) (levels levels1 : List (CachedImage RGBfColor)),
      rebuildLevels n levels = some levels1 → sameShapes levels1 levels := by
  intro n
  induction n with
  | zero =>
    intro levels levels1 h
    simp only [rebuildLevels, Option.some.injEq] at h
    rw [h]
    exact sameShapes_refl _
  | succ n ih =>
    intro levels levels1 h
    unfold rebuildLevels at h
    cases h1 : rebuildLevel levels n with
    | none => simp [h1] at h
    | some l1 =>
      simp only [h1] at h
      exact sameShapes_trans _ _ _ (ih l1 levels1 h) (rebuildLevel_sameShapes levels l1 n h1)

/-! ## The last operation on the finest level -/

theorem rebuildLevel_some (levels levels1 : List (CachedImage RGBfColor)) (l : Nat)
    (h : rebuildLevel levels l = some levels1) :
    ∃ (half current c1 : CachedImage RGBfColor),
      levels[l + 1]? = some half ∧ levels[l]? = some current ∧
      rebuildWindowRows half (List.range (ceilDiv half.height processingSize)) current = some c1 ∧
      levels1 = levels.set l (removeNegativeValues c1).2 := by
  unfold rebuildLevel at h
  cases h1 : levels[l + 1]? with
  | none => simp [h1] at h
  | some half =>
    cases h2 : levels[l]? with
    | none => simp [h1, h2] at h
    | some current =>
      simp only [h1, h2] at h
      cases h3 : rebuildWindowRows half (List.range (ceilDiv half.height processingSize))
          current with
      | none => simp [h3] at h
      | some c1 =>
        simp only [h3, Option.some.injEq] at h
        exact ⟨half, current, c1, rfl, rfl, h3, h.symm⟩

theorem rebuildLevels_succ (n : Nat) (levels levels1 : List (CachedImage RGBfColor))
    (h : rebuildLevels (n + 1) levels = some levels1) :
    ∃ l1, rebuildLevel levels n = some l1 ∧ rebuildLevels n l1 = some levels1 := by
  unfold rebuildLevels at h
  cases h1 : rebuildLevel levels n with
  | none => simp [h1] at h
  | some l1 =>
    simp only [h1] at h
    exact ⟨l1, rfl, h⟩

theorem rebuildLevels_clamped :
    ∀ (n : Nat) (levels levels1 : List (CachedImage RGBfColor)),
      rebuildLevels n levels = some levels1 →
      (n = 0 ∧ levels1 = levels) ∨ ∃ X, levels1[0]? = some (removeNegativeValues X).2 := by
  intro n
  induction n with
  | zero =>
    intro levels levels1 h
    simp only [rebuildLevels, Option.some.injEq] at h
    exact Or.inl ⟨rfl, h.symm⟩
  | succ n ih =>
    intro levels levels1 h
    obtain ⟨l1, h1, h2⟩ := rebuildLevels_succ n levels levels1 h
    rcases ih l1 levels1 h2 with ⟨hn, he⟩ | hx
    · subst hn
      obtain ⟨half, current, c1, _, g2, _, g4⟩ := rebuildLevel_some levels l1 0 h1
      right
      refine ⟨c1, ?_⟩
      rw [he, g4, List.getElem?_set]
      have hl : 0 < levels.length := (List.getElem?_eq_some.mp g2).1
      simp [hl]
    · exact Or.inr hx

theorem collapse_true (p : LaplacianPyramid) (h : p.collapse.1 = true) :
    sameShapes p.collapse.2 p.levels ∧
    ∃ X, p.collapse.2[0]? = some (removeNegativeValues X).2 := by
  unfold LaplacianPyramid.collapse at h ⊢
  simp only at h ⊢
  cases h1 : p.normalizeLevels[p.normalizeLevels.length - 1]? with
  | none => simp [h1] at h
  | some last =>
    simp only [h1] at h ⊢
    cases h2 : rebuildLevels
        ((p.normalizeLevels.set (p.normalizeLevels.length - 1)
          (removeNegativeValues last).2).length - 1)
        (p.normalizeLevels.set (p.normalizeLevels.length - 1) (removeNegativeValues last).2) with
    | none =>
      simp only [List.length_set] at h2
      simp [h2] at h
    | some levels3 =>
      simp only
      constructor
      · exact sameShapes_trans _ _ _ (rebuildLevels_sameShapes _ _ _ h2)
          (sameShapes_trans _ _ _
            (sameShapes_set _ _ last _ h1 (removeNegativeValues_shape last))
            (normalizeLevels_sameShapes p))
      · rcases rebuildLevels_clamped _ _ _ h2 with ⟨hn, he⟩ | hx
        · refine ⟨last, ?_⟩
          rw [he]
          simp only [List.length_set] at hn
          rw [hn, List.getElem?_set]
          have hl : 0 < p.normalizeLevels.length := by
            have := (List.getElem?_eq_some.mp h1).1
            omega
          simp [hl]
        · exact hx

theorem clampNegative_nonneg (c : RGBfColor) :
    0 ≤ (clampNegative c).r ∧ 0 ≤ (clampNegative c).g ∧ 0 ≤ (clampNegative c).b := by
  unfold clampNegative
  exact ⟨le_max_left _ _, le_max_left _ _, le_max_left _ _⟩

theorem removeNegativeValues_tile (X : CachedImage RGBfColor) (i j : Nat)
    (c : CachedTile RGBfColor) (hc : (removeNegativeValues X).2.tile? i j = some c)
    (ha : c.acquirable = true) :
    ∃ t0, X.tile? i j = some t0 ∧ c.tileWidth = t0.tileWidth ∧ c.tileHeight = t0.tileHeight ∧
      ∀ k, k < t0.tileWidth * t0.tileHeight → c.data k = clampNegative (t0.data k) := by
  unfold removeNegativeValues at hc
  simp only [CachedImage.tile?_mapTiles] at hc
  cases h0 : X.tile? i j with
  | none => simp [h0] at hc
  | some t0 =>
    simp only [h0, Option.map_some', Option.some.injEq] at hc
    by_cases hta : t0.acquirable = true
    · rw [if_pos hta] at hc
      subst hc
      exact ⟨t0, rfl, rfl, rfl, fun k hk => by simp [hk]⟩
    · rw [if_neg hta] at hc
      subst hc
      exact absurd ha hta

/-- C9: when `rebuild` succeeds, every `r`, `g` and `b` value that it copies from the
finest level into the output is at least `0`: the last operation on the finest level,
whether it is the coarsest one or has just been rebuilt, is the clamp of the negative
values. The copy is assumed to stay inside the tile buffers of the finest level. -/
theorem rebuild_output_nonnegative (p : LaplacianPyramid) (output : CachedImage RGBAfColor)
    (c0 : CachedImage RGBfColor) (hc0 : p.levels[0]? = some c0)
    (hbuf : ∀ i j t, c0.tile? i j = some t →
      output.tileSize * output.tileSize ≤ t.tileWidth * t.tileHeight)
    (h : (p.rebuild output).1 = true) (i j k : Nat) (t : CachedTile RGBAfColor)
    (ht : (p.rebuild output).2.2.tile? i j = some t)
    (hk : k < output.tileSize * output.tileSize) :
    ∃ v : RGBfColor, tileData (p.rebuild output).2.1.levels 0 i j k = some v ∧
      (t.data k).r = v.r ∧ (t.data k).g = v.g ∧ (t.data k).b = v.b ∧
      0 ≤ (t.data k).r ∧ 0 ≤ (t.data k).g ∧ 0 ≤ (t.data k).b := by
  obtain ⟨hcol, level0, weight0, g1, _, g3, _, g5⟩ := rebuild_true p output h
  obtain ⟨o, c, w, _, k2, _, _, k5, _, k7⟩ := g5 i j t ht
  obtain ⟨hshape, X, hX⟩ := collapse_true p hcol
  rw [g1] at hX
  have hlev : level0 = (removeNegativeValues X).2 := Option.some.inj hX
  rw [hlev] at k2
  obtain ⟨t0, m1, m2, m3, m4⟩ := removeNegativeValues_tile X i j c k2 k5
  obtain ⟨y0, hy0, hys⟩ := sameShapes_get _ _ hshape 0 level0 g1
  rw [hc0] at hy0
  have hy1 : c0 = y0 := Option.some.inj hy0
  subst hy1
  have hts := CachedImage.tile?_shape level0 i j
  rw [hys, CachedImage.tile?_shape, hlev, k2] at hts
  cases hp : c0.tile? i j with
  | none => simp [hp] at hts
  | some tp =>
    simp only [hp, Option.map_some', Option.some.injEq] at hts
    have e1 : tp.tileWidth = c.tileWidth :=
      congrArg (fun s : CachedTile Unit => s.tileWidth) hts
    have e2 : tp.tileHeight = c.tileHeight :=
      congrArg (fun s : CachedTile Unit => s.tileHeight) hts
    have hb := hbuf i j tp hp
    rw [e1, e2, m2, m3] at hb
    have hdata := m4 k (lt_of_lt_of_le hk hb)
    obtain ⟨n1, n2, n3⟩ := clampNegative_nonneg (t0.data k)
    refine ⟨c.data k, ?_, ?_⟩
    · rw [g3]
      exact tileData_eq _ 0 i j k _ c (hlev ▸ g1) k2
    · rw [k7]
      simp only [copyTile, hk, if_true]
      rw [hdata]
      exact ⟨trivial, trivial, trivial, n1, n2, n3⟩
theorem rebuild_output_nonnegative_witness :
    tileData negativePyramid.levels 0 0 0 0 = some ⟨-1, 2, -3⟩ ∧
    (negativePyramid.rebuild tinyOutput).1 = true ∧
    ∃ t, (negativePyramid.rebuild tinyOutput).2.2.tile? 0 0 = some t ∧
      0 ≤ (t.data 0).r ∧ 0 ≤ (t.data 0).g ∧ 0 ≤ (t.data 0).b := by
  have hsome : ((negativePyramid.rebuild tinyOutput).2.2.tile? 0 0).isSome = true := by decide!
  obtain ⟨t, ht⟩ := Option.isSome_iff_exists.mp hsome
  have hgrid : negativeLevel.fullGrid 1 1 := by decide
  obtain ⟨v, _, _, _, _, h1, h2, h3⟩ :=
    rebuild_output_nonnegative negativePyramid tinyOutput negativeLevel rfl
      (fun i j t h => by
        obtain ⟨e1, e2, _⟩ := negativeLevel.fullGrid_of_tile 1 1 i j t hgrid h
        rw [e1, e2]
        exact Nat.le_refl _)
      (by decide!) 0 0 0 t ht (by decide)
  exact ⟨by decide!, by decide!, t, ht, h1, h2, h3⟩

/-! ## The windows of `rebuild` -/

theorem processingSize_eq : processingSize = 512 := by
  unfold processingSize
  rfl

theorem borderSize_eq : borderSize = 5 := by
  unfold borderSize
  rfl

theorem BoundingBox.clampLeft_left (b : BoundingBox) : b.clampLeft.left = max 0 b.left := by
  unfold BoundingBox.clampLeft
  split_ifs <;> simp <;> omega

theorem BoundingBox.clampLeft_top (b : BoundingBox) : b.clampLeft.top = b.top := by
  unfold BoundingBox.clampLeft
  split_ifs <;> rfl

theorem BoundingBox.clampLeft_width (b : BoundingBox) : b.clampLeft.width = b.width + min 0 b.left := by
  unfold BoundingBox.clampLeft
  split_ifs <;> simp <;> omega

theorem BoundingBox.clampLeft_height (b : BoundingBox) : b.clampLeft.height = b.height := by
  unfold BoundingBox.clampLeft
  split_ifs <;> rfl

theorem BoundingBox.clampTop_left (b : BoundingBox) : b.clampTop.left = b.left := by
  unfold BoundingBox.clampTop
  split_ifs <;> rfl

theorem BoundingBox.clampTop_top (b : BoundingBox) : b.clampTop.top = max 0 b.top := by
  unfold BoundingBox.clampTop
  split_ifs <;> simp <;> omega

theorem BoundingBox.clampTop_width (b : BoundingBox) : b.clampTop.width = b.width := by
  unfold BoundingBox.clampTop
  split_ifs <;> rfl

theorem BoundingBox.clampTop_height (b : BoundingBox) : b.clampTop.height = b.height + min 0 b.top := by
  unfold BoundingBox.clampTop
  split_ifs <;> simp <;> omega

theorem BoundingBox.clampRight_left (b : BoundingBox) (m : Int) : (b.clampRight m).left = b.left := by
  unfold BoundingBox.clampRight
  split_ifs <;> rfl

theorem BoundingBox.clampRight_top (b : BoundingBox) (m : Int) : (b.clampRight m).top = b.top := by
  unfold BoundingBox.clampRight
  split_ifs <;> rfl

theorem BoundingBox.clampRight_width (b : BoundingBox) (m : Int) :
    (b.clampRight m).width = min b.width (m - b.left + 1) := by
  unfold BoundingBox.clampRight
  split_ifs <;> simp <;> omega

theorem BoundingBox.clampRight_height (b : BoundingBox) (m : Int) : (b.clampRight m).height = b.height := by
  unfold BoundingBox.clampRight
  split_ifs <;> rfl

theorem BoundingBox.clampBottom_left (b : BoundingBox) (m : Int) : (b.clampBottom m).left = b.left := by
  unfold BoundingBox.clampBottom
  split_ifs <;> rfl

theorem BoundingBox.clampBottom_top (b : BoundingBox) (m : Int) : (b.clampBottom m).top = b.top := by
  unfold BoundingBox.clampBottom
  split_ifs <;> rfl

theorem BoundingBox.clampBottom_width (b : BoundingBox) (m : Int) : (b.clampBottom m).width = b.width := by
  unfold BoundingBox.clampBottom
  split_ifs <;> rfl

theorem BoundingBox.clampBottom_height (b : BoundingBox) (m : Int) :
    (b.clampBottom m).height = min b.height (m - b.top + 1) := by
  unfold BoundingBox.clampBottom
  split_ifs <;> simp <;> omega

/-- The box `extractedBb` of the window that starts at column `x` and row `y`. -/
theorem windowCore_fields (half : CachedImage RGBfColor) (x y : Nat) :
    (windowCore half x y).left = x ∧ (windowCore half x y).top = y ∧
    (windowCore half x y).width = min 512 ((half.width : Int) - x) ∧
    (windowCore half x y).height = min 512 ((half.height : Int) - y) := by
  simp only [windowCore, BoundingBox.clampLeft_left, BoundingBox.clampLeft_top, BoundingBox.clampLeft_width,
    BoundingBox.clampLeft_height, BoundingBox.clampTop_left, BoundingBox.clampTop_top, BoundingBox.clampTop_width, BoundingBox.clampTop_height,
    BoundingBox.clampRight_left, BoundingBox.clampRight_top, BoundingBox.clampRight_width, BoundingBox.clampRight_height,
    BoundingBox.clampBottom_left, BoundingBox.clampBottom_top, BoundingBox.clampBottom_width, BoundingBox.clampBottom_height,
    processingSize_eq, Nat.cast_ofNat]
  omega

/-- The box `dilatedBb` of the window that starts at column `x` and row `y`. -/
theorem windowDilated_fields (half : CachedImage RGBfColor) (x y : Nat) :
    (windowDilated half x y).left = max 0 ((x : Int) - 5) ∧
    (windowDilated half x y).top = max 0 ((y : Int) - 5) ∧
    (windowDilated half x y).left + (windowDilated half x y).width =
      x + (windowCore half x y).width + 5 ∧
    (windowDilated half x y).top + (windowDilated half x y).height =
      min (half.height : Int) (y + (windowCore half x y).height + 5) := by
  obtain ⟨k1, k2, k3, k4⟩ := windowCore_fields half x y
  simp only [windowDilated, BoundingBox.clampLeft_left, BoundingBox.clampLeft_top, BoundingBox.clampLeft_width,
    BoundingBox.clampLeft_height, BoundingBox.clampTop_left, BoundingBox.clampTop_top, BoundingBox.clampTop_width, BoundingBox.clampTop_height,
    BoundingBox.clampBottom_left, BoundingBox.clampBottom_top, BoundingBox.clampBottom_width, BoundingBox.clampBottom_height,
    BoundingBox.dilate, borderSize_eq, Nat.cast_ofNat, k1, k2]
  refine ⟨trivial, trivial, ?_, ?_⟩ <;> omega

theorem le_ceilDiv_mul (n ts : Nat) (hts : 0 < ts) : n ≤ ceilDiv n ts * ts := by
  unfold ceilDiv
  have h1 := Nat.div_add_mod (n + ts - 1) ts
  have h2 := Nat.mod_lt (n + ts - 1) hts
  rw [Nat.mul_comm] at h1
  omega

theorem pixelOk_of_fullGrid {α : Type} (img : CachedImage α) (ts y x : Nat) (hts : 0 < ts)
    (hg : img.fullGrid ts ts) (hy : y < img.height) (hx : x < img.width) :
    img.pixelOk y x = true := by
  have hsize : img.tileSize = ts := hg.1
  have hi : y / ts < ceilDiv img.height ts :=
    (Nat.div_lt_iff_lt_mul hts).mpr (lt_of_lt_of_le hy (le_ceilDiv_mul _ _ hts))
  have hj : x / ts < ceilDiv img.width ts :=
    (Nat.div_lt_iff_lt_mul hts).mpr (lt_of_lt_of_le hx (le_ceilDiv_mul _ _ hts))
  obtain ⟨t, ht⟩ := img.fullGrid_tile_exists ts ts _ _ hg hi hj
  obtain ⟨_, _, ha, _⟩ := img.fullGrid_of_tile ts ts _ _ t hg ht
  unfold CachedImage.pixelOk
  rw [hsize, ht]
  exact ha

theorem regionOk_of_fullGrid {α : Type} (img : CachedImage α) (ts : Nat) (bb : BoundingBox)
    (hts : 0 < ts) (hg : img.fullGrid ts ts) (hW : 0 < img.width)
    (hrow : ∃ i : Nat, i < bb.height.toNat ∧ 0 ≤ bb.top + (i : Int) ∧
      bb.top + (i : Int) < (img.height : Int)) : img.regionOk bb := by
  refine ⟨hrow, ?_⟩
  intro i _ j _ h1 h2
  apply pixelOk_of_fullGrid img ts _ _ hts hg
  · omega
  · exact wrapIndex_lt _ _ hW

theorem BoundingBox.doubleSize_fields (b : BoundingBox) :
    b.doubleSize.left = b.left * 2 ∧ b.doubleSize.top = b.top * 2 ∧
    b.doubleSize.width = b.width * 2 ∧ b.doubleSize.height = b.height * 2 :=
  ⟨rfl, rfl, rfl, rfl⟩

theorem windowExtracted_true (half : CachedImage RGBfColor) (ts x y : Nat) (hts : 0 < ts)
    (hhalf : half.fullGrid ts ts) (hx : x < half.width) (hy : y < half.height) :
    (windowExtracted half x y).1 = true := by
  obtain ⟨c1, c2, c3, c4⟩ := windowCore_fields half x y
  obtain ⟨d1, d2, d3, d4⟩ := windowDilated_fields half x y
  unfold windowExtracted
  rw [extract_fst]
  · rw [decide_eq_true_iff]
    apply regionOk_of_fullGrid half ts _ hts hhalf (by omega)
    exact ⟨0, by omega, by omega, by omega⟩
  · simp only [Image.alloc]
    omega
  · simp only [Image.alloc]
    omega

theorem windowNext_true (half current : CachedImage RGBfColor) (ts x y : Nat) (hts : 0 < ts)
    (hcur : current.fullGrid ts ts) (hx : x < half.width) (hy : y < half.height)
    (hw : 2 * half.width ≤ current.width) (hh : 2 * half.height ≤ current.height) :
    (windowNext half current x y).1 = true := by
  obtain ⟨c1, c2, c3, c4⟩ := windowCore_fields half x y
  obtain ⟨d1, d2, d3, d4⟩ := windowDilated_fields half x y
  obtain ⟨e1, e2, e3, e4⟩ := (windowDilated half x y).doubleSize_fields
  unfold windowNext
  rw [extract_fst]
  · rw [decide_eq_true_iff]
    apply regionOk_of_fullGrid current ts _ hts hcur (by omega)
    exact ⟨0, by omega, by omega, by omega⟩
  · simp only [Image.alloc]
    omega
  · simp only [Image.alloc]
    omega

theorem windowCore_regionOk (half current : CachedImage RGBfColor) (ts x y : Nat)
    (hts : 0 < ts) (hcur : current.fullGrid ts ts) (hx : x < half.width)
    (hy : y < half.height) (hw : 2 * half.width ≤ current.width)
    (hh : 2 * half.height ≤ current.height) :
    current.regionOk (windowCore half x y).doubleSize := by
  obtain ⟨c1, c2, c3, c4⟩ := windowCore_fields half x y
  obtain ⟨e1, e2, e3, e4⟩ := (windowCore half x y).doubleSize_fields
  apply regionOk_of_fullGrid current ts _ hts hcur (by omega)
  exact ⟨0, by omega, by omega, by omega⟩

/-- A window of `rebuild` on two levels with full grids of tiles succeeds, and adds the
blurred buffer to the pixels of its doubled window. -/
theorem rebuildWindow_normal (half current : CachedImage RGBfColor) (ts x y : Nat)
    (hts : 0 < ts) (hhalf : half.fullGrid ts ts) (hcur : current.fullGrid ts ts)
    (hx : x < half.width) (hy : y < half.height) (hw : 2 * half.width ≤ current.width)
    (hh : 2 * half.height ≤ current.height) :
    rebuildWindow half current x y = some (windowed half current x y) := by
  have g1 := windowExtracted_true half ts x y hts hhalf hx hy
  have g2 := windowNext_true half current ts x y hts hcur hx hy hw hh
  have g3 := windowCore_regionOk half current ts x y hts hcur hx hy hw hh
  obtain ⟨c1, c2, c3, c4⟩ := windowCore_fields half x y
  obtain ⟨d1, d2, d3, d4⟩ := windowDilated_fields half x y
  obtain ⟨e1, e2, e3, e4⟩ := (windowDilated half x y).doubleSize_fields
  obtain ⟨f1, f2, f3, f4⟩ := (windowCore half x y).doubleSize_fields
  have i1 : (windowInputBb half x y).left =
      (windowCore half x y).doubleSize.left - (windowDilated half x y).doubleSize.left := rfl
  have i2 : (windowInputBb half x y).top =
      (windowCore half x y).doubleSize.top - (windowDilated half x y).doubleSize.top := rfl
  have g4 : windowAssigned half current x y = (true, windowed half current x y) := by
    unfold windowAssigned
    rw [assign_eq current _ (windowCore half x y).doubleSize (windowInputBb half x y) rfl rfl g3]
    unfold windowed
    refine congrArg (fun c => (true, c)) ?_
    apply CachedImage.mapTiles_congr
    intro ti tj t ht
    apply assignTile_extract_add current _ _ _ (windowDelta half x y) default ti tj t ht
    intro y1 j hy1 hlo hhi hj
    have hrow : (windowDilated half x y).doubleSize.top +
        (((windowInputBb half x y).top +
          ((y1 : Int) - (windowCore half x y).doubleSize.top)).toNat : Int) = y1 := by
      omega
    have hdata := extract_data
      (Image.alloc (windowDilated half x y).doubleSize.width.toNat
        (windowDilated half x y).doubleSize.height.toNat)
      current (windowDilated half x y).doubleSize g2
      ((windowInputBb half x y).top + ((y1 : Int) - (windowCore half x y).doubleSize.top)).toNat
      ((windowInputBb half x y).left + (j : Int)).toNat (by omega) (by omega)
    have hcol : (windowDilated half x y).doubleSize.left +
        (((windowInputBb half x y).left + (j : Int)).toNat : Int) =
        (windowCore half x y).doubleSize.left + (j : Int) := by
      omega
    rw [hrow, hcol] at hdata
    simp only [addition, windowDelta]
    unfold windowNext
    rw [hdata]
    simp only [Image.alloc, Int.toNat_ofNat]
    have hi : (((y1 : Int) - (windowCore half x y).doubleSize.top).toNat : Int) =
        (y1 : Int) - (windowCore half x y).doubleSize.top := by
      omega
    rw [hi]
  rw [rebuildWindow_eq, g1, g2, g4]
  simp

/-! ## The level loop of `rebuild` when every window succeeds -/

theorem window_start_lt (n k : Nat) (h : k < ceilDiv n processingSize) :
    k * processingSize < n := by
  rw [processingSize_eq] at h ⊢
  unfold ceilDiv at h
  omega

theorem windowed_shape (half current : CachedImage RGBfColor) (x y : Nat) :
    (windowed half current x y).shape = current.shape :=
  CachedImage.shape_mapTiles _ _ (fun _ _ _ => rfl)

theorem windowedRow_shape (half : CachedImage RGBfColor) (y : Nat) :
    ∀ (ks : List Nat) (current : CachedImage RGBfColor),
      (windowedRow half y ks current).shape = current.shape := by
  intro ks
  induction ks with
  | nil => intro current; rfl
  | cons k ks ih =>
    intro current
    unfold windowedRow
    rw [List.foldl_cons]
    exact (ih _).trans (windowed_shape half current _ y)

theorem windowedRows_shape (half : CachedImage RGBfColor) :
    ∀ (ks : List Nat) (current : CachedImage RGBfColor),
      (windowedRows half ks current).shape = current.shape := by
  intro ks
  induction ks with
  | nil => intro current; rfl
  | cons k ks ih =>
    intro current
    unfold windowedRows
    rw [List.foldl_cons]
    exact (ih _).trans (windowedRow_shape half _ _ current)

theorem windowedAll_shape (half current : CachedImage RGBfColor) :
    (windowedAll half current).shape = current.shape :=
  windowedRows_shape half _ current

theorem rebuildWindowRow_normal (half : CachedImage RGBfColor) (ts y : Nat) (hts : 0 < ts)
    (hhalf : half.fullGrid ts ts) (hy : y < half.height) :
    ∀ (ks : List Nat) (current : CachedImage RGBfColor),
      (∀ k ∈ ks, k * processingSize < half.width) → current.fullGrid ts ts →
      2 * half.width ≤ current.width → 2 * half.height ≤ current.height →
      rebuildWindowRow half y ks current = some (windowedRow half y ks current) := by
  intro ks
  induction ks with
  | nil => intro current _ _ _ _; rfl
  | cons k ks ih =>
    intro current hks hcur hw hh
    have hk := hks k (List.mem_cons_self _ _)
    have hwin := rebuildWindow_normal half current ts (k * processingSize) y hts hhalf hcur hk hy
      hw hh
    have hs := windowed_shape half current (k * processingSize) y
    unfold rebuildWindowRow
    rw [hwin]
    simp only
    rw [ih (windowed half current (k * processingSize) y)
      (fun k1 hk1 => hks k1 (List.mem_cons_of_mem _ hk1))
      (CachedImage.fullGrid_congr current _ ts ts hs hcur)
      (by rw [CachedImage.shape_width _ _ hs]; exact hw)
      (by rw [CachedImage.shape_height _ _ hs]; exact hh)]
    rfl

theorem rebuildWindowRows_normal (half : CachedImage RGBfColor) (ts : Nat) (hts : 0 < ts)
    (hhalf : half.fullGrid ts ts) :
    ∀ (ks : List Nat) (current : CachedImage RGBfColor),
      (∀ k ∈ ks, k * processingSize < half.height) → current.fullGrid ts ts →
      2 * half.width ≤ current.width → 2 * half.height ≤ current.height →
      rebuildWindowRows half ks current = some (windowedRows half ks current) := by
  intro ks
  induction ks with
  | nil => intro current _ _ _ _; rfl
  | cons k ks ih =>
    intro current hks hcur hw hh
    have hk := hks k (List.mem_cons_self _ _)
    have hrow := rebuildWindowRow_normal half ts (k * processingSize) hts hhalf hk
      (List.range (ceilDiv half.width processingSize)) current
      (fun _ hk1 => window_start_lt _ _ (List.mem_range.mp hk1)) hcur hw hh
    have hs := windowedRow_shape half (k * processingSize)
      (List.range (ceilDiv half.width processingSize)) current
    unfold rebuildWindowRows
    rw [hrow]
    simp only
    rw [ih _ (fun k1 hk1 => hks k1 (List.mem_cons_of_mem _ hk1))
      (CachedImage.fullGrid_congr current _ ts ts hs hcur)
      (by rw [CachedImage.shape_width _ _ hs]; exact hw)
      (by rw [CachedImage.shape_height _ _ hs]; exact hh)]
    rfl

/-- All the windows of a level succeed on full grids of tiles. -/
theorem rebuildWindows_normal (half current : CachedImage RGBfColor) (ts : Nat) (hts : 0 < ts)
    (hhalf : half.fullGrid ts ts) (hcur : current.fullGrid ts ts)
    (hw : 2 * half.width ≤ current.width) (hh : 2 * half.height ≤ current.height) :
    rebuildWindowRows half (List.range (ceilDiv half.height processingSize)) current =
      some (windowedAll half current) :=
  rebuildWindowRows_normal half ts hts hhalf _ current
    (fun _ hk1 => window_start_lt _ _ (List.mem_range.mp hk1)) hcur hw hh

theorem stackOk_suffix {α : Type} (ts : Nat) :
    ∀ (pre xs : List (CachedImage α)), stackOk ts (pre ++ xs) → stackOk ts xs := by
  intro pre
  induction pre with
  | nil => intro xs h; exact h
  | cons c pre ih =>
    intro xs h
    exact ih xs h.2.2

theorem eq_nil_or_append_singleton {α : Type} (l : List α) :
    l = [] ∨ ∃ (pre : List α) (b : α), l = pre ++ [b] := by
  rcases List.eq_nil_or_concat l with h | ⟨pre, b, h⟩
  · exact Or.inl h
  · exact Or.inr ⟨pre, b, by rw [h, List.concat_eq_append]⟩

theorem rebuiltStack_cons_nil (c : CachedImage RGBfColor)
    (rest : List (CachedImage RGBfColor)) (h : rebuiltStack rest = []) :
    rebuiltStack (c :: rest) = [(removeNegativeValues c).2] := by
  rw [rebuiltStack, h]

theorem rebuiltStack_cons_cons (c half : CachedImage RGBfColor)
    (rest r : List (CachedImage RGBfColor)) (h : rebuiltStack rest = half :: r) :
    rebuiltStack (c :: rest) = (removeNegativeValues (windowedAll half c)).2 :: half :: r := by
  rw [rebuiltStack, h]

theorem rebuiltStack_head (h0 : CachedImage RGBfColor) (rest : List (CachedImage RGBfColor)) :
    ∃ half r, rebuiltStack (h0 :: rest) = half :: r ∧ half.shape = h0.shape := by
  cases h : rebuiltStack rest with
  | nil => exact ⟨_, _, rebuiltStack_cons_nil h0 rest h, removeNegativeValues_shape h0⟩
  | cons half r =>
    exact ⟨_, _, rebuiltStack_cons_cons h0 half rest r h,
      (removeNegativeValues_shape _).trans (windowedAll_shape half h0)⟩

theorem rebuildLevels_stack (ts : Nat) (hts : 0 < ts) :
    ∀ (n : Nat) (pre rest : List (CachedImage RGBfColor)), pre.length = n →
      stackOk ts (pre ++ rest) → rest ≠ [] →
      rebuildLevels n (pre ++ rebuiltStack rest) = some (rebuiltStack (pre ++ rest)) := by
  intro n
  induction n with
  | zero =>
    intro pre rest hlen _ _
    have hpre : pre = [] := List.length_eq_zero.mp hlen
    subst hpre
    rfl
  | succ n ih =>
    intro pre rest hlen hok hne
    rcases eq_nil_or_append_singleton pre with hnil | ⟨pre1, c, hpre⟩
    · subst hnil
      simp at hlen
    · subst hpre
      have hlen1 : pre1.length = n := by
        simp only [List.length_append, List.length_singleton] at hlen
        omega
      cases rest with
      | nil => exact absurd rfl hne
      | cons h0 rest1 =>
        obtain ⟨half, r, hstack, hshape⟩ := rebuiltStack_head h0 rest1
        have hsuf : stackOk ts (c :: h0 :: rest1) := by
          apply stackOk_suffix ts pre1
          rw [List.append_assoc] at hok
          exact hok
        obtain ⟨hc, hdim, hrest⟩ := hsuf
        obtain ⟨hw, hh⟩ := hdim h0 rfl
        have hhalf : half.fullGrid ts ts :=
          CachedImage.fullGrid_congr h0 half ts ts hshape hrest.1
        rw [← CachedImage.shape_width h0 half hshape] at hw
        rw [← CachedImage.shape_height h0 half hshape] at hh
        have hwin := rebuildWindows_normal half c ts hts hhalf hc hw hh
        have hlev : rebuildLevel (pre1 ++ [c] ++ rebuiltStack (h0 :: rest1)) n =
            some (pre1 ++ rebuiltStack (c :: h0 :: rest1)) := by
          rw [rebuiltStack_cons_cons c half (h0 :: rest1) r hstack, hstack]
          unfold rebuildLevel
          have e1 : (pre1 ++ [c] ++ half :: r)[n + 1]? = some half := by
            rw [List.getElem?_append_right (by simp [hlen1])]
            simp [hlen1]
          have e2 : (pre1 ++ [c] ++ half :: r)[n]? = some c := by
            rw [List.append_assoc, List.getElem?_append_right (by simp [hlen1])]
            simp [hlen1]
          rw [e1, e2]
          simp only
          rw [hwin]
          simp only [Option.some.injEq]
          rw [List.append_assoc, ← hlen1]
          simp
        unfold rebuildLevels
        rw [hlev]
        simp only
        have := ih pre1 (c :: h0 :: rest1) hlen1
          (by rw [List.append_assoc] at hok; exact hok) (List.cons_ne_nil _ _)
        rw [this, List.append_assoc]
        rfl

/-- On a stack of full grids of tiles, the first part of `rebuild` succeeds and leaves
the stack `rebuiltStack` of the normalised levels. -/
theorem collapse_eq (p : LaplacianPyramid) (ts : Nat) (hts : 0 < ts)
    (hok : stackOk ts p.normalizeLevels) (hne : p.normalizeLevels ≠ []) :
    p.collapse = (true, rebuiltStack p.normalizeLevels) := by
  unfold LaplacianPyramid.collapse
  simp only
  generalize p.normalizeLevels = N at hok hne
  rcases eq_nil_or_append_singleton N with hnil | ⟨pre, last, hN⟩
  · exact absurd hnil hne
  · subst hN
    have e1 : (pre ++ [last])[(pre ++ [last]).length - 1]? = some last := by
      simp
    rw [e1]
    simp only
    have e2 : (pre ++ [last]).set ((pre ++ [last]).length - 1) (removeNegativeValues last).2 =
        pre ++ rebuiltStack [last] := by
      simp [rebuiltStack]
    rw [e2]
    have e3 : (pre ++ rebuiltStack [last]).length - 1 = pre.length := by
      simp [rebuiltStack]
    rw [e3, rebuildLevels_stack ts hts pre.length pre [last] rfl hok (List.cons_ne_nil _ _)]

/-! ## Windows of a level that holds nothing -/

theorem RGBfColor.smul_zero_color (s : ℚ) : s • (0 : RGBfColor) = 0 := by
  ext <;> simp

theorem kernelTap_zero (c : Int) : kernelTap (fun _ => (0 : RGBfColor)) c = 0 := by
  unfold kernelTap
  simp only [RGBfColor.smul_zero_color, add_zero]

theorem convolve_zero (output input : Image RGBfColor) (wrap : Bool)
    (h : ∀ a b, input.data a b = 0) (i j : Nat) :
    (convolveGaussian5x5 output input wrap).data i j = 0 := by
  simp only [convolveGaussian5x5, h, kernelTap_zero]

theorem upscale_zero (output input : Image RGBfColor) (ho : ∀ a b, output.data a b = 0)
    (h : ∀ a b, input.data a b = 0) (i j : Nat) : (upscale output input).data i j = 0 := by
  simp only [upscale, h, ho, ite_self]

theorem timesFour_zero (buf : Image RGBfColor) (h : ∀ a b, buf.data a b = 0) (i j : Nat) :
    (timesFour buf).data i j = 0 := by
  simp only [timesFour, h, RGBfColor.smul_zero_color, ite_self]

theorem extract_zero (w h : Nat) (src : CachedImage RGBfColor) (bb : BoundingBox)
    (hW : 0 < src.width) (hz : src.isZero) (a b : Nat) :
    (loopyCachedImageExtract (Image.alloc w h) src bb).2.data a b = 0 := by
  unfold loopyCachedImageExtract
  split
  · simp only [Image.alloc]
    split
    next hrow => exact hz _ _ (by omega) (wrapIndex_lt _ _ hW)
    · rfl
  · rfl

/-- The buffer of a window over a half level that holds nothing is zero. -/
theorem windowBuffer_zero (half : CachedImage RGBfColor) (hW : 0 < half.width)
    (hz : half.isZero) (x y i j : Nat) : (windowBuffer half x y).data i j = 0 := by
  unfold windowBuffer
  apply timesFour_zero
  apply convolve_zero
  apply upscale_zero
  · intro a b
    rfl
  · exact extract_zero _ _ half _ hW hz

theorem regionDelta_zero {α : Type} [Zero α] (ts W H : Nat) (bb : BoundingBox)
    (v : Nat → Nat → α) (hv : ∀ i j, v i j = 0) (ti tj k : Nat) :
    regionDelta ts W H bb v ti tj k = 0 := by
  unfold regionDelta sourceValue
  split
  · split
    · exact hv _ _
    · rfl
  · rfl

/-- A window over a half level that holds nothing leaves the current level as it is. -/
theorem windowed_of_zero (half current : CachedImage RGBfColor) (hW : 0 < half.width)
    (hz : half.isZero) (x y : Nat) : windowed half current x y = current := by
  unfold windowed
  apply CachedImage.mapTiles_eq_self
  intro i j t _
  have hd : ∀ k, regionDelta current.tileSize current.width current.height
      (windowCore half x y).doubleSize (windowDelta half x y) i j k = 0 :=
    regionDelta_zero _ _ _ _ _ (fun a b => windowBuffer_zero half hW hz x y _ _) i j
  unfold CachedTile.addDelta
  simp only [hd, add_zero]

theorem windowedRow_of_zero (half : CachedImage RGBfColor) (hW : 0 < half.width)
    (hz : half.isZero) (y : Nat) :
    ∀ (ks : List Nat) (current : CachedImage RGBfColor),
      windowedRow half y ks current = current := by
  intro ks
  induction ks with
  | nil => intro current; rfl
  | cons k ks ih =>
    intro current
    unfold windowedRow
    rw [List.foldl_cons, windowed_of_zero half current hW hz]
    exact ih current

theorem windowedRows_of_zero (half : CachedImage RGBfColor) (hz : half.isZero) :
    ∀ (ks : List Nat) (current : CachedImage RGBfColor),
      windowedRows half ks current = current := by
  intro ks
  induction ks with
  | nil => intro current; rfl
  | cons k ks ih =>
    intro current
    unfold windowedRows
    rw [List.foldl_cons]
    have hrow : windowedRow half (k * processingSize)
        (List.range (ceilDiv half.width processingSize)) current = current := by
      rcases Nat.eq_zero_or_pos half.width with h0 | hpos
      · have : ceilDiv half.width processingSize = 0 := by
          rw [h0, processingSize_eq]
          rfl
        rw [this]
        rfl
      · exact windowedRow_of_zero half hpos hz _ _ current
    rw [hrow]
    exact ih current

theorem clampNegative_zero : clampNegative 0 = 0 := by
  unfold clampNegative
  ext <;> simp

theorem clamped_tile (c : CachedImage RGBfColor) (i j : Nat) :
    (clamped c).tile? i j = (c.tile? i j).map (fun t =>
      if t.acquirable = true then
        { t with
          data := fun k =>
            if k < t.tileWidth * t.tileHeight then clampNegative (t.data k) else t.data k }
      else t) := by
  unfold clamped removeNegativeValues
  simp only [CachedImage.tile?_mapTiles]

/-- A pixel of a clamped level is the pixel of the level, clamped or not. -/
theorem clamped_getPixel (c : CachedImage RGBfColor) (y x : Nat) (d : RGBfColor) :
    (clamped c).getPixel y x d = c.getPixel y x d ∨
    (clamped c).getPixel y x d = clampNegative (c.getPixel y x d) := by
  have hts : (clamped c).tileSize = c.tileSize := rfl
  unfold CachedImage.getPixel
  rw [hts, clamped_tile]
  cases c.tile? (y / c.tileSize) (x / c.tileSize) with
  | none => exact Or.inl rfl
  | some t =>
    simp only [Option.map_some']
    split
    · simp only
      split
      · exact Or.inr rfl
      · exact Or.inl rfl
    · exact Or.inl rfl

theorem clamped_isZero (c : CachedImage RGBfColor) (hz : c.isZero) : (clamped c).isZero := by
  intro y x hy hx
  rcases clamped_getPixel c y x default with h | h
  · rw [h]
    exact hz y x hy hx
  · rw [h, hz y x hy hx, clampNegative_zero]

/-- When every level but the first holds nothing, the windows add nothing: every level
is clamped and nothing else. -/
theorem rebuiltStack_of_zero :
    ∀ xs : List (CachedImage RGBfColor), (∀ c ∈ xs.tail, c.isZero) →
      rebuiltStack xs = xs.map clamped := by
  intro xs
  induction xs with
  | nil => intro _; rfl
  | cons c rest ih =>
    intro hz
    have hrest : ∀ c1 ∈ rest, c1.isZero := hz
    have h1 := ih (fun c1 hc1 => hrest c1 (List.mem_of_mem_tail hc1))
    cases rest with
    | nil => rfl
    | cons h0 rest1 =>
      rw [rebuiltStack_cons_cons c (clamped h0) (h0 :: rest1) (rest1.map clamped) h1]
      have hzero : (clamped h0).isZero := clamped_isZero h0 (hrest h0 (List.mem_cons_self _ _))
      unfold windowedAll
      rw [windowedRows_of_zero (clamped h0) hzero]
      rfl

/-! ## The copy into the output on full grids of tiles -/

theorem copyRow_ok (ts : Nat) (rowIn : List (CachedTile RGBfColor))
    (rowW : List (CachedTile ℚ)) :
    ∀ (rowOut : List (CachedTile RGBAfColor)) (j : Nat),
      (∀ (m : Nat) (o : CachedTile RGBAfColor), rowOut[m]? = some o →
        o.acquirable = true ∧ ∃ (c : CachedTile RGBfColor) (w : CachedTile ℚ),
          rowIn[j + m]? = some c ∧ rowW[j + m]? = some w ∧ c.acquirable = true ∧
          w.acquirable = true) →
      (copyRow ts rowIn rowW j rowOut).1 = true := by
  intro rowOut
  induction rowOut with
  | nil => intro j _; rfl
  | cons o rest ih =>
    intro j h
    obtain ⟨ho, c, w, hc, hw, hca, hwa⟩ := h 0 o (List.getElem?_cons_zero)
    rw [Nat.add_zero] at hc hw
    unfold copyRow
    simp only [ho, hc, hw, hca, hwa, Bool.true_eq_false, if_false]
    apply ih (j + 1)
    intro m o1 ho1
    obtain ⟨g1, c1, w1, g2, g3, g4, g5⟩ := h (m + 1) o1 (by rw [List.getElem?_cons_succ]; exact ho1)
    refine ⟨g1, c1, w1, ?_, ?_, g4, g5⟩
    · rw [← g2]
      congr 1
      omega
    · rw [← g3]
      congr 1
      omega

theorem copyRows_ok (ts : Nat) (input : List (List (CachedTile RGBfColor)))
    (weight : List (List (CachedTile ℚ))) :
    ∀ (rows : List (List (CachedTile RGBAfColor))) (i : Nat),
      (∀ (m : Nat) (rowOut : List (CachedTile RGBAfColor)), rows[m]? = some rowOut →
        ∃ (rowIn : List (CachedTile RGBfColor)) (rowW : List (CachedTile ℚ)),
          input[i + m]? = some rowIn ∧ weight[i + m]? = some rowW ∧
          (copyRow ts rowIn rowW 0 rowOut).1 = true) →
      (copyRows ts input weight i rows).1 = true := by
  intro rows
  induction rows with
  | nil => intro i _; rfl
  | cons rowOut rest ih =>
    intro i h
    obtain ⟨rowIn, rowW, h1, h2, h3⟩ := h 0 rowOut (List.getElem?_cons_zero)
    rw [Nat.add_zero] at h1 h2
    unfold copyRows
    simp only [h1, h2, h3, Bool.true_eq_false, if_false]
    apply ih (i + 1)
    intro m r1 hr1
    obtain ⟨a, b, g1, g2, g3⟩ := h (m + 1) r1 (by rw [List.getElem?_cons_succ]; exact hr1)
    refine ⟨a, b, ?_, ?_, g3⟩
    · rw [← g1]
      congr 1
      omega
    · rw [← g2]
      congr 1
      omega

theorem fullGrid_row {α : Type} (img : CachedImage α) (ts m : Nat) (hg : img.fullGrid ts ts)
    (hm : m < ceilDiv img.height ts) :
    ∃ row, img.tilesArray[m]? = some row ∧ row.length = ceilDiv img.width ts ∧
      ∀ t ∈ row, t.acquirable = true := by
  obtain ⟨_, hlen, hrows⟩ := hg
  have hm1 : m < img.tilesArray.length := hlen ▸ hm
  refine ⟨img.tilesArray[m], List.getElem?_eq_getElem hm1, ?_⟩
  have hmem : img.tilesArray[m] ∈ img.tilesArray := List.getElem_mem _
  exact ⟨(hrows _ hmem).1, fun t ht => ((hrows _ hmem).2 t ht).2.2⟩

/-- The copy of `rebuild` succeeds when the finest level, its weights and the output have
the same full grid of tiles. -/
theorem copyRows_fullGrid (ts : Nat) (level0 : CachedImage RGBfColor)
    (weight0 : CachedImage ℚ) (output : CachedImage RGBAfColor)
    (hl : level0.fullGrid ts ts) (hw : weight0.fullGrid ts ts) (ho : output.fullGrid ts ts)
    (h1 : level0.width = output.width) (h2 : level0.height = output.height)
    (h3 : weight0.width = output.width) (h4 : weight0.height = output.height) (n : Nat) :
    (copyRows n level0.tilesArray weight0.tilesArray 0 output.tilesArray).1 = true := by
  apply copyRows_ok
  intro m rowOut hrow
  have hm : m < ceilDiv output.height ts := by
    rw [← ho.2.1]
    exact (List.getElem?_eq_some.mp hrow).1
  obtain ⟨rowIn, g1, g2, g3⟩ := fullGrid_row level0 ts m hl (h2 ▸ hm)
  obtain ⟨rowW, k1, k2, k3⟩ := fullGrid_row weight0 ts m hw (h4 ▸ hm)
  refine ⟨rowIn, rowW, by rw [Nat.zero_add]; exact g1, by rw [Nat.zero_add]; exact k1, ?_⟩
  apply copyRow_ok
  intro j o hj
  have hmem : rowOut ∈ output.tilesArray := List.getElem?_mem hrow
  have hjl : j < ceilDiv output.width ts := by
    rw [← (ho.2.2 rowOut hmem).1]
    exact (List.getElem?_eq_some.mp hj).1
  have hj1 : j < rowIn.length := by rw [g2, h1]; exact hjl
  have hj2 : j < rowW.length := by rw [k2, h3]; exact hjl
  refine ⟨((ho.2.2 rowOut hmem).2 o (List.getElem?_mem hj)).2.2, rowIn[j], rowW[j], ?_, ?_,
    g3 _ (List.getElem_mem _), k3 _ (List.getElem_mem _)⟩
  · rw [Nat.zero_add]
    exact List.getElem?_eq_getElem hj1
  · rw [Nat.zero_add]
    exact List.getElem?_eq_getElem hj2

/-- The method `rebuild` returns `true` when its first part succeeds and the finest
level, its weights and the output have the same full grid of tiles. -/
theorem rebuild_ok (p : LaplacianPyramid) (output : CachedImage RGBAfColor) (ts : Nat)
    (level0 : CachedImage RGBfColor) (weight0 : CachedImage ℚ)
    (hc : p.collapse.1 = true) (h0 : p.collapse.2[0]? = some level0)
    (hw0 : p.weights[0]? = some weight0)
    (hl : level0.fullGrid ts ts) (hw : weight0.fullGrid ts ts) (ho : output.fullGrid ts ts)
    (h1 : level0.width = output.width) (h2 : level0.height = output.height)
    (h3 : weight0.width = output.width) (h4 : weight0.height = output.height) :
    (p.rebuild output).1 = true := by
  unfold LaplacianPyramid.rebuild
  simp only [hc, Bool.true_eq_false, if_false, h0, hw0]
  exact copyRows_fullGrid ts level0 weight0 output hl hw ho h1 h2 h3 h4 _

/-! ## Pixels through `rebuild` -/

theorem tile_of_pixel {α : Type} (img : CachedImage α) (ts y x : Nat) (hts : 0 < ts)
    (hg : img.fullGrid ts ts) (hy : y < img.height) (hx : x < img.width) :
    ∃ t, img.tile? (y / ts) (x / ts) = some t ∧ t.tileWidth = ts ∧ t.tileHeight = ts ∧
      t.acquirable = true := by
  have hi : y / ts < ceilDiv img.height ts :=
    (Nat.div_lt_iff_lt_mul hts).mpr (lt_of_lt_of_le hy (le_ceilDiv_mul _ _ hts))
  have hj : x / ts < ceilDiv img.width ts :=
    (Nat.div_lt_iff_lt_mul hts).mpr (lt_of_lt_of_le hx (le_ceilDiv_mul _ _ hts))
  obtain ⟨t, ht⟩ := img.fullGrid_tile_exists ts ts _ _ hg hi hj
  obtain ⟨h1, h2, h3, _⟩ := img.fullGrid_of_tile ts ts _ _ t hg ht
  exact ⟨t, ht, h1, h2, h3⟩

theorem getPixel_of_tile {α : Type} (img : CachedImage α) (ts y x : Nat) (t : CachedTile α)
    (d : α) (hts : img.tileSize = ts) (ht : img.tile? (y / ts) (x / ts) = some t) :
    img.getPixel y x d = t.data ((y % ts) * ts + x % ts) := by
  unfold CachedImage.getPixel
  rw [hts, ht]

/-- A pixel of a level after `perPixelOperation`, on full grids of tiles. -/
theorem perPixelOperation_getPixel {α β : Type} (img : CachedImage α) (other : CachedImage β)
    (f : α → β → α) (ts y x : Nat) (d : α) (e : β) (hts : 0 < ts) (hg : img.fullGrid ts ts)
    (ho : other.fullGrid ts ts) (hw : img.width = other.width)
    (hh : img.height = other.height) (hy : y < img.height) (hx : x < img.width) :
    (img.perPixelOperation other f).2.getPixel y x d =
      f (img.getPixel y x d) (other.getPixel y x e) := by
  obtain ⟨t, ht, t1, t2, t3⟩ := tile_of_pixel img ts y x hts hg hy hx
  obtain ⟨o, hot, _, _, o3⟩ := tile_of_pixel other ts y x hts ho (hh ▸ hy) (hw ▸ hx)
  have htile := perPixelOperation_tile img other f _ _ t o ⟨hw, hh⟩ ht hot t3 o3
  have hsize : (img.perPixelOperation other f).2.tileSize = ts := by
    rw [CachedImage.shape_tileSize img _ (perPixelOperation_shape img other f)]
    exact hg.1
  rw [getPixel_of_tile _ ts y x _ d hsize htile, getPixel_of_tile img ts y x t d hg.1 ht,
    getPixel_of_tile other ts y x o e ho.1 hot]
  simp only
  rw [if_pos]
  rw [t1, t2]
  exact (pixel_elem ts y x hts).1

/-- A pixel of a clamped level, on a full grid of tiles. -/
theorem clamped_getPixel_fullGrid (c : CachedImage RGBfColor) (ts y x : Nat) (d : RGBfColor)
    (hts : 0 < ts) (hg : c.fullGrid ts ts) (hy : y < c.height) (hx : x < c.width) :
    (clamped c).getPixel y x d = clampNegative (c.getPixel y x d) := by
  obtain ⟨t, ht, t1, t2, t3⟩ := tile_of_pixel c ts y x hts hg hy hx
  have hsize : (clamped c).tileSize = ts := hg.1
  have htile := clamped_tile c (y / ts) (x / ts)
  rw [ht] at htile
  simp only [Option.map_some', t3, if_true] at htile
  rw [getPixel_of_tile _ ts y x _ d hsize htile, getPixel_of_tile c ts y x t d hg.1 ht]
  simp only
  rw [if_pos]
  rw [t1, t2]
  exact (pixel_elem ts y x hts).1

theorem clamped_shape (c : CachedImage RGBfColor) : (clamped c).shape = c.shape :=
  removeNegativeValues_shape c

/-- The tile that a successful `rebuild` leaves in the output for each of its tiles. -/
theorem rebuild_forward (p : LaplacianPyramid) (output : CachedImage RGBAfColor)
    (level0 : CachedImage RGBfColor) (weight0 : CachedImage ℚ)
    (h : (p.rebuild output).1 = true) (h0 : p.collapse.2[0]? = some level0)
    (hw0 : p.weights[0]? = some weight0) (i j : Nat) (o : CachedTile RGBAfColor)
    (ho : output.tile? i j = some o) :
    ∃ (c : CachedTile RGBfColor) (w : CachedTile ℚ),
      level0.tile? i j = some c ∧ weight0.tile? i j = some w ∧
      (p.rebuild output).2.2.tile? i j = some (copyTile output.tileSize o c w) := by
  unfold LaplacianPyramid.rebuild at h ⊢
  simp only at h ⊢
  by_cases hc : p.collapse.1 = false
  · rw [if_pos hc] at h
    simp at h
  · rw [if_neg hc] at h ⊢
    simp only [h0, hw0] at h ⊢
    rw [CachedImage.tile?_eq_some] at ho
    obtain ⟨rowOut, hro, hoj⟩ := ho
    obtain ⟨rowIn, rowW, g1, g2, g3, g4⟩ :=
      copyRows_true output.tileSize level0.tilesArray weight0.tilesArray
        output.tilesArray 0 h i rowOut hro
    obtain ⟨c, w, k1, k2, _, _, _, k6⟩ :=
      copyRow_true output.tileSize rowIn rowW rowOut 0 g3 j o hoj
    simp only [Nat.zero_add] at g1 g2 k1 k2
    refine ⟨c, w, ?_, ?_, ?_⟩
    · rw [CachedImage.tile?_eq_some]
      exact ⟨rowIn, g1, k1⟩
    · rw [CachedImage.tile?_eq_some]
      exact ⟨rowW, g2, k2⟩
    · rw [CachedImage.tile?_eq_some]
      exact ⟨_, g4, k6⟩

/-- The pixel that a successful `rebuild` leaves in the output: the colour of the rebuilt
finest level, with alpha `1`. -/
theorem rebuild_pixel (p : LaplacianPyramid) (output : CachedImage RGBAfColor) (ts : Nat)
    (level0 : CachedImage RGBfColor) (weight0 : CachedImage ℚ) (hts : 0 < ts)
    (h : (p.rebuild output).1 = true) (h0 : p.collapse.2[0]? = some level0)
    (hw0 : p.weights[0]? = some weight0) (hg : output.fullGrid ts ts)
    (hl : level0.tileSize = ts) (y x : Nat) (hy : y < output.height) (hx : x < output.width)
    (d : RGBAfColor) (d0 : RGBfColor) :
    (p.rebuild output).2.2.getPixel y x d =
      ⟨(level0.getPixel y x d0).r, (level0.getPixel y x d0).g, (level0.getPixel y x d0).b, 1⟩ := by
  obtain ⟨o, ho, _, _, _⟩ := tile_of_pixel output ts y x hts hg hy hx
  obtain ⟨c, w, g1, g2, g3⟩ := rebuild_forward p output level0 weight0 h h0 hw0 _ _ o ho
  obtain ⟨_, _, _, _, _, _, k5, _⟩ := rebuild_true p output h
  rw [hg.1] at g3 k5
  rw [getPixel_of_tile _ ts y x _ d k5 g3, getPixel_of_tile level0 ts y x c d0 hl g1]
  simp only [copyTile]
  rw [if_pos (pixel_elem ts y x hts).1]
  simp

/-! ## The normalised levels of a well-formed pyramid -/

theorem normalize_at (p : LaplacianPyramid) (l : Nat) (c : CachedImage RGBfColor)
    (w : CachedImage ℚ) (hc : p.levels[l]? = some c) (hw : p.weights[l]? = some w) :
    p.normalizeLevels[l]? = some (c.perPixelOperation w normalizePixel).2 := by
  unfold LaplacianPyramid.normalizeLevels
  rw [List.getElem?_mapIdx, hc]
  simp only [Option.map_some', hw]

theorem wellFormed_weight (p : LaplacianPyramid) (ts W H l : Nat)
    (c : CachedImage RGBfColor) (hp : p.wellFormed ts W H) (hc : p.levels[l]? = some c) :
    ∃ w, p.weights[l]? = some w ∧ w.fullGrid ts ts ∧ w.width = c.width ∧
      w.height = c.height ∧ c.fullGrid ts ts ∧ c.width = W / 2 ^ l ∧ c.height = H / 2 ^ l := by
  obtain ⟨hlen, hl, hw⟩ := hp
  obtain ⟨w, hwl⟩ := getElem?_of_length_eq p.levels p.weights l c hc hlen.symm
  obtain ⟨a1, a2, a3⟩ := hl l c hc
  obtain ⟨b1, b2, b3⟩ := hw l w hwl
  exact ⟨w, hwl, b1, b2.trans a2.symm, b3.trans a3.symm, a1, a2, a3⟩

theorem stackOk_of_dims {α : Type} (ts : Nat) :
    ∀ (xs : List (CachedImage α)) (W H : Nat),
      (∀ (l : Nat) (c : CachedImage α), xs[l]? = some c →
        c.fullGrid ts ts ∧ c.width = W / 2 ^ l ∧ c.height = H / 2 ^ l) →
      stackOk ts xs := by
  intro xs
  induction xs with
  | nil => intro _ _ _; trivial
  | cons c rest ih =>
    intro W H h
    obtain ⟨c1, c2, c3⟩ := h 0 c List.getElem?_cons_zero
    simp only [pow_zero, Nat.div_one] at c2 c3
    refine ⟨c1, ?_, ?_⟩
    · intro half hhalf
      have hh : (c :: rest)[1]? = some half := by
        rw [List.getElem?_cons_succ]
        cases rest with
        | nil => simp at hhalf
        | cons a b =>
          simp only [List.head?_cons, Option.some.injEq] at hhalf
          rw [List.getElem?_cons_zero, hhalf]
      obtain ⟨_, d2, d3⟩ := h 1 half hh
      simp only [pow_one] at d2 d3
      rw [c2, c3, d2, d3]
      omega
    · apply ih (W / 2) (H / 2)
      intro l c0 hc0
      obtain ⟨e1, e2, e3⟩ := h (l + 1) c0 (by rw [List.getElem?_cons_succ]; exact hc0)
      refine ⟨e1, ?_, ?_⟩
      · rw [e2, pow_succ, Nat.mul_comm, Nat.div_div_eq_div_mul]
      · rw [e3, pow_succ, Nat.mul_comm, Nat.div_div_eq_div_mul]

theorem normalize_layout (p : LaplacianPyramid) (ts W H : Nat) (hp : p.wellFormed ts W H)
    (l : Nat) (c : CachedImage RGBfColor) (hc : p.normalizeLevels[l]? = some c) :
    c.fullGrid ts ts ∧ c.width = W / 2 ^ l ∧ c.height = H / 2 ^ l := by
  obtain ⟨y, hy, hs⟩ := sameShapes_get _ _ (normalizeLevels_sameShapes p) l c hc
  obtain ⟨a1, a2, a3⟩ := hp.2.1 l y hy
  exact ⟨CachedImage.fullGrid_congr y c ts ts hs a1,
    (CachedImage.shape_width y c hs).trans a2, (CachedImage.shape_height y c hs).trans a3⟩

theorem normalize_stackOk (p : LaplacianPyramid) (ts W H : Nat) (hp : p.wellFormed ts W H) :
    stackOk ts p.normalizeLevels :=
  stackOk_of_dims ts _ W H (normalize_layout p ts W H hp)

/-- A pixel of a normalised level of a well-formed pyramid. -/
theorem normalize_getPixel (p : LaplacianPyramid) (ts W H l : Nat) (hts : 0 < ts)
    (hp : p.wellFormed ts W H) (c : CachedImage RGBfColor) (w : CachedImage ℚ)
    (hc : p.levels[l]? = some c) (hw : p.weights[l]? = some w) (y x : Nat)
    (hy : y < c.height) (hx : x < c.width) (d : RGBfColor) (e : ℚ) :
    ∃ n, p.normalizeLevels[l]? = some n ∧
      n.getPixel y x d = normalizePixel (c.getPixel y x d) (w.getPixel y x e) := by
  obtain ⟨w1, g1, g2, g3, g4, g5, _, _⟩ := wellFormed_weight p ts W H l c hp hc
  rw [hw] at g1
  have hw1 : w = w1 := Option.some.inj g1
  subst hw1
  exact ⟨_, normalize_at p l c w hc hw,
    perPixelOperation_getPixel c w normalizePixel ts y x d e hts g5 g2 g3.symm g4.symm hy hx⟩

/-- When every coarser level of a well-formed pyramid normalises to nothing, `rebuild`
succeeds and writes to each pixel the normalised and clamped pixel of the finest level,
with alpha `1`. -/
theorem rebuild_of_coarse_zero (p : LaplacianPyramid) (ts W H : Nat)
    (output : CachedImage RGBAfColor) (hts : 0 < ts) (hp : p.wellFormed ts W H)
    (hz : ∀ (l : Nat) (n : CachedImage RGBfColor), 1 ≤ l → p.normalizeLevels[l]? = some n →
      n.isZero)
    (hout : output.fullGrid ts ts) (how : output.width = W) (hoh : output.height = H)
    (c0 : CachedImage RGBfColor) (w0 : CachedImage ℚ) (hc0 : p.levels[0]? = some c0)
    (hw0 : p.weights[0]? = some w0) :
    (p.rebuild output).1 = true ∧
    ∀ (y x : Nat) (d : RGBAfColor) (d0 : RGBfColor) (e : ℚ), y < H → x < W →
      (p.rebuild output).2.2.getPixel y x d =
        ⟨(clampNegative (normalizePixel (c0.getPixel y x d0) (w0.getPixel y x e))).r,
          (clampNegative (normalizePixel (c0.getPixel y x d0) (w0.getPixel y x e))).g,
          (clampNegative (normalizePixel (c0.getPixel y x d0) (w0.getPixel y x e))).b, 1⟩ := by
  have hn0 := normalize_at p 0 c0 w0 hc0 hw0
  have hne : p.normalizeLevels ≠ [] := by
    intro hnil
    rw [hnil] at hn0
    simp at hn0
  have hcol := collapse_eq p ts hts (normalize_stackOk p ts W H hp) hne
  have hstack : rebuiltStack p.normalizeLevels = p.normalizeLevels.map clamped := by
    apply rebuiltStack_of_zero
    intro c hc
    obtain ⟨n, hn⟩ := List.getElem?_of_mem hc
    rw [List.getElem?_tail] at hn
    exact hz (n + 1) c (by omega) hn
  rw [hstack] at hcol
  obtain ⟨m1, m2, m3⟩ := normalize_layout p ts W H hp 0 _ hn0
  simp only [pow_zero, Nat.div_one] at m2 m3
  have hlev0 : p.collapse.2[0]? =
      some (clamped (c0.perPixelOperation w0 normalizePixel).2) := by
    rw [hcol]
    simp only [List.getElem?_map, hn0, Option.map_some']
  obtain ⟨k1, k2, k3⟩ := hp.2.2 0 w0 hw0
  simp only [pow_zero, Nat.div_one] at k2 k3
  have hs := clamped_shape (c0.perPixelOperation w0 normalizePixel).2
  have hok : (p.rebuild output).1 = true :=
    rebuild_ok p output ts _ w0 (by rw [hcol]) hlev0 hw0
      (CachedImage.fullGrid_congr _ _ ts ts hs m1) k1 hout
      ((CachedImage.shape_width _ _ hs).trans (m2.trans how.symm))
      ((CachedImage.shape_height _ _ hs).trans (m3.trans hoh.symm))
      (k2.trans how.symm) (k3.trans hoh.symm)
  refine ⟨hok, ?_⟩
  intro y x d d0 e hy hx
  obtain ⟨a1, a2, a3⟩ := hp.2.1 0 c0 hc0
  simp only [pow_zero, Nat.div_one] at a2 a3
  rw [rebuild_pixel p output ts _ w0 hts hok hlev0 hw0 hout
      ((CachedImage.shape_tileSize _ _ hs).trans m1.1) y x (hoh ▸ hy) (how ▸ hx) d d0,
    clamped_getPixel_fullGrid _ ts y x d0 hts m1 (m3 ▸ hy) (m2 ▸ hx),
    perPixelOperation_getPixel c0 w0 normalizePixel ts y x d0 e hts a1 k1 (a2.trans k2.symm)
      (a3.trans k3.symm) (a3 ▸ hy) (a2 ▸ hx)]

/-! ## `rebuild` on a pyramid without views -/

theorem normalizePixel_of_lt (c : RGBfColor) (w : ℚ) (h : w < eps) : normalizePixel c w = 0 := by
  unfold normalizePixel
  rw [if_pos h]
  rfl

/-- The pyramid that `initialize` leaves on a manager with square tiles that never
fails is well formed, and all its pixels are zero. -/
theorem initialize_layout (W H L : Nat) (mgr : TileCacheManager) (fc : Nat → RGBfColor)
    (fw : Nat → ℚ) (hmgr : mgr.neverFails) (hsq : mgr.tileHeight = mgr.tileWidth)
    (hts : 0 < mgr.tileWidth) :
    ( LaplacianPyramid.initialize (LaplacianPyramid.new W H L) mgr fc fw).2.1.wellFormed
      mgr.tileWidth W H ∧
    ( LaplacianPyramid.initialize (LaplacianPyramid.new W H L) mgr fc fw).2.1.levels.length = L ∧
    (∀ (l : Nat) (c : CachedImage RGBfColor),
      ( LaplacianPyramid.initialize (LaplacianPyramid.new W H L) mgr fc fw).2.1.levels[l]? = some c →
      ∀ (y x : Nat) (d : RGBfColor), y < c.height → x < c.width → c.getPixel y x d = 0) ∧
    (∀ (l : Nat) (w : CachedImage ℚ),
      ( LaplacianPyramid.initialize (LaplacianPyramid.new W H L) mgr fc fw).2.1.weights[l]? = some w →
      ∀ (y x : Nat) (e : ℚ), y < w.height → x < w.width → w.getPixel y x e = 0) := by
  obtain ⟨cs, ws, mgr1, h1, h2, h3, _, _, _, h7, h8⟩ :=
    initialize_neverFails W H L mgr fc fw hmgr
  rw [h1]
  simp only
  rw [hsq] at h7 h8
  refine ⟨⟨h3.trans h2.symm, ?_, ?_⟩, h2, ?_, ?_⟩
  · intro l c hc
    obtain ⟨a1, a2, a3, _⟩ := h7 l c hc
    exact ⟨a3, a1, a2⟩
  · intro l w hw
    obtain ⟨a1, a2, a3, _⟩ := h8 l w hw
    exact ⟨a3, a1, a2⟩
  · intro l c hc y x d hy hx
    obtain ⟨_, _, a3, a4⟩ := h7 l c hc
    obtain ⟨t, ht, _, _, _⟩ := tile_of_pixel c mgr.tileWidth y x hts a3 hy hx
    rw [getPixel_of_tile c mgr.tileWidth y x t d a3.1 ht]
    exact a4 _ _ t ht _ (pixel_elem mgr.tileWidth y x hts).1
  · intro l w hw y x e hy hx
    obtain ⟨_, _, a3, a4⟩ := h8 l w hw
    obtain ⟨t, ht, _, _, _⟩ := tile_of_pixel w mgr.tileWidth y x hts a3 hy hx
    rw [getPixel_of_tile w mgr.tileWidth y x t e a3.1 ht]
    exact a4 _ _ t ht _ (pixel_elem mgr.tileWidth y x hts).1

/-- A level of a well-formed pyramid whose weights are below the threshold at every pixel
normalises to nothing. -/
theorem normalize_isZero (p : LaplacianPyramid) (ts W H l : Nat) (hts : 0 < ts)
    (hp : p.wellFormed ts W H) (n : CachedImage RGBfColor) (w : CachedImage ℚ)
    (hn : p.normalizeLevels[l]? = some n) (hw : p.weights[l]? = some w)
    (hlt : ∀ y x, y < w.height → x < w.width → w.getPixel y x 0 < eps) : n.isZero := by
  obtain ⟨c, hc, hs⟩ := sameShapes_get _ _ (normalizeLevels_sameShapes p) l n hn
  obtain ⟨w1, g1, _, g3, g4, _, _, _⟩ := wellFormed_weight p ts W H l c hp hc
  rw [hw] at g1
  have hw1 : w = w1 := Option.some.inj g1
  subst hw1
  intro y x hy hx
  have hy1 : y < c.height := by
    rw [← CachedImage.shape_height c n hs]
    exact hy
  have hx1 : x < c.width := by
    rw [← CachedImage.shape_width c n hs]
    exact hx
  obtain ⟨n1, k1, k2⟩ := normalize_getPixel p ts W H l hts hp c w hc hw y x hy1 hx1 default 0
  rw [hn] at k1
  have hn1 : n = n1 := Option.some.inj k1
  subst hn1
  rw [k2]
  exact normalizePixel_of_lt _ _ (hlt y x (g4 ▸ hy1) (g3 ▸ hx1))

/-- C7: on the pyramid that `initialize` leaves for a panorama of `W` by `H` pixels with
`L >= 1` levels, on a manager with square tiles that never fails, and before any view is
applied, `rebuild` returns `true` and writes RGB `(0, 0, 0)` and alpha `1` at every pixel
of an output image of the same size. -/
theorem rebuild_without_views (W H L : Nat) (mgr : TileCacheManager)
    (freshColor : Nat → RGBfColor) (freshWeight : Nat → ℚ) (output : CachedImage RGBAfColor)
    (hL : 1 ≤ L) (hmgr : mgr.neverFails) (hsq : mgr.tileHeight = mgr.tileWidth)
    (hts : 0 < mgr.tileWidth) (hout : output.fullGrid mgr.tileWidth mgr.tileWidth)
    (how : output.width = W) (hoh : output.height = H) :
    (( LaplacianPyramid.initialize (LaplacianPyramid.new W H L) mgr freshColor
      freshWeight).2.1.rebuild output).1 = true ∧
    ∀ (y x : Nat) (d : RGBAfColor), y < H → x < W →
      (( LaplacianPyramid.initialize (LaplacianPyramid.new W H L) mgr freshColor
        freshWeight).2.1.rebuild output).2.2.getPixel y x d = ⟨0, 0, 0, 1⟩ := by
  obtain ⟨hp, hlen, hzc, hzw⟩ :=
    initialize_layout W H L mgr freshColor freshWeight hmgr hsq hts
  generalize ( LaplacianPyramid.initialize (LaplacianPyramid.new W H L) mgr freshColor
    freshWeight).2.1 = p at hp hlen hzc hzw ⊢
  have h0 : 0 < p.levels.length := by omega
  have hc0 : p.levels[0]? = some p.levels[0] := List.getElem?_eq_getElem h0
  obtain ⟨w0, hw0, _, g3, g4, _, g6, g7⟩ := wellFormed_weight p _ W H 0 _ hp hc0
  simp only [pow_zero, Nat.div_one] at g6 g7
  obtain ⟨hok, hpix⟩ := rebuild_of_coarse_zero p mgr.tileWidth W H output hts hp
    (fun l n _ hn => by
      obtain ⟨c, hc, _⟩ := sameShapes_get _ _ (normalizeLevels_sameShapes p) l n hn
      obtain ⟨w, hw, _⟩ := wellFormed_weight p _ W H l c hp hc
      apply normalize_isZero p mgr.tileWidth W H l hts hp n w hn hw
      intro y x hy hx
      rw [hzw l w hw y x 0 hy hx]
      exact eps_pos)
    hout how hoh _ w0 hc0 hw0
  refine ⟨hok, ?_⟩
  intro y x d hy hx
  rw [hpix y x d 0 0 hy hx, hzw 0 w0 hw0 y x 0 (by omega) (by omega),
    normalizePixel_of_lt _ _ eps_pos, clampNegative_zero]
  rfl

theorem merge_weights_length (p : LaplacianPyramid) (oimg : Image RGBfColor)
    (oweight : Image ℚ) (l ox oy : Nat) :
    (p.merge oimg oweight l ox oy).2.weights.length = p.weights.length := by
  by_cases h : p.mergeSucceeds l (mergeBb ox oy oimg)
  · simp only [merge_of_succeeds p _ _ _ _ _ h, merged_weights_length]
  · simp only [merge_of_not_succeeds p _ _ _ _ _ h]

theorem mergeAll_weights_length (p : LaplacianPyramid) (ms : List MergeCall) :
    (p.mergeAll ms).2.weights.length = p.weights.length := by
  induction ms generalizing p with
  | nil => simp only [mergeAll_nil]
  | cons m ms ih => simp only [mergeAll_cons, ih, merge_weights_length]

theorem mergeAll_wellFormed (p : LaplacianPyramid) (ts W H : Nat) (hp : p.wellFormed ts W H)
    (ms : List MergeCall) : (p.mergeAll ms).2.wellFormed ts W H := by
  refine ⟨?_, ?_, ?_⟩
  · rw [mergeAll_weights_length, mergeAll_levels_length]
    exact hp.1
  · intro l c hc
    obtain ⟨c0, h0, hs⟩ := mergeAll_levels_shape ms p l c hc
    obtain ⟨a1, a2, a3⟩ := hp.2.1 l c0 h0
    exact ⟨CachedImage.fullGrid_congr c0 c ts ts hs a1,
      (CachedImage.shape_width c0 c hs).trans a2, (CachedImage.shape_height c0 c hs).trans a3⟩
  · intro l w hw
    obtain ⟨w0, h0, hs⟩ := mergeAll_weights_shape ms p l w hw
    obtain ⟨a1, a2, a3⟩ := hp.2.2 l w0 h0
    exact ⟨CachedImage.fullGrid_congr w0 w ts ts hs a1,
      (CachedImage.shape_width w0 w hs).trans a2, (CachedImage.shape_height w0 w hs).trans a3⟩

/-- The method `apply` keeps the layout of the pyramid. -/
theorem apply_wellFormed (p : LaplacianPyramid) (ts W H : Nat) (hp : p.wellFormed ts W H)
    (source : Image RGBfColor) (mask : Image Nat) (weights : Image ℚ) (ox oy : Nat) :
    (p.apply source mask weights ox oy).2.wellFormed ts W H := by
  rw [apply_eq]
  exact mergeAll_wellFormed p ts W H hp _

/-- C6, counterexample: on a panorama of 4 by 2 pixels with two levels, a view of 2 by 2
pixels applied at `(0, 0)` leaves the accumulated weight of pixel `(0, 2)` of the finest
level at zero, and `rebuild` writes the colour `(231/512, 55/64, 33/32)` there: the
upsampled coarser level is added whatever the weight of the pixel. -/
theorem rebuild_uncovered_pixel_coloured :
    (coveredPyramid.rebuild wideOutput).1 = true ∧
    tileData coveredPyramid.weights 0 0 1 0 = some 0 ∧
    tileData [(coveredPyramid.rebuild wideOutput).2.2] 0 0 1 0 =
      some ⟨231 / 512, 55 / 64, 33 / 32, 1⟩ := by
  decide!

theorem rebuild_without_views_witness :
    (( LaplacianPyramid.initialize (LaplacianPyramid.new 5 3 3) (plainManager 2)
      (fun _ => ⟨7, 7, 7⟩) (fun _ => 7)).2.1.rebuild oddOutput).1 = true ∧
    (( LaplacianPyramid.initialize (LaplacianPyramid.new 5 3 3) (plainManager 2)
      (fun _ => ⟨7, 7, 7⟩) (fun _ => 7)).2.1.rebuild oddOutput).2.2.getPixel 2 4 ⟨7, 7, 7, 7⟩ =
      ⟨0, 0, 0, 1⟩ := by
  have hgrid := createImage_neverFails (plainManager 2) (fun _ => (⟨7, 7, 7, 7⟩ : RGBAfColor))
    5 3 (fun _ => rfl)
  have h := rebuild_without_views 5 3 3 (plainManager 2) (fun _ => ⟨7, 7, 7⟩) (fun _ => 7)
    oddOutput (by decide) (fun _ => rfl) rfl (by decide) hgrid.2.2.2.1 hgrid.2.1 hgrid.2.2.1
  exact ⟨h.1, h.2 2 4 ⟨7, 7, 7, 7⟩ (by decide) (by decide)⟩

/-! ## Pixels through the windows of `rebuild` -/

theorem wrapIndex_of_nonneg_lt (W : Nat) (c : Int) (h0 : 0 ≤ c) (h1 : c < W) :
    wrapIndex W c = c.toNat := by
  unfold wrapIndex
  rw [Int.emod_eq_of_lt h0 h1]

/-- The column of a region that fits in the image without wrap and is written to `x`. -/
theorem lastSource_window (W : Nat) (left width : Int) (x : Nat) (h0 : 0 ≤ left)
    (hfit : left + width ≤ W) :
    lastSource W left width x =
      if left ≤ (x : Int) ∧ (x : Int) < left + width then some ((x : Int) - left).toNat
      else none := by
  by_cases h : left ≤ (x : Int) ∧ (x : Int) < left + width
  · rw [if_pos h]
    have hj : ((x : Int) - left).toNat < width.toNat := by omega
    have hs := lastSource_of_narrow W left width ((x : Int) - left).toNat (by omega) hj
    have hwrap : wrapIndex W (left + (((x : Int) - left).toNat : Int)) = x := by
      rw [wrapIndex_of_nonneg_lt W _ (by omega) (by omega)]
      omega
    rw [hwrap] at hs
    exact hs
  · rw [if_neg h]
    cases hls : lastSource W left width x with
    | none => rfl
    | some j =>
      exfalso
      obtain ⟨g1, g2⟩ := lastSource_some W left width x j hls
      rw [wrapIndex_of_nonneg_lt W _ (by omega) (by omega)] at g2
      apply h
      omega

/-- What a window of `rebuild` adds to a pixel of the current level. -/
theorem windowed_getPixel (half current : CachedImage RGBfColor) (ts x0 y0 y x : Nat)
    (d : RGBfColor) (hts : 0 < ts) (hcur : current.fullGrid ts ts)
    (hw : 2 * half.width ≤ current.width) (hy : y < current.height)
    (hx : x < current.width) :
    (windowed half current x0 y0).getPixel y x d = current.getPixel y x d +
      (if (2 * x0 ≤ x ∧ (x : Int) < 2 * ((x0 : Int) + (windowCore half x0 y0).width)) ∧
          (2 * y0 ≤ y ∧ (y : Int) < 2 * ((y0 : Int) + (windowCore half x0 y0).height)) then
        windowDelta half x0 y0 (y - 2 * y0) (x - 2 * x0)
      else 0) := by
  obtain ⟨t, ht, _, _, _⟩ := tile_of_pixel current ts y x hts hcur hy hx
  obtain ⟨c1, c2, c3, c4⟩ := windowCore_fields half x0 y0
  obtain ⟨f1, f2, f3, f4⟩ := (windowCore half x0 y0).doubleSize_fields
  have hsize : current.tileSize = ts := hcur.1
  unfold windowed
  rw [CachedImage.getPixel_mapTiles, hsize, ht, getPixel_of_tile current ts y x t d hsize ht]
  simp only [CachedTile.addDelta]
  rw [regionDelta_pixel ts current.width current.height _ _ y x hts hy hx]
  congr 1
  by_cases hrow : (windowCore half x0 y0).doubleSize.top ≤ (y : Int) ∧
      (y : Int) < (windowCore half x0 y0).doubleSize.top +
        (windowCore half x0 y0).doubleSize.height
  · rw [if_pos hrow]
    unfold sourceValue
    rw [lastSource_window current.width _ _ x (by omega) (by omega)]
    by_cases hcol : (windowCore half x0 y0).doubleSize.left ≤ (x : Int) ∧
        (x : Int) < (windowCore half x0 y0).doubleSize.left +
          (windowCore half x0 y0).doubleSize.width
    · rw [if_pos hcol, if_pos (by omega)]
      simp only
      have e1 : ((y : Int) - (windowCore half x0 y0).doubleSize.top).toNat = y - 2 * y0 := by
        omega
      have e2 : ((x : Int) - (windowCore half x0 y0).doubleSize.left).toNat = x - 2 * x0 := by
        omega
      rw [e1, e2]
    · rw [if_neg hcol, if_neg (by omega)]
  · rw [if_neg hrow, if_neg (by omega)]

/-- A fold of steps that each add to the observed value adds the sum. -/
theorem foldl_additive {σ : Type} (P : σ → RGBfColor) (Ok : σ → Prop) (step : σ → Nat → σ)
    (T : Nat → RGBfColor) :
    ∀ (ks : List Nat) (c : σ), Ok c →
      (∀ c1 k, Ok c1 → k ∈ ks → Ok (step c1 k) ∧ P (step c1 k) = P c1 + T k) →
      Ok (ks.foldl step c) ∧ P (ks.foldl step c) = P c + (ks.map T).sum := by
  intro ks
  induction ks with
  | nil =>
    intro c hc _
    exact ⟨hc, by simp⟩
  | cons k ks ih =>
    intro c hc hstep
    obtain ⟨h1, h2⟩ := hstep c k hc (List.mem_cons_self _ _)
    obtain ⟨g1, g2⟩ := ih (step c k) h1
      (fun c1 k1 hc1 hk1 => hstep c1 k1 hc1 (List.mem_cons_of_mem _ hk1))
    rw [List.foldl_cons]
    refine ⟨g1, ?_⟩
    rw [g2, h2, List.map_cons, List.sum_cons, add_assoc]

theorem sum_range_single {α : Type} [AddCommMonoid α] (n a : Nat) (v : α) :
    ((List.range n).map (fun k => if k = a then v else 0)).sum = if a < n then v else 0 := by
  induction n with
  | zero => simp
  | succ n ih =>
    rw [List.range_succ, List.map_append, List.sum_append, ih]
    simp only [List.map_cons, List.map_nil, List.sum_cons, List.sum_nil, add_zero]
    by_cases h1 : a < n
    · rw [if_pos h1, if_neg (by omega), if_pos (by omega), add_zero]
    · rw [if_neg h1, zero_add]
      by_cases h2 : n = a
      · rw [if_pos h2, if_pos (by omega)]
      · rw [if_neg h2, if_neg (by omega)]

/-- What a row of windows of `rebuild` adds to a pixel of the current level. -/
theorem windowedRow_getPixel (half current : CachedImage RGBfColor) (ts y0 y x : Nat)
    (d : RGBfColor) (hts : 0 < ts) (hcur : current.fullGrid ts ts)
    (hw : 2 * half.width ≤ current.width) (hy : y < current.height)
    (hx : x < current.width) :
    (windowedRow half y0 (List.range (ceilDiv half.width processingSize)) current).getPixel
        y x d =
      current.getPixel y x d +
        (if x < 2 * half.width ∧
            (2 * y0 ≤ y ∧ (y : Int) < 2 * ((y0 : Int) + min 512 ((half.height : Int) - y0))) then
          windowDelta half (x / 1024 * 512) y0 (y - 2 * y0) (x - 2 * (x / 1024 * 512))
        else 0) := by
  have hfold := foldl_additive (fun c : CachedImage RGBfColor => c.getPixel y x d)
    (fun c => c.shape = current.shape)
    (fun c k => windowed half c (k * processingSize) y0)
    (fun k => if k = x / 1024 then
        (if x < 2 * half.width ∧
            (2 * y0 ≤ y ∧ (y : Int) < 2 * ((y0 : Int) + min 512 ((half.height : Int) - y0))) then
          windowDelta half (x / 1024 * 512) y0 (y - 2 * y0) (x - 2 * (x / 1024 * 512))
        else 0)
      else 0)
    (List.range (ceilDiv half.width processingSize)) current rfl
    (fun c1 k hc1 hk => by
      have hk1 : k * 512 < half.width := by
        have := window_start_lt _ _ (List.mem_range.mp hk)
        rw [processingSize_eq] at this
        exact this
      refine ⟨(windowed_shape half c1 _ y0).trans hc1, ?_⟩
      simp only [processingSize_eq]
      rw [windowed_getPixel half c1 ts (k * 512) y0 y x d hts
        (CachedImage.fullGrid_congr current c1 ts ts hc1 hcur)
        (by rw [CachedImage.shape_width current c1 hc1]; exact hw)
        (by rw [CachedImage.shape_height current c1 hc1]; exact hy)
        (by rw [CachedImage.shape_width current c1 hc1]; exact hx)]
      congr 1
      obtain ⟨_, _, c3, c4⟩ := windowCore_fields half (k * 512) y0
      rw [c3, c4]
      by_cases hkx : k = x / 1024
      · rw [if_pos hkx]
        by_cases hc : x < 2 * half.width ∧ (2 * y0 ≤ y ∧
            (y : Int) < 2 * ((y0 : Int) + min 512 ((half.height : Int) - y0)))
        · rw [if_pos hc, if_pos (by omega), hkx]
        · rw [if_neg hc, if_neg (by omega)]
      · rw [if_neg hkx, if_neg (by omega)])
  have h2 := hfold.2
  simp only at h2
  unfold windowedRow
  rw [h2, sum_range_single]
  congr 1
  by_cases hc : x < 2 * half.width ∧ (2 * y0 ≤ y ∧
      (y : Int) < 2 * ((y0 : Int) + min 512 ((half.height : Int) - y0)))
  · rw [if_pos hc, if_pos]
    rw [processingSize_eq]
    unfold ceilDiv
    omega
  · rw [if_neg hc, ite_self]

/-- What all the windows of `rebuild` add to a pixel of the current level. -/
theorem windowedAll_getPixel (half current : CachedImage RGBfColor) (ts y x : Nat)
    (d : RGBfColor) (hts : 0 < ts) (hcur : current.fullGrid ts ts)
    (hw : 2 * half.width ≤ current.width) (hy : y < current.height)
    (hx : x < current.width) :
    (windowedAll half current).getPixel y x d =
      current.getPixel y x d +
        (if x < 2 * half.width ∧ y < 2 * half.height then
          windowDelta half (x / 1024 * 512) (y / 1024 * 512) (y - 2 * (y / 1024 * 512))
            (x - 2 * (x / 1024 * 512))
        else 0) := by
  have hfold := foldl_additive (fun c : CachedImage RGBfColor => c.getPixel y x d)
    (fun c => c.shape = current.shape)
    (fun c k => windowedRow half (k * processingSize)
      (List.range (ceilDiv half.width processingSize)) c)
    (fun k => if k = y / 1024 then
        (if x < 2 * half.width ∧ y < 2 * half.height then
          windowDelta half (x / 1024 * 512) (y / 1024 * 512) (y - 2 * (y / 1024 * 512))
            (x - 2 * (x / 1024 * 512))
        else 0)
      else 0)
    (List.range (ceilDiv half.height processingSize)) current rfl
    (fun c1 k hc1 hk => by
      have hk1 : k * 512 < half.height := by
        have := window_start_lt _ _ (List.mem_range.mp hk)
        rw [processingSize_eq] at this
        exact this
      refine ⟨(windowedRow_shape half _ _ c1).trans hc1, ?_⟩
      simp only
      rw [windowedRow_getPixel half c1 ts (k * processingSize) y x d hts
        (CachedImage.fullGrid_congr current c1 ts ts hc1 hcur)
        (by rw [CachedImage.shape_width current c1 hc1]; exact hw)
        (by rw [CachedImage.shape_height current c1 hc1]; exact hy)
        (by rw [CachedImage.shape_width current c1 hc1]; exact hx)]
      congr 1
      simp only [processingSize_eq]
      by_cases hky : k = y / 1024
      · rw [if_pos hky]
        by_cases hc : x < 2 * half.width ∧ y < 2 * half.height
        · rw [if_pos hc, if_pos (by omega), hky]
        · rw [if_neg hc, if_neg (by omega)]
      · rw [if_neg hky, if_neg (by omega)])
  have h2 := hfold.2
  simp only at h2
  unfold windowedAll windowedRows
  rw [h2, sum_range_single]
  congr 1
  by_cases hc : x < 2 * half.width ∧ y < 2 * half.height
  · rw [if_pos hc, if_pos]
    rw [processingSize_eq]
    unfold ceilDiv
    omega
  · rw [if_neg hc, ite_self]

/-! ## The expansion of a level in `apply` and in `rebuild` -/

theorem applyIteration_laplacian (s : ApplyState) :
    (applyIteration s).laplacian = substract s.current_color s.current_color (applyExpanded s) :=
  rfl

theorem applyIteration_next_color (s : ApplyState) :
    (applyIteration s).next.current_color =
      downscale (Image.alloc (s.width / 2) (s.height / 2)) (applyBlurred s) :=
  rfl

theorem applyIteration_weights (s : ApplyState) :
    (applyIteration s).weights =
      applyMaskWeights s.current_weights s.current_color s.current_mask :=
  rfl

theorem windowBuffer_eq (half : CachedImage RGBfColor) (x y : Nat) :
    windowBuffer half x y =
      timesFour (convolveGaussian5x5
        (Image.alloc (windowDilated half x y).doubleSize.width.toNat
          (windowDilated half x y).doubleSize.height.toNat)
        (windowUpscaled half x y) false) :=
  rfl

theorem kernelTap_congr {α : Type} [Add α] [SMul ℚ α] (f g : Int → α) (c c1 : Int)
    (h : ∀ d : Int, -2 ≤ d → d ≤ 2 → f (c + d) = g (c1 + d)) :
    kernelTap f c = kernelTap g c1 := by
  have h1 : f (c - 2) = g (c1 - 2) := h (-2) (by omega) (by omega)
  have h2 : f (c - 1) = g (c1 - 1) := h (-1) (by omega) (by omega)
  have h3 : f c = g c1 := by
    have := h 0 (by omega) (by omega)
    simpa using this
  have h4 : f (c + 1) = g (c1 + 1) := h 1 (by omega) (by omega)
  have h5 : f (c + 2) = g (c1 + 2) := h 2 (by omega) (by omega)
  unfold kernelTap
  rw [h1, h2, h3, h4, h5]

/-- Two blurs agree at two pixels when they read the same values at every tap. -/
theorem convolve_congr {α : Type} [Add α] [SMul ℚ α] (outA inA outB inB : Image α)
    (wrapA wrapB : Bool) (i j i1 j1 : Nat)
    (h : ∀ da db : Int, -2 ≤ da → da ≤ 2 → -2 ≤ db → db ≤ 2 →
      inA.data (clampIndex inA.height ((i : Int) + da))
          (if wrapA then wrapIndex inA.width ((j : Int) + db)
            else clampIndex inA.width ((j : Int) + db)) =
        inB.data (clampIndex inB.height ((i1 : Int) + da))
          (if wrapB then wrapIndex inB.width ((j1 : Int) + db)
            else clampIndex inB.width ((j1 : Int) + db))) :
    (convolveGaussian5x5 outA inA wrapA).data i j =
      (convolveGaussian5x5 outB inB wrapB).data i1 j1 := by
  simp only [convolveGaussian5x5]
  apply kernelTap_congr
  intro da h1 h2
  apply kernelTap_congr
  intro db h3 h4
  exact h da db h1 h2 h3 h4

theorem windowUpscaled_data (half : CachedImage RGBfColor) (ts x0 y0 r c : Nat) (hts : 0 < ts)
    (hhalf : half.fullGrid ts ts) (hx0 : x0 < half.width) (hy0 : y0 < half.height)
    (hr : (r : Int) < 2 * (windowDilated half x0 y0).height)
    (hc : (c : Int) < 2 * (windowDilated half x0 y0).width) :
    (windowUpscaled half x0 y0).data r c =
      if r % 2 = 0 ∧ c % 2 = 0 then
        half.getPixel ((windowDilated half x0 y0).top + ((r / 2 : Nat) : Int)).toNat
          (wrapIndex half.width ((windowDilated half x0 y0).left + ((c / 2 : Nat) : Int)))
          default
      else 0 := by
  obtain ⟨c1, c2, c3, c4⟩ := windowCore_fields half x0 y0
  obtain ⟨d1, d2, d3, d4⟩ := windowDilated_fields half x0 y0
  have htrue := windowExtracted_true half ts x0 y0 hts hhalf hx0 hy0
  have hdims : (windowExtracted half x0 y0).2.width = (windowDilated half x0 y0).width.toNat ∧
      (windowExtracted half x0 y0).2.height = (windowDilated half x0 y0).height.toNat := by
    unfold windowExtracted
    exact extract_dims _ _ _
  have hdata := extract_data
    (Image.alloc (windowDilated half x0 y0).width.toNat (windowDilated half x0 y0).height.toNat)
    half (windowDilated half x0 y0) htrue (r / 2) (c / 2) (by omega) (by omega)
  unfold windowUpscaled
  simp only [upscale]
  rw [if_pos (by rw [hdims.1, hdims.2]; omega)]
  by_cases hpar : r % 2 = 0 ∧ c % 2 = 0
  · rw [if_pos hpar, if_pos hpar]
    exact hdata
  · rw [if_neg hpar, if_neg hpar]

theorem applyUpscaled_data (s : ApplyState) (r c : Nat) (hr : r / 2 < s.height / 2)
    (hc : c / 2 < s.width / 2) :
    (applyUpscaled s).data r c =
      if r % 2 = 0 ∧ c % 2 = 0 then (applyIteration s).next.current_color.data (r / 2) (c / 2)
      else 0 := by
  rw [applyIteration_next_color]
  unfold applyUpscaled
  simp only [upscale]
  rw [if_pos]
  exact ⟨hr, hc⟩

theorem clampIndex_spec (n : Nat) (c : Int) (hn : 0 < n) :
    ((clampIndex n c : Nat) : Int) = max 0 (min ((n : Int) - 1) c) := by
  unfold clampIndex
  split_ifs <;> omega

/-- The rows read by a tap of the blur of a window and by the same tap of the blur of
`apply`. -/
theorem row_tap (y H1 I rR rA N M : Nat) (dt dh ch da : Int)
    (hy : y < 2 * H1)
    (hch : ch = min 512 ((H1 : Int) - ((y / 1024 * 512 : Nat) : Int)))
    (hdt : dt = max 0 (((y / 1024 * 512 : Nat) : Int) - 5))
    (hdh : dt + dh = min (H1 : Int) (((y / 1024 * 512 : Nat) : Int) + ch + 5))
    (hI : (I : Int) = y - 2 * dt) (h1 : -2 ≤ da) (h2 : da ≤ 2)
    (hN : (N : Int) = 2 * dh) (hM : M = 2 * H1)
    (q1 : (rR : Int) = max 0 (min ((N : Int) - 1) ((I : Int) + da)))
    (q3 : (rA : Int) = max 0 (min ((M : Int) - 1) ((y : Int) + da))) :
    (rR : Int) < 2 * dh ∧ rA / 2 < M / 2 ∧ (rR % 2 = 0 ↔ rA % 2 = 0) ∧
      0 ≤ dt + ((rR / 2 : Nat) : Int) ∧ dt + ((rR / 2 : Nat) : Int) < (H1 : Int) ∧
      (dt + ((rR / 2 : Nat) : Int)).toNat = rA / 2 ∧ rA / 2 < H1 := by
  omega

/-- The columns read by a tap of the blur of a window and by the same tap of the blur of
`apply`, in the interior of the level. -/
theorem col_tap (x W1 a J cR cA N M : Nat) (dl dw cw db : Int)
    (hx1 : 2 * a + 2 ≤ x) (hx2 : x + (2 * a + 2) < 2 * W1)
    (hcw : cw = min 512 ((W1 : Int) - ((x / 1024 * 512 : Nat) : Int)))
    (hdl : dl = max 0 (((x / 1024 * 512 : Nat) : Int) - 5))
    (hdw : dl + dw = ((x / 1024 * 512 : Nat) : Int) + cw + 5)
    (hJ : (J : Int) = x - 2 * dl) (h1 : -2 ≤ db) (h2 : db ≤ 2)
    (hN : (N : Int) = 2 * dw) (hM : M = 2 * W1)
    (q2 : (cR : Int) = max 0 (min ((N : Int) - 1) ((J : Int) + db)))
    (q4 : cA = ((x : Int) + db).toNat) :
    (cR : Int) < 2 * dw ∧ cA / 2 < M / 2 ∧ (cR % 2 = 0 ↔ cA % 2 = 0) ∧
      0 ≤ dl + ((cR / 2 : Nat) : Int) ∧ dl + ((cR / 2 : Nat) : Int) < (W1 : Int) ∧
      (dl + ((cR / 2 : Nat) : Int)).toNat = cA / 2 ∧ a ≤ cA / 2 ∧ cA / 2 + a < W1 ∧
      0 ≤ (x : Int) + db ∧ (x : Int) + db < (M : Int) := by
  omega

/-- The indices of a pixel of the current level in the buffer of its window. -/
theorem window_index (half : CachedImage RGBfColor) (y x : Nat) (hy : y < 2 * half.height)
    (hx : x < 2 * half.width) :
    ((((windowInputBb half (x / 1024 * 512) (y / 1024 * 512)).top +
        ((y - 2 * (y / 1024 * 512) : Nat) : Int)).toNat : Nat) : Int) =
      y - 2 * (windowDilated half (x / 1024 * 512) (y / 1024 * 512)).top ∧
    ((((windowInputBb half (x / 1024 * 512) (y / 1024 * 512)).left +
        ((x - 2 * (x / 1024 * 512) : Nat) : Int)).toNat : Nat) : Int) =
      x - 2 * (windowDilated half (x / 1024 * 512) (y / 1024 * 512)).left ∧
    (((windowDilated half (x / 1024 * 512) (y / 1024 * 512)).doubleSize.height.toNat : Nat)
        : Int) = 2 * (windowDilated half (x / 1024 * 512) (y / 1024 * 512)).height ∧
    (((windowDilated half (x / 1024 * 512) (y / 1024 * 512)).doubleSize.width.toNat : Nat)
        : Int) = 2 * (windowDilated half (x / 1024 * 512) (y / 1024 * 512)).width ∧
    0 < (windowDilated half (x / 1024 * 512) (y / 1024 * 512)).doubleSize.height.toNat ∧
    0 < (windowDilated half (x / 1024 * 512) (y / 1024 * 512)).doubleSize.width.toNat ∧
    ((((windowInputBb half (x / 1024 * 512) (y / 1024 * 512)).top +
        ((y - 2 * (y / 1024 * 512) : Nat) : Int)).toNat : Nat) : Int) <
      (((windowDilated half (x / 1024 * 512) (y / 1024 * 512)).doubleSize.height.toNat : Nat)
        : Int) ∧
    ((((windowInputBb half (x / 1024 * 512) (y / 1024 * 512)).left +
        ((x - 2 * (x / 1024 * 512) : Nat) : Int)).toNat : Nat) : Int) <
      (((windowDilated half (x / 1024 * 512) (y / 1024 * 512)).doubleSize.width.toNat : Nat)
        : Int) := by
  obtain ⟨c1, c2, c3, c4⟩ := windowCore_fields half (x / 1024 * 512) (y / 1024 * 512)
  obtain ⟨d1, d2, d3, d4⟩ := windowDilated_fields half (x / 1024 * 512) (y / 1024 * 512)
  obtain ⟨e1, e2, e3, e4⟩ :=
    (windowDilated half (x / 1024 * 512) (y / 1024 * 512)).doubleSize_fields
  obtain ⟨f1, f2, f3, f4⟩ :=
    (windowCore half (x / 1024 * 512) (y / 1024 * 512)).doubleSize_fields
  have i1 : (windowInputBb half (x / 1024 * 512) (y / 1024 * 512)).left =
      (windowCore half (x / 1024 * 512) (y / 1024 * 512)).doubleSize.left -
        (windowDilated half (x / 1024 * 512) (y / 1024 * 512)).doubleSize.left := rfl
  have i2 : (windowInputBb half (x / 1024 * 512) (y / 1024 * 512)).top =
      (windowCore half (x / 1024 * 512) (y / 1024 * 512)).doubleSize.top -
        (windowDilated half (x / 1024 * 512) (y / 1024 * 512)).doubleSize.top := rfl
  refine ⟨?_, ?_, ?_, ?_, ?_, ?_, ?_, ?_⟩ <;> omega

/-- In the interior of a level, and on every row, a window of `rebuild` adds what the
iteration of `apply` for that level has subtracted, as long as the half level holds the
next level of `apply` at the pixels that are read. -/
theorem window_expands (half : CachedImage RGBfColor) (s : ApplyState) (ts a y x : Nat)
    (hts : 0 < ts) (hhalf : half.fullGrid ts ts) (hsw : s.width = 2 * half.width)
    (hsh : s.height = 2 * half.height)
    (hinv : ∀ r c, r < half.height → a ≤ c → c + a < half.width →
      half.getPixel r c default = (applyIteration s).next.current_color.data r c)
    (hy : y < 2 * half.height) (hx1 : 2 * a + 2 ≤ x)
    (hx2 : x + (2 * a + 2) < 2 * half.width) :
    windowDelta half (x / 1024 * 512) (y / 1024 * 512) (y - 2 * (y / 1024 * 512))
        (x - 2 * (x / 1024 * 512)) =
      (applyExpanded s).data y x := by
  have hx : x < 2 * half.width := Nat.lt_of_le_of_lt (Nat.le_add_right _ _) hx2
  have hX0 : x / 1024 * 512 < half.width := by omega
  have hY0 : y / 1024 * 512 < half.height := by omega
  obtain ⟨_, _, c3, c4⟩ := windowCore_fields half (x / 1024 * 512) (y / 1024 * 512)
  obtain ⟨d1, d2, d3, d4⟩ := windowDilated_fields half (x / 1024 * 512) (y / 1024 * 512)
  obtain ⟨hI1, hJ1, hN1, hN2, hP1, hP2, hR1, hR2⟩ := window_index half y x hy hx
  have hup := fun r c => windowUpscaled_data half ts (x / 1024 * 512) (y / 1024 * 512) r c hts
    hhalf hX0 hY0
  have hsy : y < s.height := hsh ▸ hy
  have hsx : x < s.width := hsw ▸ hx
  unfold windowDelta
  rw [windowBuffer_eq]
  unfold applyExpanded
  generalize ((windowInputBb half (x / 1024 * 512) (y / 1024 * 512)).top +
    ((y - 2 * (y / 1024 * 512) : Nat) : Int)).toNat = I at hI1 hR1 ⊢
  generalize ((windowInputBb half (x / 1024 * 512) (y / 1024 * 512)).left +
    ((x - 2 * (x / 1024 * 512) : Nat) : Int)).toNat = J at hJ1 hR2 ⊢
  have hdimR : (convolveGaussian5x5
      (Image.alloc (windowDilated half (x / 1024 * 512) (y / 1024 * 512)).doubleSize.width.toNat
        (windowDilated half (x / 1024 * 512) (y / 1024 * 512)).doubleSize.height.toNat)
      (windowUpscaled half (x / 1024 * 512) (y / 1024 * 512)) false).height =
        (windowDilated half (x / 1024 * 512) (y / 1024 * 512)).doubleSize.height.toNat ∧
      (convolveGaussian5x5
      (Image.alloc (windowDilated half (x / 1024 * 512) (y / 1024 * 512)).doubleSize.width.toNat
        (windowDilated half (x / 1024 * 512) (y / 1024 * 512)).doubleSize.height.toNat)
      (windowUpscaled half (x / 1024 * 512) (y / 1024 * 512)) false).width =
        (windowDilated half (x / 1024 * 512) (y / 1024 * 512)).doubleSize.width.toNat :=
    ⟨rfl, rfl⟩
  have hdimA : (convolveGaussian5x5 (Image.alloc s.width s.height) (applyUpscaled s) true).height
        = s.height ∧
      (convolveGaussian5x5 (Image.alloc s.width s.height) (applyUpscaled s) true).width
        = s.width := ⟨rfl, rfl⟩
  have hupdim : (windowUpscaled half (x / 1024 * 512) (y / 1024 * 512)).height =
        (windowDilated half (x / 1024 * 512) (y / 1024 * 512)).doubleSize.height.toNat ∧
      (windowUpscaled half (x / 1024 * 512) (y / 1024 * 512)).width =
        (windowDilated half (x / 1024 * 512) (y / 1024 * 512)).doubleSize.width.toNat :=
    ⟨rfl, rfl⟩
  have haudim : (applyUpscaled s).height = s.height ∧ (applyUpscaled s).width = s.width :=
    ⟨rfl, rfl⟩
  simp only [timesFour]
  rw [if_pos ⟨by rw [hdimR.1]; exact Int.ofNat_lt.mp hR1, by rw [hdimR.2]; exact Int.ofNat_lt.mp hR2⟩,
    if_pos ⟨by rw [hdimA.1]; exact hsy, by rw [hdimA.2]; exact hsx⟩]
  congr 1
  apply convolve_congr
  intro da db h1 h2 h3 h4
  simp only [Bool.false_eq_true, if_false, if_true]
  rw [hupdim.1, hupdim.2, haudim.1, haudim.2]
  have q1 := clampIndex_spec
    (windowDilated half (x / 1024 * 512) (y / 1024 * 512)).doubleSize.height.toNat
    ((I : Int) + da) hP1
  have q2 := clampIndex_spec
    (windowDilated half (x / 1024 * 512) (y / 1024 * 512)).doubleSize.width.toNat
    ((J : Int) + db) hP2
  have q3 := clampIndex_spec s.height ((y : Int) + da) (Nat.lt_of_le_of_lt (Nat.zero_le _) hsy)
  generalize clampIndex
    (windowDilated half (x / 1024 * 512) (y / 1024 * 512)).doubleSize.height.toNat
    ((I : Int) + da) = rR at q1 ⊢
  generalize clampIndex
    (windowDilated half (x / 1024 * 512) (y / 1024 * 512)).doubleSize.width.toNat
    ((J : Int) + db) = cR at q2 ⊢
  generalize clampIndex s.height ((y : Int) + da) = rA at q3 ⊢
  obtain ⟨r1, r2, r3, r4, r5, r6, r7⟩ := row_tap y half.height I rR rA _ s.height _ _ _ da hy c4 d2
    d4 hI1 h1 h2 hN1 hsh q1 q3
  obtain ⟨k1, k2, k3, k4, k5, k6, k7, k8, k9, k10⟩ := col_tap x half.width a J cR
    ((x : Int) + db).toNat _ s.width _ _ _ db hx1 hx2 c3 d1 d3 hJ1 h3 h4 hN2 hsw q2 rfl
  rw [wrapIndex_of_nonneg_lt s.width _ k9 k10, hup rR cR r1 k1,
    applyUpscaled_data s rA ((x : Int) + db).toNat r2 k2]
  by_cases hpar : rA % 2 = 0 ∧ ((x : Int) + db).toNat % 2 = 0
  · rw [if_pos hpar, if_pos ⟨r3.mpr hpar.1, k3.mpr hpar.2⟩,
      wrapIndex_of_nonneg_lt half.width _ k4 k5, r6, k6]
    exact hinv _ _ r7 k7 k8
  · rw [if_neg hpar, if_neg (fun h => hpar ⟨r3.mp h.1, k3.mp h.2⟩)]

/-! ## The iterations of `apply` for a view that covers the whole panorama -/

theorem applyIteration_next_weights (s : ApplyState) :
    (applyIteration s).next.current_weights =
      downscale (Image.alloc (s.width / 2) (s.height / 2))
        (convolveGaussian5x5
          (normalizeMask (convolveGaussian5x5 (Image.alloc s.width s.height) s.current_mask true)
            s.current_color)
          (applyMaskWeights s.current_weights s.current_color s.current_mask) true) :=
  rfl

theorem applyIteration_next_mask (s : ApplyState) :
    (applyIteration s).next.current_mask =
      downscale (Image.alloc (s.width / 2) (s.height / 2))
        (normalizeMask (convolveGaussian5x5 (Image.alloc s.width s.height) s.current_mask true)
          s.current_color) :=
  rfl

theorem kernelTap_one (c : Int) : kernelTap (fun _ => (1 : ℚ)) c = 1 := by
  unfold kernelTap
  simp only [smul_eq_mul]
  norm_num

theorem clampIndex_lt (n : Nat) (c : Int) (hn : 0 < n) : clampIndex n c < n := by
  have := clampIndex_spec n c hn
  omega

/-- The blur of an image of rationals that is one everywhere is one. -/
theorem convolve_one (output input : Image ℚ) (i j : Nat) (hw : 0 < input.width)
    (hh : 0 < input.height)
    (h : ∀ a b, a < input.height → b < input.width → input.data a b = 1) :
    (convolveGaussian5x5 output input true).data i j = 1 := by
  simp only [convolveGaussian5x5, if_true]
  have h1 : ∀ r c : Int,
      input.data (clampIndex input.height r) (wrapIndex input.width c) = 1 :=
    fun r c => h _ _ (clampIndex_lt _ _ hh) (wrapIndex_lt _ _ hw)
  simp only [h1, kernelTap_one]

theorem kernelTap_r (f : Int → RGBfColor) (c : Int) :
    (kernelTap f c).r = kernelTap (fun x => (f x).r) c := by
  unfold kernelTap
  simp only [RGBfColor.add_r, RGBfColor.smul_r, smul_eq_mul]

theorem kernelTap_g (f : Int → RGBfColor) (c : Int) :
    (kernelTap f c).g = kernelTap (fun x => (f x).g) c := by
  unfold kernelTap
  simp only [RGBfColor.add_g, RGBfColor.smul_g, smul_eq_mul]

theorem kernelTap_b (f : Int → RGBfColor) (c : Int) :
    (kernelTap f c).b = kernelTap (fun x => (f x).b) c := by
  unfold kernelTap
  simp only [RGBfColor.add_b, RGBfColor.smul_b, smul_eq_mul]

theorem kernelTap_nonneg (f : Int → ℚ) (c : Int) (h : ∀ x, 0 ≤ f x) : 0 ≤ kernelTap f c := by
  unfold kernelTap
  simp only [smul_eq_mul]
  have h1 := h (c - 2)
  have h2 := h (c - 1)
  have h3 := h c
  have h4 := h (c + 1)
  have h5 := h (c + 2)
  positivity

/-- The blur of colours that are not negative is not negative. -/
theorem convolve_nonneg (output input : Image RGBfColor) (i j : Nat) (hw : 0 < input.width)
    (hh : 0 < input.height)
    (h : ∀ a b, a < input.height → b < input.width →
      0 ≤ (input.data a b).r ∧ 0 ≤ (input.data a b).g ∧ 0 ≤ (input.data a b).b) :
    0 ≤ ((convolveGaussian5x5 output input true).data i j).r ∧
    0 ≤ ((convolveGaussian5x5 output input true).data i j).g ∧
    0 ≤ ((convolveGaussian5x5 output input true).data i j).b := by
  simp only [convolveGaussian5x5, if_true]
  have h1 : ∀ r c : Int,
      0 ≤ (input.data (clampIndex input.height r) (wrapIndex input.width c)).r ∧
      0 ≤ (input.data (clampIndex input.height r) (wrapIndex input.width c)).g ∧
      0 ≤ (input.data (clampIndex input.height r) (wrapIndex input.width c)).b :=
    fun r c => h _ _ (clampIndex_lt _ _ hh) (wrapIndex_lt _ _ hw)
  refine ⟨?_, ?_, ?_⟩
  · rw [kernelTap_r]
    apply kernelTap_nonneg
    intro r
    rw [kernelTap_r]
    exact kernelTap_nonneg _ _ (fun c => (h1 r c).1)
  · rw [kernelTap_g]
    apply kernelTap_nonneg
    intro r
    rw [kernelTap_g]
    exact kernelTap_nonneg _ _ (fun c => (h1 r c).2.1)
  · rw [kernelTap_b]
    apply kernelTap_nonneg
    intro r
    rw [kernelTap_b]
    exact kernelTap_nonneg _ _ (fun c => (h1 r c).2.2)

theorem one_gt_eps : |(1 : ℚ)| > eps := by
  unfold eps
  norm_num

/-- The blurred and normalised colours of an iteration of `apply` on a full view are not
negative. -/
theorem applyBlurred_nonneg (s : ApplyState) (w h : Nat) (hs : s.full w h) (hw : 0 < w)
    (hh : 0 < h) (i j : Nat) (hi : i < h) (hj : j < w) :
    0 ≤ ((applyBlurred s).data i j).r ∧ 0 ≤ ((applyBlurred s).data i j).g ∧
    0 ≤ ((applyBlurred s).data i j).b := by
  obtain ⟨s1, s2, s3, s4, s5, s6, _, _, _, _, s11⟩ := hs
  have hmask : (convolveGaussian5x5 (Image.alloc s.width s.height) s.current_mask true).data i j
      = 1 :=
    convolve_one _ _ i j (s5 ▸ hw) (s6 ▸ hh)
      (fun a b ha hb => (s11 a b (s6 ▸ ha) (s5 ▸ hb)).1)
  have hcol := convolve_nonneg (Image.alloc s.width s.height)
    (applyMaskColor (Image.alloc s.width s.height) s.current_color s.current_mask) i j
    (by simp only [applyMaskColor, Image.alloc]; omega)
    (by simp only [applyMaskColor, Image.alloc]; omega)
    (fun a b ha hb => by
      have ha1 : a < h := by
        simp only [applyMaskColor, Image.alloc] at ha
        omega
      have hb1 : b < w := by
        simp only [applyMaskColor, Image.alloc] at hb
        omega
      obtain ⟨m1, _, m3, m4, m5⟩ := s11 a b ha1 hb1
      simp only [applyMaskColor]
      rw [if_pos ⟨s4 ▸ ha1, s3 ▸ hb1⟩, m1, if_pos one_gt_eps]
      exact ⟨m3, m4, m5⟩)
  unfold applyBlurred
  simp only [normalizeColor]
  rw [if_pos ⟨s4 ▸ hi, s3 ▸ hj⟩, hmask, if_pos one_gt_eps]
  simp only [div_one]
  exact hcol

/-- One iteration of `apply` on a full view leaves a full view of half the size, and hands
weights one to `merge`. -/
theorem applyIteration_full (s : ApplyState) (w h : Nat) (hs : s.full w h) (hw : 0 < w)
    (hh : 0 < h) :
    (applyIteration s).next.full (w / 2) (h / 2) ∧
    (applyIteration s).laplacian.width = w ∧ (applyIteration s).laplacian.height = h ∧
    ∀ i j, i < h → j < w → (applyIteration s).weights.data i j = 1 := by
  have hs0 := hs
  obtain ⟨s1, s2, s3, s4, s5, s6, s7, s8, s9, s10, s11⟩ := hs
  have hmw : ∀ a b, a < h → b < w →
      (applyMaskWeights s.current_weights s.current_color s.current_mask).data a b = 1 := by
    intro a b ha hb
    obtain ⟨m1, m2, _⟩ := s11 a b ha hb
    simp only [applyMaskWeights]
    rw [if_pos ⟨s4 ▸ ha, s3 ▸ hb⟩, m1, if_pos one_gt_eps, m2]
  have hbf : ∀ a b, (convolveGaussian5x5 (Image.alloc s.width s.height) s.current_mask
      true).data a b = 1 :=
    fun a b => convolve_one _ _ a b (s5 ▸ hw) (s6 ▸ hh)
      (fun a1 b1 ha hb => (s11 a1 b1 (s6 ▸ ha) (s5 ▸ hb)).1)
  refine ⟨⟨?_, ?_, ?_, ?_, ?_, ?_, ?_, ?_, ?_, ?_, ?_⟩, ?_, ?_, ?_⟩
  · exact congrArg (fun n => n / 2) s1
  · exact congrArg (fun n => n / 2) s2
  · exact congrArg (fun n => n / 2) s1
  · exact congrArg (fun n => n / 2) s2
  · exact congrArg (fun n => n / 2) s1
  · exact congrArg (fun n => n / 2) s2
  · exact congrArg (fun n => n / 2) s1
  · exact congrArg (fun n => n / 2) s2
  · show s.offset_x / 2 = 0
    rw [s9]
  · show s.offset_y / 2 = 0
    rw [s10]
  · intro i j hi hj
    have hi2 : 2 * i < h := by omega
    have hj2 : 2 * j < w := by omega
    refine ⟨?_, ?_, ?_⟩
    · rw [applyIteration_next_mask]
      simp only [downscale, normalizeMask]
      rw [if_pos ⟨s4 ▸ hi2, s3 ▸ hj2⟩, hbf, if_pos one_gt_eps]
    · rw [applyIteration_next_weights]
      simp only [downscale]
      apply convolve_one
      · simp only [applyMaskWeights]
        omega
      · simp only [applyMaskWeights]
        omega
      · intro a b ha hb
        simp only [applyMaskWeights] at ha hb
        exact hmw a b (s8 ▸ ha) (s7 ▸ hb)
    · rw [applyIteration_next_color]
      simp only [downscale]
      exact applyBlurred_nonneg s w h hs0 hw hh (2 * i) (2 * j) hi2 hj2
  · exact s3
  · exact s4
  · intro i j hi hj
    rw [applyIteration_weights]
    exact hmw i j hi hj

theorem applyIterate_succ (k : Nat) :
    ∀ s : ApplyState, applyIterate (k + 1) s = (applyIteration (applyIterate k s)).next := by
  induction k with
  | zero => intro s; rfl
  | succ k ih =>
    intro s
    rw [applyIterate, ih (applyIteration s).next]
    rfl

theorem two_mul_half_of_dvd (W l : Nat) (h : 2 ^ (l + 1) ∣ W) :
    2 * (W / 2 ^ (l + 1)) = W / 2 ^ l := by
  obtain ⟨q, hq⟩ := h
  rw [hq, Nat.mul_div_cancel_left q (pow_pos (by decide) _), pow_succ, Nat.mul_assoc,
    Nat.mul_div_cancel_left _ (pow_pos (by decide) _)]

theorem half_half (W l : Nat) : W / 2 ^ l / 2 = W / 2 ^ (l + 1) := by
  rw [Nat.div_div_eq_div_mul, pow_succ]

theorem level_pos (W k n : Nat) (hW : 0 < W) (hdvd : 2 ^ n ∣ W) (hk : k ≤ n) :
    0 < W / 2 ^ k :=
  Nat.div_pos (Nat.le_of_dvd hW ((pow_dvd_pow 2 hk).trans hdvd)) (pow_pos (by decide) _)

/-- The local variables of `apply` at every level, for a view that covers the whole
panorama. -/
theorem applyIterate_full (s : ApplyState) (W H n : Nat) (hs : s.full W H) (hW : 0 < W)
    (hH : 0 < H) (hdW : 2 ^ n ∣ W) (hdH : 2 ^ n ∣ H) :
    ∀ k, k ≤ n → (applyIterate k s).full (W / 2 ^ k) (H / 2 ^ k) := by
  intro k
  induction k with
  | zero =>
    intro _
    simp only [pow_zero, Nat.div_one]
    exact hs
  | succ k ih =>
    intro hk
    rw [applyIterate_succ, ← half_half W k, ← half_half H k]
    exact (applyIteration_full _ _ _ (ih (by omega)) (level_pos W k n hW hdW (by omega))
      (level_pos H k n hH hdH (by omega))).1

/-! ## The pyramid after `apply` of a view that covers the whole panorama -/

theorem applyCalls_eq_map :
    ∀ (n l0 : Nat) (s : ApplyState),
      applyCalls n l0 s = (List.range n).map (fun k =>
        (⟨(applyIteration (applyIterate k s)).laplacian,
          (applyIteration (applyIterate k s)).weights, l0 + k, (applyIterate k s).offset_x,
          (applyIterate k s).offset_y⟩ : MergeCall)) := by
  intro n
  induction n with
  | zero => intro l0 s; rfl
  | succ n ih =>
    intro l0 s
    rw [applyCalls, ih (l0 + 1) (applyIteration s).next, List.range_succ_eq_map, List.map_cons,
      List.map_map]
    congr 1
    apply List.map_congr_left
    intro k _
    simp only [Function.comp, applyIterate]
    congr 1
    omega

theorem applyAllCalls_eq_map (L : Nat) (s : ApplyState) (hL : 1 ≤ L) :
    applyAllCalls L s = (List.range L).map (applyCall L s) := by
  obtain ⟨n, hn⟩ : ∃ n, L = n + 1 := ⟨L - 1, by omega⟩
  subst hn
  unfold applyAllCalls
  rw [applyCalls_eq_map, List.range_succ, List.map_append, Nat.add_sub_cancel]
  congr 1
  · apply List.map_congr_left
    intro k hk
    have hk1 : k + 1 < n + 1 := by
      have := List.mem_range.mp hk
      omega
    simp only [applyCall, if_pos hk1, Nat.zero_add]
  · simp only [List.map_cons, List.map_nil, applyCall, Nat.lt_irrefl, if_false]

theorem applyCall_level (L : Nat) (s : ApplyState) (l : Nat) : (applyCall L s l).level = l := by
  unfold applyCall
  split <;> rfl

/-- A sum over the calls of `apply` of a quantity that only the call for level `l`
contributes to. -/
theorem sum_applyAllCalls (F : MergeCall → ℚ) (L l : Nat) (s : ApplyState) (hL : l < L)
    (hF : ∀ m : MergeCall, ¬ l = m.level → F m = 0) :
    ((applyAllCalls L s).map F).sum = F (applyCall L s l) := by
  rw [applyAllCalls_eq_map L s (by omega), List.map_map]
  have h1 : (List.range L).map (F ∘ applyCall L s) =
      (List.range L).map (fun k => if k = l then F (applyCall L s l) else 0) := by
    apply List.map_congr_left
    intro k _
    simp only [Function.comp]
    by_cases hk : k = l
    · rw [if_pos hk, hk]
    · rw [if_neg hk]
      apply hF
      rw [applyCall_level]
      exact fun e => hk e.symm
  rw [h1, sum_range_single, if_pos hL]

/-- The patch that `apply` hands to `merge` for level `l`, for a view that covers the
whole panorama: its size, its offset and its weights. -/
theorem applyCall_full (s : ApplyState) (W H L l : Nat) (hs : s.full W H) (hW : 0 < W)
    (hH : 0 < H) (hdW : 2 ^ (L - 1) ∣ W) (hdH : 2 ^ (L - 1) ∣ H) (hl : l < L) :
    (applyCall L s l).level = l ∧ (applyCall L s l).offset_x = 0 ∧
    (applyCall L s l).offset_y = 0 ∧ (applyCall L s l).oimg.width = W / 2 ^ l ∧
    (applyCall L s l).oimg.height = H / 2 ^ l ∧ 0 < W / 2 ^ l ∧ 0 < H / 2 ^ l ∧
    ∀ i j, i < H / 2 ^ l → j < W / 2 ^ l → (applyCall L s l).oweight.data i j = 1 := by
  have hfull := applyIterate_full s W H (L - 1) hs hW hH hdW hdH l (by omega)
  have hwp := level_pos W l (L - 1) hW hdW (by omega)
  have hhp := level_pos H l (L - 1) hH hdH (by omega)
  obtain ⟨s1, s2, s3, s4, _, _, _, _, s9, s10, s11⟩ := hfull
  by_cases hlast : l + 1 < L
  · obtain ⟨_, k1, k2, k3⟩ := applyIteration_full _ _ _
      (applyIterate_full s W H (L - 1) hs hW hH hdW hdH l (by omega)) hwp hhp
    simp only [applyCall, if_pos hlast]
    exact ⟨trivial, s9, s10, k1, k2, hwp, hhp, k3⟩
  · simp only [applyCall, if_neg hlast]
    exact ⟨trivial, s9, s10, s3, s4, hwp, hhp, fun i j hi hj => (s11 i j hi hj).2.1⟩

theorem merge_wellFormed (p : LaplacianPyramid) (ts W H : Nat) (hp : p.wellFormed ts W H)
    (m : MergeCall) :
    (p.merge m.oimg m.oweight m.level m.offset_x m.offset_y).2.wellFormed ts W H := by
  have h := mergeAll_wellFormed p ts W H hp [m]
  rw [mergeAll_cons, mergeAll_nil] at h
  exact h

/-- On a well-formed pyramid, calls of `merge` at the offset `(0, 0)` with patches that are
not empty all return `true`. -/
theorem mergeAll_succeeds (ts W H : Nat) (hts : 0 < ts) :
    ∀ (ms : List MergeCall) (p : LaplacianPyramid), p.wellFormed ts W H →
      (∀ m ∈ ms, m.level < p.levels.length ∧ m.offset_x = 0 ∧ m.offset_y = 0 ∧
        0 < m.oimg.height ∧ 0 < W / 2 ^ m.level ∧ 0 < H / 2 ^ m.level) →
      (p.mergeAll ms).1 = true := by
  intro ms
  induction ms with
  | nil => intro p _ _; rfl
  | cons m ms ih =>
    intro p hp h
    obtain ⟨h1, h2, h3, h4, h5, h6⟩ := h m (List.mem_cons_self _ _)
    have hc : p.levels[m.level]? = some p.levels[m.level] := List.getElem?_eq_getElem h1
    obtain ⟨w, hw, g1, g2, g3, g4, g5, g6⟩ := wellFormed_weight p ts W H m.level _ hp hc
    have hrow : ∃ i : Nat, i < (mergeBb m.offset_x m.offset_y m.oimg).height.toNat ∧
        0 ≤ (mergeBb m.offset_x m.offset_y m.oimg).top + (i : Int) ∧
        (mergeBb m.offset_x m.offset_y m.oimg).top + (i : Int) < ((H / 2 ^ m.level : Nat) : Int) := by
      refine ⟨0, ?_, ?_, ?_⟩
      · simp only [mergeBb]
        omega
      · simp only [mergeBb]
        omega
      · simp only [mergeBb]
        omega
    have hs : p.mergeSucceeds m.level (mergeBb m.offset_x m.offset_y m.oimg) := by
      unfold LaplacianPyramid.mergeSucceeds
      rw [hc, hw]
      exact ⟨regionOk_of_fullGrid _ ts _ hts g4 (g5 ▸ h5) (g6 ▸ hrow),
        regionOk_of_fullGrid _ ts _ hts g1 (by rw [g2, g5]; exact h5)
          (by rw [g3, g6]; exact hrow)⟩
    have hm := merge_of_succeeds p m.oimg m.oweight m.level m.offset_x m.offset_y hs
    have hwf := merge_wellFormed p ts W H hp m
    have hlen := merge_levels_length p m.oimg m.oweight m.level m.offset_x m.offset_y
    simp only [LaplacianPyramid.mergeAll, Bool.and_eq_true]
    refine ⟨by rw [hm], ?_⟩
    apply ih _ hwf
    intro m1 hm1
    rw [hlen]
    exact h m1 (List.mem_cons_of_mem _ hm1)

/-- What a call of `merge` at the offset `(0, 0)` with a patch as wide as the level
contributes to a pixel of the level. -/
theorem contribution_full (m : MergeCall) (W : Nat) (v : Nat → Nat → ℚ) (y x : Nat)
    (hox : m.offset_x = 0) (hoy : m.offset_y = 0) (hw : m.oimg.width = W)
    (hy : y < m.oimg.height) (hx : x < W) : m.contribution W v m.level y x = v y x := by
  rw [contribution_eq m W v y x (by omega)]
  have hbb : mergeBb m.offset_x m.offset_y m.oimg = ⟨0, 0, W, m.oimg.height⟩ := by
    unfold mergeBb
    rw [hox, hoy, hw]
    rfl
  rw [hbb]
  simp only
  rw [if_pos (by omega)]
  unfold sourceValue
  simp only
  rw [lastSource_window W 0 W x (by omega) (by omega), if_pos (by omega)]
  simp

theorem normalizePixel_one (c : RGBfColor) : normalizePixel c 1 = c := by
  unfold normalizePixel
  rw [if_neg (by unfold eps; norm_num)]
  ext <;> simp

/-- A pixel of a normalised level after `apply` of a view that covers the whole panorama,
on a pyramid that holds nothing yet: the pixel of the patch handed to `merge`. -/
theorem apply_normalized_pixel (p : LaplacianPyramid) (ts W H L : Nat)
    (source : Image RGBfColor) (mask : Image Nat) (weights : Image ℚ) (hts : 0 < ts)
    (hp : p.wellFormed ts W H) (hlen : p.levels.length = L)
    (hzc : ∀ (l : Nat) (c : CachedImage RGBfColor), p.levels[l]? = some c →
      ∀ (y x : Nat) (d : RGBfColor), y < c.height → x < c.width → c.getPixel y x d = 0)
    (hzw : ∀ (l : Nat) (w : CachedImage ℚ), p.weights[l]? = some w →
      ∀ (y x : Nat) (e : ℚ), y < w.height → x < w.width → w.getPixel y x e = 0)
    (hs : (applyStart source mask weights 0 0).full W H) (hW : 0 < W) (hH : 0 < H)
    (hdW : 2 ^ (L - 1) ∣ W) (hdH : 2 ^ (L - 1) ∣ H) (l y x : Nat) (hl : l < L)
    (hy : y < H / 2 ^ l) (hx : x < W / 2 ^ l) (d : RGBfColor) :
    ∃ n, (p.apply source mask weights 0 0).2.normalizeLevels[l]? = some n ∧
      n.getPixel y x d = (applyCall L (applyStart source mask weights 0 0) l).oimg.data y x := by
  rw [apply_eq, hlen]
  simp only
  generalize applyStart source mask weights 0 0 = s0 at hs ⊢
  have hmem : ∀ m ∈ applyAllCalls L s0, ∃ k, k < L ∧ m = applyCall L s0 k := by
    intro m hm
    rw [applyAllCalls_eq_map L s0 (by omega), List.mem_map] at hm
    obtain ⟨k, hk, hkm⟩ := hm
    exact ⟨k, List.mem_range.mp hk, hkm.symm⟩
  have hsucc : (p.mergeAll (applyAllCalls L s0)).1 = true := by
    apply mergeAll_succeeds ts W H hts _ p hp
    intro m hm
    obtain ⟨k, hk, hkm⟩ := hmem m hm
    obtain ⟨a1, a2, a3, _, a5, a6, a7, _⟩ := applyCall_full s0 W H L k hs hW hH hdW hdH hk
    rw [hkm, a1, a2, a3, a5, hlen]
    exact ⟨hk, rfl, rfl, a7, a6, a7⟩
  obtain ⟨c, hc⟩ : ∃ c, p.levels[l]? = some c :=
    ⟨_, List.getElem?_eq_getElem (hlen ▸ hl)⟩
  obtain ⟨w, hw, g1, g2, g3, g4, g5, g6⟩ := wellFormed_weight p ts W H l c hp hc
  obtain ⟨b1, b2, b3, b4, b5, _, _, b8⟩ := applyCall_full s0 W H L l hs hW hH hdW hdH hl
  obtain ⟨c1, w1, k1, k2, k3, k4, k5, k6⟩ := merge_accumulates (applyAllCalls L s0) p l c w y x d 0
    hc hw (by rw [g4.1]; exact hts) (by rw [g1.1]; exact hts) g2 g3
    (fun m hm hml => by
      obtain ⟨k, hk, hkm⟩ := hmem m hm
      obtain ⟨a1, _, _, a4, _⟩ := applyCall_full s0 W H L k hs hW hH hdW hdH hk
      rw [hkm, a1] at hml
      rw [hkm, a4, hml, g5])
    hsucc (by rw [g6]; exact hy) (by rw [g5]; exact hx)
  have hsum : ∀ v : MergeCall → Nat → Nat → ℚ,
      ((applyAllCalls L s0).map (fun m => m.contribution c.width (v m) l y x)).sum =
        v (applyCall L s0 l) y x := by
    intro v
    rw [sum_applyAllCalls (fun m => m.contribution c.width (v m) l y x) L l s0 hl
      (fun m hm => contribution_of_ne m _ _ l y x hm)]
    have := contribution_full (applyCall L s0 l) c.width (v (applyCall L s0 l)) y x
      b2 b3 (by rw [b4, g5]) (by rw [b5]; exact hy) (by rw [g5]; exact hx)
    rw [b1] at this
    exact this
  rw [hsum (fun m i j => (m.oimg.data i j).r * m.oweight.data i j)] at k3
  rw [hsum (fun m i j => (m.oimg.data i j).g * m.oweight.data i j)] at k4
  rw [hsum (fun m i j => (m.oimg.data i j).b * m.oweight.data i j)] at k5
  rw [hsum (fun m i j => m.oweight.data i j)] at k6
  have hz1 := hzc l c hc y x d (by rw [g6]; exact hy) (by rw [g5]; exact hx)
  have hz2 := hzw l w hw y x 0 (by rw [g3, g6]; exact hy) (by rw [g2, g5]; exact hx)
  rw [hz1, b8 y x hy hx] at k3 k4 k5
  rw [hz2, b8 y x hy hx] at k6
  have hwf := mergeAll_wellFormed p ts W H hp (applyAllCalls L s0)
  obtain ⟨e1, e2, e3⟩ := hwf.2.1 l c1 k1
  obtain ⟨n, hn1, hn2⟩ := normalize_getPixel _ ts W H l hts hwf c1 w1 k1 k2 y x
    (by rw [e3]; exact hy) (by rw [e2]; exact hx) d 0
  refine ⟨n, hn1, ?_⟩
  rw [hn2, k6, zero_add, normalizePixel_one]
  ext
  · rw [k3]
    simp
  · rw [k4]
    simp
  · rw [k5]
    simp

/-! ## The levels that `rebuild` leaves after `apply` of a view that covers the panorama -/

theorem clampNegative_of_nonneg (c : RGBfColor) (h : 0 ≤ c.r ∧ 0 ≤ c.g ∧ 0 ≤ c.b) :
    clampNegative c = c := by
  unfold clampNegative
  ext
  · exact max_eq_right h.1
  · exact max_eq_right h.2.1
  · exact max_eq_right h.2.2

theorem drop_eq_cons {α : Type} (xs : List α) (l : Nat) (c : α) (h : xs[l]? = some c) :
    xs.drop l = c :: xs.drop (l + 1) := by
  have hl : l < xs.length := (List.getElem?_eq_some.mp h).1
  have hc : xs[l] = c := (List.getElem?_eq_some.mp h).2
  rw [← hc]
  exact List.drop_eq_getElem_cons hl

/-- After `apply` of a view that covers the whole panorama, the level `l` that `rebuild`
leaves holds the colours of `apply` at level `l` on every row of its interior columns,
those at least `2 ^ (m + 1) - 2` away from both edges, `m` being the number of levels
above `l`. -/
theorem rebuilt_level (N : List (CachedImage RGBfColor)) (s0 : ApplyState) (ts W H L : Nat)
    (hts : 0 < ts) (hNlen : N.length = L)
    (hlay : ∀ (l : Nat) (c : CachedImage RGBfColor), N[l]? = some c →
      c.fullGrid ts ts ∧ c.width = W / 2 ^ l ∧ c.height = H / 2 ^ l)
    (hpix : ∀ l y x, l < L → y < H / 2 ^ l → x < W / 2 ^ l →
      ∃ n, N[l]? = some n ∧ n.getPixel y x default = (applyCall L s0 l).oimg.data y x)
    (hs : s0.full W H) (hW : 0 < W) (hH : 0 < H) (hdW : 2 ^ (L - 1) ∣ W)
    (hdH : 2 ^ (L - 1) ∣ H) :
    ∀ m l, l + m + 1 = L →
      ∃ (R : CachedImage RGBfColor) (rest : List (CachedImage RGBfColor)),
        rebuiltStack (N.drop l) = R :: rest ∧ R.fullGrid ts ts ∧ R.width = W / 2 ^ l ∧
        R.height = H / 2 ^ l ∧
        ∀ y x, y < H / 2 ^ l → 2 ^ (m + 1) - 2 ≤ x → x + (2 ^ (m + 1) - 2) < W / 2 ^ l →
          R.getPixel y x default = (applyIterate l s0).current_color.data y x := by
  intro m
  induction m with
  | zero =>
    intro l hl
    have hlL : l < L := by omega
    obtain ⟨c, hc⟩ : ∃ c, N[l]? = some c := ⟨_, List.getElem?_eq_getElem (hNlen ▸ hlL)⟩
    obtain ⟨a1, a2, a3⟩ := hlay l c hc
    have hdrop : N.drop l = [c] := by
      rw [drop_eq_cons N l c hc, List.drop_eq_nil_of_le (by omega)]
    have hfull := applyIterate_full s0 W H (L - 1) hs hW hH hdW hdH l (by omega)
    refine ⟨clamped c, [], ?_, ?_, ?_, ?_, ?_⟩
    · rw [hdrop]
      exact rebuiltStack_cons_nil c [] rfl
    · exact CachedImage.fullGrid_congr c _ ts ts (clamped_shape c) a1
    · exact (CachedImage.shape_width c _ (clamped_shape c)).trans a2
    · exact (CachedImage.shape_height c _ (clamped_shape c)).trans a3
    · intro y x hy _ hx
      have hx1 : x < W / 2 ^ l := by omega
      obtain ⟨n, hn1, hn2⟩ := hpix l y x hlL hy hx1
      rw [hc] at hn1
      have hcn : c = n := Option.some.inj hn1
      subst hcn
      rw [clamped_getPixel_fullGrid c ts y x default hts a1 (a3 ▸ hy) (a2 ▸ hx1), hn2]
      have hcall : (applyCall L s0 l).oimg = (applyIterate l s0).current_color := by
        unfold applyCall
        rw [if_neg (by omega)]
      rw [hcall]
      exact clampNegative_of_nonneg _ (hfull.2.2.2.2.2.2.2.2.2.2 y x hy hx1).2.2
  | succ m ih =>
    intro l hl
    have hlL : l < L := by omega
    obtain ⟨R1, rest1, k1, k2, k3, k4, k5⟩ := ih (l + 1) (by omega)
    obtain ⟨c, hc⟩ : ∃ c, N[l]? = some c := ⟨_, List.getElem?_eq_getElem (hNlen ▸ hlL)⟩
    obtain ⟨a1, a2, a3⟩ := hlay l c hc
    have hfull := applyIterate_full s0 W H (L - 1) hs hW hH hdW hdH l (by omega)
    have hd1 : 2 ^ (l + 1) ∣ W := (pow_dvd_pow 2 (by omega)).trans hdW
    have hd2 : 2 ^ (l + 1) ∣ H := (pow_dvd_pow 2 (by omega)).trans hdH
    have hw2 := two_mul_half_of_dvd W l hd1
    have hh2 := two_mul_half_of_dvd H l hd2
    have hshape : (clamped (windowedAll R1 c)).shape = c.shape :=
      (clamped_shape _).trans (windowedAll_shape R1 c)
    have hgrid : (windowedAll R1 c).fullGrid ts ts :=
      CachedImage.fullGrid_congr c _ ts ts (windowedAll_shape R1 c) a1
    refine ⟨clamped (windowedAll R1 c), R1 :: rest1, ?_, ?_, ?_, ?_, ?_⟩
    · rw [drop_eq_cons N l c hc]
      exact rebuiltStack_cons_cons c R1 _ rest1 k1
    · exact CachedImage.fullGrid_congr c _ ts ts hshape a1
    · exact (CachedImage.shape_width c _ hshape).trans a2
    · exact (CachedImage.shape_height c _ hshape).trans a3
    · intro y x hy hx1 hx2
      have hpow : 2 ^ (m + 1 + 1) = 2 * 2 ^ (m + 1) := by
        rw [pow_succ, Nat.mul_comm]
      have hpos : 2 ≤ 2 ^ (m + 1) := by
        have := Nat.one_le_two_pow (n := m)
        rw [pow_succ]
        omega
      have hxw : x < W / 2 ^ l := by omega
      obtain ⟨n, hn1, hn2⟩ := hpix l y x hlL hy hxw
      rw [hc] at hn1
      have hcn : c = n := Option.some.inj hn1
      subst hcn
      have hwin := windowedAll_getPixel R1 c ts y x default hts a1 (by rw [k3, a2, hw2])
        (a3 ▸ hy) (a2 ▸ hxw)
      rw [if_pos ⟨by rw [k3, hw2]; exact hxw, by rw [k4, hh2]; exact hy⟩] at hwin
      have hexp := window_expands R1 (applyIterate l s0) ts (2 ^ (m + 1) - 2) y x hts k2
        (by rw [hfull.1, k3, hw2]) (by rw [hfull.2.1, k4, hh2])
        (fun r c1 hr hc1 hc2 => by
          rw [← applyIterate_succ]
          exact k5 r c1 (k4 ▸ hr) hc1 (k3 ▸ hc2))
        (by rw [k4, hh2]; exact hy) (by omega) (by rw [k3, hw2]; omega)
      have hcall : (applyCall L s0 l).oimg =
          (applyIteration (applyIterate l s0)).laplacian := by
        unfold applyCall
        rw [if_pos (by omega)]
      rw [clamped_getPixel_fullGrid _ ts y x default hts hgrid
          (by rw [CachedImage.shape_height c _ (windowedAll_shape R1 c), a3]; exact hy)
          (by rw [CachedImage.shape_width c _ (windowedAll_shape R1 c), a2]; exact hxw),
        hwin, hexp, hn2, hcall, applyIteration_laplacian]
      simp only [substract, sub_add_cancel]
      exact clampNegative_of_nonneg _ (hfull.2.2.2.2.2.2.2.2.2.2 y x hy hxw).2.2

/-- On a well-formed pyramid with at least one level, `rebuild` returns `true`, leaves
the stack `rebuiltStack` of the normalised levels, and writes to each pixel of the output
the colour of the rebuilt finest level with alpha `1`. -/
theorem rebuild_wellFormed (p : LaplacianPyramid) (ts W H : Nat)
    (output : CachedImage RGBAfColor) (hts : 0 < ts) (hL : 1 ≤ p.levels.length)
    (hp : p.wellFormed ts W H) (hout : output.fullGrid ts ts) (how : output.width = W)
    (hoh : output.height = H) :
    (p.rebuild output).1 = true ∧
    ∃ (R : CachedImage RGBfColor) (rest : List (CachedImage RGBfColor)),
      rebuiltStack p.normalizeLevels = R :: rest ∧
      ∀ (y x : Nat) (d : RGBAfColor) (d0 : RGBfColor), y < H → x < W →
        (p.rebuild output).2.2.getPixel y x d =
          ⟨(R.getPixel y x d0).r, (R.getPixel y x d0).g, (R.getPixel y x d0).b, 1⟩ := by
  obtain ⟨c0, hc0⟩ : ∃ c0, p.levels[0]? = some c0 :=
    ⟨_, List.getElem?_eq_getElem (by omega)⟩
  obtain ⟨w0, hw0, g1, g2, g3, g4, g5, g6⟩ := wellFormed_weight p ts W H 0 c0 hp hc0
  simp only [pow_zero, Nat.div_one] at g5 g6
  have hn0 := normalize_at p 0 c0 w0 hc0 hw0
  have hne : p.normalizeLevels ≠ [] := by
    intro hnil
    rw [hnil] at hn0
    simp at hn0
  have hcol := collapse_eq p ts hts (normalize_stackOk p ts W H hp) hne
  obtain ⟨n0, nrest, hN⟩ : ∃ n0 nrest, p.normalizeLevels = n0 :: nrest := by
    cases h : p.normalizeLevels with
    | nil => exact absurd h hne
    | cons a b => exact ⟨a, b, rfl⟩
  obtain ⟨R, rest, hR, hRs⟩ := rebuiltStack_head n0 nrest
  rw [← hN] at hR
  have hn00 : p.normalizeLevels[0]? = some n0 := by
    rw [hN]
    exact List.getElem?_cons_zero
  obtain ⟨m1, m2, m3⟩ := normalize_layout p ts W H hp 0 n0 hn00
  simp only [pow_zero, Nat.div_one] at m2 m3
  have hlev0 : p.collapse.2[0]? = some R := by
    rw [hcol, hR]
    exact List.getElem?_cons_zero
  have hok : (p.rebuild output).1 = true :=
    rebuild_ok p output ts R w0 (by rw [hcol]) hlev0 hw0
      (CachedImage.fullGrid_congr n0 R ts ts hRs m1) g1 hout
      ((CachedImage.shape_width n0 R hRs).trans (m2.trans how.symm))
      ((CachedImage.shape_height n0 R hRs).trans (m3.trans hoh.symm))
      (g2.trans (g5.trans how.symm)) (g3.trans (g6.trans hoh.symm))
  refine ⟨hok, R, rest, hR, ?_⟩
  intro y x d d0 hy hx
  exact rebuild_pixel p output ts R w0 hts hok hlev0 hw0 hout
    ((CachedImage.shape_tileSize n0 R hRs).trans m1.1) y x (hoh ▸ hy) (how ▸ hx) d d0

/-- The local variables of `apply` when it enters its loop, for a view that covers the
whole panorama with mask and weight one. -/
theorem applyStart_full (W H : Nat) (source : Image RGBfColor) (mask : Image Nat)
    (weights : Image ℚ) (hsw : source.width = W) (hsh : source.height = H)
    (hww : weights.width = W) (hwh : weights.height = H)
    (hmask : ∀ i j, i < H → j < W → mask.data i j ≠ 0)
    (hweights : ∀ i j, i < H → j < W → weights.data i j = 1)
    (hcolor : ∀ i j, i < H → j < W →
      0 ≤ (source.data i j).r ∧ 0 ≤ (source.data i j).g ∧ 0 ≤ (source.data i j).b) :
    (applyStart source mask weights 0 0).full W H := by
  unfold applyStart
  refine ⟨hsw, hsh, hsw, hsh, hsw, hsh, hww, hwh, rfl, rfl, ?_⟩
  intro i j hi hj
  refine ⟨?_, hweights i j hi hj, hcolor i j hi hj⟩
  simp only [maskToFloat]
  rw [if_pos ⟨hsh ▸ hi, hsw ▸ hj⟩, if_pos (hmask i j hi hj)]

/-- C8: for a panorama of `W` by `H` pixels with `W` and `H` divisible by `2 ^ (L - 1)`,
on a manager with square tiles that never fails, and for one view with channels that are
not negative, which covers the whole panorama at the offset `(0, 0)` with a mask that is
set and a weight of one everywhere, `initialize`, then `apply`, then `rebuild` returns
`true`, writes alpha `1` at every pixel, and writes exactly the colour of the view at
every pixel of an interior column, one at least `2 ^ L - 2` columns away from the left
and from the right edge, which is as far as the kernel taps reach through the levels;
the rows need no margin, because `apply` and `rebuild` clamp the rows in the same way. -/
theorem apply_rebuild_round_trip (W H L : Nat) (mgr : TileCacheManager)
    (freshColor : Nat → RGBfColor) (freshWeight : Nat → ℚ) (source : Image RGBfColor)
    (mask : Image Nat) (weights : Image ℚ) (output : CachedImage RGBAfColor)
    (hL : 1 ≤ L) (hdW : 2 ^ (L - 1) ∣ W) (hdH : 2 ^ (L - 1) ∣ H)
    (hmgr : mgr.neverFails) (hsq : mgr.tileHeight = mgr.tileWidth) (hts : 0 < mgr.tileWidth)
    (hsw : source.width = W) (hsh : source.height = H)
    (hww : weights.width = W) (hwh : weights.height = H)
    (hmask : ∀ i j, i < H → j < W → mask.data i j ≠ 0)
    (hweights : ∀ i j, i < H → j < W → weights.data i j = 1)
    (hcolor : ∀ i j, i < H → j < W →
      0 ≤ (source.data i j).r ∧ 0 ≤ (source.data i j).g ∧ 0 ≤ (source.data i j).b)
    (hout : output.fullGrid mgr.tileWidth mgr.tileWidth) (how : output.width = W)
    (hoh : output.height = H) :
    ((( LaplacianPyramid.initialize (LaplacianPyramid.new W H L) mgr freshColor
      freshWeight).2.1.apply source mask weights 0 0).2.rebuild output).1 = true ∧
    (∀ (y x : Nat) (d : RGBAfColor), y < H → x < W →
      (((( LaplacianPyramid.initialize (LaplacianPyramid.new W H L) mgr freshColor
        freshWeight).2.1.apply source mask weights 0 0).2.rebuild output).2.2.getPixel
          y x d).a = 1) ∧
    ∀ (y x : Nat) (d : RGBAfColor), y < H → 2 ^ L - 2 ≤ x → x + (2 ^ L - 2) < W →
      ((( LaplacianPyramid.initialize (LaplacianPyramid.new W H L) mgr freshColor
        freshWeight).2.1.apply source mask weights 0 0).2.rebuild output).2.2.getPixel y x d =
        ⟨(source.data y x).r, (source.data y x).g, (source.data y x).b, 1⟩ := by
  obtain ⟨hp, hlen, hzc, hzw⟩ :=
    initialize_layout W H L mgr freshColor freshWeight hmgr hsq hts
  generalize ( LaplacianPyramid.initialize (LaplacianPyramid.new W H L) mgr freshColor
    freshWeight).2.1 = p0 at hp hlen hzc hzw ⊢
  have hp1 := apply_wellFormed p0 mgr.tileWidth W H hp source mask weights 0 0
  have hlen1 : (p0.apply source mask weights 0 0).2.levels.length = L := by
    rw [apply_eq]
    simp only
    rw [mergeAll_levels_length, hlen]
  obtain ⟨hok, R, rest, hR, hpix⟩ := rebuild_wellFormed _ mgr.tileWidth W H output hts
    (by rw [hlen1]; exact hL) hp1 hout how hoh
  refine ⟨hok, ?_, ?_⟩
  · intro y x d hy hx
    rw [hpix y x d default hy hx]
  · intro y x d hy hx1 hx2
    have hW : 0 < W := by omega
    have hH : 0 < H := by omega
    have hs := applyStart_full W H source mask weights hsw hsh hww hwh hmask hweights hcolor
    have hNlen : (p0.apply source mask weights 0 0).2.normalizeLevels.length = L := by
      unfold LaplacianPyramid.normalizeLevels
      rw [List.length_mapIdx, hlen1]
    obtain ⟨R1, rest1, k1, _, _, _, k5⟩ :=
      rebuilt_level (p0.apply source mask weights 0 0).2.normalizeLevels
        (applyStart source mask weights 0 0) mgr.tileWidth W H L hts hNlen
        (normalize_layout _ mgr.tileWidth W H hp1)
        (fun l y1 x1 hl hy1 hx1 =>
          apply_normalized_pixel p0 mgr.tileWidth W H L source mask weights hts hp hlen hzc hzw
            hs hW hH hdW hdH l y1 x1 hl hy1 hx1 default)
        hs hW hH hdW hdH (L - 1) 0 (by omega)
    rw [List.drop_zero, hR] at k1
    have hRR : R = R1 := (List.cons.inj k1).1
    subst hRR
    have hL1 : L - 1 + 1 = L := by omega
    rw [hL1] at k5
    simp only [pow_zero, Nat.div_one] at k5
    rw [hpix y x d default hy (by omega), k5 y x hy hx1 hx2]
    rfl

theorem apply_rebuild_round_trip_witness :
    ((( LaplacianPyramid.initialize (LaplacianPyramid.new 16 16 3) (plainManager 4)
      (fun _ => ⟨7, 7, 7⟩) (fun _ => 7)).2.1.apply constantView constantMask constantWeights
        0 0).2.rebuild squareOutput).1 = true ∧
    ((( LaplacianPyramid.initialize (LaplacianPyramid.new 16 16 3) (plainManager 4)
      (fun _ => ⟨7, 7, 7⟩) (fun _ => 7)).2.1.apply constantView constantMask constantWeights
        0 0).2.rebuild squareOutput).2.2.getPixel 6 6 ⟨7, 7, 7, 7⟩ = ⟨1 / 2, 1 / 4, 1 / 8, 1⟩ ∧
    ((( LaplacianPyramid.initialize (LaplacianPyramid.new 16 16 3) (plainManager 4)
      (fun _ => ⟨7, 7, 7⟩) (fun _ => 7)).2.1.apply constantView constantMask constantWeights
        0 0).2.rebuild squareOutput).2.2.getPixel 6 9 ⟨7, 7, 7, 7⟩ = ⟨1 / 2, 1 / 4, 1 / 8, 1⟩ ∧
    ((( LaplacianPyramid.initialize (LaplacianPyramid.new 16 16 3) (plainManager 4)
      (fun _ => ⟨7, 7, 7⟩) (fun _ => 7)).2.1.apply constantView constantMask constantWeights
        0 0).2.rebuild squareOutput).2.2.getPixel 9 6 ⟨7, 7, 7, 7⟩ = ⟨1 / 2, 1 / 4, 1 / 8, 1⟩ ∧
    ((( LaplacianPyramid.initialize (LaplacianPyramid.new 16 16 3) (plainManager 4)
      (fun _ => ⟨7, 7, 7⟩) (fun _ => 7)).2.1.apply constantView constantMask constantWeights
        0 0).2.rebuild squareOutput).2.2.getPixel 9 9 ⟨7, 7, 7, 7⟩ = ⟨1 / 2, 1 / 4, 1 / 8, 1⟩ ∧
    (((( LaplacianPyramid.initialize (LaplacianPyramid.new 16 16 3) (plainManager 4)
      (fun _ => ⟨7, 7, 7⟩) (fun _ => 7)).2.1.apply constantView constantMask constantWeights
        0 0).2.rebuild squareOutput).2.2.getPixel 0 15 ⟨7, 7, 7, 7⟩).a = 1 := by
  have hgrid := createImage_neverFails (plainManager 4) (fun _ => (⟨7, 7, 7, 7⟩ : RGBAfColor))
    16 16 (fun _ => rfl)
  have h := apply_rebuild_round_trip 16 16 3 (plainManager 4) (fun _ => ⟨7, 7, 7⟩)
    (fun _ => 7) constantView constantMask constantWeights squareOutput (by decide)
    (by norm_num) (by norm_num) (fun _ => rfl) rfl (by decide) rfl rfl rfl rfl
    (fun _ _ _ _ => Nat.one_ne_zero) (fun _ _ _ _ => rfl)
    (fun _ _ _ _ => by
      simp only [constantView]
      norm_num)
    hgrid.2.2.2.1 hgrid.2.1 hgrid.2.2.1
  exact ⟨h.1, h.2.2 6 6 _ (by decide) (by decide) (by decide),
    h.2.2 6 9 _ (by decide) (by decide) (by decide),
    h.2.2 9 6 _ (by decide) (by decide) (by decide),
    h.2.2 9 9 _ (by decide) (by decide) (by decide),
    h.2.1 0 15 _ (by decide) (by decide)⟩

/-! ## The grid and the sizes of `createImage` -/

theorem createRow_some {α : Type} (fresh : Nat → α) (width i countWidth : Nat)
    (tile_height : Int) :
    ∀ (n j : Nat) (mgr : TileCacheManager) (row row1 : List (CachedTile α))
      (mgr1 : TileCacheManager),
      CachedImage.createRow fresh width i countWidth tile_height n j mgr row = (some row1, mgr1) →
      row1.length = row.length + n := by
  intro n
  induction n with
  | zero =>
    intro j mgr row row1 mgr1 h
    simp only [CachedImage.createRow, Prod.mk.injEq, Option.some.injEq] at h
    rw [← h.1]
    rfl
  | succ n ih =>
    intro j mgr row row1 mgr1 h
    unfold CachedImage.createRow at h
    simp only at h
    cases hreq : mgr.requireNewCachedTile fresh
        (if j = countWidth - 1 then (width : Int) - (i : Int) * (mgr.tileWidth : Int)
          else (mgr.tileWidth : Int)) tile_height with
    | mk tile mgr2 =>
      rw [hreq] at h
      cases tile with
      | none => simp at h
      | some t =>
        simp only at h
        have := ih _ _ _ _ _ h
        rw [this, List.length_append, List.length_singleton]
        omega

theorem createRows_true {α : Type} (fresh : Nat → α) (width height countHeight countWidth : Nat) :
    ∀ (n i : Nat) (mgr : TileCacheManager) (rows : List (List (CachedTile α))),
      (CachedImage.createRows fresh width height countHeight countWidth n i mgr rows).1 = true →
      ∃ newRows : List (List (CachedTile α)),
        (CachedImage.createRows fresh width height countHeight countWidth n i mgr rows).2.1 =
          rows ++ newRows ∧
        newRows.length = n ∧ ∀ row ∈ newRows, row.length = countWidth := by
  intro n
  induction n with
  | zero =>
    intro i mgr rows _
    exact ⟨[], by simp [CachedImage.createRows], rfl, by simp⟩
  | succ n ih =>
    intro i mgr rows h
    simp only [CachedImage.createRows] at h ⊢
    generalize hrow : CachedImage.createRow fresh width i countWidth
        (if i = countHeight - 1 then (height : Int) - (i : Int) * (mgr.tileHeight : Int)
          else (mgr.tileHeight : Int)) countWidth 0 mgr [] = res at h ⊢
    obtain ⟨row, mgr1⟩ := res
    cases row with
    | none => simp at h
    | some r =>
      simp only at h ⊢
      obtain ⟨newRows, g1, g2, g3⟩ := ih (i + 1) mgr1 (rows ++ [r]) h
      have hlen := createRow_some fresh width i countWidth _ countWidth 0 mgr [] r mgr1 hrow
      refine ⟨r :: newRows, ?_, ?_, ?_⟩
      · rw [g1, List.append_assoc]
        rfl
      · simp [g2]
      · intro row1 hr
        rcases List.mem_cons.mp hr with e | e
        · rw [e, hlen]
          simp
        · exact g3 row1 e

/-- C13, counterexample: on a manager with tiles of 2 by 3 elements, `createImage` for an
image of 2 by 3 pixels sets the memory height to `2`, one row of tiles times the tile
width, and not to `ceil(3 / 3) * 3 = 3`. -/
theorem createImage_memoryHeight_uses_tile_width :
    (CachedImage.createImage tallManager (fun _ => (0 : Nat)) 2 3).2.1.memoryHeight = 2 ∧
    ceilDiv 3 tallManager.tileHeight * tallManager.tileHeight = 3 := by
  decide

/-- C13, amended: for every logical size `W` by `H` and every tile size `TW` by `TH` of the
manager, `createImage` sets the memory width to `ceil(W / TW) * TW` and the memory height to
`ceil(H / TH) * TW`, the number of rows of tiles times the one tile size it keeps, which is
the tile width; this is `ceil(H / TH) * TH` when the tiles are square. When it returns
`true`, the grid has `ceil(H / TH)` rows of `ceil(W / TW)` tiles. -/
theorem createImage_dimensions {α : Type} (mgr : TileCacheManager) (fresh : Nat → α)
    (W H : Nat) :
    (CachedImage.createImage mgr fresh W H).2.1.memoryWidth =
      ceilDiv W mgr.tileWidth * mgr.tileWidth ∧
    (CachedImage.createImage mgr fresh W H).2.1.memoryHeight =
      ceilDiv H mgr.tileHeight * mgr.tileWidth ∧
    (mgr.tileHeight = mgr.tileWidth →
      (CachedImage.createImage mgr fresh W H).2.1.memoryHeight =
        ceilDiv H mgr.tileHeight * mgr.tileHeight) ∧
    ((CachedImage.createImage mgr fresh W H).1 = true →
      (CachedImage.createImage mgr fresh W H).2.1.tilesArray.length = ceilDiv H mgr.tileHeight ∧
      ∀ row ∈ (CachedImage.createImage mgr fresh W H).2.1.tilesArray,
        row.length = ceilDiv W mgr.tileWidth) := by
  refine ⟨rfl, rfl, ?_, ?_⟩
  · intro h
    show ceilDiv H mgr.tileHeight * mgr.tileWidth = _
    rw [h]
  · intro h
    obtain ⟨newRows, g1, g2, g3⟩ := createRows_true fresh W H (ceilDiv H mgr.tileHeight)
      (ceilDiv W mgr.tileWidth) (ceilDiv H mgr.tileHeight) 0 mgr [] h
    simp only [CachedImage.createImage, g1, List.nil_append]
    exact ⟨g2, g3⟩

theorem createImage_dimensions_witness :
    (CachedImage.createImage tallManager (fun _ => (0 : Nat)) 5 7).1 = true ∧
    (CachedImage.createImage tallManager (fun _ => (0 : Nat)) 5 7).2.1.memoryWidth = 6 ∧
    (CachedImage.createImage tallManager (fun _ => (0 : Nat)) 5 7).2.1.memoryHeight = 6 ∧
    (CachedImage.createImage tallManager (fun _ => (0 : Nat)) 5 7).2.1.tilesArray.length = 3 :=
  ⟨by decide,
    (createImage_dimensions tallManager (fun _ => (0 : Nat)) 5 7).1,
    (createImage_dimensions tallManager (fun _ => (0 : Nat)) 5 7).2.1,
    ((createImage_dimensions tallManager (fun _ => (0 : Nat)) 5 7).2.2.2 (by decide)).1⟩

/-- C14: on a manager with tiles of 2 by 2 elements that never fails, `createImage` for an
image of 5 by 5 pixels requires the tile of row `0` and of the last column `2` with the
width `5 - 0 * 2 = 5`, and that of row `1` with the width `5 - 1 * 2 = 3`: the row index is
used where the claim has the column index, which gives `5 - 2 * 2 = 1`. The height of the
tiles of the last row is `5 - 2 * 2 = 1`, as claimed. -/
theorem createImage_last_column_width :
    ((CachedImage.createImage (plainManager 2) (fun _ => (0 : Nat)) 5 5).2.1.tile? 0 2).map
      (fun t => (t.requiredWidth, t.requiredHeight)) = some (5, 2) ∧
    ((CachedImage.createImage (plainManager 2) (fun _ => (0 : Nat)) 5 5).2.1.tile? 1 2).map
      (fun t => (t.requiredWidth, t.requiredHeight)) = some (3, 2) ∧
    ((CachedImage.createImage (plainManager 2) (fun _ => (0 : Nat)) 5 5).2.1.tile? 2 0).map
      (fun t => (t.requiredWidth, t.requiredHeight)) = some (2, 1) ∧
    (5 : Int) - 2 * 2 = 1 := by
  decide

/-- C15: on an image whose only tile cannot be acquired and holds `7`, `fill(0)` returns
`true`, and the element of the tile still holds `7`. -/
theorem fill_true_on_locked_tile :
    (lockedImage.tile? 0 0).map (fun t => t.acquirable) = some false ∧
    (lockedImage.fill 0).1 = true ∧
    ((lockedImage.fill 0).2.tile? 0 0).map (fun t => t.data 0) = some 7 := by
  decide

/-- C16: on a pyramid of one level whose tiles cannot be acquired, the one call of `merge`
that `apply` makes for a view of one pixel returns `false`, and `apply` returns `true`. -/
theorem apply_true_when_merge_fails :
    (lockedPyramid.merge pixelView pixelWeights 0 0 0).1 = false ∧
    (lockedPyramid.mergeAll
      (applyAllCalls 1 (applyStart pixelView pixelMask pixelWeights 0 0))).1 = false ∧
    (lockedPyramid.apply pixelView pixelMask pixelWeights 0 0).1 = true := by
  decide

/-! ## The iterations of `apply`, level by level -/

theorem applyIterate_dims (s : ApplyState) :
    ∀ k, (applyIterate k s).width = s.width / 2 ^ k ∧
      (applyIterate k s).height = s.height / 2 ^ k ∧
      (applyIterate k s).offset_x = s.offset_x / 2 ^ k ∧
      (applyIterate k s).offset_y = s.offset_y / 2 ^ k := by
  intro k
  induction k with
  | zero => simp [applyIterate]
  | succ k ih =>
    obtain ⟨h1, h2, h3, h4⟩ := ih
    rw [applyIterate_succ]
    have e1 : (applyIteration (applyIterate k s)).next.width = (applyIterate k s).width / 2 := rfl
    have e2 : (applyIteration (applyIterate k s)).next.height = (applyIterate k s).height / 2 :=
      rfl
    have e3 : (applyIteration (applyIterate k s)).next.offset_x =
      (applyIterate k s).offset_x / 2 := rfl
    have e4 : (applyIteration (applyIterate k s)).next.offset_y =
      (applyIterate k s).offset_y / 2 := rfl
    rw [e1, e2, e3, e4, h1, h2, h3, h4, pow_succ]
    simp only [Nat.div_div_eq_div_mul]
    exact ⟨trivial, trivial, trivial, trivial⟩

theorem applyIteration_binary (s : ApplyState) (hs : s.binary) :
    (applyIteration s).next.binary := by
  obtain ⟨h1, h2, _, _, _⟩ := hs
  refine ⟨rfl, rfl, rfl, rfl, ?_⟩
  intro i j hi hj
  have hi1 : i < s.height / 2 := hi
  have hj1 : j < s.width / 2 := hj
  rw [applyIteration_next_mask]
  simp only [downscale, normalizeMask]
  rw [if_pos ⟨by omega, by omega⟩]
  split
  · exact Or.inr rfl
  · exact Or.inl rfl

theorem applyStart_binary (source : Image RGBfColor) (mask : Image Nat) (weights : Image ℚ)
    (ox oy : Nat) : (applyStart source mask weights ox oy).binary := by
  refine ⟨rfl, rfl, rfl, rfl, ?_⟩
  intro i j hi hj
  have hi1 : i < source.height := hi
  have hj1 : j < source.width := hj
  simp only [applyStart, maskToFloat]
  rw [if_pos ⟨hi1, hj1⟩]
  split
  · exact Or.inr rfl
  · exact Or.inl rfl

theorem applyIterate_binary (s : ApplyState) (hs : s.binary) :
    ∀ k, (applyIterate k s).binary := by
  intro k
  induction k with
  | zero => exact hs
  | succ k ih =>
    rw [applyIterate_succ]
    exact applyIteration_binary _ ih

theorem abs_gt_eps_of_binary (m : ℚ) (h : m = 0 ∨ m = 1) : |m| > eps ↔ m ≠ 0 := by
  rcases h with h | h
  · subst h
    simp only [abs_zero, ne_eq, not_true_eq_false, iff_false, gt_iff_lt, not_lt]
    exact le_of_lt eps_pos
  · subst h
    simp only [ne_eq, one_ne_zero, not_false_eq_true, iff_true]
    exact one_gt_eps

theorem applyBlurredMask_nonneg (s : ApplyState) (hs : s.binary) (i j : Nat)
    (hi : i < s.height) (hj : j < s.width) : 0 ≤ (applyBlurredMask s).data i j := by
  obtain ⟨_, _, h3, h4, h5⟩ := hs
  simp only [applyBlurredMask, convolveGaussian5x5, if_true]
  apply kernelTap_nonneg
  intro r
  apply kernelTap_nonneg
  intro c
  have hr : clampIndex s.current_mask.height r < s.height := by
    rw [h4]
    exact clampIndex_lt _ _ (by omega)
  have hc : wrapIndex s.current_mask.width c < s.width := by
    rw [h3]
    exact wrapIndex_lt _ _ (by omega)
  rcases h5 _ _ hr hc with h | h <;> rw [h]
  exact zero_le_one

theorem weighted_zero (c : RGBfColor) : weighted c 0 = ⟨0, 0, 0⟩ := by
  simp [weighted]

/-- C17: on a pyramid of `L >= 1` levels, `apply` is the sequence of the `L` calls of
`merge` of the list `(List.range L).map (applyCall L s0)`, where `s0` holds the view, and
returns `true`. The call of index `l` is on level `l`, with a patch of
`floor(w / 2^l)` by `floor(h / 2^l)` pixels at the offset
`(floor(off_x / 2^l), floor(off_y / 2^l))`. For a level `l < L - 1` the patch is the
colours of the level minus their expanded next level; for the last level it is the colours
of the level themselves, nothing subtracted: the view when `L = 1`, and otherwise the
blurred and normalised colours of level `L - 2`, downscaled. -/
theorem apply_merges_per_level (p : LaplacianPyramid) (source : Image RGBfColor)
    (mask : Image Nat) (weights : Image ℚ) (ox oy L : Nat) (s0 : ApplyState)
    (hlen : p.levels.length = L) (hL : 1 ≤ L)
    (hs0 : s0 = applyStart source mask weights ox oy) :
    p.apply source mask weights ox oy =
      (true, (p.mergeAll ((List.range L).map (applyCall L s0))).2) ∧
    ((List.range L).map (applyCall L s0)).length = L ∧
    (∀ l, l < L →
      ((List.range L).map (applyCall L s0))[l]? = some (applyCall L s0 l) ∧
      (applyCall L s0 l).level = l ∧
      (applyCall L s0 l).oimg.width = source.width / 2 ^ l ∧
      (applyCall L s0 l).oimg.height = source.height / 2 ^ l ∧
      (applyCall L s0 l).offset_x = ox / 2 ^ l ∧
      (applyCall L s0 l).offset_y = oy / 2 ^ l) ∧
    (∀ l, l + 1 < L →
      (applyCall L s0 l).oimg =
        substract (applyIterate l s0).current_color (applyIterate l s0).current_color
          (applyExpanded (applyIterate l s0))) ∧
    (applyCall L s0 (L - 1)).oimg = (applyIterate (L - 1) s0).current_color ∧
    (L = 1 → (applyCall L s0 (L - 1)).oimg = source) ∧
    (∀ l, l + 2 = L →
      (applyCall L s0 (L - 1)).oimg =
        downscale (Image.alloc (source.width / 2 ^ (l + 1)) (source.height / 2 ^ (l + 1)))
          (applyBlurred (applyIterate l s0))) := by
  subst hs0
  have hdims := applyIterate_dims (applyStart source mask weights ox oy)
  have hbin := applyIterate_binary _ (applyStart_binary source mask weights ox oy)
  have hlast : (applyCall L (applyStart source mask weights ox oy) (L - 1)).oimg =
      (applyIterate (L - 1) (applyStart source mask weights ox oy)).current_color := by
    unfold applyCall
    rw [if_neg (by omega)]
  refine ⟨?_, ?_, ?_, ?_, hlast, ?_, ?_⟩
  · rw [apply_eq, hlen, applyAllCalls_eq_map L _ hL]
  · rw [List.length_map, List.length_range]
  · intro l hl
    obtain ⟨d1, d2, d3, d4⟩ := hdims l
    obtain ⟨b1, b2, _, _, _⟩ := hbin l
    refine ⟨?_, applyCall_level _ _ _, ?_, ?_, ?_, ?_⟩
    · rw [List.getElem?_map, List.getElem?_range hl]
      rfl
    · unfold applyCall
      split
      · show (applyIterate l (applyStart source mask weights ox oy)).current_color.width = _
        rw [b1, d1]
        rfl
      · show (applyIterate l (applyStart source mask weights ox oy)).current_color.width = _
        rw [b1, d1]
        rfl
    · unfold applyCall
      split
      · show (applyIterate l (applyStart source mask weights ox oy)).current_color.height = _
        rw [b2, d2]
        rfl
      · show (applyIterate l (applyStart source mask weights ox oy)).current_color.height = _
        rw [b2, d2]
        rfl
    · unfold applyCall
      split
      · exact d3
      · exact d3
    · unfold applyCall
      split
      · exact d4
      · exact d4
  · intro l hl
    unfold applyCall
    rw [if_pos hl]
    rfl
  · intro h1
    rw [hlast, h1]
    rfl
  · intro l hl
    have e : L - 1 = l + 1 := by omega
    obtain ⟨d1, d2, _, _⟩ := hdims l
    rw [hlast, e, applyIterate_succ, applyIteration_next_color, d1, d2, pow_succ]
    simp only [Nat.div_div_eq_div_mul]
    rfl

/-- C17 (witness): a view of 2 by 2 pixels at the offset `(3, 0)` of a pyramid of two levels. -/
theorem apply_merges_per_level_witness :
    wrapPyramid.apply smallView smallMask smallWeights 3 0 =
      (true, (wrapPyramid.mergeAll ((List.range 2).map
        (applyCall 2 (applyStart smallView smallMask smallWeights 3 0)))).2) ∧
    (applyCall 2 (applyStart smallView smallMask smallWeights 3 0) 1).level = 1 ∧
    (applyCall 2 (applyStart smallView smallMask smallWeights 3 0) 1).oimg.width = 1 ∧
    (applyCall 2 (applyStart smallView smallMask smallWeights 3 0) 1).oimg.height = 1 ∧
    (applyCall 2 (applyStart smallView smallMask smallWeights 3 0) 1).offset_x = 1 ∧
    (applyCall 2 (applyStart smallView smallMask smallWeights 3 0) 1).offset_y = 0 := by
  have hlen : wrapPyramid.levels.length = 2 := by decide
  have h := apply_merges_per_level wrapPyramid smallView smallMask smallWeights 3 0 2 _ hlen
    (by decide) rfl
  exact ⟨h.1, (h.2.2.1 1 (by decide)).2⟩

/-- C18: on a pyramid of `L >= 2` levels and for every level `l < L - 1`, the call of
`merge` of index `l` that `apply` makes has, at every pixel of the level, the weight `0`
where the mask of the level is `0`, so that the colour times the weight that `merge` adds
is `(0, 0, 0)` too, and the weight of the level unchanged where the mask is not `0`; the
colour fed to the blur is `(0, 0, 0)` where the mask is `0` and the colour of the level
where it is not. -/
theorem apply_masks_patch (p : LaplacianPyramid) (source : Image RGBfColor)
    (mask : Image Nat) (weights : Image ℚ) (ox oy L l : Nat) (s : ApplyState) (m : MergeCall)
    (hlen : p.levels.length = L) (hl : l + 1 < L)
    (hs : s = applyIterate l (applyStart source mask weights ox oy))
    (hm : m = applyCall L (applyStart source mask weights ox oy) l)
    (i j : Nat) (hi : i < source.height / 2 ^ l) (hj : j < source.width / 2 ^ l) :
    p.apply source mask weights ox oy =
      (true, (p.mergeAll (applyAllCalls L (applyStart source mask weights ox oy))).2) ∧
    (applyAllCalls L (applyStart source mask weights ox oy))[l]? = some m ∧
    applyBlurredColor s = convolveGaussian5x5 (Image.alloc s.width s.height) (applyMasked s) true ∧
    (s.current_mask.data i j = 0 →
      m.oweight.data i j = 0 ∧
      weighted (m.oimg.data i j) (m.oweight.data i j) = ⟨0, 0, 0⟩ ∧
      (applyMasked s).data i j = ⟨0, 0, 0⟩) ∧
    (s.current_mask.data i j ≠ 0 →
      m.oweight.data i j = s.current_weights.data i j ∧
      (applyMasked s).data i j = s.current_color.data i j) := by
  have hbin := applyIterate_binary _ (applyStart_binary source mask weights ox oy) l
  obtain ⟨d1, d2, _, _⟩ := applyIterate_dims (applyStart source mask weights ox oy) l
  rw [← hs] at hbin d1 d2
  obtain ⟨b1, b2, _, _, b5⟩ := hbin
  have hi1 : i < s.current_color.height := by
    rw [b2, d2]
    exact hi
  have hj1 : j < s.current_color.width := by
    rw [b1, d1]
    exact hj
  have hi2 : i < s.height := b2 ▸ hi1
  have hj2 : j < s.width := b1 ▸ hj1
  have habs := abs_gt_eps_of_binary _ (b5 i j hi2 hj2)
  have hw : m.oweight = applyMaskWeights s.current_weights s.current_color s.current_mask := by
    rw [hm, hs]
    unfold applyCall
    rw [if_pos hl]
    rfl
  have hwd : m.oweight.data i j =
      if |s.current_mask.data i j| > eps then s.current_weights.data i j else 0 := by
    rw [hw]
    simp only [applyMaskWeights]
    rw [if_pos ⟨hi1, hj1⟩]
  have hcd : (applyMasked s).data i j =
      if |s.current_mask.data i j| > eps then s.current_color.data i j else ⟨0, 0, 0⟩ := by
    simp only [applyMasked, applyMaskColor]
    rw [if_pos ⟨hi1, hj1⟩]
  refine ⟨?_, ?_, rfl, ?_, ?_⟩
  · rw [apply_eq, hlen]
  · rw [applyAllCalls_eq_map L _ (by omega), List.getElem?_map,
      List.getElem?_range (by omega), hm]
    rfl
  · intro h0
    have hn : ¬ |s.current_mask.data i j| > eps := fun h => (habs.mp h) h0
    rw [hwd, hcd, if_neg hn, if_neg hn]
    exact ⟨rfl, weighted_zero _, rfl⟩
  · intro h1
    have hp : |s.current_mask.data i j| > eps := habs.mpr h1
    rw [hwd, hcd, if_pos hp, if_pos hp]
    exact ⟨rfl, rfl⟩

/-- C19: in the iteration of index `k` of `apply`, at every pixel of the level: when the
blurred mask is above `1e-6`, the blurred colour is divided channel by channel by the
blurred mask and the mask becomes `1`; otherwise the colour becomes `(0, 0, 0)` and the
mask `0`. The mask of the level is `0` or `1` at every pixel, at every level. -/
theorem apply_normalizes_by_blurred_mask (source : Image RGBfColor) (mask : Image Nat)
    (weights : Image ℚ) (ox oy k : Nat) (s : ApplyState)
    (hs : s = applyIterate k (applyStart source mask weights ox oy))
    (i j : Nat) (hi : i < source.height / 2 ^ k) (hj : j < source.width / 2 ^ k) :
    applyBlurred s = normalizeColor (applyBlurredColor s) (applyBlurredMask s) s.current_color ∧
    (applyIteration s).next.current_color =
      downscale (Image.alloc (s.width / 2) (s.height / 2)) (applyBlurred s) ∧
    (applyIteration s).next.current_mask =
      downscale (Image.alloc (s.width / 2) (s.height / 2)) (applyNormalizedMask s) ∧
    ((applyBlurredMask s).data i j > eps →
      (applyBlurred s).data i j =
        ⟨((applyBlurredColor s).data i j).r / (applyBlurredMask s).data i j,
          ((applyBlurredColor s).data i j).g / (applyBlurredMask s).data i j,
          ((applyBlurredColor s).data i j).b / (applyBlurredMask s).data i j⟩ ∧
      (applyNormalizedMask s).data i j = 1) ∧
    (¬ (applyBlurredMask s).data i j > eps →
      (applyBlurred s).data i j = ⟨0, 0, 0⟩ ∧ (applyNormalizedMask s).data i j = 0) ∧
    (s.current_mask.data i j = 0 ∨ s.current_mask.data i j = 1) ∧
    (∀ a b, a < s.height / 2 → b < s.width / 2 →
      (applyIteration s).next.current_mask.data a b = 0 ∨
      (applyIteration s).next.current_mask.data a b = 1) := by
  have hbin := applyIterate_binary _ (applyStart_binary source mask weights ox oy) k
  obtain ⟨d1, d2, _, _⟩ := applyIterate_dims (applyStart source mask weights ox oy) k
  rw [← hs] at hbin d1 d2
  have hnext := applyIteration_binary s hbin
  obtain ⟨b1, b2, _, _, b5⟩ := hbin
  have hi1 : i < s.current_color.height := by
    rw [b2, d2]
    exact hi
  have hj1 : j < s.current_color.width := by
    rw [b1, d1]
    exact hj
  have hi2 : i < s.height := b2 ▸ hi1
  have hj2 : j < s.width := b1 ▸ hj1
  have hnn := applyBlurredMask_nonneg s ⟨b1, b2, ‹_›, ‹_›, b5⟩ i j hi2 hj2
  have habs : |(applyBlurredMask s).data i j| = (applyBlurredMask s).data i j := abs_of_nonneg hnn
  have hc : (applyBlurred s).data i j =
      if |(applyBlurredMask s).data i j| > eps then
        ⟨((applyBlurredColor s).data i j).r / (applyBlurredMask s).data i j,
          ((applyBlurredColor s).data i j).g / (applyBlurredMask s).data i j,
          ((applyBlurredColor s).data i j).b / (applyBlurredMask s).data i j⟩
      else ⟨0, 0, 0⟩ := by
    show (normalizeColor (applyBlurredColor s) (applyBlurredMask s) s.current_color).data i j = _
    simp only [normalizeColor]
    rw [if_pos ⟨hi1, hj1⟩]
  have hmk : (applyNormalizedMask s).data i j =
      if |(applyBlurredMask s).data i j| > eps then 1 else 0 := by
    simp only [applyNormalizedMask, normalizeMask]
    rw [if_pos ⟨hi1, hj1⟩]
  rw [habs] at hc hmk
  refine ⟨rfl, rfl, rfl, ?_, ?_, b5 i j hi2 hj2, ?_⟩
  · intro h
    rw [hc, hmk, if_pos h, if_pos h]
    exact ⟨rfl, rfl⟩
  · intro h
    rw [hc, hmk, if_neg h, if_neg h]
    exact ⟨rfl, rfl⟩
  · intro a b ha hb
    exact hnext.2.2.2.2 a b ha hb

/-- C18 (witness): a view of 2 by 2 pixels whose mask covers the first column only, on a
pyramid of two levels: at level `0` the weight of pixel `(0, 1)` is merged as `0` and that
of pixel `(0, 0)` unchanged. -/
theorem apply_masks_patch_witness :
    (applyCall 2 (applyStart smallView halfMask smallWeights 3 0) 0).oweight.data 0 1 = 0 ∧
    (applyCall 2 (applyStart smallView halfMask smallWeights 3 0) 0).oweight.data 0 0 =
      smallWeights.data 0 0 :=
  ⟨((apply_masks_patch wrapPyramid smallView halfMask smallWeights 3 0 2 0 _ _ (by decide)
      (by decide) rfl rfl 0 1 (by decide) (by decide)).2.2.2.1 (by decide!)).1,
    ((apply_masks_patch wrapPyramid smallView halfMask smallWeights 3 0 2 0 _ _ (by decide)
      (by decide) rfl rfl 0 0 (by decide) (by decide)).2.2.2.2 (by decide!)).1⟩

/-- C19 (witness): the first iteration on a view of 2 by 2 pixels that is covered
everywhere: the blurred mask of pixel `(0, 0)` is above `1e-6` and the mask becomes `1`. -/
theorem apply_normalizes_by_blurred_mask_witness :
    (applyBlurredMask (applyStart smallView smallMask smallWeights 3 0)).data 0 0 > eps ∧
    (applyNormalizedMask (applyStart smallView smallMask smallWeights 3 0)).data 0 0 = 1 :=
  ⟨by decide!,
    ((apply_normalizes_by_blurred_mask smallView smallMask smallWeights 3 0 0 _ rfl 0 0
      (by decide) (by decide)).2.2.2.1 (by decide!)).2⟩

/-! ## The windows of `rebuild` -/

theorem core_cover (W x kx : Nat) (left width : Int) (hk : kx * 512 < W)
    (hl : left = ((kx * 512 : Nat) : Int)) (hw : width = min 512 ((W : Int) - left)) :
    (left * 2 ≤ (x : Int) ∧ (x : Int) < left * 2 + width * 2) ↔ (x < 2 * W ∧ kx = x / 1024) := by
  subst hl hw
  omega

theorem window_count (W x : Nat) (h : x < 2 * W) : x / 1024 < ceilDiv W processingSize := by
  rw [processingSize_eq]
  unfold ceilDiv
  omega

theorem input_inside (x0 W cw dl dw : Int) (hx : 0 ≤ x0) (hcw : cw = min 512 (W - x0))
    (hdl : dl = max 0 (x0 - 5)) (hdw : dl + dw = x0 + cw + 5) :
    0 ≤ x0 * 2 - dl * 2 ∧ x0 * 2 - dl * 2 + cw * 2 ≤ dw * 2 := by
  omega

theorem input_inside_rows (y0 H ch dt dh : Int) (hy : 0 ≤ y0) (hy1 : y0 < H)
    (hch : ch = min 512 (H - y0)) (hdt : dt = max 0 (y0 - 5))
    (hdh : dt + dh = min H (y0 + ch + 5)) :
    0 ≤ y0 * 2 - dt * 2 ∧ y0 * 2 - dt * 2 + ch * 2 ≤ dh * 2 ∧ 0 ≤ dh := by
  omega

theorem windowBuffer_dims (half : CachedImage RGBfColor) (x y : Nat) :
    (windowBuffer half x y).width = (windowDilated half x y).doubleSize.width.toNat ∧
    (windowBuffer half x y).height = (windowDilated half x y).doubleSize.height.toNat :=
  ⟨rfl, rfl⟩

/-- C20: for a half level of `W'` by `H'` pixels, the windows of `rebuild` start at the
columns `kx * 512 < W'` and rows `ky * 512 < H'`. A pixel `(x, y)` lies in the doubled core
of the window `(kx, ky)` exactly when `x < 2 W'`, `y < 2 H'`, `kx = x / 1024` and
`ky = y / 1024`: the doubled cores are pairwise disjoint and cover exactly these pixels,
and on full grids of tiles such a pixel of the current level receives the blurred buffer
of its one window, once. For every window the box `inputBb` has
`left = 2 * (core.left - dilated.left)`, `top = 2 * (core.top - dilated.top)` and the size
of the doubled core, and lies inside the buffer, whose size is that of the doubled dilated
window. -/
theorem rebuild_windows_partition (half : CachedImage RGBfColor) (x y : Nat) :
    (x < 2 * half.width ∧ y < 2 * half.height →
      x / 1024 < ceilDiv half.width processingSize ∧
      y / 1024 < ceilDiv half.height processingSize) ∧
    (∀ kx ky : Nat, kx < ceilDiv half.width processingSize →
      ky < ceilDiv half.height processingSize →
      ((windowCore half (kx * processingSize) (ky * processingSize)).doubleSize.contains x y ↔
        x < 2 * half.width ∧ y < 2 * half.height ∧ kx = x / 1024 ∧ ky = y / 1024)) ∧
    (∀ kx ky : Nat, kx < ceilDiv half.width processingSize →
      ky < ceilDiv half.height processingSize →
      (windowInputBb half (kx * processingSize) (ky * processingSize)).left =
        2 * ((windowCore half (kx * processingSize) (ky * processingSize)).left -
          (windowDilated half (kx * processingSize) (ky * processingSize)).left) ∧
      (windowInputBb half (kx * processingSize) (ky * processingSize)).top =
        2 * ((windowCore half (kx * processingSize) (ky * processingSize)).top -
          (windowDilated half (kx * processingSize) (ky * processingSize)).top) ∧
      (windowInputBb half (kx * processingSize) (ky * processingSize)).width =
        (windowCore half (kx * processingSize) (ky * processingSize)).doubleSize.width ∧
      (windowInputBb half (kx * processingSize) (ky * processingSize)).height =
        (windowCore half (kx * processingSize) (ky * processingSize)).doubleSize.height ∧
      ((windowBuffer half (kx * processingSize) (ky * processingSize)).width : Int) =
        (windowDilated half (kx * processingSize) (ky * processingSize)).doubleSize.width ∧
      ((windowBuffer half (kx * processingSize) (ky * processingSize)).height : Int) =
        (windowDilated half (kx * processingSize) (ky * processingSize)).doubleSize.height ∧
      0 ≤ (windowInputBb half (kx * processingSize) (ky * processingSize)).left ∧
      0 ≤ (windowInputBb half (kx * processingSize) (ky * processingSize)).top ∧
      (windowInputBb half (kx * processingSize) (ky * processingSize)).left +
          (windowInputBb half (kx * processingSize) (ky * processingSize)).width ≤
        ((windowBuffer half (kx * processingSize) (ky * processingSize)).width : Int) ∧
      (windowInputBb half (kx * processingSize) (ky * processingSize)).top +
          (windowInputBb half (kx * processingSize) (ky * processingSize)).height ≤
        ((windowBuffer half (kx * processingSize) (ky * processingSize)).height : Int)) ∧
    (∀ (current : CachedImage RGBfColor) (ts : Nat) (d : RGBfColor), 0 < ts →
      half.fullGrid ts ts → current.fullGrid ts ts →
      2 * half.width ≤ current.width → 2 * half.height ≤ current.height →
      y < current.height → x < current.width →
      rebuildWindowRows half (List.range (ceilDiv half.height processingSize)) current =
        some (windowedAll half current) ∧
      (windowedAll half current).getPixel y x d =
        current.getPixel y x d +
          (if x < 2 * half.width ∧ y < 2 * half.height then
            windowDelta half (x / 1024 * 512) (y / 1024 * 512) (y - 2 * (y / 1024 * 512))
              (x - 2 * (x / 1024 * 512))
          else 0)) := by
  refine ⟨?_, ?_, ?_, ?_⟩
  · intro h
    exact ⟨window_count _ _ h.1, window_count _ _ h.2⟩
  · intro kx ky hkx hky
    have hx0 := window_start_lt _ _ hkx
    have hy0 := window_start_lt _ _ hky
    obtain ⟨c1, c2, c3, c4⟩ :=
      windowCore_fields half (kx * processingSize) (ky * processingSize)
    rw [processingSize_eq] at hx0 hy0 c1 c2 c3 c4 ⊢
    have hX := core_cover half.width x kx _ _ hx0 c1 (c1 ▸ c3)
    have hY := core_cover half.height y ky _ _ hy0 c2 (c2 ▸ c4)
    unfold BoundingBox.contains
    simp only [BoundingBox.doubleSize]
    constructor
    · intro h
      have h1 := hX.mp ⟨h.1, h.2.1⟩
      have h2 := hY.mp ⟨h.2.2.1, h.2.2.2⟩
      exact ⟨h1.1, h2.1, h1.2, h2.2⟩
    · intro h
      have h1 := hX.mpr ⟨h.1, h.2.2.1⟩
      have h2 := hY.mpr ⟨h.2.1, h.2.2.2⟩
      exact ⟨h1.1, h1.2, h2.1, h2.2⟩
  · intro kx ky hkx hky
    have hx0 := window_start_lt _ _ hkx
    have hy0 := window_start_lt _ _ hky
    obtain ⟨c1, c2, c3, c4⟩ :=
      windowCore_fields half (kx * processingSize) (ky * processingSize)
    obtain ⟨d1, d2, d3, d4⟩ :=
      windowDilated_fields half (kx * processingSize) (ky * processingSize)
    obtain ⟨b1, b2⟩ := windowBuffer_dims half (kx * processingSize) (ky * processingSize)
    have hX := input_inside _ half.width _ _ _ (by omega) c3 d1 (by rw [c1] at *; exact d3)
    have hY := input_inside_rows _ half.height _ _ _ (by omega) (by exact_mod_cast hy0) c4 d2
      (by rw [c2] at *; exact d4)
    have hdw : 0 ≤ (windowDilated half (kx * processingSize) (ky * processingSize)).width := by
      omega
    rw [b1, b2]
    simp only [windowInputBb, BoundingBox.doubleSize]
    rw [Int.toNat_of_nonneg (by omega), Int.toNat_of_nonneg (by omega), c1, c2]
    refine ⟨by ring, by ring, trivial, trivial, rfl, rfl, hX.1, hY.1, hX.2, hY.2.1⟩
  · intro current ts d hts hhalf hcur hw hh hy hx
    exact ⟨rebuildWindows_normal half current ts hts hhalf hcur hw hh,
      windowedAll_getPixel half current ts y x d hts hcur hw hy hx⟩

/-- C20 (witness): on a half level of 600 by 3 pixels, pixel `(1100, 2)` of the current
level lies in the doubled core of the second window of the first row of windows. -/
theorem rebuild_windows_partition_witness :
    (windowCore wideLevel (1 * processingSize) (0 * processingSize)).doubleSize.contains
      1100 2 :=
  ((rebuild_windows_partition wideLevel 1100 2).2.1 1 0
    (by rw [processingSize_eq]; decide) (by rw [processingSize_eq]; decide)).mpr
    ⟨by decide, by decide, by decide, by decide⟩

/-! ## The compositer -/

theorem toInt32_of_range (n : Int) (h1 : -2147483648 ≤ n) (h2 : n < 2147483648) :
    toInt32 n = n := by
  unfold toInt32
  omega

/-- The body of the inner loops of `append`, when the sum `_panoramaWidth + rx` fits an
`int`. -/
theorem appendPixel_eq (c : Compositer) (color : Image RGBfColor) (inputMask : Image Nat)
    (top left : Int) (y x : Nat) (old : RGBAfColor)
    (h1 : -2147483648 ≤ (c.panoramaWidth : Int) + (left + (x : Int)))
    (h2 : (c.panoramaWidth : Int) + (left + (x : Int)) < 2147483648) :
    c.appendPixel color inputMask top left y x old =
      if 0 ≤ top + (y : Int) ∧ top + (y : Int) < (color.height : Int) then
        if 0 ≤ left + (x : Int) ∧ left + (x : Int) < (color.width : Int) then
          appendValue color inputMask (top + (y : Int)).toNat (left + (x : Int)).toNat old
        else if 0 ≤ (c.panoramaWidth : Int) + (left + (x : Int)) ∧
            (c.panoramaWidth : Int) + (left + (x : Int)) < (color.width : Int) then
          appendValue color inputMask (top + (y : Int)).toNat
            ((c.panoramaWidth : Int) + (left + (x : Int))).toNat old
        else old
      else old := by
  unfold Compositer.appendPixel appendValue
  simp only [toInt32_of_range _ h1 h2]
  by_cases hr : 0 ≤ top + (y : Int) ∧ top + (y : Int) < (color.height : Int)
  · have hr1 : ¬ (top + (y : Int) < 0 ∨ top + (y : Int) ≥ (color.height : Int)) := by omega
    rw [if_pos hr, if_neg hr1]
    by_cases hc : 0 ≤ left + (x : Int) ∧ left + (x : Int) < (color.width : Int)
    · have hc1 : ¬ (left + (x : Int) < 0 ∨ left + (x : Int) ≥ (color.width : Int)) := by omega
      simp only [if_pos hc, if_neg hc1]
      rw [if_neg (fun h => hc1 h.1)]
    · have hc1 : left + (x : Int) < 0 ∨ left + (x : Int) ≥ (color.width : Int) := by omega
      simp only [if_neg hc, if_pos hc1]
      by_cases hw : 0 ≤ (c.panoramaWidth : Int) + (left + (x : Int)) ∧
          (c.panoramaWidth : Int) + (left + (x : Int)) < (color.width : Int)
      · have hw1 : ¬ ((c.panoramaWidth : Int) + (left + (x : Int)) < 0 ∨
            (c.panoramaWidth : Int) + (left + (x : Int)) ≥ (color.width : Int)) := by omega
        rw [if_pos hw, if_neg (fun h => hw1 h.2)]
      · have hw1 : (c.panoramaWidth : Int) + (left + (x : Int)) < 0 ∨
            (c.panoramaWidth : Int) + (left + (x : Int)) ≥ (color.width : Int) := by omega
        rw [if_neg hw, if_pos ⟨hc1, hw1⟩]
  · have hr1 : top + (y : Int) < 0 ∨ top + (y : Int) ≥ (color.height : Int) := by omega
    rw [if_neg hr, if_pos hr1]

/-- The body of the loops over the tiles of `append`, on a tile that can be acquired. -/
theorem appendTile_data (c : Compositer) (color : Image RGBfColor) (inputMask : Image Nat)
    (ox oy i j : Nat) (t : CachedTile RGBAfColor) (k : Nat) (ha : t.acquirable = true) :
    (c.appendTile color inputMask ox oy i j t).data k =
      if toInt32 ((i : Int) * (c.tileManager.tileHeight : Int) - (oy : Int)) ≥
            (color.height : Int) ∨
          toInt32 (((i : Int) + 1) * (c.tileManager.tileHeight : Int) - (oy : Int)) < 0 ∨
          toInt32 ((j : Int) * (c.tileManager.tileWidth : Int) - (ox : Int)) ≥
            (color.width : Int) ∨
          (toInt32 (((j : Int) + 1) * (c.tileManager.tileWidth : Int) - (ox : Int)) < 0 ∧
            (toInt32 ((j : Int) * (c.tileManager.tileWidth : Int) - (ox : Int)) +
              (c.panoramaWidth : Int)) % 18446744073709551616 ≥ (color.width : Int)) then
        t.data k
      else if k < c.tileManager.tileWidth * c.tileManager.tileHeight then
        c.appendPixel color inputMask
          (toInt32 ((i : Int) * (c.tileManager.tileHeight : Int) - (oy : Int)))
          (toInt32 ((j : Int) * (c.tileManager.tileWidth : Int) - (ox : Int)))
          (k / c.tileManager.tileWidth) (k % c.tileManager.tileWidth) (t.data k)
      else t.data k := by
  unfold Compositer.appendTile
  simp only [ha, Bool.true_eq_false, if_false]
  by_cases h1 : toInt32 ((i : Int) * (c.tileManager.tileHeight : Int) - (oy : Int)) ≥
      (color.height : Int)
  · rw [if_pos h1, if_pos (Or.inl h1)]
  · rw [if_neg h1]
    by_cases h2 : toInt32 (((i : Int) + 1) * (c.tileManager.tileHeight : Int) - (oy : Int)) < 0
    · rw [if_pos h2, if_pos (Or.inr (Or.inl h2))]
    · rw [if_neg h2]
      by_cases h3 : toInt32 ((j : Int) * (c.tileManager.tileWidth : Int) - (ox : Int)) ≥
          (color.width : Int)
      · rw [if_pos h3, if_pos (Or.inr (Or.inr (Or.inl h3)))]
      · rw [if_neg h3]
        by_cases h4 : toInt32 (((j : Int) + 1) * (c.tileManager.tileWidth : Int) - (ox : Int)) < 0
            ∧ (toInt32 ((j : Int) * (c.tileManager.tileWidth : Int) - (ox : Int)) +
              (c.panoramaWidth : Int)) % 18446744073709551616 ≥ (color.width : Int)
        · rw [if_pos h4, if_pos (Or.inr (Or.inr (Or.inr h4)))]
        · rw [if_neg h4, if_neg (by tauto)]

/-- Arithmetic of `append` for a pixel `(y, x)` of the panorama: `T` and `X` are the first
row and column of the tile of the pixel, and the conversions to `int` change nothing. -/
theorem append_arith (T X yy xx ts y x o oy W H : Int)
    (hT : T + yy = y) (hX : X + xx = x) (hyy0 : 0 ≤ yy) (hyy : yy < ts) (hxx0 : 0 ≤ xx)
    (hxx : xx < ts) (hT0 : 0 ≤ T) (hX0 : 0 ≤ X) (hy : y < H) (hx : x < W)
    (ho0 : 0 ≤ o) (ho : o < 2147483648) (hoy0 : 0 ≤ oy) (hoy : oy < 2147483648)
    (hWb : 2 * W + ts ≤ 2147483648) (hHb : H + ts ≤ 2147483648) :
    (-2147483648 ≤ T - oy ∧ T - oy < 2147483648) ∧
    (-2147483648 ≤ T + ts - oy ∧ T + ts - oy < 2147483648) ∧
    (-2147483648 ≤ X - o ∧ X - o < 2147483648) ∧
    (-2147483648 ≤ X + ts - o ∧ X + ts - o < 2147483648) ∧
    (-2147483648 ≤ W + (X - o + xx) ∧ W + (X - o + xx) < 2147483648) := by
  refine ⟨?_, ?_, ?_, ?_, ?_⟩ <;> constructor <;> omega

/-- A pixel of the panorama after `append`, on a full grid of square tiles of side `ts`
and with sizes and offsets that fit an `int`: the tile of the pixel is skipped or the pixel
goes through the body of the inner loops. `T` and `X` are the first row and column of the
tile. -/
theorem append_getPixel (c : Compositer) (color : Image RGBfColor) (inputMask : Image Nat)
    (inputWeights : Image ℚ) (o oy ts y x : Nat) (d : RGBAfColor) (T X : Int) (hts : 0 < ts)
    (hg : c.panorama.fullGrid ts ts) (htw : c.tileManager.tileWidth = ts)
    (hth : c.tileManager.tileHeight = ts) (hy : y < c.panorama.height)
    (hx : x < c.panorama.width) (hW : c.panorama.width = c.panoramaWidth)
    (ho : o < 2147483648) (hoy : oy < 2147483648)
    (hWb : 2 * c.panoramaWidth + ts ≤ 2147483648)
    (hHb : c.panorama.height + ts ≤ 2147483648)
    (hT : T = ((y / ts : Nat) : Int) * (ts : Int))
    (hX : X = ((x / ts : Nat) : Int) * (ts : Int)) :
    (c.append color inputMask inputWeights o oy).2.panorama.getPixel y x d =
      if T - (oy : Int) ≥ (color.height : Int) ∨ T + (ts : Int) - (oy : Int) < 0 ∨
          X - (o : Int) ≥ (color.width : Int) ∨
          (X + (ts : Int) - (o : Int) < 0 ∧
            (X - (o : Int) + (c.panoramaWidth : Int)) % 18446744073709551616 ≥
              (color.width : Int)) then
        c.panorama.getPixel y x d
      else if 0 ≤ (y : Int) - (oy : Int) ∧ (y : Int) - (oy : Int) < (color.height : Int) then
        if 0 ≤ (x : Int) - (o : Int) ∧ (x : Int) - (o : Int) < (color.width : Int) then
          appendValue color inputMask ((y : Int) - (oy : Int)).toNat
            ((x : Int) - (o : Int)).toNat (c.panorama.getPixel y x d)
        else if 0 ≤ (c.panoramaWidth : Int) + ((x : Int) - (o : Int)) ∧
            (c.panoramaWidth : Int) + ((x : Int) - (o : Int)) < (color.width : Int) then
          appendValue color inputMask ((y : Int) - (oy : Int)).toNat
            ((c.panoramaWidth : Int) + ((x : Int) - (o : Int))).toNat
            (c.panorama.getPixel y x d)
        else c.panorama.getPixel y x d
      else c.panorama.getPixel y x d := by
  obtain ⟨t, ht, t1, t2, t3⟩ := tile_of_pixel c.panorama ts y x hts hg hy hx
  have hsize : c.panorama.tileSize = ts := hg.1
  obtain ⟨e1, e2, e3⟩ := pixel_elem ts y x hts
  have hym := Nat.div_add_mod' y ts
  have hxm := Nat.div_add_mod' x ts
  have hyl : y % ts < ts := Nat.mod_lt _ hts
  have hxl : x % ts < ts := Nat.mod_lt _ hts
  have k1 : (y % ts * ts + x % ts) / ts = y % ts := by omega
  have k2 : (y % ts * ts + x % ts) % ts = x % ts := by omega
  have hTy : T + ((y % ts : Nat) : Int) = (y : Int) := by
    rw [hT]
    exact_mod_cast hym
  have hXx : X + ((x % ts : Nat) : Int) = (x : Int) := by
    rw [hX]
    exact_mod_cast hxm
  have hT0 : 0 ≤ T := by
    rw [hT]
    positivity
  have hX0 : 0 ≤ X := by
    rw [hX]
    positivity
  obtain ⟨a1, a2, a3, a4, a5⟩ := append_arith T X ((y % ts : Nat) : Int) ((x % ts : Nat) : Int)
    (ts : Int) (y : Int) (x : Int) (o : Int) (oy : Int) (c.panoramaWidth : Int)
    (c.panorama.height : Int) hTy hXx (by omega) (by omega) (by omega) (by omega) hT0 hX0
    (by omega) (by omega) (by omega) (by omega) (by omega) (by omega) (by omega) (by omega)
  have b1 : ((y / ts : Nat) : Int) * (ts : Int) - (oy : Int) = T - (oy : Int) := by rw [hT]
  have b2 : (((y / ts : Nat) : Int) + 1) * (ts : Int) - (oy : Int) = T + (ts : Int) - (oy : Int) := by
    rw [hT]
    ring
  have b3 : ((x / ts : Nat) : Int) * (ts : Int) - (o : Int) = X - (o : Int) := by rw [hX]
  have b4 : (((x / ts : Nat) : Int) + 1) * (ts : Int) - (o : Int) = X + (ts : Int) - (o : Int) := by
    rw [hX]
    ring
  have hrow : T - (oy : Int) + ((y % ts : Nat) : Int) = (y : Int) - (oy : Int) := by omega
  have hcol : X - (o : Int) + ((x % ts : Nat) : Int) = (x : Int) - (o : Int) := by omega
  unfold Compositer.append
  simp only
  rw [CachedImage.getPixel_mapTiles, hsize, ht, getPixel_of_tile c.panorama ts y x t d hsize ht]
  simp only
  rw [appendTile_data c color inputMask o oy _ _ t _ t3, htw, hth, b1, b2, b3, b4,
    toInt32_of_range _ a1.1 a1.2, toInt32_of_range _ a2.1 a2.2, toInt32_of_range _ a3.1 a3.2,
    toInt32_of_range _ a4.1 a4.2, if_pos e1, k1, k2,
    appendPixel_eq c color inputMask _ _ _ _ _ a5.1 a5.2, hrow, hcol]

theorem tile_origin (ts y : Nat) (hts : 0 < ts) :
    0 ≤ ((y / ts : Nat) : Int) * (ts : Int) ∧
    ((y / ts : Nat) : Int) * (ts : Int) ≤ (y : Int) ∧
    (y : Int) < ((y / ts : Nat) : Int) * (ts : Int) + (ts : Int) := by
  have h1 := Nat.div_add_mod' y ts
  have h2 : y % ts < ts := Nat.mod_lt _ hts
  have h3 : ((y / ts : Nat) : Int) * (ts : Int) + ((y % ts : Nat) : Int) = (y : Int) := by
    exact_mod_cast h1
  refine ⟨by positivity, by omega, by omega⟩

/-- A pixel of the panorama after `append` of a view no wider than the panorama at an
offset `ox < W`: the pixel of the view that lands on it, directly or through the wrap, is
written where its mask is not zero. -/
theorem append_pixel_normal (c : Compositer) (color : Image RGBfColor) (inputMask : Image Nat)
    (inputWeights : Image ℚ) (ox oy ts y x : Nat) (d : RGBAfColor) (hts : 0 < ts)
    (hg : c.panorama.fullGrid ts ts) (htw : c.tileManager.tileWidth = ts)
    (hth : c.tileManager.tileHeight = ts) (hy : y < c.panorama.height)
    (hx : x < c.panorama.width) (hW : c.panorama.width = c.panoramaWidth)
    (hox : ox < c.panoramaWidth) (hoy : oy < 2147483648)
    (hw : color.width ≤ c.panoramaWidth)
    (hWb : 2 * c.panoramaWidth + ts ≤ 2147483648)
    (hHb : c.panorama.height + ts ≤ 2147483648) :
    (c.append color inputMask inputWeights ox oy).2.panorama.getPixel y x d =
      if oy ≤ y ∧ y < oy + color.height then
        if ox ≤ x ∧ x < ox + color.width then
          appendValue color inputMask (y - oy) (x - ox) (c.panorama.getPixel y x d)
        else if x + c.panoramaWidth < ox + color.width then
          appendValue color inputMask (y - oy) (x + c.panoramaWidth - ox)
            (c.panorama.getPixel y x d)
        else c.panorama.getPixel y x d
      else c.panorama.getPixel y x d := by
  rw [append_getPixel c color inputMask inputWeights ox oy ts y x d _ _ hts hg htw hth hy hx hW
    (by omega) hoy hWb hHb rfl rfl]
  obtain ⟨p1, p2, p3⟩ := tile_origin ts y hts
  obtain ⟨q1, q2, q3⟩ := tile_origin ts x hts
  have e1 : ((y : Int) - (oy : Int)).toNat = y - oy := by omega
  have e2 : ((x : Int) - (ox : Int)).toNat = x - ox := by omega
  have e3 : ((c.panoramaWidth : Int) + ((x : Int) - (ox : Int))).toNat =
      x + c.panoramaWidth - ox := by omega
  rw [e1, e2, e3]
  generalize ((y / ts : Nat) : Int) * (ts : Int) = T at p1 p2 p3 ⊢
  generalize ((x / ts : Nat) : Int) * (ts : Int) = X at q1 q2 q3 ⊢
  generalize c.panorama.getPixel y x d = old
  generalize appendValue color inputMask (y - oy) (x - ox) old = v1
  generalize appendValue color inputMask (y - oy) (x + c.panoramaWidth - ox) old = v2
  rw [hW] at hx
  split_ifs <;> first | rfl | (exfalso; omega)

theorem tile_origin_aligned (ts x ox : Nat) (hts : 0 < ts) (hal : ts ∣ ox) (h : ox ≤ x) :
    (ox : Int) ≤ ((x / ts : Nat) : Int) * (ts : Int) := by
  obtain ⟨q, hq⟩ := hal
  have h1 : q ≤ x / ts := by
    rw [Nat.le_div_iff_mul_le hts, Nat.mul_comm]
    omega
  have h2 : q * ts ≤ x / ts * ts := Nat.mul_le_mul_right ts h1
  have h3 : ox ≤ x / ts * ts := by
    rw [hq, Nat.mul_comm]
    exact h2
  exact_mod_cast h3

/-- A pixel of the panorama after `append` of a view no wider than the panorama at the
offset `ox + W`, for an offset `ox < W` that is a multiple of the side of the tiles: only
the pixel of the view that lands on it without the wrap is written. -/
theorem append_pixel_shifted (c : Compositer) (color : Image RGBfColor) (inputMask : Image Nat)
    (inputWeights : Image ℚ) (ox oy ts y x : Nat) (d : RGBAfColor) (hts : 0 < ts)
    (hg : c.panorama.fullGrid ts ts) (htw : c.tileManager.tileWidth = ts)
    (hth : c.tileManager.tileHeight = ts) (hy : y < c.panorama.height)
    (hx : x < c.panorama.width) (hW : c.panorama.width = c.panoramaWidth)
    (hox : ox < c.panoramaWidth) (hal : ts ∣ ox) (hoy : oy < 2147483648)
    (hw : color.width ≤ c.panoramaWidth)
    (hWb : 2 * c.panoramaWidth + ts ≤ 2147483648)
    (hHb : c.panorama.height + ts ≤ 2147483648) :
    (c.append color inputMask inputWeights (ox + c.panoramaWidth) oy).2.panorama.getPixel y x d =
      if oy ≤ y ∧ y < oy + color.height then
        if ox ≤ x ∧ x < ox + color.width then
          appendValue color inputMask (y - oy) (x - ox) (c.panorama.getPixel y x d)
        else c.panorama.getPixel y x d
      else c.panorama.getPixel y x d := by
  rw [append_getPixel c color inputMask inputWeights (ox + c.panoramaWidth) oy ts y x d _ _ hts
    hg htw hth hy hx hW (by omega) hoy hWb hHb rfl rfl]
  obtain ⟨p1, p2, p3⟩ := tile_origin ts y hts
  obtain ⟨q1, q2, q3⟩ := tile_origin ts x hts
  have q4 := tile_origin_aligned ts x ox hts hal
  have e1 : ((y : Int) - (oy : Int)).toNat = y - oy := by omega
  have e2 : ((c.panoramaWidth : Int) + ((x : Int) - ((ox + c.panoramaWidth : Nat) : Int))).toNat
      = x - ox := by omega
  rw [e1, e2]
  generalize ((y / ts : Nat) : Int) * (ts : Int) = T at p1 p2 p3 ⊢
  generalize ((x / ts : Nat) : Int) * (ts : Int) = X at q1 q2 q3 q4 ⊢
  generalize c.panorama.getPixel y x d = old
  generalize appendValue color inputMask (y - oy) (x - ox) old = v1
  generalize appendValue color inputMask (y - oy)
    ((x : Int) - ((ox + c.panoramaWidth : Nat) : Int)).toNat old = v2
  rw [hW] at hx
  by_cases hc : ox ≤ x
  · have q5 := q4 hc
    split_ifs <;> first | rfl | (exfalso; omega)
  · split_ifs <;> first | rfl | (exfalso; omega)

theorem appendTile_shape (c : Compositer) (color : Image RGBfColor) (inputMask : Image Nat)
    (ox oy i j : Nat) (t : CachedTile RGBAfColor) :
    (c.appendTile color inputMask ox oy i j t).shape = t.shape := by
  unfold Compositer.appendTile
  simp only
  split_ifs <;> rfl

theorem append_shape (c : Compositer) (color : Image RGBfColor) (inputMask : Image Nat)
    (inputWeights : Image ℚ) (ox oy : Nat) :
    (c.append color inputMask inputWeights ox oy).2.panorama.shape = c.panorama.shape :=
  CachedImage.shape_mapTiles _ _ (fun i j t => appendTile_shape c color inputMask ox oy i j t)

/-- The compositer after `initialize` on a manager with square tiles that never fails. -/
theorem compositer_initialize (mgr : TileCacheManager) (fresh : Nat → RGBAfColor)
    (W H ts : Nat) (hmgr : mgr.neverFails) (htw : mgr.tileWidth = ts)
    (hth : mgr.tileHeight = ts) (hts : 0 < ts) :
    ( Compositer.initialize (Compositer.new mgr W H) fresh).1 = true ∧
    ( Compositer.initialize (Compositer.new mgr W H) fresh).2.panoramaWidth = W ∧
    ( Compositer.initialize (Compositer.new mgr W H) fresh).2.panoramaHeight = H ∧
    ( Compositer.initialize (Compositer.new mgr W H) fresh).2.panorama.width = W ∧
    ( Compositer.initialize (Compositer.new mgr W H) fresh).2.panorama.height = H ∧
    ( Compositer.initialize (Compositer.new mgr W H) fresh).2.panorama.fullGrid ts ts ∧
    ( Compositer.initialize (Compositer.new mgr W H) fresh).2.tileManager.tileWidth = ts ∧
    ( Compositer.initialize (Compositer.new mgr W H) fresh).2.tileManager.tileHeight = ts ∧
    ∀ y x d, y < H → x < W →
      ( Compositer.initialize (Compositer.new mgr W H) fresh).2.panorama.getPixel y x d =
        ⟨0, 0, 0, 0⟩ := by
  obtain ⟨h1, h2, h3, h4, _, h6, h7⟩ := createImage_neverFails mgr fresh W H hmgr
  rw [htw, hth] at h4
  have hshape := CachedImage.shape_fill (CachedImage.createImage mgr fresh W H).2.1
    (⟨0, 0, 0, 0⟩ : RGBAfColor)
  have hg : ((CachedImage.createImage mgr fresh W H).2.1.fill
      (⟨0, 0, 0, 0⟩ : RGBAfColor)).2.fullGrid ts ts :=
    CachedImage.fullGrid_congr _ _ ts ts hshape h4
  have hpan : ( Compositer.initialize (Compositer.new mgr W H) fresh) =
      (true, { Compositer.new mgr W H with
        panorama := ((CachedImage.createImage mgr fresh W H).2.1.fill ⟨0, 0, 0, 0⟩).2,
        tileManager := (CachedImage.createImage mgr fresh W H).2.2 }) := by
    unfold Compositer.initialize
    simp only [Compositer.new, h1, Bool.true_eq_false, if_false]
    rfl
  rw [hpan]
  refine ⟨rfl, rfl, rfl, ?_, ?_, hg, ?_, ?_, ?_⟩
  · exact (CachedImage.shape_width _ _ hshape).trans h2
  · exact (CachedImage.shape_height _ _ hshape).trans h3
  · exact h6.trans htw
  · exact h7.trans hth
  · intro y x d hy hx
    have hy1 : y < ((CachedImage.createImage mgr fresh W H).2.1.fill
        (⟨0, 0, 0, 0⟩ : RGBAfColor)).2.height := by
      rw [CachedImage.shape_height _ _ hshape, h3]
      exact hy
    have hx1 : x < ((CachedImage.createImage mgr fresh W H).2.1.fill
        (⟨0, 0, 0, 0⟩ : RGBAfColor)).2.width := by
      rw [CachedImage.shape_width _ _ hshape, h2]
      exact hx
    obtain ⟨t, ht, _, _, _⟩ := tile_of_pixel _ ts y x hts hg hy1 hx1
    show ((CachedImage.createImage mgr fresh W H).2.1.fill
      (⟨0, 0, 0, 0⟩ : RGBAfColor)).2.getPixel y x d = _
    rw [getPixel_of_tile _ ts y x t d hg.1 ht]
    exact CachedImage.fill_tile _ _ ts ts _ _ t h4 ht _ (pixel_elem ts y x hts).1

theorem wrap_column (W ox k x : Nat) (hox : ox < W) (hk : k < W) :
    (ox + k) % W = x ↔ (ox + k = x ∧ x < W) ∨ (ox + k = x + W ∧ x < W) := by
  by_cases h : ox + k < W
  · rw [Nat.mod_eq_of_lt h]
    omega
  · have h1 : (ox + k) % W = ox + k - W := by
      rw [Nat.mod_eq_sub_mod (by omega), Nat.mod_eq_of_lt (by omega)]
    rw [h1]
    omega

/-- Coverage of a pixel by a view no wider than the panorama at an offset `ox < W`: only
one column of the view can land on the pixel. -/
theorem covers_iff (v : AppendCall) (W y x : Nat) (hx : x < W) (hox : v.offset_x < W)
    (hw : v.color.width ≤ W) :
    v.covers W y x ↔
      (v.offset_y ≤ y ∧ y < v.offset_y + v.color.height) ∧
      ((v.offset_x ≤ x ∧ x < v.offset_x + v.color.width ∧
          v.inputMask.data (y - v.offset_y) (x - v.offset_x) ≠ 0) ∨
        (x + W < v.offset_x + v.color.width ∧
          v.inputMask.data (y - v.offset_y) (x + W - v.offset_x) ≠ 0)) := by
  unfold AppendCall.covers
  constructor
  · rintro ⟨r, hr, k, hk, h1, h2, h3⟩
    have hr1 : r = y - v.offset_y := by omega
    rcases (wrap_column W v.offset_x k x hox (by omega)).mp h2 with h | h
    · have hk1 : k = x - v.offset_x := by omega
      rw [hr1, hk1] at h3
      exact ⟨by omega, Or.inl ⟨by omega, by omega, h3⟩⟩
    · have hk1 : k = x + W - v.offset_x := by omega
      rw [hr1, hk1] at h3
      exact ⟨by omega, Or.inr ⟨by omega, h3⟩⟩
  · rintro ⟨hrow, h | h⟩
    · exact ⟨y - v.offset_y, by omega, x - v.offset_x, by omega, by omega,
        (wrap_column W v.offset_x _ x hox (by omega)).mpr (Or.inl ⟨by omega, hx⟩), h.2.2⟩
    · exact ⟨y - v.offset_y, by omega, x + W - v.offset_x, by omega, by omega,
        (wrap_column W v.offset_x _ x hox (by omega)).mpr (Or.inr ⟨by omega, hx⟩), h.2⟩

theorem appendValue_alpha (color : Image RGBfColor) (inputMask : Image Nat) (ry rx : Nat)
    (old : RGBAfColor) :
    (appendValue color inputMask ry rx old).a = if inputMask.data ry rx ≠ 0 then 1 else old.a := by
  unfold appendValue
  split_ifs <;> first | rfl | (exfalso; tauto)

/-- The alpha of a pixel after one call of `append`: `1` where the view covers the pixel,
and what it was elsewhere. -/
theorem append_alpha (c : Compositer) (v : AppendCall) (ts y x : Nat) (d : RGBAfColor)
    (hts : 0 < ts) (hg : c.panorama.fullGrid ts ts) (htw : c.tileManager.tileWidth = ts)
    (hth : c.tileManager.tileHeight = ts) (hy : y < c.panorama.height)
    (hx : x < c.panorama.width) (hW : c.panorama.width = c.panoramaWidth)
    (hox : v.offset_x < c.panoramaWidth) (hoy : v.offset_y < 2147483648)
    (hw : v.color.width ≤ c.panoramaWidth)
    (hWb : 2 * c.panoramaWidth + ts ≤ 2147483648)
    (hHb : c.panorama.height + ts ≤ 2147483648) :
    ((c.append v.color v.inputMask v.inputWeights v.offset_x v.offset_y).2.panorama.getPixel
        y x d).a =
      if v.covers c.panoramaWidth y x then 1 else (c.panorama.getPixel y x d).a := by
  rw [append_pixel_normal c v.color v.inputMask v.inputWeights v.offset_x v.offset_y ts y x d hts
    hg htw hth hy hx hW hox hoy hw hWb hHb]
  have hcov := covers_iff v c.panoramaWidth y x (hW ▸ hx) hox hw
  by_cases hr : v.offset_y ≤ y ∧ y < v.offset_y + v.color.height
  · rw [if_pos hr]
    by_cases hc : v.offset_x ≤ x ∧ x < v.offset_x + v.color.width
    · rw [if_pos hc, appendValue_alpha]
      by_cases hm : v.inputMask.data (y - v.offset_y) (x - v.offset_x) ≠ 0
      · rw [if_pos hm, if_pos (hcov.mpr ⟨hr, Or.inl ⟨hc.1, hc.2, hm⟩⟩)]
      · rw [if_neg hm, if_neg]
        intro h
        rcases (hcov.mp h).2 with h1 | h1
        · exact hm h1.2.2
        · omega
    · rw [if_neg hc]
      by_cases hc2 : x + c.panoramaWidth < v.offset_x + v.color.width
      · rw [if_pos hc2, appendValue_alpha]
        by_cases hm : v.inputMask.data (y - v.offset_y) (x + c.panoramaWidth - v.offset_x) ≠ 0
        · rw [if_pos hm, if_pos (hcov.mpr ⟨hr, Or.inr ⟨hc2, hm⟩⟩)]
        · rw [if_neg hm, if_neg]
          intro h
          rcases (hcov.mp h).2 with h1 | h1
          · exact hc ⟨h1.1, h1.2.1⟩
          · exact hm h1.2
      · rw [if_neg hc2, if_neg]
        intro h
        rcases (hcov.mp h).2 with h1 | h1
        · exact hc ⟨h1.1, h1.2.1⟩
        · exact hc2 h1.1
  · rw [if_neg hr, if_neg]
    intro h
    exact hr (hcov.mp h).1

/-- The alpha of a pixel after a sequence of calls of `append`. -/
theorem appendAll_alpha (ts W y x : Nat) (d : RGBAfColor) (hts : 0 < ts)
    (hWb : 2 * W + ts ≤ 2147483648) :
    ∀ (views : List AppendCall) (c : Compositer),
      c.panorama.fullGrid ts ts → c.tileManager.tileWidth = ts → c.tileManager.tileHeight = ts →
      y < c.panorama.height → x < c.panorama.width → c.panorama.width = W →
      c.panoramaWidth = W → c.panorama.height + ts ≤ 2147483648 →
      (∀ v ∈ views, v.color.width ≤ W ∧ v.offset_x < W ∧ v.offset_y < 2147483648) →
      ((c.appendAll views).panorama.getPixel y x d).a =
        if ∃ v ∈ views, v.covers W y x then 1 else (c.panorama.getPixel y x d).a := by
  intro views
  induction views with
  | nil =>
    intro c _ _ _ _ _ _ _ _ _
    simp [Compositer.appendAll]
  | cons v vs ih =>
    intro c hg htw hth hy hx hW hPW hHb hv
    obtain ⟨v1, v2, v3⟩ := hv v (List.mem_cons_self _ _)
    have hshape := append_shape c v.color v.inputMask v.inputWeights v.offset_x v.offset_y
    have hw1 := CachedImage.shape_width _ _ hshape
    have hh1 := CachedImage.shape_height _ _ hshape
    have hstep := ih (c.append v.color v.inputMask v.inputWeights v.offset_x v.offset_y).2
      (CachedImage.fullGrid_congr _ _ ts ts hshape hg) htw hth (hh1 ▸ hy) (hw1 ▸ hx)
      (hw1.trans hW) hPW (hh1 ▸ hHb) (fun u hu => hv u (List.mem_cons_of_mem _ hu))
    have hone := append_alpha c v ts y x d hts hg htw hth hy hx (hW.trans hPW.symm)
      (hPW ▸ v2) v3 (hPW ▸ v1) (hPW ▸ hWb) hHb
    rw [hPW] at hone
    show (((c.append v.color v.inputMask v.inputWeights v.offset_x v.offset_y).2.appendAll
      vs).panorama.getPixel y x d).a = _
    rw [hstep, hone]
    by_cases h1 : ∃ u ∈ vs, u.covers W y x
    · obtain ⟨u, hu, hc⟩ := h1
      rw [if_pos ⟨u, hu, hc⟩, if_pos ⟨u, List.mem_cons_of_mem _ hu, hc⟩]
    · rw [if_neg h1]
      by_cases h2 : v.covers W y x
      · rw [if_pos h2, if_pos ⟨v, List.mem_cons_self _ _, h2⟩]
      · rw [if_neg h2, if_neg]
        rintro ⟨u, hu, hc⟩
        rcases List.mem_cons.mp hu with e | e
        · exact h2 (e ▸ hc)
        · exact h1 ⟨u, e, hc⟩

/-- C11: after `initialize` on a manager with square tiles that never fails, and any
sequence of calls of `append` with views no wider than the panorama at offsets
`off_x < W`, all sizes and offsets fitting an `int`, `initialize` has returned `true` and
every pixel inside `W x H` has alpha `1` if one of the views covers it, columns wrapped
modulo `W`, with a mask that is not zero, and alpha `0` if none does. -/
theorem append_alpha_is_coverage (mgr : TileCacheManager) (fresh : Nat → RGBAfColor)
    (W H ts : Nat) (views : List AppendCall) (y x : Nat) (d : RGBAfColor)
    (hmgr : mgr.neverFails) (htw : mgr.tileWidth = ts) (hth : mgr.tileHeight = ts)
    (hts : 0 < ts) (hWb : 2 * W + ts ≤ 2147483648) (hHb : H + ts ≤ 2147483648)
    (hviews : ∀ v ∈ views, v.color.width ≤ W ∧ v.offset_x < W ∧ v.offset_y < 2147483648)
    (hy : y < H) (hx : x < W) :
    ( Compositer.initialize (Compositer.new mgr W H) fresh).1 = true ∧
    ((( Compositer.initialize (Compositer.new mgr W H) fresh).2.appendAll
        views).panorama.getPixel y x d).a =
      if ∃ v ∈ views, v.covers W y x then 1 else 0 := by
  obtain ⟨i1, i2, _, i4, i5, i6, i7, i8, i9⟩ :=
    compositer_initialize mgr fresh W H ts hmgr htw hth hts
  refine ⟨i1, ?_⟩
  rw [appendAll_alpha ts W y x d hts hWb views _ i6 i7 i8 (i5.symm ▸ hy) (i4.symm ▸ hx) i4 i2
    (i5.symm ▸ hHb) hviews, i9 y x d hy hx]

/-- C11 (witness): a view of three columns at the offset `2` of a panorama of width `4`:
pixel `(0, 0)` is covered through the wrap and has alpha `1`, pixel `(0, 1)` is not covered
and has alpha `0`. -/
theorem append_alpha_is_coverage_witness :
    ((smallCompositer.appendAll [⟨stripView, stripMask, stripWeights, 2, 0⟩]).panorama.getPixel
      0 0 default).a = 1 ∧
    ((smallCompositer.appendAll [⟨stripView, stripMask, stripWeights, 2, 0⟩]).panorama.getPixel
      0 1 default).a = 0 :=
  ⟨(append_alpha_is_coverage (plainManager 2) (fun _ => ⟨7, 7, 7, 7⟩) 4 1 2
      [⟨stripView, stripMask, stripWeights, 2, 0⟩] 0 0 default (fun _ => rfl) rfl rfl
      (by decide) (by decide) (by decide)
      (by
        intro v hv
        rw [List.mem_singleton] at hv
        subst hv
        decide)
      (by decide) (by decide)).2.trans (if_pos (by decide)),
    (append_alpha_is_coverage (plainManager 2) (fun _ => ⟨7, 7, 7, 7⟩) 4 1 2
      [⟨stripView, stripMask, stripWeights, 2, 0⟩] 0 1 default (fun _ => rfl) rfl rfl
      (by decide) (by decide) (by decide)
      (by
        intro v hv
        rw [List.mem_singleton] at hv
        subst hv
        decide)
      (by decide) (by decide)).2.trans (if_neg (by decide))⟩

/-- C12, counterexample: on a panorama of width `4` on tiles of side `2`, a view of one
pixel at the offset `1`, which is not a multiple of the side of the tiles, is written to
pixel `(0, 1)`, and at the offset `1 + 4` it is not; a view of three columns at the offset
`2`, where it straddles the meridian, is written to pixel `(0, 0)` through the wrap, and at
the offset `2 + 4` it is not. On a panorama of width `3`, whose tiles have a column of
padding, a view of one pixel at the offset `0` leaves the padding as it is, and at the
offset `0 + 3` it is written there. -/
theorem append_offset_plus_width_differs :
    smallCompositer.panoramaWidth = 4 ∧
    ((smallCompositer.append pixelView pixelMask pixelWeights 1 0).2.panorama.getPixel
      0 1 default).a = 1 ∧
    ((smallCompositer.append pixelView pixelMask pixelWeights (1 + 4) 0).2.panorama.getPixel
      0 1 default).a = 0 ∧
    ((smallCompositer.append stripView stripMask stripWeights 2 0).2.panorama.getPixel
      0 0 default).a = 1 ∧
    ((smallCompositer.append stripView stripMask stripWeights (2 + 4) 0).2.panorama.getPixel
      0 0 default).a = 0 ∧
    paddedCompositer.panoramaWidth = 3 ∧
    ((paddedCompositer.append pixelView pixelMask pixelWeights 0 0).2.panorama.getPixel
      0 3 default).a = 0 ∧
    ((paddedCompositer.append pixelView pixelMask pixelWeights (0 + 3) 0).2.panorama.getPixel
      0 3 default).a = 1 := by
  decide!

/-- C12, amended: for every panorama on a full grid of square tiles, every view of width
`w <= W` and every offset `off_x` in `[0, W)` that is a multiple of the side of the tiles
and with `off_x + w <= W`, so that the view does not straddle the meridian, all sizes and
offsets fitting an `int`: `append` of the view at `off_x + W` leaves in every pixel inside
`W x H` what `append` of the view at `off_x` leaves there. -/
theorem append_offset_plus_width_aligned (c : Compositer) (color : Image RGBfColor)
    (inputMask : Image Nat) (inputWeights : Image ℚ) (ox oy ts y x : Nat) (d : RGBAfColor)
    (hts : 0 < ts) (hg : c.panorama.fullGrid ts ts) (htw : c.tileManager.tileWidth = ts)
    (hth : c.tileManager.tileHeight = ts) (hW : c.panorama.width = c.panoramaWidth)
    (hWb : 2 * c.panoramaWidth + ts ≤ 2147483648)
    (hHb : c.panorama.height + ts ≤ 2147483648)
    (hox : ox < c.panoramaWidth) (hal : ts ∣ ox) (hw : ox + color.width ≤ c.panoramaWidth)
    (hoy : oy < 2147483648) (hy : y < c.panorama.height) (hx : x < c.panoramaWidth) :
    (c.append color inputMask inputWeights (ox + c.panoramaWidth) oy).2.panorama.getPixel y x d =
      (c.append color inputMask inputWeights ox oy).2.panorama.getPixel y x d := by
  rw [append_pixel_shifted c color inputMask inputWeights ox oy ts y x d hts hg htw hth hy
      (hW ▸ hx) hW hox hal hoy (by omega) hWb hHb,
    append_pixel_normal c color inputMask inputWeights ox oy ts y x d hts hg htw hth hy
      (hW ▸ hx) hW hox hoy (by omega) hWb hHb]
  by_cases hr : oy ≤ y ∧ y < oy + color.height
  · rw [if_pos hr, if_pos hr]
    by_cases hc : ox ≤ x ∧ x < ox + color.width
    · rw [if_pos hc, if_pos hc]
    · rw [if_neg hc, if_neg hc, if_neg (by omega)]
  · rw [if_neg hr, if_neg hr]

/-- C12 (witness): a view of one pixel at the offsets `2` and `2 + 4` of a panorama of
width `4` on tiles of side `2`. -/
theorem append_offset_plus_width_aligned_witness :
    (smallCompositer.append pixelView pixelMask pixelWeights (2 + 4) 0).2.panorama.getPixel
        0 2 default =
      (smallCompositer.append pixelView pixelMask pixelWeights 2 0).2.panorama.getPixel
        0 2 default :=
  append_offset_plus_width_aligned smallCompositer pixelView pixelMask pixelWeights 2 0 2 0 2
    default (by decide) (by decide) rfl rfl rfl (by decide) (by decide) (by decide)
    (by decide) (by decide) (by decide) (by decide) (by decide)

/-! ## One call of `append`, pixel by pixel -/

theorem appendPixel_idem (c : Compositer) (color : Image RGBfColor) (inputMask : Image Nat)
    (top left : Int) (y x : Nat) (old : RGBAfColor) :
    c.appendPixel color inputMask top left y x (c.appendPixel color inputMask top left y x old) =
      c.appendPixel color inputMask top left y x old := by
  unfold Compositer.appendPixel
  simp only
  split_ifs <;> rfl

/-- The body of the loops over the tiles of `append`: the tile is left as it is, or every
element of its buffer goes through the body of the inner loops. -/
theorem appendTile_eq (c : Compositer) (color : Image RGBfColor) (inputMask : Image Nat)
    (ox oy i j : Nat) (t : CachedTile RGBAfColor) :
    c.appendTile color inputMask ox oy i j t =
      if (toInt32 ((i : Int) * (c.tileManager.tileHeight : Int) - (oy : Int)) ≥
            (color.height : Int) ∨
          toInt32 (((i : Int) + 1) * (c.tileManager.tileHeight : Int) - (oy : Int)) < 0 ∨
          toInt32 ((j : Int) * (c.tileManager.tileWidth : Int) - (ox : Int)) ≥
            (color.width : Int) ∨
          (toInt32 (((j : Int) + 1) * (c.tileManager.tileWidth : Int) - (ox : Int)) < 0 ∧
            (toInt32 ((j : Int) * (c.tileManager.tileWidth : Int) - (ox : Int)) +
              (c.panoramaWidth : Int)) % 18446744073709551616 ≥ (color.width : Int))) ∨
          t.acquirable = false then t
      else
        { t with
          data := fun k =>
            if k < c.tileManager.tileWidth * c.tileManager.tileHeight then
              c.appendPixel color inputMask
                (toInt32 ((i : Int) * (c.tileManager.tileHeight : Int) - (oy : Int)))
                (toInt32 ((j : Int) * (c.tileManager.tileWidth : Int) - (ox : Int)))
                (k / c.tileManager.tileWidth) (k % c.tileManager.tileWidth) (t.data k)
            else t.data k } := by
  unfold Compositer.appendTile
  by_cases h1 : toInt32 ((i : Int) * (c.tileManager.tileHeight : Int) - (oy : Int)) ≥
      (color.height : Int)
  · rw [if_pos h1, if_pos (Or.inl (Or.inl h1))]
  · rw [if_neg h1]
    by_cases h2 : toInt32 (((i : Int) + 1) * (c.tileManager.tileHeight : Int) - (oy : Int)) < 0
    · rw [if_pos h2, if_pos (Or.inl (Or.inr (Or.inl h2)))]
    · rw [if_neg h2]
      by_cases h3 : toInt32 ((j : Int) * (c.tileManager.tileWidth : Int) - (ox : Int)) ≥
          (color.width : Int)
      · rw [if_pos h3, if_pos (Or.inl (Or.inr (Or.inr (Or.inl h3))))]
      · rw [if_neg h3]
        by_cases h4 : toInt32 (((j : Int) + 1) * (c.tileManager.tileWidth : Int) - (ox : Int)) < 0
            ∧ (toInt32 ((j : Int) * (c.tileManager.tileWidth : Int) - (ox : Int)) +
              (c.panoramaWidth : Int)) % 18446744073709551616 ≥ (color.width : Int)
        · rw [if_pos h4, if_pos (Or.inl (Or.inr (Or.inr (Or.inr h4))))]
        · rw [if_neg h4]
          by_cases h5 : t.acquirable = false
          · rw [if_pos h5, if_pos (Or.inr h5)]
          · rw [if_neg h5, if_neg (by tauto)]

theorem appendTile_idem (c : Compositer) (color : Image RGBfColor) (inputMask : Image Nat)
    (ox oy i j : Nat) (t : CachedTile RGBAfColor) :
    c.appendTile color inputMask ox oy i j (c.appendTile color inputMask ox oy i j t) =
      c.appendTile color inputMask ox oy i j t := by
  rw [appendTile_eq c color inputMask ox oy i j t]
  split
  next h => rw [appendTile_eq, if_pos h]
  next h =>
    rw [appendTile_eq, if_neg h]
    apply CachedTile.data_ext
    intro k
    simp only
    split
    · exact appendPixel_idem c color inputMask _ _ _ _ _
    · rfl

/-- C24: for every panorama state, view and offset, `append` of the same view at the same
offset a second time, and a third time, leaves the compositer that the first `append`
leaves, and all of these calls return `true`. -/
theorem append_idempotent (c : Compositer) (color : Image RGBfColor) (inputMask : Image Nat)
    (inputWeights : Image ℚ) (ox oy : Nat) :
    (c.append color inputMask inputWeights ox oy).2.append color inputMask inputWeights ox oy =
      c.append color inputMask inputWeights ox oy ∧
    ((c.append color inputMask inputWeights ox oy).2.append color inputMask inputWeights
        ox oy).2.append color inputMask inputWeights ox oy =
      c.append color inputMask inputWeights ox oy ∧
    c.appendAll [⟨color, inputMask, inputWeights, ox, oy⟩, ⟨color, inputMask, inputWeights, ox, oy⟩,
        ⟨color, inputMask, inputWeights, ox, oy⟩] =
      c.appendAll [⟨color, inputMask, inputWeights, ox, oy⟩] := by
  have h1 : (c.append color inputMask inputWeights ox oy).2.append color inputMask inputWeights
      ox oy = c.append color inputMask inputWeights ox oy := by
    unfold Compositer.append
    simp only [CachedImage.mapTiles_mapTiles]
    congr 2
    apply CachedImage.mapTiles_congr
    intro i j t _
    exact appendTile_idem c color inputMask ox oy i j t
  refine ⟨h1, ?_, ?_⟩
  · rw [h1, h1]
  · simp only [Compositer.appendAll]
    rw [h1, h1]

theorem wrapped_column (x ox W : Nat) (hx : x < W) (hox : ox < W) :
    ((x : Int) - (ox : Int)) % (W : Int) =
      if ox ≤ x then ((x - ox : Nat) : Int) else ((x + W - ox : Nat) : Int) := by
  by_cases h : ox ≤ x
  · rw [if_pos h, Int.emod_eq_of_lt (by omega) (by omega)]
    omega
  · rw [if_neg h, ← Int.add_emod_self, Int.emod_eq_of_lt (by omega) (by omega)]
    omega

/-- C23: for every panorama on a full grid of square tiles, every view of width `w <= W`
and every offset with `off_x < W`, all sizes and offsets fitting an `int`, and every pixel
`(x, y)` inside `W x H`: when the wrapped view coordinate
`((x - off_x) mod W, y - off_y)` lies inside the view and the mask is not zero there, the
pixel holds after `append` the colour of the view at that coordinate with alpha `1`;
otherwise the pixel is unchanged. -/
theorem append_writes_covered_pixels (c : Compositer) (color : Image RGBfColor)
    (inputMask : Image Nat) (inputWeights : Image ℚ) (ox oy ts y x : Nat) (d : RGBAfColor)
    (kx ry : Int)
    (hts : 0 < ts) (hg : c.panorama.fullGrid ts ts) (htw : c.tileManager.tileWidth = ts)
    (hth : c.tileManager.tileHeight = ts) (hW : c.panorama.width = c.panoramaWidth)
    (hWb : 2 * c.panoramaWidth + ts ≤ 2147483648)
    (hHb : c.panorama.height + ts ≤ 2147483648)
    (hw : color.width ≤ c.panoramaWidth) (hox : ox < c.panoramaWidth)
    (hoy : oy < 2147483648) (hy : y < c.panorama.height) (hx : x < c.panoramaWidth)
    (hkx : kx = ((x : Int) - (ox : Int)) % (c.panoramaWidth : Int))
    (hry : ry = (y : Int) - (oy : Int)) :
    (c.append color inputMask inputWeights ox oy).1 = true ∧
    ((0 ≤ ry ∧ ry < (color.height : Int) ∧ kx < (color.width : Int) ∧
        inputMask.data ry.toNat kx.toNat ≠ 0) →
      (c.append color inputMask inputWeights ox oy).2.panorama.getPixel y x d =
        ⟨(color.data ry.toNat kx.toNat).r, (color.data ry.toNat kx.toNat).g,
          (color.data ry.toNat kx.toNat).b, 1⟩) ∧
    (¬ (0 ≤ ry ∧ ry < (color.height : Int) ∧ kx < (color.width : Int) ∧
        inputMask.data ry.toNat kx.toNat ≠ 0) →
      (c.append color inputMask inputWeights ox oy).2.panorama.getPixel y x d =
        c.panorama.getPixel y x d) := by
  have hpix := append_pixel_normal c color inputMask inputWeights ox oy ts y x d hts hg htw hth hy
    (hW ▸ hx) hW hox hoy hw hWb hHb
  have hwrap := wrapped_column x ox c.panoramaWidth hx hox
  rw [← hkx] at hwrap
  have hryn : ry.toNat = y - oy := by omega
  refine ⟨rfl, ?_, ?_⟩
  · rintro ⟨h1, h2, h3, h4⟩
    rw [hpix, if_pos (by omega)]
    by_cases hc : ox ≤ x
    · rw [if_pos hc] at hwrap
      have hk : kx.toNat = x - ox := by omega
      rw [hryn, hk] at h4 ⊢
      rw [if_pos (by omega)]
      unfold appendValue
      rw [if_neg h4]
    · rw [if_neg hc] at hwrap
      have hk : kx.toNat = x + c.panoramaWidth - ox := by omega
      rw [hryn, hk] at h4 ⊢
      rw [if_neg (by omega), if_pos (by omega)]
      unfold appendValue
      rw [if_neg h4]
  · intro hn
    rw [hpix]
    by_cases hr : oy ≤ y ∧ y < oy + color.height
    · rw [if_pos hr]
      by_cases hc : ox ≤ x
      · rw [if_pos hc] at hwrap
        have hk : kx.toNat = x - ox := by omega
        rw [hryn, hk] at hn
        rw [if_neg (by omega : ¬ x + c.panoramaWidth < ox + color.width)]
        by_cases hc1 : x < ox + color.width
        · rw [if_pos ⟨hc, hc1⟩]
          unfold appendValue
          rw [if_pos]
          by_contra hm
          exact hn ⟨by omega, by omega, by omega, hm⟩
        · rw [if_neg (fun h => hc1 h.2)]
      · rw [if_neg hc] at hwrap
        have hk : kx.toNat = x + c.panoramaWidth - ox := by omega
        rw [hryn, hk] at hn
        rw [if_neg (fun h => hc h.1)]
        by_cases hc2 : x + c.panoramaWidth < ox + color.width
        · rw [if_pos hc2]
          unfold appendValue
          rw [if_pos]
          by_contra hm
          exact hn ⟨by omega, by omega, by omega, hm⟩
        · rw [if_neg hc2]
    · rw [if_neg hr]

/-- C23 (witness): a view of three columns at the offset `2` of a panorama of width `4`:
pixel `(0, 0)` receives column `2` of the view through the wrap, and pixel `(0, 1)` is left
as it was. -/
theorem append_writes_covered_pixels_witness :
    (smallCompositer.append stripView stripMask stripWeights 2 0).2.panorama.getPixel 0 0 default =
      ⟨3, 0, 0, 1⟩ ∧
    (smallCompositer.append stripView stripMask stripWeights 2 0).2.panorama.getPixel 0 1 default =
      smallCompositer.panorama.getPixel 0 1 default :=
  ⟨((append_writes_covered_pixels smallCompositer stripView stripMask stripWeights 2 0 2 0 0
      default _ _ (by decide) (by decide) rfl rfl rfl (by decide) (by decide) (by decide)
      (by decide) (by decide) (by decide) (by decide) rfl rfl).2.1 (by decide)).trans
      (by decide!),
    (append_writes_covered_pixels smallCompositer stripView stripMask stripWeights 2 0 2 0 1
      default _ _ (by decide) (by decide) rfl rfl rfl (by decide) (by decide) (by decide)
      (by decide) (by decide) (by decide) (by decide) rfl rfl).2.2 (by decide)⟩

/-! ## The views that the driver composites -/

/-- C22, counterexample: for a scene of two views, both with pose and intrinsic defined,
the driver calls `append` six times, three times for each view. -/
theorem appendedViews_three_times :
    appendedViews [1, 2] (fun _ => true) = [1, 2, 1, 2, 1, 2] ∧
    (appendedViews [1, 2] (fun _ => true)).count 1 = 3 := by
  decide

/-- C22, amended: for every input scene, the list of the views passed to `append` is the
list of the views of the scene whose pose and intrinsic are defined, in the order of the
scene, three times over: such a view of a scene without duplicates is composited exactly
three times, and a view whose pose or intrinsic is not defined is never composited. -/
theorem appendedViews_each_thrice {ν : Type} [DecidableEq ν] (views : List ν)
    (defined : ν → Bool) :
    appendedViews views defined =
      views.filter defined ++ views.filter defined ++ views.filter defined ∧
    (∀ v, defined v = true → (appendedViews views defined).count v = 3 * views.count v) ∧
    (∀ v, v ∈ views → views.Nodup → defined v = true →
      (appendedViews views defined).count v = 3) ∧
    (∀ v, defined v = false → (appendedViews views defined).count v = 0) := by
  have h1 : appendedViews views defined =
      views.filter defined ++ views.filter defined ++ views.filter defined := by
    unfold appendedViews viewsToDraw
    simp only [List.filter_append, List.filter_filter, Bool.and_self]
  have h2 : ∀ v, defined v = true → (appendedViews views defined).count v = 3 * views.count v := by
    intro v hv
    have hc : (views.filter defined).count v = views.count v := by
      rw [List.count_filter hv]
    rw [h1, List.count_append, List.count_append, hc]
    omega
  refine ⟨h1, h2, ?_, ?_⟩
  · intro v hm hn hv
    rw [h2 v hv, List.count_eq_one_of_mem hn hm]
  · intro v hv
    rw [h1, List.count_append, List.count_append]
    have hc : (views.filter defined).count v = 0 := by
      rw [List.count_eq_zero]
      intro hm
      have := (List.mem_filter.mp hm).2
      rw [hv] at this
      exact Bool.false_ne_true this
    rw [hc]

/-- C22 (witness): a scene of three views of which the second has no pose. -/
theorem appendedViews_each_thrice_witness :
    (appendedViews [10, 20, 30] (fun v => decide (v ≠ 20))).count 10 = 3 :=
  (appendedViews_each_thrice [10, 20, 30] (fun v => decide (v ≠ 20))).2.2.1 10 (by decide)
    (by decide) (by decide)

/-! ## `augment` -/

/-- The pyramid that `augment` leaves. -/
theorem augment_pyramid (p : LaplacianPyramid) (mgr : TileCacheManager)
    (freshMask : Nat → Nat) (n : Nat) :
    (p.augment mgr freshMask n).2.1 =
      if n ≤ p.levels.length then p
      else
        match p.levels[p.levels.length - 1]?, p.weights[p.weights.length - 1]? with
        | some c, some w =>
          { p with
            maxLevels := n,
            levels := p.levels.set (p.levels.length - 1)
              (c.perPixelOperation w normalizePixel).2 }
        | _, _ => { p with maxLevels := n } := by
  unfold LaplacianPyramid.augment
  by_cases h : n ≤ p.levels.length
  · rw [if_pos h, if_pos h]
  · rw [if_neg h, if_neg h]
    cases p.levels[p.levels.length - 1]? with
    | none => rfl
    | some c =>
      cases p.weights[p.weights.length - 1]? with
      | none => rfl
      | some w =>
        simp only
        split <;> rfl

/-- C25: for every pyramid state and every `newMaxLevels`, the colour and the weight stack
have the same length after `augment` as before. When `newMaxLevels` is at most the number
of levels, `augment` returns `false` and leaves the pyramid as it is. When it is larger,
`augment` overwrites the stored maximum, leaves the base size, the weights and every level
but the last as they are, and replaces the last colour level by the result of
`perPixelOperation` with its weight: on full grids of tiles every pixel is divided by its
weight, and is `(0, 0, 0)` where the weight is below `1e-6`. -/
theorem augment_keeps_levels (p : LaplacianPyramid) (mgr : TileCacheManager)
    (freshMask : Nat → Nat) (n : Nat) :
    (p.augment mgr freshMask n).2.1.levels.length = p.levels.length ∧
    (p.augment mgr freshMask n).2.1.weights.length = p.weights.length ∧
    (n ≤ p.levels.length →
      (p.augment mgr freshMask n).1 = false ∧ (p.augment mgr freshMask n).2.1 = p) ∧
    (p.levels.length < n →
      (p.augment mgr freshMask n).2.1.maxLevels = n ∧
      (p.augment mgr freshMask n).2.1.baseWidth = p.baseWidth ∧
      (p.augment mgr freshMask n).2.1.baseHeight = p.baseHeight ∧
      (p.augment mgr freshMask n).2.1.weights = p.weights ∧
      (∀ l, l + 1 ≠ p.levels.length →
        (p.augment mgr freshMask n).2.1.levels[l]? = p.levels[l]?) ∧
      (∀ c w, p.levels[p.levels.length - 1]? = some c →
        p.weights[p.weights.length - 1]? = some w →
        (p.augment mgr freshMask n).2.1.levels[p.levels.length - 1]? =
          some (c.perPixelOperation w normalizePixel).2 ∧
        ∀ (ts y x : Nat) (d : RGBfColor) (e : ℚ), 0 < ts → c.fullGrid ts ts →
          w.fullGrid ts ts → c.width = w.width → c.height = w.height → y < c.height →
          x < c.width →
          (c.perPixelOperation w normalizePixel).2.getPixel y x d =
            if w.getPixel y x e < eps then ⟨0, 0, 0⟩
            else
              ⟨(c.getPixel y x d).r / w.getPixel y x e, (c.getPixel y x d).g / w.getPixel y x e,
                (c.getPixel y x d).b / w.getPixel y x e⟩)) := by
  have hp := augment_pyramid p mgr freshMask n
  refine ⟨?_, ?_, ?_, ?_⟩
  · rw [hp]
    split
    · rfl
    · split
      · simp only [List.length_set]
      · rfl
  · rw [hp]
    split
    · rfl
    · split <;> rfl
  · intro h
    refine ⟨?_, ?_⟩
    · unfold LaplacianPyramid.augment
      rw [if_pos h]
    · rw [hp, if_pos h]
  · intro h
    have hn : ¬ n ≤ p.levels.length := by omega
    rw [hp, if_neg hn]
    refine ⟨?_, ?_, ?_, ?_, ?_, ?_⟩
    · split <;> rfl
    · split <;> rfl
    · split <;> rfl
    · split <;> rfl
    · intro l hl
      split
      next c w hc hw =>
        simp only
        have hpos : 0 < p.levels.length := by
          rcases Nat.eq_zero_or_pos p.levels.length with h0 | h0
          · have h1 := List.length_eq_zero.mp h0
            rw [h1] at hc
            simp at hc
          · exact h0
        rw [List.getElem?_set_ne (by omega : p.levels.length - 1 ≠ l)]
      next => rfl
    · intro c w hc hw
      refine ⟨?_, ?_⟩
      · rw [hc, hw]
        simp only
        have hlt : p.levels.length - 1 < p.levels.length := by
          rcases Nat.eq_zero_or_pos p.levels.length with h0 | h0
          · rw [h0] at hc
            have := List.length_eq_zero.mp h0
            rw [this] at hc
            simp at hc
          · omega
        rw [List.getElem?_set_self hlt]
      · intro ts y x d e hts hg ho hw1 hh1 hy hx
        rw [perPixelOperation_getPixel c w normalizePixel ts y x d e hts hg ho hw1 hh1 hy hx]
        rfl

/-- C25 (witness): the pyramid of one level of one pixel whose colour is `(1, 1, 1)` and
whose weight is `1e-6`, augmented to two levels: it still has one level, the stored
maximum is `2`, and the pixel holds `(1000000, 1000000, 1000000)`. -/
theorem augment_keeps_levels_witness :
    (boundaryPyramid.augment (plainManager 1) (fun _ => 0) 2).2.1.levels.length = 1 ∧
    (boundaryPyramid.augment (plainManager 1) (fun _ => 0) 2).2.1.maxLevels = 2 ∧
    ((boundaryPyramid.augment (plainManager 1) (fun _ => 0) 2).2.1.levels[0]?).map
      (fun c => c.getPixel 0 0 default) = some ⟨1000000, 1000000, 1000000⟩ :=
  ⟨(augment_keeps_levels boundaryPyramid (plainManager 1) (fun _ => 0) 2).1,
    ((augment_keeps_levels boundaryPyramid (plainManager 1) (fun _ => 0) 2).2.2.2
      (by decide)).1,
    by
      have h := (((augment_keeps_levels boundaryPyramid (plainManager 1) (fun _ => 0) 2).2.2.2
        (by decide)).2.2.2.2.2 _ _ rfl rfl).1
      have h0 : (boundaryPyramid.augment (plainManager 1) (fun _ => 0) 2).2.1.levels[0]? =
          some (((⟨1, 1, 1, 1, 1, [[⟨1, 1, 1, 1, true, fun _ => ⟨1, 1, 1⟩⟩]]⟩ :
            CachedImage RGBfColor).perPixelOperation
            (⟨1, 1, 1, 1, 1, [[⟨1, 1, 1, 1, true, fun _ => eps⟩]]⟩ : CachedImage ℚ)
            normalizePixel).2) := h
      rw [h0]
      decide!⟩

/-! ## The windows of `rebuild` against the collapse of the whole level -/

theorem wrapIndex_zero (W : Nat) : wrapIndex W 0 = 0 := by
  unfold wrapIndex
  simp

/-- The columns that a tap of the blur of a window can read. -/
theorem col_tap_reach (x W1 J cR N : Nat) (dl dw cw db : Int)
    (hx : x < 2 * W1)
    (hcw : cw = min 512 ((W1 : Int) - ((x / 1024 * 512 : Nat) : Int)))
    (hdl : dl = max 0 (((x / 1024 * 512 : Nat) : Int) - 5))
    (hdw : dl + dw = ((x / 1024 * 512 : Nat) : Int) + cw + 5)
    (hJ : (J : Int) = x - 2 * dl) (h1 : -2 ≤ db) (h2 : db ≤ 2)
    (hN : (N : Int) = 2 * dw)
    (q2 : (cR : Int) = max 0 (min ((N : Int) - 1) ((J : Int) + db))) :
    (cR : Int) < 2 * dw ∧
      (cR % 2 = 0 →
        (0 ≤ dl + ((cR / 2 : Nat) : Int) ∧ dl + ((cR / 2 : Nat) : Int) < (W1 : Int) ∧
          (x : Int) ≤ 2 * (dl + ((cR / 2 : Nat) : Int)) + 2 ∧
          2 * (dl + ((cR / 2 : Nat) : Int)) ≤ (x : Int) + 2) ∨
        (dl + ((cR / 2 : Nat) : Int) = 0 + (W1 : Int) ∧ 2 * (W1 : Int) ≤ (x : Int) + 2)) := by
  omega

/-- The rows that a tap of the blur of a window can read. -/
theorem row_tap_reach (y H1 I rR N : Nat) (dt dh ch da : Int)
    (hy : y < 2 * H1)
    (hch : ch = min 512 ((H1 : Int) - ((y / 1024 * 512 : Nat) : Int)))
    (hdt : dt = max 0 (((y / 1024 * 512 : Nat) : Int) - 5))
    (hdh : dt + dh = min (H1 : Int) (((y / 1024 * 512 : Nat) : Int) + ch + 5))
    (hI : (I : Int) = y - 2 * dt) (h1 : -2 ≤ da) (h2 : da ≤ 2)
    (hN : (N : Int) = 2 * dh)
    (q1 : (rR : Int) = max 0 (min ((N : Int) - 1) ((I : Int) + da))) :
    (rR : Int) < 2 * dh ∧
      (rR % 2 = 0 →
        0 ≤ dt + ((rR / 2 : Nat) : Int) ∧ dt + ((rR / 2 : Nat) : Int) < (H1 : Int) ∧
          (y : Int) ≤ 2 * (dt + ((rR / 2 : Nat) : Int)) + 2 ∧
          2 * (dt + ((rR / 2 : Nat) : Int)) ≤ (y : Int) + 2) := by
  omega

/-- A window of `rebuild` adds nothing to a pixel when the half level holds zeros at every
pixel within reach of it. -/
theorem windowDelta_of_unreached (half : CachedImage RGBfColor) (ts y x : Nat)
    (hts : 0 < ts) (hhalf : half.fullGrid ts ts)
    (hy : y < 2 * half.height) (hx : x < 2 * half.width)
    (hz : ∀ r c, withinReach half.width half.height y x r c → half.getPixel r c default = 0) :
    windowDelta half (x / 1024 * 512) (y / 1024 * 512) (y - 2 * (y / 1024 * 512))
        (x - 2 * (x / 1024 * 512)) = 0 := by
  have hX0 : x / 1024 * 512 < half.width := by omega
  have hY0 : y / 1024 * 512 < half.height := by omega
  obtain ⟨_, _, c3, c4⟩ := windowCore_fields half (x / 1024 * 512) (y / 1024 * 512)
  obtain ⟨d1, d2, d3, d4⟩ := windowDilated_fields half (x / 1024 * 512) (y / 1024 * 512)
  obtain ⟨hI1, hJ1, hN1, hN2, hP1, hP2, hR1, hR2⟩ := window_index half y x hy hx
  have hup := fun r c => windowUpscaled_data half ts (x / 1024 * 512) (y / 1024 * 512) r c hts
    hhalf hX0 hY0
  unfold windowDelta
  rw [windowBuffer_eq]
  generalize ((windowInputBb half (x / 1024 * 512) (y / 1024 * 512)).top +
    ((y - 2 * (y / 1024 * 512) : Nat) : Int)).toNat = I at hI1 hR1 ⊢
  generalize ((windowInputBb half (x / 1024 * 512) (y / 1024 * 512)).left +
    ((x - 2 * (x / 1024 * 512) : Nat) : Int)).toNat = J at hJ1 hR2 ⊢
  have hupdim : (windowUpscaled half (x / 1024 * 512) (y / 1024 * 512)).height =
        (windowDilated half (x / 1024 * 512) (y / 1024 * 512)).doubleSize.height.toNat ∧
      (windowUpscaled half (x / 1024 * 512) (y / 1024 * 512)).width =
        (windowDilated half (x / 1024 * 512) (y / 1024 * 512)).doubleSize.width.toNat :=
    ⟨rfl, rfl⟩
  have hconv : (convolveGaussian5x5
      (Image.alloc (windowDilated half (x / 1024 * 512) (y / 1024 * 512)).doubleSize.width.toNat
        (windowDilated half (x / 1024 * 512) (y / 1024 * 512)).doubleSize.height.toNat)
      (windowUpscaled half (x / 1024 * 512) (y / 1024 * 512)) false).data I J = 0 := by
    rw [convolve_congr _ (windowUpscaled half (x / 1024 * 512) (y / 1024 * 512))
      (Image.alloc 1 1) (⟨1, 1, fun _ _ => 0⟩ : Image RGBfColor) false false I J 0 0]
    · exact convolve_zero _ _ false (fun _ _ => rfl) 0 0
    · intro da db h1 h2 h3 h4
      simp only [Bool.false_eq_true, if_false]
      rw [hupdim.1, hupdim.2]
      have q1 := clampIndex_spec
        (windowDilated half (x / 1024 * 512) (y / 1024 * 512)).doubleSize.height.toNat
        ((I : Int) + da) hP1
      have q2 := clampIndex_spec
        (windowDilated half (x / 1024 * 512) (y / 1024 * 512)).doubleSize.width.toNat
        ((J : Int) + db) hP2
      generalize clampIndex
        (windowDilated half (x / 1024 * 512) (y / 1024 * 512)).doubleSize.height.toNat
        ((I : Int) + da) = rR at q1 ⊢
      generalize clampIndex
        (windowDilated half (x / 1024 * 512) (y / 1024 * 512)).doubleSize.width.toNat
        ((J : Int) + db) = cR at q2 ⊢
      obtain ⟨r1, r2⟩ := row_tap_reach y half.height I rR _ _ _ _ da hy c4 d2 d4 hI1 h1 h2 hN1 q1
      obtain ⟨k1, k2⟩ := col_tap_reach x half.width J cR _ _ _ _ db hx c3 d1 d3 hJ1 h3 h4 hN2 q2
      rw [hup rR cR r1 k1]
      by_cases hpar : rR % 2 = 0 ∧ cR % 2 = 0
      · rw [if_pos hpar]
        obtain ⟨r3, r4, r5, r6⟩ := r2 hpar.1
        rcases k2 hpar.2 with ⟨k3, k4, k5, k6⟩ | ⟨k3, k4⟩
        · rw [wrapIndex_of_nonneg_lt half.width _ k3 k4]
          apply hz
          exact ⟨by omega, by omega, by omega, by omega, Or.inl ⟨by omega, by omega⟩⟩
        · rw [k3, wrapIndex_add_width, wrapIndex_zero]
          apply hz
          exact ⟨by omega, by omega, by omega, by omega, Or.inr ⟨rfl, by omega⟩⟩
      · rw [if_neg hpar]
  simp only [timesFour]
  rw [hconv]
  simp only [RGBfColor.smul_zero_color, ite_self]

/-- The top of a rebuilt stack is zero at a pixel without weight within reach, when every
normalised level has the size of its weights and is zero where they are below `1e-6`. -/
theorem rebuiltStack_unweighted (ts : Nat) (hts : 0 < ts) :
    ∀ (N : List (CachedImage RGBfColor)) (ws : List (CachedImage ℚ)),
      N.length = ws.length → stackOk ts N →
      (∀ (l : Nat) (n : CachedImage RGBfColor) (w : CachedImage ℚ), N[l]? = some n →
        ws[l]? = some w → n.width = w.width ∧ n.height = w.height ∧
          ∀ y x, y < n.height → x < n.width → w.getPixel y x 0 < eps →
            n.getPixel y x default = 0) →
      ∀ (top : CachedImage RGBfColor) (rest : List (CachedImage RGBfColor)),
        rebuiltStack N = top :: rest →
        ∀ y x, y < top.height → x < top.width → unweighted ws y x = true →
          top.getPixel y x default = 0 := by
  intro N
  induction N with
  | nil =>
    intro ws _ _ _ top rest h
    simp [rebuiltStack] at h
  | cons n N ih =>
    intro ws hlen hok hR top rest hstack y x hy hx hu
    cases ws with
    | nil => simp at hlen
    | cons w ws =>
      obtain ⟨_, _, hn3⟩ := hR 0 n w List.getElem?_cons_zero List.getElem?_cons_zero
      obtain ⟨hg, hdim, hokN⟩ := hok
      cases N with
      | nil =>
        cases ws with
        | cons _ _ => simp at hlen
        | nil =>
          rw [rebuiltStack_cons_nil n [] rfl] at hstack
          simp only [List.cons.injEq] at hstack
          obtain ⟨htop, _⟩ := hstack
          subst htop
          have hs := removeNegativeValues_shape n
          have hy1 : y < n.height := by rw [← CachedImage.shape_height _ _ hs]; exact hy
          have hx1 : x < n.width := by rw [← CachedImage.shape_width _ _ hs]; exact hx
          simp only [unweighted, decide_eq_true_eq] at hu
          show (clamped n).getPixel y x default = 0
          rw [clamped_getPixel_fullGrid n ts y x default hts hg hy1 hx1, hn3 y x hy1 hx1 hu,
            clampNegative_zero]
      | cons n1 N1 =>
        cases ws with
        | nil => simp at hlen
        | cons w1 ws1 =>
          obtain ⟨half, r, hhalf, hshape⟩ := rebuiltStack_head n1 N1
          rw [rebuiltStack_cons_cons n half (n1 :: N1) r hhalf] at hstack
          simp only [List.cons.injEq] at hstack
          obtain ⟨htop, _⟩ := hstack
          subst htop
          obtain ⟨m1, m2, _⟩ := hR 1 n1 w1 (by simp) (by simp)
          have hd := hdim n1 rfl
          have hhw : half.width = n1.width := CachedImage.shape_width n1 half hshape
          have hhh : half.height = n1.height := CachedImage.shape_height n1 half hshape
          have hws := windowedAll_shape half n
          have hs := (removeNegativeValues_shape (windowedAll half n)).trans hws
          have hy1 : y < n.height := by rw [← CachedImage.shape_height _ _ hs]; exact hy
          have hx1 : x < n.width := by rw [← CachedImage.shape_width _ _ hs]; exact hx
          show (clamped (windowedAll half n)).getPixel y x default = 0
          rw [clamped_getPixel_fullGrid _ ts y x default hts
              (CachedImage.fullGrid_congr n _ ts ts hws hg)
              (by rw [CachedImage.shape_height _ _ hws]; exact hy1)
              (by rw [CachedImage.shape_width _ _ hws]; exact hx1),
            windowedAll_getPixel half n ts y x default hts hg (by omega) hy1 hx1]
          simp only [unweighted, Bool.and_eq_true, decide_eq_true_eq, List.all_eq_true,
            List.mem_range, Bool.or_eq_true, Bool.not_eq_true', decide_eq_false_iff_not] at hu
          obtain ⟨hu1, hu2⟩ := hu
          rw [hn3 y x hy1 hx1 hu1]
          have hdelta : (if x < 2 * half.width ∧ y < 2 * half.height then
              windowDelta half (x / 1024 * 512) (y / 1024 * 512) (y - 2 * (y / 1024 * 512))
                (x - 2 * (x / 1024 * 512))
              else 0) = 0 := by
            split_ifs with hc
            · apply windowDelta_of_unreached half ts y x hts
                (CachedImage.fullGrid_congr n1 half ts ts hshape hokN.1) hc.2 hc.1
              intro r0 c0 hreach
              apply ih (w1 :: ws1) (by simpa using hlen) hokN
                (fun l a b ha hb => hR (l + 1) a b (by simpa using ha) (by simpa using hb))
                half r hhalf r0 c0 hreach.1 hreach.2.1
              rw [hhw, hhh, m1, m2] at hreach
              rcases hu2 r0 hreach.1 c0 hreach.2.1 with h | h
              · exact absurd hreach h
              · exact h
            · rfl
          rw [hdelta, add_zero, clampNegative_zero]

theorem rebuild_levels (p : LaplacianPyramid) (output : CachedImage RGBAfColor) :
    (p.rebuild output).2.1.levels = p.collapse.2 := by
  unfold LaplacianPyramid.rebuild
  simp only
  split_ifs
  · rfl
  · split <;> rfl

/-- The pixel of the top of a rebuilt stack where the normalised top level is zero: the
clamped share of the windows of the level below. -/
theorem rebuiltStack_top_pixel (ts : Nat) (hts : 0 < ts) (n : CachedImage RGBfColor)
    (N : List (CachedImage RGBfColor)) (hok : stackOk ts (n :: N))
    (top : CachedImage RGBfColor) (rest : List (CachedImage RGBfColor))
    (hstack : rebuiltStack (n :: N) = top :: rest) (y x : Nat) (hy : y < n.height)
    (hx : x < n.width) (hz : n.getPixel y x default = 0) :
    (rest = [] → top.getPixel y x default = 0) ∧
    (∀ half, rest[0]? = some half →
      top.getPixel y x default = clampNegative (windowsDelta half y x)) := by
  obtain ⟨hg, hdim, hokN⟩ := hok
  cases hN : rebuiltStack N with
  | nil =>
    rw [rebuiltStack_cons_nil n N hN] at hstack
    simp only [List.cons.injEq] at hstack
    obtain ⟨htop, hrest⟩ := hstack
    subst htop
    subst hrest
    refine ⟨fun _ => ?_, fun half h => by simp at h⟩
    show (clamped n).getPixel y x default = 0
    rw [clamped_getPixel_fullGrid n ts y x default hts hg hy hx, hz, clampNegative_zero]
  | cons half r =>
    rw [rebuiltStack_cons_cons n half N r hN] at hstack
    simp only [List.cons.injEq] at hstack
    obtain ⟨htop, hrest⟩ := hstack
    subst htop
    subst hrest
    refine ⟨fun h => by simp at h, fun half1 h => ?_⟩
    simp only [List.getElem?_cons_zero, Option.some.injEq] at h
    subst h
    cases N with
    | nil => simp [rebuiltStack] at hN
    | cons n1 N1 =>
      obtain ⟨half0, r0, hh0, hshape⟩ := rebuiltStack_head n1 N1
      rw [hN] at hh0
      simp only [List.cons.injEq] at hh0
      obtain ⟨hh1, _⟩ := hh0
      subst hh1
      have hd := hdim n1 rfl
      have hhw : half.width = n1.width := CachedImage.shape_width n1 half hshape
      have hws := windowedAll_shape half n
      show (clamped (windowedAll half n)).getPixel y x default = _
      rw [clamped_getPixel_fullGrid _ ts y x default hts
          (CachedImage.fullGrid_congr n _ ts ts hws hg)
          (by rw [CachedImage.shape_height _ _ hws]; exact hy)
          (by rw [CachedImage.shape_width _ _ hws]; exact hx),
        windowedAll_getPixel half n ts y x default hts hg (by omega) hy hx, hz, zero_add]
      rfl

/-- C6, amended: on a well-formed pyramid with `L >= 1` levels, whatever views were applied,
`rebuild` returns `true` and writes every pixel of the finest level whose accumulated
weight is zero with alpha `1`; the accumulated colour of the pixel itself is dropped, and
its RGB is what the coarser levels give it: with `L >= 2` the clamped share of the windows
of the rebuilt level `1`, and `(0, 0, 0)` when `L = 1` and whenever no pixel of a coarser
level within reach of it has an accumulated weight of `1e-6` or more. -/
theorem rebuild_unweighted_pixel (p : LaplacianPyramid) (ts W H : Nat)
    (output : CachedImage RGBAfColor) (hts : 0 < ts) (hL : 1 ≤ p.levels.length)
    (hp : p.wellFormed ts W H) (hout : output.fullGrid ts ts) (how : output.width = W)
    (hoh : output.height = H) (y x : Nat) (hy : y < H) (hx : x < W)
    (hzero : ∀ w0 : CachedImage ℚ, p.weights[0]? = some w0 → w0.getPixel y x 0 = 0)
    (d : RGBAfColor) :
    (p.rebuild output).1 = true ∧
    ((p.rebuild output).2.2.getPixel y x d).a = 1 ∧
    (∀ half : CachedImage RGBfColor, (p.rebuild output).2.1.levels[1]? = some half →
      (p.rebuild output).2.2.getPixel y x d =
        ⟨(clampNegative (windowsDelta half y x)).r, (clampNegative (windowsDelta half y x)).g,
          (clampNegative (windowsDelta half y x)).b, 1⟩) ∧
    (p.levels.length = 1 → (p.rebuild output).2.2.getPixel y x d = ⟨0, 0, 0, 1⟩) ∧
    (unweighted p.weights y x = true →
      (p.rebuild output).2.2.getPixel y x d = ⟨0, 0, 0, 1⟩) := by
  have h0 : 0 < p.levels.length := by omega
  have hc0 : p.levels[0]? = some p.levels[0] := List.getElem?_eq_getElem h0
  obtain ⟨w0, hw0, k1, k2, k3, a1, a2, a3⟩ := wellFormed_weight p _ W H 0 _ hp hc0
  simp only [pow_zero, Nat.div_one] at a2 a3
  have hn0 := normalize_at p 0 _ w0 hc0 hw0
  have hne : p.normalizeLevels ≠ [] := by
    intro hnil
    rw [hnil] at hn0
    simp at hn0
  have hsok := normalize_stackOk p ts W H hp
  have hcol := collapse_eq p ts hts hsok hne
  obtain ⟨m1, m2, m3⟩ := normalize_layout p ts W H hp 0 _ hn0
  simp only [pow_zero, Nat.div_one] at m2 m3
  have hlenN : p.normalizeLevels.length = p.weights.length := by
    unfold LaplacianPyramid.normalizeLevels
    rw [List.length_mapIdx, hp.1]
  have hRel : ∀ (l : Nat) (n : CachedImage RGBfColor) (w : CachedImage ℚ),
      p.normalizeLevels[l]? = some n → p.weights[l]? = some w →
      n.width = w.width ∧ n.height = w.height ∧
        ∀ y x, y < n.height → x < n.width → w.getPixel y x 0 < eps →
          n.getPixel y x default = 0 := by
    intro l n w hn hw
    obtain ⟨c, hc, hs⟩ := sameShapes_get _ _ (normalizeLevels_sameShapes p) l n hn
    obtain ⟨w1, g1, _, g3, g4, _, _, _⟩ := wellFormed_weight p ts W H l c hp hc
    rw [hw] at g1
    have hw1 : w = w1 := Option.some.inj g1
    subst hw1
    have e1 : n.width = c.width := CachedImage.shape_width c n hs
    have e2 : n.height = c.height := CachedImage.shape_height c n hs
    refine ⟨e1.trans g3.symm, e2.trans g4.symm, ?_⟩
    intro y x hy hx hlt
    obtain ⟨n1, q1, q2⟩ := normalize_getPixel p ts W H l hts hp c w hc hw y x (e2 ▸ hy)
      (e1 ▸ hx) default 0
    rw [hn] at q1
    have hn1 : n = n1 := Option.some.inj q1
    subst hn1
    rw [q2]
    exact normalizePixel_of_lt _ _ hlt
  have hz0 := hzero w0 hw0
  have hzn := (hRel 0 _ w0 hn0 hw0).2.2 y x (m3 ▸ hy) (m2 ▸ hx) (by rw [hz0]; exact eps_pos)
  cases hN : p.normalizeLevels with
  | nil => exact absurd hN hne
  | cons n N =>
    rw [hN] at hn0 hsok hcol hlenN hRel
    simp only [List.getElem?_cons_zero, Option.some.injEq] at hn0
    rw [← hn0] at m1 m2 m3 hzn
    obtain ⟨top, rest, hstack, hshape⟩ := rebuiltStack_head n N
    rw [hstack] at hcol
    have hlev0 : p.collapse.2[0]? = some top := by
      rw [hcol]
      exact List.getElem?_cons_zero
    have e1 : top.width = n.width := CachedImage.shape_width n top hshape
    have e2 : top.height = n.height := CachedImage.shape_height n top hshape
    have hok : (p.rebuild output).1 = true :=
      rebuild_ok p output ts top w0 (by rw [hcol]) hlev0 hw0
        (CachedImage.fullGrid_congr n top ts ts hshape m1) k1 hout
        (e1.trans (m2.trans how.symm)) (e2.trans (m3.trans hoh.symm))
        (k2.trans (a2.trans how.symm)) (k3.trans (a3.trans hoh.symm))
    have hpix := rebuild_pixel p output ts top w0 hts hok hlev0 hw0 hout
      ((CachedImage.shape_tileSize n top hshape).trans m1.1) y x (hoh ▸ hy) (how ▸ hx) d default
    obtain ⟨_, t2⟩ := rebuiltStack_top_pixel ts hts n N hsok top rest hstack y x (m3 ▸ hy)
      (m2 ▸ hx) hzn
    have h5 : unweighted p.weights y x = true →
        (p.rebuild output).2.2.getPixel y x d = ⟨0, 0, 0, 1⟩ := by
      intro hu
      rw [hpix, rebuiltStack_unweighted ts hts (n :: N) p.weights hlenN hsok hRel top rest
        hstack y x (by rw [e2, m3]; exact hy) (by rw [e1, m2]; exact hx) hu]
      rfl
    refine ⟨hok, by rw [hpix], ?_, ?_, h5⟩
    · intro half hhalf
      rw [rebuild_levels, hcol] at hhalf
      simp only [List.getElem?_cons_succ] at hhalf
      rw [hpix, t2 half hhalf]
    · intro hlen1
      apply h5
      obtain ⟨a, ha⟩ := List.length_eq_one.mp (hp.1.trans hlen1)
      have hza := hzero a (by rw [ha]; rfl)
      rw [ha]
      simp only [unweighted, decide_eq_true_eq]
      rw [hza]
      exact eps_pos

/-- C6, amended (witness): on the panorama of 8 by 2 pixels with two levels after a view
of 2 by 2 pixels at `(0, 0)`, pixel `(0, 4)` has no accumulated weight and no weight within
reach, and `rebuild` writes `(0, 0, 0, 1)` there. -/
theorem rebuild_unweighted_pixel_witness :
    farPyramid.levels.length = 2 ∧
    (farPyramid.weights[0]?).map (fun w => w.getPixel 0 4 0) = some 0 ∧
    unweighted farPyramid.weights 0 4 = true ∧
    (farPyramid.rebuild farOutput).1 = true ∧
    (farPyramid.rebuild farOutput).2.2.getPixel 0 4 ⟨7, 7, 7, 7⟩ = ⟨0, 0, 0, 1⟩ := by
  have hw : (farPyramid.weights[0]?).map (fun w => w.getPixel 0 4 0) = some 0 := by decide!
  have hu : unweighted farPyramid.weights 0 4 = true := by decide!
  have hp : farPyramid.wellFormed 2 8 2 :=
    apply_wellFormed _ 2 8 2
      (initialize_layout 8 2 2 (plainManager 2) (fun _ => ⟨7, 7, 7⟩) (fun _ => 7)
        (fun _ => rfl) rfl (by decide)).1 smallView smallMask smallWeights 0 0
  have hlen : farPyramid.levels.length = 2 := by decide!
  have hgrid := createImage_neverFails (plainManager 2) (fun _ => (⟨7, 7, 7, 7⟩ : RGBAfColor))
    8 2 (fun _ => rfl)
  have h := rebuild_unweighted_pixel farPyramid 2 8 2 farOutput (by decide)
    (by rw [hlen]; decide) hp hgrid.2.2.2.1 hgrid.2.1 hgrid.2.2.1 0 4 (by decide) (by decide)
    (fun w0 hw0 => by
      rw [hw0] at hw
      simpa using hw)
    ⟨7, 7, 7, 7⟩
  exact ⟨hlen, hw, hu, h.1, h.2.2.2.2 hu⟩


end AliceVision
